import Mathlib

/-!
Graph sampling and induced subgraphs over CSR graphs.

A shallow embedding of `src/operator/contrib/dgl_graph.cc`.

Conventions of the embedding.

* `dgl_id_t` (`int64_t`) is `Int`; sizes and positions (`size_t`) are `Nat`.
* A dense buffer is a `List`; `arr[i]` is `rd arr i`.  Reading outside a buffer is
  undefined behaviour in the source; the model reads `0` there and drops a write
  outside a buffer, except for the write `indptr_out[i+1]` of the loop that fills the
  sub-CSR, which ends the computation with `Failure.undefined`.
* A `std::unordered_map` is an association list in insertion order; every
  iteration over such a map in the source is followed by a sort of the result.
* `rand_r` is a finite list of draws consumed from the front; a computation that
  needs a draw when the list is empty ends with `Failure.draws_exhausted`.
* A failed `CHECK` ends the computation with `Failure.check_failed`.
* `float` weights are exact rationals in `ArrayHeap` and in the samplers built on it;
  `F32.ArrayHeap` is the same class with the binary32 arithmetic of the source.
-/

set_option autoImplicit false

namespace DGL

/-- Vertex and edge identifiers, `typedef int64_t dgl_id_t`. -/
abbrev dgl_id_t := Int

/-- Ways in which a modelled call ends without a result: a failed `CHECK`, the draws used up,
the fuel of a loop used up, or an operation the source leaves undefined (`back()` of an empty
vector, dereferencing the end iterator of a map, a write past the end of the row-pointer
buffer). -/
inductive Failure where
  | check_failed
  | draws_exhausted
  | out_of_fuel
  | undefined
  deriving DecidableEq, Repr

/-- Result of a modelled call. -/
inductive Res (α : Type) where
  | ok (a : α)
  | fail (e : Failure)
  deriving DecidableEq, Repr

/-- Read `arr[i]` with an `int64_t` index. -/
def rd (arr : List Int) (i : Int) : Int := if i < 0 then 0 else arr.getD i.toNat 0

/-- Write `arr[i] = v` with an `int64_t` index. -/
def wr (arr : List Int) (i : Int) (v : Int) : List Int :=
  if i < 0 then arr else arr.set i.toNat v

/-- A CSR array: `shape0` rows, `data` (edge ids), `indices` (column ids), `indptr`. -/
structure CSR where
  shape0 : Int
  data : List Int
  indices : List Int
  indptr : List Int
  deriving DecidableEq, Repr

/-- The positions `indptr[v], ..., indptr[v + 1] - 1` of the entries of row `v`. -/
def CSR.row_range (g : CSR) (v : Int) : List Nat :=
  List.range' (rd g.indptr v).toNat ((rd g.indptr (v + 1) - rd g.indptr v).toNat)

/-- The column ids of row `v`, in stored order. -/
def CSR.row_cols (g : CSR) (v : Int) : List Int :=
  (g.row_range v).map (fun i => g.indices.getD i 0)

/-- The values (edge ids) of row `v`, in stored order. -/
def CSR.row_vals (g : CSR) (v : Int) : List Int :=
  (g.row_range v).map (fun i => g.data.getD i 0)

/-! ## Induced subgraph -/

namespace Bitmap

/-- `const size_t size = 1024 * 1024 * 4`. -/
def size : Nat := 1024 * 1024 * 4

/-- `const size_t mask = size - 1`. -/
def mask : Nat := size - 1

/-- `hash(id) = id & mask`, the id converted to `size_t` first. -/
def hash (id : Int) : Nat := (id % 2 ^ 64).toNat &&& mask

end Bitmap

/-- The bit vector `std::vector<bool> map(size)`, as the function from a position to its bit. -/
structure Bitmap where
  map : Nat → Bool

/-- Constructor `Bitmap(vid_data, len)`: sets the bit of every id. -/
def Bitmap.mk_from (vid_data : List Int) : Bitmap :=
  vid_data.foldl (fun b id => ⟨Function.update b.map (Bitmap.hash id) true⟩) ⟨fun _ => false⟩

/-- `Bitmap::test`. -/
def Bitmap.test (b : Bitmap) (id : Int) : Bool := b.map (Bitmap.hash id)

/-- `m[k] = v` on an association list: overwrite the entry of `k`, or append one. -/
def umap_assign {β : Type} : List (Int × β) → Int → β → List (Int × β)
  | [], k, v => [(k, v)]
  | (k', v') :: m, k, v => if k' = k then (k', v) :: m else (k', v') :: umap_assign m k v

/-- `m.find(k)`: the value stored under `k`, if any. -/
def umap_find {β : Type} : List (Int × β) → Int → Option β
  | [], _ => none
  | (k', v') :: m, k => if k' = k then some v' else umap_find m k

/-- The class `HashTableChecker`: the exact map and the bitmap prefilter. -/
structure HashTableChecker where
  oldv2newv : List (Int × Int)
  map : Bitmap

/-- The loop `oldv2newv[vid_data[i]] = i` of the constructor, from position `i` on. -/
def HashTableChecker.fill : List Int → Nat → List (Int × Int) → List (Int × Int)
  | [], _, m => m
  | v :: vs, i, m => HashTableChecker.fill vs (i + 1) (umap_assign m v (i : Int))

/-- Constructor `HashTableChecker(vid_data, len)`. -/
def HashTableChecker.mk_from (vid_data : List Int) : HashTableChecker :=
  { oldv2newv := HashTableChecker.fill vid_data 0 [], map := Bitmap.mk_from vid_data }

/-- `HashTableChecker::Collect`; `orig_eids = none` is the null pointer. -/
def HashTableChecker.Collect (c : HashTableChecker) (old_id old_eid : Int)
    (col_idx : List Int) (orig_eids : Option (List Int)) : List Int × Option (List Int) :=
  if !c.map.test old_id then (col_idx, orig_eids)
  else
    match umap_find c.oldv2newv old_id with
    | some new_id => (col_idx ++ [new_id], orig_eids.map (fun l => l ++ [old_eid]))
    | none => (col_idx, orig_eids)

/-- `HashTableChecker::CollectOnRow` over the entries of one row. -/
def HashTableChecker.CollectOnRow (c : HashTableChecker) :
    List Int → List Int → List Int → Option (List Int) → List Int × Option (List Int)
  | oldsucc :: cs, eid :: es, new_col_idx, orig_eids =>
    let r := c.Collect oldsucc eid new_col_idx orig_eids
    HashTableChecker.CollectOnRow c cs es r.1 r.2
  | _, _, new_col_idx, orig_eids => (new_col_idx, orig_eids)

/-- The local ids that one row contributes. -/
def row_new_ids (V : List Int) (cols es : List Int) : List Int :=
  (List.zip cols es).filterMap (fun p => umap_find (HashTableChecker.mk_from V).oldv2newv p.1)

/-- The original edge ids that one row contributes. -/
def row_old_eids (V : List Int) (cols es : List Int) : List Int :=
  (List.zip cols es).filterMap
    (fun p => (umap_find (HashTableChecker.mk_from V).oldv2newv p.1).map (fun _ => p.2))

/-- `std::is_sorted`: non-decreasing. -/
def is_sorted : List Int → Bool
  | a :: b :: l => decide (a ≤ b) && is_sorted (b :: l)
  | _ => true

/-- The state of the row loop of `GetSubgraph`. -/
structure SubgraphAcc where
  row_idx : List Int
  col_idx : List Int
  orig_eids : Option (List Int)

/-- The loop over the vertex array in `GetSubgraph`, from position `i` on. -/
def GetSubgraph.loop (csr_arr : CSR) (def_check : HashTableChecker) :
    List Int → Nat → SubgraphAcc → Res SubgraphAcc
  | [], _, acc => .ok acc
  | oldvid :: rest, i, acc =>
    if ¬ (oldvid < csr_arr.shape0) then .fail .check_failed
    else
      let r := def_check.CollectOnRow (csr_arr.row_cols oldvid) (csr_arr.row_vals oldvid)
        acc.col_idx acc.orig_eids
      GetSubgraph.loop csr_arr def_check rest (i + 1)
        { row_idx := acc.row_idx.set (i + 1) (r.1.length : Int), col_idx := r.1, orig_eids := r.2 }

/-- The function `GetSubgraph`: the first component is `sub_csr`, the second is `old_eids`
(present when the mapping is requested). -/
def GetSubgraph (csr_arr : CSR) (varr : List Int) (return_mapping : Bool) :
    Res (CSR × Option CSR) :=
  let len := varr.length
  let def_check := HashTableChecker.mk_from varr
  if ¬ is_sorted varr then .fail .check_failed
  else
    match GetSubgraph.loop csr_arr def_check varr 0
        { row_idx := List.replicate (len + 1) 0, col_idx := [],
          orig_eids := if return_mapping then some [] else none } with
    | .fail e => .fail e
    | .ok acc =>
      let nz := acc.col_idx.length
      let sub_csr : CSR :=
        { shape0 := len, data := (List.range nz).map Int.ofNat,
          indices := acc.col_idx, indptr := acc.row_idx }
      let old_eids : Option CSR :=
        if return_mapping then
          some { shape0 := len, data := acc.orig_eids.getD [],
                 indices := acc.col_idx, indptr := acc.row_idx }
        else none
      .ok (sub_csr, old_eids)

/-- The 4x4 example graph of the operator documentation. -/
def example_graph : CSR :=
  { shape0 := 4, data := [1, 2, 3, 4, 5, 6, 7], indices := [0, 3, 0, 2, 1, 1, 2],
    indptr := [0, 2, 4, 5, 7] }


/-- The first output for `example_graph` and `v = [0, 1, 2]` (new edge ids `0..3`). -/
def example_sub : CSR :=
  { shape0 := 3, data := [0, 1, 2, 3], indices := [0, 0, 2, 1], indptr := [0, 1, 3, 4] }

/-- The second output for `example_graph` and `v = [0, 1, 2]` (original edge ids). -/
def example_old : CSR :=
  { shape0 := 3, data := [1, 3, 4, 5], indices := [0, 0, 2, 1], indptr := [0, 1, 3, 4] }

/-- The first matrix of the documented example of `_contrib_dgl_subgraph`,
`[[1, 0, 0], [2, 0, 3], [0, 4, 0]]`, as a CSR: new edge ids `1..4`. -/
def doc_first_matrix : CSR :=
  { shape0 := 3, data := [1, 2, 3, 4], indices := [0, 0, 2, 1], indptr := [0, 1, 3, 4] }

/-! ## Uniform sampling -/

/-- `std::unordered_set<size_t>::insert` on a duplicate-free list. -/
def uset_insert (s : List Nat) (x : Nat) : List Nat := if x ∈ s then s else s ++ [x]

/-- The rejection loop of `RandomSample`: `sampled_idxs` and the remaining draws. -/
def RandomSample.loop (set_size num : Nat) : List Nat → List Nat → Res (List Nat × List Nat)
  | sampled_idxs, [] =>
    if sampled_idxs.length < num then .fail .draws_exhausted else .ok (sampled_idxs, [])
  | sampled_idxs, d :: ds =>
    if sampled_idxs.length < num then
      RandomSample.loop set_size num (uset_insert sampled_idxs (d % set_size)) ds
    else .ok (sampled_idxs, d :: ds)

/-- The function `RandomSample`: the elements of the set (in insertion order) and the draws
left. -/
def RandomSample (set_size num : Nat) (draws : List Nat) : Res (List Nat × List Nat) :=
  RandomSample.loop set_size num [] draws

/-- The two loops of `NegateSet`, `steps` iterations from position `i` with iterator `it`. -/
def NegateSet.loop : Nat → Nat → List Nat → List Nat → List Nat
  | 0, _, _, out => out
  | steps + 1, i, [], out => NegateSet.loop steps (i + 1) [] (out ++ [i])
  | steps + 1, i, x :: it, out =>
    if x = i then NegateSet.loop steps (i + 1) it out
    else NegateSet.loop steps (i + 1) (x :: it) (out ++ [i])

/-- The function `NegateSet`. -/
def NegateSet (idxs : List Nat) (set_size : Nat) (out : List Nat) : Res (List Nat) :=
  match idxs.getLast? with
  | none => .fail .undefined
  | some back =>
    if set_size > back then .ok (NegateSet.loop set_size 0 idxs out) else .fail .check_failed

/-- `std::sort` on positions. -/
def sort_idxs (l : List Nat) : List Nat := l.insertionSort (· ≤ ·)

/-- `std::sort` on ids. -/
def sort_ids (l : List Int) : List Int := l.insertionSort (· ≤ ·)

/-- The loop `CHECK_GT(sorted_idxs[i], sorted_idxs[i - 1])`. -/
def strictly_increasing : List Nat → Bool
  | a :: b :: l => decide (b > a) && strictly_increasing (b :: l)
  | _ => true

/-- The block of `GetUniformSample` that computes `sorted_idxs` for a list of `n` neighbors. -/
def GetUniformSample.sorted_idxs (n max_num_neighbor : Nat) (draws : List Nat) :
    Res (List Nat × List Nat) :=
  if n > max_num_neighbor * 2 then
    match RandomSample n max_num_neighbor draws with
    | .fail e => .fail e
    | .ok (idxs, draws') => .ok (sort_idxs idxs, draws')
  else
    match RandomSample n (n - max_num_neighbor) draws with
    | .fail e => .fail e
    | .ok (negate, draws') =>
      match NegateSet (sort_idxs negate) n [] with
      | .fail e => .fail e
      | .ok idxs => .ok (idxs, draws')

/-- The function `GetUniformSample`, called with empty `out_ver` and `out_edge`: the sampled
neighbors, their edges and the draws left. -/
def GetUniformSample (ver_list edge_list : List Int) (max_num_neighbor : Nat)
    (draws : List Nat) : Res (List Int × List Int × List Nat) :=
  if ver_list.length ≠ edge_list.length then .fail .check_failed
  else if ver_list.length ≤ max_num_neighbor then .ok (ver_list, edge_list, draws)
  else
    match GetUniformSample.sorted_idxs ver_list.length max_num_neighbor draws with
    | .fail e => .fail e
    | .ok (sorted_idxs, draws') =>
      if sorted_idxs.length ≠ max_num_neighbor then .fail .check_failed
      else if ¬ strictly_increasing sorted_idxs then .fail .check_failed
      else .ok (sorted_idxs.map (fun idx => ver_list.getD idx 0),
                sorted_idxs.map (fun idx => edge_list.getD idx 0), draws')

/-! ## Weighted sampling: `ArrayHeap` -/

/-- Search of `ceil(log2(n))` upwards from `b`. -/
def ceil_log2.go (n : Nat) : Nat → Nat → Nat
  | 0, b => b
  | fuel + 1, b => if n ≤ 2 ^ b then b else ceil_log2.go n fuel (b + 1)

/-- `ceil(log2(n))` for `n ≥ 1`: the least `b` with `n ≤ 2 ^ b`. -/
def ceil_log2 (n : Nat) : Nat := ceil_log2.go n n 0

/-- The class `ArrayHeap`, with the weights and the sums of the tree taken as exact numbers:
`heap_` holds rationals where the source holds `float`. The class with the arithmetic of
`float` is `F32.ArrayHeap`. -/
structure ArrayHeap where
  vec_size_ : Nat
  bit_len_ : Nat
  limit_ : Nat
  heap_ : List ℚ

/-- The loop `heap_[i] = prob[i - limit_]` over the leaves. -/
def ArrayHeap.fill_leaves (prob : List ℚ) (limit : Nat) (heap : List ℚ) : List ℚ :=
  (List.range' limit prob.length).foldl (fun h i => h.set i (prob.getD (i - limit) 0)) heap

/-- The inner loop `heap_[j] = heap_[j << 1] + heap_[(j << 1) + 1]` over the nodes `js`. -/
def ArrayHeap.sum_level (js : List Nat) (heap : List ℚ) : List ℚ :=
  js.foldl (fun h j => h.set j (h.getD (2 * j) 0 + h.getD (2 * j + 1) 0)) heap

/-- The outer loop over the levels `i = bit_len_ - 1, ..., 0`. -/
def ArrayHeap.sum_up (bit_len : Nat) (heap : List ℚ) : List ℚ :=
  (List.range bit_len).reverse.foldl
    (fun h i => ArrayHeap.sum_level (List.range' (2 ^ i) (2 ^ i)) h) heap

/-- Constructor `ArrayHeap(prob)`. -/
def ArrayHeap.mk_from (prob : List ℚ) : ArrayHeap :=
  let vec_size := prob.length
  let bit_len := ceil_log2 vec_size
  let limit := 2 ^ bit_len
  { vec_size_ := vec_size, bit_len_ := bit_len, limit_ := limit,
    heap_ := ArrayHeap.sum_up bit_len
      (ArrayHeap.fill_leaves prob limit (List.replicate (2 * limit) 0)) }

/-- The loop of `Delete`: `steps` iterations of `heap_[i] -= w; i = i >> 1`. -/
def ArrayHeap.Delete.loop (w : ℚ) : Nat → List ℚ → Nat → List ℚ
  | 0, heap, _ => heap
  | steps + 1, heap, i =>
    ArrayHeap.Delete.loop w steps (heap.set i (heap.getD i 0 - w)) (i / 2)

/-- `ArrayHeap::Delete`. -/
def ArrayHeap.Delete (a : ArrayHeap) (index : Nat) : ArrayHeap :=
  let i := index + a.limit_
  let w := a.heap_.getD i 0
  { a with heap_ := ArrayHeap.Delete.loop w (a.bit_len_ + 1) a.heap_ i }

/-- The loop `while (i < limit_)` of `Sample`, at most `fuel` iterations. -/
def ArrayHeap.Sample.descend (heap : List ℚ) (limit : Nat) : Nat → ℚ → Nat → Nat
  | 0, _, i => i
  | fuel + 1, xi, i =>
    if i < limit then
      if xi ≥ heap.getD (2 * i) 0 then
        ArrayHeap.Sample.descend heap limit fuel (xi - heap.getD (2 * i) 0) (2 * i + 1)
      else ArrayHeap.Sample.descend heap limit fuel xi (2 * i)
    else i

/-- `ArrayHeap::Sample`: one draw `r` gives `xi = heap_[1] * (r % 100 / 101.0)`; the node `i`
doubles in every iteration, so `bit_len_` iterations reach `limit_`. -/
def ArrayHeap.Sample (a : ArrayHeap) (draws : List Nat) : Res (Nat × List Nat) :=
  match draws with
  | [] => .fail .draws_exhausted
  | r :: rest =>
    let xi : ℚ := a.heap_.getD 1 0 * (((r % 100 : Nat) : ℚ) / 101)
    .ok (ArrayHeap.Sample.descend a.heap_ a.limit_ a.bit_len_ xi 1 - a.limit_, rest)

/-- `ArrayHeap::SampleWithoutReplacement` for `n` samples: the samples in order (slot `i` of
`samples` receives the `i`-th), the heap afterwards and the draws left. -/
def ArrayHeap.SampleWithoutReplacement :
    Nat → ArrayHeap → List Nat → Res (List Nat × ArrayHeap × List Nat)
  | 0, a, draws => .ok ([], a, draws)
  | n + 1, a, draws =>
    match a.Sample draws with
    | .fail e => .fail e
    | .ok (s, draws') =>
      match ArrayHeap.SampleWithoutReplacement n (a.Delete s) draws' with
      | .fail e => .fail e
      | .ok (ss, a', draws'') => .ok (s :: ss, a', draws'')

/-- The number of iterations of the loop of `Delete`, started at node `i` for `steps`
iterations, that subtract from node `j`. -/
def path_count : Nat → Nat → Nat → Nat
  | 0, _, _ => 0
  | steps + 1, i, j => (if i = j then 1 else 0) + path_count steps (i / 2) j

/-- The invariant of the tree built from `prob` after the elements of `deleted` were removed:
every inner node is the sum of its children, and leaf `p` holds `prob[p]`, or zero once `p` is
removed or when `p` is past the end of `prob`. -/
structure ArrayHeap.WF (a : ArrayHeap) (prob : List ℚ) (deleted : List Nat) : Prop where
  limit_eq : a.limit_ = 2 ^ a.bit_len_
  size_le : prob.length ≤ a.limit_
  length_eq : a.heap_.length = 2 * a.limit_
  node_eq : ∀ j, 1 ≤ j → j < a.limit_ →
    a.heap_.getD j 0 = a.heap_.getD (2 * j) 0 + a.heap_.getD (2 * j + 1) 0
  leaf_eq : ∀ p, p < a.limit_ →
    a.heap_.getD (a.limit_ + p) 0 = if p ∈ deleted then 0 else prob.getD p 0

/-- The current weight of element `p` of a tree built from `prob`: `prob[p]`, and zero once `p`
is removed (or when `p` is past the end of `prob`). -/
def cur_weight (prob : List ℚ) (deleted : List Nat) (p : Nat) : ℚ :=
  if p ∈ deleted then 0 else prob.getD p 0

/-! ## Neighbor sampling -/

/-- Conversion of a `dgl_id_t` to `size_t`. -/
def to_size_t (x : Int) : Nat := (x % 2 ^ 64).toNat

/-- Read `arr[i]` of a `float` buffer with an `int64_t` index. -/
def rdq (arr : List ℚ) (i : Int) : ℚ := if i < 0 then 0 else arr.getD i.toNat 0

/-- `GetSrcList`, called with empty `src_list` and `edge_list`. -/
def GetSrcList (csr : CSR) (dst_id : Int) : List Int × List Int :=
  (csr.row_cols dst_id, csr.row_vals dst_id)

/-- The function `GetNonUniformSample`, called with empty `out_ver` and `out_edge`. -/
def GetNonUniformSample (probability : List ℚ) (ver_list edge_list : List Int)
    (max_num_neighbor : Nat) (draws : List Nat) : Res (List Int × List Int × List Nat) :=
  if ver_list.length ≠ edge_list.length then .fail .check_failed
  else if ver_list.length ≤ max_num_neighbor then .ok (ver_list, edge_list, draws)
  else
    let sp_prob := ver_list.map (fun v => rdq probability v)
    match (ArrayHeap.mk_from sp_prob).SampleWithoutReplacement max_num_neighbor draws with
    | .fail e => .fail e
    | .ok (sp_index, _, draws') =>
      .ok (sort_ids (sp_index.map (fun idx => ver_list.getD idx 0)),
           sort_ids (sp_index.map (fun idx => edge_list.getD idx 0)), draws')

/-- The struct `ver_node`. -/
structure ver_node where
  vertex_id : Int
  level : Int
  deriving DecidableEq, Repr

/-- The struct `neigh_list`. -/
structure neigh_list where
  neighs : List Int
  edges : List Int
  deriving DecidableEq, Repr

/-- `m.insert({k, v})`: no effect when `k` has an entry. -/
def umap_insert {β : Type} (m : List (Int × β)) (k : Int) (v : β) : List (Int × β) :=
  match umap_find m k with
  | some _ => m
  | none => m ++ [(k, v)]

/-- The local state of the traversal in `SampleSubgraph`; `draws` is the state of
`time_seed`. -/
structure BfsState where
  sub_vertices_count : Int
  sub_ver_mp : List (Int × Int)
  node_queue : List ver_node
  neigh_mp : List (Int × neigh_list)
  num_edges : Nat
  draws : List Nat
  deriving DecidableEq, Repr

/-- The body of the loop of `SampleSubgraph` for the front node `cur_node`; `queue` is the
queue behind it. -/
def SampleSubgraph.step (csr : CSR) (probability : Option (List ℚ))
    (num_hops num_neighbor : Int) (cur_node : ver_node) (queue : List ver_node)
    (st : BfsState) : Res BfsState :=
  let dst_id := cur_node.vertex_id
  if cur_node.level < num_hops then
    match umap_find st.sub_ver_mp dst_id with
    | some _ => .ok { st with node_queue := queue }
    | none =>
      let tmp := GetSrcList csr dst_id
      let sampled :=
        match probability with
        | none => GetUniformSample tmp.1 tmp.2 (to_size_t num_neighbor) st.draws
        | some p => GetNonUniformSample p tmp.1 tmp.2 (to_size_t num_neighbor) st.draws
      match sampled with
      | .fail e => .fail e
      | .ok (tmp_sampled_src_list, tmp_sampled_edge_list, draws') =>
        let sub_ver_mp := umap_assign st.sub_ver_mp cur_node.vertex_id cur_node.level
        let pushed := (tmp_sampled_src_list.filter
          (fun v => (umap_find sub_ver_mp v).isNone)).map
          (fun v => ({ vertex_id := v, level := cur_node.level + 1 } : ver_node))
        .ok { sub_vertices_count := st.sub_vertices_count + 1,
              sub_ver_mp := sub_ver_mp,
              node_queue := queue ++ pushed,
              neigh_mp := umap_insert st.neigh_mp dst_id
                { neighs := tmp_sampled_src_list, edges := tmp_sampled_edge_list },
              num_edges := st.num_edges + tmp_sampled_src_list.length,
              draws := draws' }
  else
    match umap_find st.sub_ver_mp dst_id with
    | some _ => .ok { st with node_queue := queue }
    | none =>
      .ok { st with
            sub_vertices_count := st.sub_vertices_count + 1,
            sub_ver_mp := umap_assign st.sub_ver_mp cur_node.vertex_id cur_node.level,
            node_queue := queue,
            neigh_mp := umap_insert st.neigh_mp dst_id { neighs := [], edges := [] } }

/-- The loop `while (!node_queue.empty() && sub_vertices_count <= max_num_vertices)` of
`SampleSubgraph`, at most `fuel` iterations. -/
def SampleSubgraph.loop (csr : CSR) (probability : Option (List ℚ))
    (num_hops num_neighbor max_num_vertices : Int) : Nat → BfsState → Res BfsState
  | 0, st =>
    match st.node_queue with
    | [] => .ok st
    | _ :: _ =>
      if st.sub_vertices_count ≤ max_num_vertices then .fail .out_of_fuel else .ok st
  | fuel + 1, st =>
    match st.node_queue with
    | [] => .ok st
    | cur_node :: queue =>
      if ¬ (st.sub_vertices_count ≤ max_num_vertices) then .ok st
      else
        match SampleSubgraph.step csr probability num_hops num_neighbor cur_node queue st with
        | .fail e => .fail e
        | .ok st' =>
          SampleSubgraph.loop csr probability num_hops num_neighbor max_num_vertices fuel st'

/-- The state before the loop: the seeds queued at level 0. -/
def SampleSubgraph.init (seed : List Int) (draws : List Nat) : BfsState :=
  { sub_vertices_count := 0, sub_ver_mp := [],
    node_queue := seed.map (fun v => ({ vertex_id := v, level := 0 } : ver_node)),
    neigh_mp := [], num_edges := 0, draws := draws }

/-- A number of iterations the loop cannot exceed: every iteration pops one node, the seeds
are queued once, and each of the at most `max_num_vertices + 1` iterations that add a vertex
queues at most `num_neighbor` nodes. -/
def SampleSubgraph.fuel (seed : List Int) (num_neighbor max_num_vertices : Int) : Nat :=
  seed.length + (max_num_vertices + 1).toNat * to_size_t num_neighbor

/-- The first part of `SampleSubgraph`: the check on the seeds and the traversal. -/
def SampleSubgraph.bfs (csr : CSR) (seed : List Int) (probability : Option (List ℚ))
    (num_hops num_neighbor max_num_vertices : Int) (draws : List Nat) : Res BfsState :=
  if ¬ (to_size_t max_num_vertices ≥ seed.length) then .fail .check_failed
  else
    SampleSubgraph.loop csr probability num_hops num_neighbor max_num_vertices
      (SampleSubgraph.fuel seed num_neighbor max_num_vertices) (SampleSubgraph.init seed draws)

/-- `std::copy(src.begin(), src.end(), buf + off)`. -/
def copy_list : List Int → Nat → List Int → List Int
  | [], _, buf => buf
  | x :: xs, off, buf => copy_list xs (off + 1) (buf.set off x)

/-- The outputs of `SampleSubgraph`. -/
structure SampleOut where
  sampled_ids : List Int
  sub_csr : CSR
  sub_prob : Option (List ℚ)
  sub_layer : List Int
  deriving DecidableEq, Repr

/-- The buffers of the sub-CSR while it is filled. -/
structure SubCsrAcc where
  val_list_out : List Int
  col_list_out : List Int
  indptr_out : List Int
  collected_nedges : Nat
  deriving DecidableEq, Repr

/-- The loop `for (i = 0; i < num_vertices; i++)` that fills the sub-CSR, over the positions
`is`. The write `indptr_out[i+1]` past the end of the buffer is undefined. -/
def SampleSubgraph.fill_csr (out : List Int) (neigh_mp : List (Int × neigh_list)) :
    List Nat → SubCsrAcc → Res SubCsrAcc
  | [], acc => .ok acc
  | i :: is, acc =>
    let dst_id := out.getD i 0
    match umap_find neigh_mp dst_id with
    | none => .fail .undefined
    | some it =>
      if it.edges.length ≠ it.neighs.length then .fail .check_failed
      else if acc.indptr_out.length ≤ i + 1 then .fail .undefined
      else
        SampleSubgraph.fill_csr out neigh_mp is
          { val_list_out := copy_list it.edges acc.collected_nedges acc.val_list_out,
            col_list_out := copy_list it.neighs acc.collected_nedges acc.col_list_out,
            indptr_out := acc.indptr_out.set (i + 1)
              (acc.indptr_out.getD i 0 + (it.edges.length : Int)),
            collected_nedges := acc.collected_nedges + it.edges.length }

/-- The block "Copy sub_ver_mp to output[0]" of `SampleSubgraph`: the vertex buffer `out`
written over the buffer `sampled_ids` passed in. -/
def SampleSubgraph.copy_ids (max_num_vertices : Int) (sampled_ids : List Int)
    (st : BfsState) : List Int :=
  let keys := st.sub_ver_mp.map Prod.fst
  let out := copy_list keys 0 sampled_ids
  let idx := keys.length
  let num_vertices := st.sub_ver_mp.length
  let out := sort_ids (out.take num_vertices) ++ out.drop num_vertices
  let out := (List.range' idx (max_num_vertices.toNat - idx)).foldl
    (fun o i => o.set i (-1)) out
  wr out max_num_vertices (num_vertices : Int)

/-- The block "Copy sub_probability" of `SampleSubgraph`, for a non-null `sub_prob`. -/
def SampleSubgraph.copy_prob (probability : Option (List ℚ)) (max_num_vertices : Int)
    (out : List Int) (sub_prob : List ℚ) : List ℚ :=
  (List.range max_num_vertices.toNat).foldl
    (fun b i =>
      let idx := out.getD i 0
      b.set i (if idx ≠ -1 then rdq (probability.getD []) idx else -1)) sub_prob

/-- The block "Copy layer" of `SampleSubgraph`; `sub_ver_mp[idx]` of a missing key is `0`. -/
def SampleSubgraph.copy_layer (max_num_vertices : Int) (out : List Int) (st : BfsState)
    (out_layer : List Int) : List Int :=
  (List.range max_num_vertices.toNat).foldl
    (fun b i =>
      let idx := out.getD i 0
      b.set i (if idx ≠ -1 then (umap_find st.sub_ver_mp idx).getD 0 else -1)) out_layer

/-- The block "Construct sub_csr_graph" of `SampleSubgraph`. -/
def SampleSubgraph.build_csr (max_num_vertices : Int) (out : List Int) (st : BfsState) :
    Res CSR :=
  let num_vertices := st.sub_ver_mp.length
  let acc0 : SubCsrAcc :=
    { val_list_out := List.replicate st.num_edges 0,
      col_list_out := List.replicate st.num_edges 0,
      indptr_out := (List.replicate (max_num_vertices + 1).toNat 0).set 0 0,
      collected_nedges := 0 }
  match SampleSubgraph.fill_csr out st.neigh_mp (List.range num_vertices) acc0 with
  | .fail e => .fail e
  | .ok acc =>
    let indptr_out :=
      (List.range' (num_vertices + 1) (max_num_vertices.toNat - num_vertices)).foldl
        (fun p i => p.set i (p.getD (i - 1) 0)) acc.indptr_out
    .ok { shape0 := max_num_vertices, data := acc.val_list_out,
          indices := acc.col_list_out, indptr := indptr_out }

/-- The second part of `SampleSubgraph`: the outputs written from the state of the
traversal. `sampled_ids`, `sub_prob` and `sub_layer` are the buffers passed in. -/
def SampleSubgraph.emit (probability : Option (List ℚ)) (max_num_vertices : Int)
    (sampled_ids : List Int) (sub_prob : Option (List ℚ)) (sub_layer : List Int)
    (st : BfsState) : Res SampleOut :=
  let out := SampleSubgraph.copy_ids max_num_vertices sampled_ids st
  let sub_prob := sub_prob.map (SampleSubgraph.copy_prob probability max_num_vertices out)
  let out_layer := SampleSubgraph.copy_layer max_num_vertices out st sub_layer
  match SampleSubgraph.build_csr max_num_vertices out st with
  | .fail e => .fail e
  | .ok sub_csr =>
    .ok { sampled_ids := out, sub_csr := sub_csr, sub_prob := sub_prob,
          sub_layer := out_layer }

/-- The function `SampleSubgraph`. -/
def SampleSubgraph (csr : CSR) (seed_arr : List Int) (sampled_ids : List Int)
    (sub_prob : Option (List ℚ)) (sub_layer : List Int) (probability : Option (List ℚ))
    (num_hops num_neighbor max_num_vertices : Int) (draws : List Nat) : Res SampleOut :=
  match SampleSubgraph.bfs csr seed_arr probability num_hops num_neighbor max_num_vertices
      draws with
  | .fail e => .fail e
  | .ok st => SampleSubgraph.emit probability max_num_vertices sampled_ids sub_prob sub_layer st

/-- The 5-vertex complete graph of the operator documentation, edge ids `1..20`. -/
def k5_graph : CSR :=
  { shape0 := 5, data := [1, 2, 3, 4, 5, 6, 7, 8, 9, 10, 11, 12, 13, 14, 15, 16, 17, 18, 19, 20],
    indices := [1, 2, 3, 4, 0, 2, 3, 4, 0, 1, 3, 4, 0, 1, 2, 4, 0, 1, 2, 3],
    indptr := [0, 4, 8, 12, 16, 20] }

/-- A graph with the single edge `0 → 1` (edge id 7). -/
def edge_graph : CSR :=
  { shape0 := 2, data := [7], indices := [1], indptr := [0, 1, 1] }

/-- The state in which the traversal of `edge_graph` from seed `0` ends with
`max_num_vertices = 1`. -/
def edge_graph_final : BfsState :=
  { sub_vertices_count := 2, sub_ver_mp := [(0, 0), (1, 1)], node_queue := [],
    neigh_mp := [(0, { neighs := [1], edges := [7] }), (1, { neighs := [], edges := [] })],
    num_edges := 1, draws := [] }

/-- The outputs for `edge_graph`, seed `0`, two hops and `max_num_vertices = 2`. -/
def edge_graph_out : SampleOut :=
  { sampled_ids := [0, 1, 2],
    sub_csr := { shape0 := 2, data := [7], indices := [1], indptr := [0, 1, 1] },
    sub_prob := none, sub_layer := [0, 1] }

/-- What the record of a visited vertex looks like: entry `e = (vertex, level)` of the visited
map against entry `r = (vertex, record)` of the record map. A vertex visited below `num_hops`
keeps `min(degree, k)` pairs, one visited at `num_hops` or deeper keeps none. -/
def record_ok (csr : CSR) (num_hops : Int) (k : Nat) (e : Int × Int) (r : Int × neigh_list) :
    Prop :=
  e.1 = r.1 ∧ r.2.neighs.length = r.2.edges.length ∧
  (e.2 < num_hops → r.2.neighs.length = min (csr.row_cols e.1).length k) ∧
  (¬ e.2 < num_hops → r.2.neighs = [] ∧ r.2.edges = [])

/-- The invariant of the loop of `SampleSubgraph`. -/
structure BfsInv (csr : CSR) (num_hops : Int) (k : Nat) (st : BfsState) : Prop where
  keys_nodup : (st.sub_ver_mp.map Prod.fst).Nodup
  records : List.Forall₂ (record_ok csr num_hops k) st.sub_ver_mp st.neigh_mp
  count_eq : st.sub_vertices_count = (st.sub_ver_mp.length : Int)
  edges_eq : st.num_edges = (st.neigh_mp.map (fun p => p.2.neighs.length)).sum

/-- The visited vertex ids in increasing order. -/
def sorted_visited (st : BfsState) : List Int := sort_ids (st.sub_ver_mp.map Prod.fst)

/-- The neighbor records of the visited vertices, in increasing order of vertex id. -/
def visited_records (st : BfsState) : List neigh_list :=
  (sorted_visited st).map
    (fun v => (umap_find st.neigh_mp v).getD { neighs := [], edges := [] })

/-- The vertex weights of the documented example of the non-uniform operator. -/
def doc_prob : List ℚ := [9 / 10, 4 / 5, 1 / 5, 2 / 5, 1 / 10]

/-- The state in which the traversal of `k5_graph` from the seeds `0..4` ends with one hop and
`num_neighbor = 4`: every vertex visited at level 0 with its whole row recorded. -/
def k5_final : BfsState :=
  { sub_vertices_count := 5, sub_ver_mp := [(0, 0), (1, 0), (2, 0), (3, 0), (4, 0)],
    node_queue := [],
    neigh_mp := [(0, { neighs := [1, 2, 3, 4], edges := [1, 2, 3, 4] }),
                 (1, { neighs := [0, 2, 3, 4], edges := [5, 6, 7, 8] }),
                 (2, { neighs := [0, 1, 3, 4], edges := [9, 10, 11, 12] }),
                 (3, { neighs := [0, 1, 2, 4], edges := [13, 14, 15, 16] }),
                 (4, { neighs := [0, 1, 2, 3], edges := [17, 18, 19, 20] })],
    num_edges := 20, draws := [] }

/-- The states at the head of the loop of `SampleSubgraph`, in order: the loop of
`SampleSubgraph.loop`, keeping every state it passes through. -/
def SampleSubgraph.trace (csr : CSR) (probability : Option (List ℚ))
    (num_hops num_neighbor max_num_vertices : Int) : Nat → BfsState → List BfsState
  | 0, st => [st]
  | fuel + 1, st =>
    match st.node_queue with
    | [] => [st]
    | cur_node :: queue =>
      if ¬ (st.sub_vertices_count ≤ max_num_vertices) then [st]
      else
        match SampleSubgraph.step csr probability num_hops num_neighbor cur_node queue st with
        | .fail _ => [st]
        | .ok st' =>
          st :: SampleSubgraph.trace csr probability num_hops num_neighbor max_num_vertices
            fuel st'

/-- The states the traversal of `SampleSubgraph.bfs` passes through at the head of its loop. A
frontier node was enqueued during the call exactly when it is in the queue of one of them. -/
def SampleSubgraph.states (csr : CSR) (seed : List Int) (probability : Option (List ℚ))
    (num_hops num_neighbor max_num_vertices : Int) (draws : List Nat) : List BfsState :=
  SampleSubgraph.trace csr probability num_hops num_neighbor max_num_vertices
    (SampleSubgraph.fuel seed num_neighbor max_num_vertices) (SampleSubgraph.init seed draws)

/-- The invariant of the queue of `SampleSubgraph`: levels are non-decreasing from front to
back, differ by at most one, and no recorded level exceeds a queued one. -/
structure QueueInv (st : BfsState) : Prop where
  sorted : st.node_queue.Pairwise (fun a b => a.level ≤ b.level)
  near : ∀ a ∈ st.node_queue, ∀ b ∈ st.node_queue, b.level ≤ a.level + 1
  below : ∀ v l, umap_find st.sub_ver_mp v = some l → ∀ nd ∈ st.node_queue, l ≤ nd.level

/-! ## Shape inference of the neighbor-sampling operators -/

/-- The struct `NeighborSampleParam`. -/
structure NeighborSampleParam where
  num_args : Int
  num_hops : Int
  num_neighbor : Int
  max_num_vertices : Int
  deriving DecidableEq, Repr

/-- `TShape::Size()`: the product of the dimensions. -/
def shape_size (s : List Int) : Int := s.prod

/-- Modelled from the spec: the macro `SHAPE_ASSIGN_CHECK` is not part of the sources. The host
allocates every output with the shape the core dictates: slot `index` receives `shape` when it
is still unknown (no dimensions) or already holds `shape`, and inference fails when it holds a
different shape. -/
def SHAPE_ASSIGN_CHECK (shape_array : List (List Int)) (index : Nat) (shape : List Int) :
    Res (List (List Int)) :=
  if shape_array.getD index [] = [] ∨ shape_array.getD index [] = shape then
    .ok (shape_array.set index shape)
  else .fail .check_failed

/-- One of the output loops of the shape functions: for every slot of `slots`, assign `shape`
and update `success`. -/
def assign_outputs (shape : List Int) :
    List Nat → Bool × List (List Int) → Res (Bool × List (List Int))
  | [], acc => .ok acc
  | slot :: slots, acc =>
    match SHAPE_ASSIGN_CHECK acc.2 slot shape with
    | .fail e => .fail e
    | .ok out_attrs =>
      assign_outputs shape slots
        (acc.1 && decide ((out_attrs.getD slot []).length ≠ 0) &&
          decide (shape_size (out_attrs.getD slot []) ≠ 0), out_attrs)

/-- The slots `i + off` for `0 ≤ i < num_subgraphs`. -/
def output_slots (num_subgraphs off : Nat) : List Nat :=
  (List.range num_subgraphs).map (fun i => i + off)

/-- The function `CSRNeighborUniformSampleShape`: `success` and the output shapes. -/
def CSRNeighborUniformSampleShape (params : NeighborSampleParam)
    (in_attrs out_attrs : List (List Int)) : Res (Bool × List (List Int)) :=
  let num_subgraphs := to_size_t (params.num_args - 1)
  if out_attrs.length ≠ 3 * num_subgraphs then .fail .check_failed
  else if (in_attrs.getD 0 []).length ≠ 2 then .fail .check_failed
  else if (in_attrs.getD 0 []).getD 0 0 ≠ (in_attrs.getD 0 []).getD 1 0 then .fail .check_failed
  else if ¬ (List.range num_subgraphs).all (fun i => (in_attrs.getD (1 + i) []).length = 1) then
    .fail .check_failed
  else
    let out_shape := [params.max_num_vertices + 1]
    match assign_outputs out_shape (output_slots num_subgraphs 0) (true, out_attrs) with
    | .fail e => .fail e
    | .ok acc1 =>
      let out_csr_shape := [params.max_num_vertices, (in_attrs.getD 0 []).getD 1 0]
      match assign_outputs out_csr_shape (output_slots num_subgraphs num_subgraphs) acc1 with
      | .fail e => .fail e
      | .ok acc2 =>
        let out_layer_shape := [params.max_num_vertices]
        assign_outputs out_layer_shape (output_slots num_subgraphs (2 * num_subgraphs)) acc2

/-- The function `CSRNeighborNonUniformSampleShape`: `success` and the output shapes. -/
def CSRNeighborNonUniformSampleShape (params : NeighborSampleParam)
    (in_attrs out_attrs : List (List Int)) : Res (Bool × List (List Int)) :=
  let num_subgraphs := to_size_t (params.num_args - 2)
  if out_attrs.length ≠ 4 * num_subgraphs then .fail .check_failed
  else if (in_attrs.getD 0 []).length ≠ 2 then .fail .check_failed
  else if (in_attrs.getD 0 []).getD 0 0 ≠ (in_attrs.getD 0 []).getD 1 0 then .fail .check_failed
  else if (in_attrs.getD 1 []).length ≠ 1 then .fail .check_failed
  else if ¬ (List.range num_subgraphs).all (fun i => (in_attrs.getD (2 + i) []).length = 1) then
    .fail .check_failed
  else
    let out_shape := [params.max_num_vertices + 1]
    match assign_outputs out_shape (output_slots num_subgraphs 0) (true, out_attrs) with
    | .fail e => .fail e
    | .ok acc1 =>
      let out_csr_shape := [params.max_num_vertices, (in_attrs.getD 0 []).getD 1 0]
      match assign_outputs out_csr_shape (output_slots num_subgraphs num_subgraphs) acc1 with
      | .fail e => .fail e
      | .ok acc2 =>
        let out_prob_shape := [params.max_num_vertices]
        match assign_outputs out_prob_shape (output_slots num_subgraphs (2 * num_subgraphs))
            acc2 with
        | .fail e => .fail e
        | .ok acc3 =>
          assign_outputs out_prob_shape (output_slots num_subgraphs (3 * num_subgraphs)) acc3

/-- The parameters of the documented examples: one seed array, `max_num_vertices = 5`. -/
def doc_params (num_args : Int) : NeighborSampleParam :=
  { num_args := num_args, num_hops := 1, num_neighbor := 2, max_num_vertices := 5 }

/-! ## Edge id lookup -/

/-- `std::find(in_indices + first, in_indices + last, value)`: the first position of
`[first, last)` that holds `value`, or `last`. -/
def std_find (in_indices : List Int) (first last : Nat) (value : Int) : Nat :=
  ((List.range' first (last - first)).find? (fun p => in_indices.getD p 0 = value)).getD last

/-- `edge_id_csr_forward::Map`: the buffer `out_data` after the write to `out_data[i]`. -/
def edge_id_csr_forward.Map (i : Nat) (out_data in_data in_indices in_indptr u v : List Int) :
    List Int :=
  let target_row_id := u.getD i 0
  let target_col_id := v.getD i 0
  let last := (rd in_indptr (target_row_id + 1)).toNat
  let ptr := std_find in_indices (rd in_indptr target_row_id).toNat last target_col_id
  if ptr = last then out_data.set i (-1)
  else out_data.set i (in_data.getD ptr 0)

/-- The request types of `OpReqType`. -/
inductive OpReqType where
  | kNullOp
  | kWriteTo
  | kWriteInplace
  | kAddTo
  deriving DecidableEq, Repr

/-- The function `EdgeIDForwardCsrImpl` on its three inputs `data`, `u`, `v` (so the check on
the number of inputs holds; all buffers have one integer type, so the check on the index types
holds). The flag `storage_initialized` is the value of `inputs[0].storage_initialized()`, a
method of the host array type: it is false for a CSR array without stored entries. -/
def EdgeIDForwardCsrImpl (storage_initialized : Bool) (data : CSR) (u v : List Int)
    (req : OpReqType) (output : List Int) : Res (List Int) :=
  if req = .kNullOp then .ok output
  else if req ≠ .kWriteTo then .fail .check_failed
  else
    let out_elems := u.length
    if ¬ storage_initialized then
      .ok ((List.range out_elems).foldl (fun out i => out.set i (-1)) output)
    else
      .ok ((List.range out_elems).foldl
        (fun out i => edge_id_csr_forward.Map i out data.data data.indices data.indptr u v)
        output)

/-- The value of the first entry of row `r` whose column is `c`, and `-1` when the row has no
such entry: the result of the lookup in the words of the operator description. -/
def first_entry_value (g : CSR) (r c : Int) : Int :=
  match ((g.row_cols r).zip (g.row_vals r)).find? (fun q => q.1 = c) with
  | some q => q.2
  | none => -1

/-- The diagonal matrix `[[1, 0, 0], [0, 2, 0], [0, 0, 3]]` of the documented example of
`edge_id`. -/
def diag_graph : CSR :=
  { shape0 := 3, data := [1, 2, 3], indices := [0, 1, 2], indptr := [0, 1, 2, 3] }

/-- The outputs of the documented uniform example for the draws `0, 1, 0, 1, ...`: in every
row the positions 0 and 1 are rejected and the positions 2 and 3 are kept. -/
def k5_uniform_out : SampleOut :=
  { sampled_ids := [0, 1, 2, 3, 4, 5],
    sub_csr := { shape0 := 5, data := [3, 4, 7, 8, 11, 12, 15, 16, 19, 20],
                 indices := [3, 4, 3, 4, 3, 4, 2, 4, 2, 3], indptr := [0, 2, 4, 6, 8, 10] },
    sub_prob := none, sub_layer := [0, 0, 0, 0, 0] }

/-- Vertex `v` at level `l` has a parent: a visited vertex recorded at level `l - 1` whose
neighbor record holds `v`. -/
def has_parent (st : BfsState) (v l : Int) : Prop :=
  ∃ u rec, umap_find st.sub_ver_mp u = some (l - 1) ∧ umap_find st.neigh_mp u = some rec ∧
    v ∈ rec.neighs

/-- The invariant of the levels in the loop of `SampleSubgraph`: the level of every queued node
and every recorded level lies in `[0, num_hops]`, and a vertex at a level above 0 has a
parent. -/
structure LevelInv (num_hops : Int) (st : BfsState) : Prop where
  queue_ok : ∀ nd ∈ st.node_queue, 0 ≤ nd.level ∧ nd.level ≤ num_hops ∧
    (nd.level = 0 ∨ has_parent st nd.vertex_id nd.level)
  map_ok : ∀ v l, umap_find st.sub_ver_mp v = some l → 0 ≤ l ∧ l ≤ num_hops ∧
    (l = 0 ∨ has_parent st v l)

/-! ## Specification-side definitions for the membership index -/

/-- The query `collect` in the words of the specification: `old_vertex` is accepted when it is
in `V`, and then its 0-based rank in `V` is emitted together with `old_edge`; otherwise nothing
is emitted. -/
def Collect_by_rank (V : List Int) (old_vertex old_edge : Int) (col_idx : List Int)
    (orig_eids : Option (List Int)) : List Int × Option (List Int) :=
  if old_vertex ∈ V then
    (col_idx ++ [((V.indexOf old_vertex : Nat) : Int)], orig_eids.map (fun l => l ++ [old_edge]))
  else (col_idx, orig_eids)

/-- The query `collect` decided by the exact map alone, without the bitmap. -/
def Collect_map_only (c : HashTableChecker) (old_id old_eid : Int) (col_idx : List Int)
    (orig_eids : Option (List Int)) : List Int × Option (List Int) :=
  match umap_find c.oldv2newv old_id with
  | some new_id => (col_idx ++ [new_id], orig_eids.map (fun l => l ++ [old_eid]))
  | none => (col_idx, orig_eids)

/-- The first output of `GetSubgraph` for `example_graph` and the vertex array `[0, 0]`. -/
def dup_sub : CSR :=
  { shape0 := 2, data := [0, 1], indices := [1, 1], indptr := [0, 1, 2] }

/-- The second output of `GetSubgraph` for `example_graph` and the vertex array `[0, 0]`. -/
def dup_old : CSR :=
  { shape0 := 2, data := [1, 1], indices := [1, 1], indptr := [0, 1, 2] }

/-- A graph with the edges `0 → 2` (edge id 1) and `2 → 3` (edge id 2) on four vertices. -/
def chain_graph : CSR :=
  { shape0 := 4, data := [1, 2], indices := [2, 3], indptr := [0, 1, 1, 2, 2] }

/-- The state in which the traversal of `chain_graph` from seed `0` ends with
`max_num_vertices = 3`: three vertices visited. -/
def chain_full : BfsState :=
  { sub_vertices_count := 3, sub_ver_mp := [(0, 0), (2, 1), (3, 2)], node_queue := [],
    neigh_mp := [(0, { neighs := [2], edges := [1] }), (2, { neighs := [3], edges := [2] }),
      (3, { neighs := [], edges := [] })],
    num_edges := 2, draws := [] }

/-- The state in which the traversal of `chain_graph` from seed `0` ends with
`max_num_vertices = 1`: vertex 3 is still queued. -/
def chain_capped : BfsState :=
  { sub_vertices_count := 2, sub_ver_mp := [(0, 0), (2, 1)],
    node_queue := [{ vertex_id := 3, level := 2 }],
    neigh_mp := [(0, { neighs := [2], edges := [1] }), (2, { neighs := [3], edges := [2] })],
    num_edges := 2, draws := [] }

/-! ## Weighted sampling: `ArrayHeap` in binary floating point -/

/-- A finite binary floating-point number, `m * 2 ^ e`. -/
structure Fp where
  m : Int
  e : Int
  deriving DecidableEq, Repr

/-- Search of the number of bits of `n` upwards from `b`. -/
def bit_length.go (n : Nat) : Nat → Nat → Nat
  | 0, b => b
  | fuel + 1, b => if n < 2 ^ b then b else bit_length.go n fuel (b + 1)

/-- The number of bits of `n`: the least `b` with `n < 2 ^ b`. -/
def bit_length (n : Nat) : Nat := bit_length.go n n 0

/-- Rounding of `m * 2 ^ e` to the nearest number with at most `p` significant bits and an
exponent of the last bit of at least `emin`, ties to the even significand: `s` low bits are
dropped and the rest goes up when the dropped part is above one half, or is one half with an
odd rest. Overflow to infinity is not modelled. -/
def Fp.round (p : Nat) (emin : Int) (x : Fp) : Fp :=
  let n := x.m.natAbs
  let s := max (bit_length n - p) (emin - x.e).toNat
  if s = 0 then x
  else
    let q := n / 2 ^ s
    let r := n % 2 ^ s
    let half := 2 ^ (s - 1)
    let q1 := if half < r ∨ (r = half ∧ q % 2 = 1) then q + 1 else q
    { m := x.m.sign * (q1 : Int), e := x.e + (s : Int) }

/-- The exact sum of two floating-point numbers. -/
def Fp.add (a b : Fp) : Fp :=
  let e := min a.e b.e
  { m := a.m * 2 ^ (a.e - e).toNat + b.m * 2 ^ (b.e - e).toNat, e := e }

/-- The exact difference of two floating-point numbers. -/
def Fp.sub (a b : Fp) : Fp :=
  let e := min a.e b.e
  { m := a.m * 2 ^ (a.e - e).toNat - b.m * 2 ^ (b.e - e).toNat, e := e }

/-- The exact product of two floating-point numbers. -/
def Fp.mul (a b : Fp) : Fp := { m := a.m * b.m, e := a.e + b.e }

/-- The comparison `a >= b`. -/
def Fp.ge (a b : Fp) : Bool := decide (0 ≤ (Fp.sub a b).m)

/-- The quotient `a / b` of two positive integers rounded to `p` bits: the integer quotient
with at least `p + 3` bits, followed by a bit that records a non-zero remainder, is rounded. -/
def Fp.div_round (p : Nat) (emin : Int) (a b : Nat) : Fp :=
  let t := p + 2 + bit_length b
  let q := a * 2 ^ t / b
  let sticky := if a * 2 ^ t % b = 0 then 0 else 1
  Fp.round p emin { m := ((2 * q + sticky : Nat) : Int), e := -(t : Int) - 1 }

/-- Rounding to `float` (binary32: 24 significant bits, least exponent of the last bit -149). -/
def f32 (x : Fp) : Fp := Fp.round 24 (-149) x

/-- Rounding to `double` (binary64: 53 significant bits, least exponent of the last bit
-1074). -/
def f64 (x : Fp) : Fp := Fp.round 53 (-1074) x

/-- The class `ArrayHeap` with `heap_` a `std::vector<float>`. -/
structure F32.ArrayHeap where
  vec_size_ : Nat
  bit_len_ : Nat
  limit_ : Nat
  heap_ : List Fp

/-- The loop `heap_[i] = prob[i - limit_]` over the leaves. -/
def F32.ArrayHeap.fill_leaves (prob : List Fp) (limit : Nat) (heap : List Fp) : List Fp :=
  (List.range' limit prob.length).foldl
    (fun h i => h.set i (prob.getD (i - limit) { m := 0, e := 0 })) heap

/-- The inner loop `heap_[j] = heap_[j << 1] + heap_[(j << 1) + 1]` over the nodes `js`, the sum
rounded to `float`. -/
def F32.ArrayHeap.sum_level (js : List Nat) (heap : List Fp) : List Fp :=
  js.foldl
    (fun h j => h.set j (f32 (Fp.add (h.getD (2 * j) { m := 0, e := 0 })
      (h.getD (2 * j + 1) { m := 0, e := 0 })))) heap

/-- The outer loop over the levels `i = bit_len_ - 1, ..., 0`. -/
def F32.ArrayHeap.sum_up (bit_len : Nat) (heap : List Fp) : List Fp :=
  (List.range bit_len).reverse.foldl
    (fun h i => F32.ArrayHeap.sum_level (List.range' (2 ^ i) (2 ^ i)) h) heap

/-- Constructor `ArrayHeap(prob)`. -/
def F32.ArrayHeap.mk_from (prob : List Fp) : F32.ArrayHeap :=
  let vec_size := prob.length
  let bit_len := ceil_log2 vec_size
  let limit := 2 ^ bit_len
  { vec_size_ := vec_size, bit_len_ := bit_len, limit_ := limit,
    heap_ := F32.ArrayHeap.sum_up bit_len
      (F32.ArrayHeap.fill_leaves prob limit (List.replicate (2 * limit) { m := 0, e := 0 })) }

/-- The loop of `Delete`: `steps` iterations of `heap_[i] -= w; i = i >> 1`, the difference
rounded to `float`. -/
def F32.ArrayHeap.Delete.loop (w : Fp) : Nat → List Fp → Nat → List Fp
  | 0, heap, _ => heap
  | steps + 1, heap, i =>
    F32.ArrayHeap.Delete.loop w steps
      (heap.set i (f32 (Fp.sub (heap.getD i { m := 0, e := 0 }) w))) (i / 2)

/-- `ArrayHeap::Delete`. -/
def F32.ArrayHeap.Delete (a : F32.ArrayHeap) (index : Nat) : F32.ArrayHeap :=
  let i := index + a.limit_
  let w := a.heap_.getD i { m := 0, e := 0 }
  { a with heap_ := F32.ArrayHeap.Delete.loop w (a.bit_len_ + 1) a.heap_ i }

/-- The loop `while (i < limit_)` of `Sample`, at most `fuel` iterations; `xi -= heap_[i]` is
rounded to `float`. -/
def F32.ArrayHeap.Sample.descend (heap : List Fp) (limit : Nat) : Nat → Fp → Nat → Nat
  | 0, _, i => i
  | fuel + 1, xi, i =>
    if i < limit then
      if Fp.ge xi (heap.getD (2 * i) { m := 0, e := 0 }) then
        F32.ArrayHeap.Sample.descend heap limit fuel
          (f32 (Fp.sub xi (heap.getD (2 * i) { m := 0, e := 0 }))) (2 * i + 1)
      else F32.ArrayHeap.Sample.descend heap limit fuel xi (2 * i)
    else i

/-- `ArrayHeap::Sample`: `float xi = heap_[1] * (rand_r(seed)%100/101.0)` divides and
multiplies in `double` and rounds the product to `float`. -/
def F32.ArrayHeap.Sample (a : F32.ArrayHeap) (draws : List Nat) : Res (Nat × List Nat) :=
  match draws with
  | [] => .fail .draws_exhausted
  | r :: rest =>
    let xi : Fp :=
      f32 (f64 (Fp.mul (a.heap_.getD 1 { m := 0, e := 0 })
        (Fp.div_round 53 (-1074) (r % 100) 101)))
    .ok (F32.ArrayHeap.Sample.descend a.heap_ a.limit_ a.bit_len_ xi 1 - a.limit_, rest)

/-- The shape of a tree of `F32.ArrayHeap`, as the constructor builds it and `Delete` keeps
it: `limit_` is `2 ^ bit_len_`, at least the number of elements, and `heap_` has `2 * limit_`
slots. -/
structure F32.ArrayHeap.Shape (f : F32.ArrayHeap) : Prop where
  limit_eq : f.limit_ = 2 ^ f.bit_len_
  size_le : f.vec_size_ ≤ f.limit_
  length_eq : f.heap_.length = 2 * f.limit_

theorem umap_find_assign {β : Type} (m : List (Int × β)) (k x : Int) (v : β) :
    umap_find (umap_assign m k v) x = if x = k then some v else umap_find m x := by
  induction m with
  | nil =>
    by_cases h : x = k
    · simp [umap_assign, umap_find, h]
    · have h' : ¬ k = x := fun e => h e.symm
      simp [umap_assign, umap_find, h, h']
  | cons p m ih =>
    obtain ⟨k', v'⟩ := p
    by_cases hk : k' = k
    · subst hk
      by_cases h : x = k'
      · subst h; simp [umap_assign, umap_find]
      · have h' : ¬ k' = x := fun e => h e.symm
        simp [umap_assign, umap_find, h, h']
    · by_cases h : x = k
      · subst h
        simp [umap_assign, umap_find, hk, ih]
      · by_cases h2 : k' = x
        · simp [umap_assign, umap_find, hk, h, h2]
        · simp [umap_assign, umap_find, hk, h, h2, ih]

theorem fill_find_mem (vs : List Int) (i : Nat) (m : List (Int × Int)) (x : Int) :
    (umap_find (HashTableChecker.fill vs i m) x).isSome =
      (decide (x ∈ vs) || (umap_find m x).isSome) := by
  induction vs generalizing i m with
  | nil => simp [HashTableChecker.fill]
  | cons v vs ih =>
    simp only [HashTableChecker.fill, ih, umap_find_assign]
    by_cases h : x = v
    · simp [h]
    · simp [h]

theorem fill_find_nodup (vs : List Int) (hnd : vs.Nodup) (i : Nat) (m : List (Int × Int))
    (x : Int) :
    umap_find (HashTableChecker.fill vs i m) x =
      if x ∈ vs then some ((i + vs.indexOf x : Nat) : Int) else umap_find m x := by
  induction vs generalizing i m with
  | nil => simp [HashTableChecker.fill]
  | cons v vs ih =>
    have hv : v ∉ vs := (List.nodup_cons.mp hnd).1
    simp only [HashTableChecker.fill, ih (List.nodup_cons.mp hnd).2, umap_find_assign]
    by_cases h : x = v
    · subst h
      simp [hv]
    · have h' : v ≠ x := fun e => h e.symm
      by_cases hx : x ∈ vs
      · simp [h, hx, List.indexOf_cons_ne _ h']
        omega
      · simp [h, hx]

theorem bitmap_fold_true (vs : List Int) (b : Bitmap) (p : Nat) :
    (vs.foldl (fun b id => (⟨Function.update b.map (Bitmap.hash id) true⟩ : Bitmap)) b).map p = true ↔
      b.map p = true ∨ ∃ v ∈ vs, Bitmap.hash v = p := by
  induction vs generalizing b with
  | nil => simp
  | cons v vs ih =>
    simp only [List.foldl_cons, ih, List.mem_cons, exists_eq_or_imp]
    by_cases h : p = Bitmap.hash v
    · subst h; simp
    · have h' : ¬ Bitmap.hash v = p := fun e => h e.symm
      simp [Function.update_noteq h, h']

/-- The bitmap has no false negatives. -/
theorem bitmap_test_of_mem (V : List Int) (x : Int) (hx : x ∈ V) :
    (Bitmap.mk_from V).test x = true := by
  unfold Bitmap.test Bitmap.mk_from
  exact (bitmap_fold_true V _ _).mpr (Or.inr ⟨x, hx, rfl⟩)

theorem find_none_of_not_mem (V : List Int) (x : Int) (hx : x ∉ V) :
    umap_find (HashTableChecker.mk_from V).oldv2newv x = none := by
  have h := fill_find_mem V 0 [] x
  simp [hx, umap_find] at h
  simpa [HashTableChecker.mk_from] using h

/-- `Collect` is the lookup in the exact map alone. -/
theorem Collect_eq (V : List Int) (x e : Int) (col : List Int) (oe : Option (List Int)) :
    (HashTableChecker.mk_from V).Collect x e col oe =
      match umap_find (HashTableChecker.mk_from V).oldv2newv x with
      | some n => (col ++ [n], oe.map (fun l => l ++ [e]))
      | none => (col, oe) := by
  unfold HashTableChecker.Collect
  by_cases hx : x ∈ V
  · have ht : (HashTableChecker.mk_from V).map.test x = true := bitmap_test_of_mem V x hx
    simp [ht]
  · rw [find_none_of_not_mem V x hx]
    simp

theorem row_ids_length (V : List Int) (cols es : List Int) :
    (row_old_eids V cols es).length = (row_new_ids V cols es).length := by
  unfold row_old_eids row_new_ids
  induction List.zip cols es with
  | nil => simp
  | cons p l ih =>
    cases h : umap_find (HashTableChecker.mk_from V).oldv2newv p.1 <;>
      simp [List.filterMap_cons, h, ih]

theorem CollectOnRow_eq (V : List Int) (cols es col : List Int) (oe : Option (List Int)) :
    (HashTableChecker.mk_from V).CollectOnRow cols es col oe =
      (col ++ row_new_ids V cols es, oe.map (fun l => l ++ row_old_eids V cols es)) := by
  induction cols generalizing es col oe with
  | nil => cases oe <;> simp [HashTableChecker.CollectOnRow, row_new_ids, row_old_eids]
  | cons c cs ih =>
    cases es with
    | nil => cases oe <;> simp [HashTableChecker.CollectOnRow, row_new_ids, row_old_eids]
    | cons e es =>
      simp only [HashTableChecker.CollectOnRow, Collect_eq, ih]
      cases h : umap_find (HashTableChecker.mk_from V).oldv2newv c <;>
        cases oe <;>
        simp [row_new_ids, row_old_eids, List.filterMap_cons, h]


/-! ## The row loop of `GetSubgraph` -/

theorem loop_ok_bound (g : CSR) (c : HashTableChecker) (rest : List Int) (i : Nat)
    (acc acc' : SubgraphAcc) (h : GetSubgraph.loop g c rest i acc = .ok acc') :
    ∀ v ∈ rest, v < g.shape0 := by
  induction rest generalizing i acc with
  | nil => simp
  | cons v rest ih =>
    unfold GetSubgraph.loop at h
    by_cases hv : v < g.shape0
    · simp only [hv, not_true_eq_false, if_false] at h
      intro x hx
      rcases List.mem_cons.mp hx with rfl | hx
      · exact hv
      · exact ih _ _ h x hx
    · simp [hv] at h

theorem loop_spec (g : CSR) (V : List Int) (rest : List Int) (hlt : ∀ v ∈ rest, v < g.shape0)
    (i : Nat) (acc : SubgraphAcc) :
    ∃ acc', GetSubgraph.loop g (HashTableChecker.mk_from V) rest i acc = .ok acc' ∧
      acc'.col_idx = acc.col_idx ++
        rest.flatMap (fun v => row_new_ids V (g.row_cols v) (g.row_vals v)) ∧
      acc'.orig_eids = acc.orig_eids.map
        (fun l => l ++ rest.flatMap (fun v => row_old_eids V (g.row_cols v) (g.row_vals v))) ∧
      acc'.row_idx.length = acc.row_idx.length ∧
      ∀ k, (k ≤ i → acc'.row_idx.getD k 0 = acc.row_idx.getD k 0) ∧
        (i < k → k ≤ i + rest.length → k < acc.row_idx.length →
          acc'.row_idx.getD k 0 = ((acc.col_idx ++ (rest.take (k - i)).flatMap
            (fun v => row_new_ids V (g.row_cols v) (g.row_vals v))).length : Int)) := by
  induction rest generalizing i acc with
  | nil =>
    refine ⟨acc, rfl, by simp, by cases acc.orig_eids <;> simp, rfl, ?_⟩
    intro k
    refine ⟨fun _ => rfl, ?_⟩
    intro h1 h2 _
    simp at h2
    omega
  | cons v rest ih =>
    have hv : v < g.shape0 := hlt v (List.mem_cons_self _ _)
    have hrest : ∀ x ∈ rest, x < g.shape0 := fun x hx => hlt x (List.mem_cons_of_mem _ hx)
    obtain ⟨acc', hok, hcol, hoe, hlen, hrow⟩ := ih hrest (i + 1)
      { row_idx := acc.row_idx.set (i + 1)
          ((acc.col_idx ++ row_new_ids V (g.row_cols v) (g.row_vals v)).length : Int),
        col_idx := acc.col_idx ++ row_new_ids V (g.row_cols v) (g.row_vals v),
        orig_eids := acc.orig_eids.map
          (fun l => l ++ row_old_eids V (g.row_cols v) (g.row_vals v)) }
    refine ⟨acc', ?_, ?_, ?_, ?_, ?_⟩
    · unfold GetSubgraph.loop
      simp only [hv, not_true_eq_false, if_false, CollectOnRow_eq]
      exact hok
    · simp [hcol, List.flatMap_cons]
    · rw [hoe]
      cases acc.orig_eids <;> simp [List.flatMap_cons]
    · simpa using hlen
    · intro k
      obtain ⟨h1, h2⟩ := hrow k
      constructor
      · intro hk
        rw [h1 (by omega)]
        simp only [List.getD_eq_getElem?_getD, List.getElem?_set]
        have : ¬ i + 1 = k := by omega
        simp [this]
      · intro hk1 hk2 hk3
        simp only [List.length_cons] at hk2
        by_cases hk : k = i + 1
        · subst hk
          rw [h1 (le_refl _)]
          simp only [List.getD_eq_getElem?_getD, List.getElem?_set]
          simp [hk3, List.flatMap_cons]
        · rw [h2 (by omega) (by omega) (by simpa using hk3)]
          have hki : k - i = (k - (i + 1)) + 1 := by omega
          rw [hki, List.take_succ_cons]
          simp [List.flatMap_cons, List.append_assoc]

theorem GetSubgraph_ok_inv (g : CSR) (V : List Int) (rm : Bool) (r : CSR × Option CSR)
    (h : GetSubgraph g V rm = .ok r) : is_sorted V = true ∧ ∀ v ∈ V, v < g.shape0 := by
  unfold GetSubgraph at h
  by_cases hs : is_sorted V = true
  · refine ⟨hs, ?_⟩
    simp only [hs, not_true_eq_false, if_false] at h
    split at h
    · exact absurd h (by simp)
    · next acc hacc => exact loop_ok_bound _ _ _ _ _ _ hacc
  · simp [hs] at h

theorem GetSubgraph_spec (g : CSR) (V : List Int) (rm : Bool) (hs : is_sorted V = true)
    (hlt : ∀ v ∈ V, v < g.shape0) :
    ∃ sub old, GetSubgraph g V rm = .ok (sub, old) ∧
      sub.shape0 = V.length ∧
      sub.indices = V.flatMap (fun v => row_new_ids V (g.row_cols v) (g.row_vals v)) ∧
      sub.data = (List.range sub.indices.length).map Int.ofNat ∧
      sub.indptr.length = V.length + 1 ∧
      (∀ k, k ≤ V.length → sub.indptr.getD k 0 = (((V.take k).flatMap
        (fun v => row_new_ids V (g.row_cols v) (g.row_vals v))).length : Int)) ∧
      old = (if rm then some
        { shape0 := V.length,
          data := V.flatMap (fun v => row_old_eids V (g.row_cols v) (g.row_vals v)),
          indices := sub.indices, indptr := sub.indptr } else none) := by
  obtain ⟨acc', hok, hcol, hoe, hlen, hrow⟩ := loop_spec g V V hlt 0
    { row_idx := List.replicate (V.length + 1) 0, col_idx := [],
      orig_eids := if rm then some [] else none }
  simp only [List.nil_append, List.length_replicate] at hcol hlen hrow
  refine ⟨{ shape0 := V.length, data := (List.range acc'.col_idx.length).map Int.ofNat,
             indices := acc'.col_idx, indptr := acc'.row_idx },
    (if rm then some { shape0 := V.length, data := acc'.orig_eids.getD [],
                       indices := acc'.col_idx, indptr := acc'.row_idx } else none),
    ?_, ?_, ?_, ?_, ?_, ?_, ?_⟩
  · unfold GetSubgraph
    simp only [hs, not_true_eq_false, if_false, hok]
  · rfl
  · exact hcol
  · rfl
  · exact hlen
  · intro k hk
    rcases Nat.eq_zero_or_pos k with rfl | hpos
    · rw [(hrow 0).1 (le_refl _)]
      simp
    · have := (hrow k).2 hpos (by omega) (by omega)
      simpa using this
  · cases rm
    · simp
    · simp only [if_true, Option.some.injEq, CSR.mk.injEq, true_and, and_true]
      rw [hoe]
      simp

/-! ## Reading a row out of a concatenation -/

theorem slice_flatMap_aux {α β : Type} (F : α → List β) (A B : List α) (x : α) :
    (((A ++ x :: B).flatMap F).drop (A.flatMap F).length).take
      (((A ++ [x]).flatMap F).length - (A.flatMap F).length) = F x := by
  simp only [List.flatMap_append, List.flatMap_cons, List.flatMap_nil, List.append_nil,
    List.length_append, Nat.add_sub_cancel_left, List.drop_left, List.take_left]

theorem slice_flatMap {α β : Type} (F : α → List β) (V : List α) (i : Nat) (hi : i < V.length) :
    ((V.flatMap F).drop ((V.take i).flatMap F).length).take
      (((V.take (i + 1)).flatMap F).length - ((V.take i).flatMap F).length) = F V[i] := by
  have h1 : V.take i ++ V[i] :: V.drop (i + 1) = V := by
    rw [← List.drop_eq_getElem_cons hi, List.take_append_drop]
  have h2 : V.take (i + 1) = V.take i ++ [V[i]] := by
    rw [List.take_succ, List.getElem?_eq_getElem hi]; rfl
  have h := slice_flatMap_aux F (V.take i) (V.drop (i + 1)) V[i]
  rw [h1, ← h2] at h
  exact h

/-! ## Rows in terms of the vertex array -/

theorem find_isSome_iff (V : List Int) (x : Int) :
    (umap_find (HashTableChecker.mk_from V).oldv2newv x).isSome = decide (x ∈ V) := by
  have h := fill_find_mem V 0 [] x
  simpa [HashTableChecker.mk_from, umap_find] using h

theorem find_of_nodup (V : List Int) (hnd : V.Nodup) (x : Int) :
    umap_find (HashTableChecker.mk_from V).oldv2newv x =
      if x ∈ V then some ((V.indexOf x : Nat) : Int) else none := by
  have h := fill_find_nodup V hnd 0 [] x
  simpa [HashTableChecker.mk_from, umap_find] using h

theorem row_old_eids_eq (V cols es : List Int) :
    row_old_eids V cols es =
      ((cols.zip es).filter (fun p => decide (p.1 ∈ V))).map Prod.snd := by
  unfold row_old_eids
  induction cols.zip es with
  | nil => simp
  | cons p l ih =>
    have h := find_isSome_iff V p.1
    by_cases hp : p.1 ∈ V
    · simp only [hp, decide_True] at h
      obtain ⟨n, hn⟩ := Option.isSome_iff_exists.mp h
      simp [List.filterMap_cons, hn, List.filter_cons, hp, ih]
    · simp only [hp, decide_False] at h
      have hn : umap_find (HashTableChecker.mk_from V).oldv2newv p.1 = none := by
        cases hf : umap_find (HashTableChecker.mk_from V).oldv2newv p.1 with
        | none => rfl
        | some n => rw [hf] at h; simp at h
      simp [List.filterMap_cons, hn, List.filter_cons, hp, ih]

theorem row_new_ids_take (V cols es : List Int) :
    row_new_ids V cols es =
      (cols.take es.length).filterMap
        (fun c => umap_find (HashTableChecker.mk_from V).oldv2newv c) := by
  unfold row_new_ids
  induction cols generalizing es with
  | nil => simp
  | cons c cs ih =>
    cases es with
    | nil => simp
    | cons e es =>
      simp only [List.zip_cons_cons, List.length_cons, List.take_succ_cons, List.filterMap_cons,
        ih es]

theorem row_new_ids_nodup (V : List Int) (hnd : V.Nodup) (cols es : List Int)
    (hlen : cols.length = es.length) :
    row_new_ids V cols es =
      (cols.filter (fun c => decide (c ∈ V))).map (fun c => ((V.indexOf c : Nat) : Int)) := by
  rw [row_new_ids_take, ← hlen, List.take_length]
  clear hlen
  have hf : (fun c => umap_find (HashTableChecker.mk_from V).oldv2newv c) =
      fun c => if c ∈ V then some ((V.indexOf c : Nat) : Int) else none := by
    funext c; exact find_of_nodup V hnd c
  rw [hf]
  induction cols with
  | nil => simp
  | cons c cs ih =>
    by_cases hc : c ∈ V
    · simp [List.filterMap_cons, hc, List.filter_cons, ih]
    · simp [List.filterMap_cons, hc, List.filter_cons, ih]

theorem row_lengths (g : CSR) (v : Int) : (g.row_cols v).length = (g.row_vals v).length := by
  simp [CSR.row_cols, CSR.row_vals]

theorem is_sorted_of_chain (V : List Int) (h : List.Chain' (· ≤ ·) V) : is_sorted V = true := by
  induction V with
  | nil => rfl
  | cons a l ih =>
    cases l with
    | nil => rfl
    | cons b l =>
      rw [List.chain'_cons] at h
      simp [is_sorted, h.1, ih h.2]

theorem list_ext_getD (l₁ l₂ : List Int) (hl : l₁.length = l₂.length)
    (h : ∀ k, k < l₁.length → l₁.getD k 0 = l₂.getD k 0) : l₁ = l₂ := by
  apply List.ext_getElem hl
  intro n h1 h2
  have := h n h1
  rwa [List.getD_eq_getElem _ _ h1, List.getD_eq_getElem _ _ h2] at this

theorem row_new_ids_congr (V cols es es' : List Int) (h : es.length = es'.length) :
    row_new_ids V cols es = row_new_ids V cols es' := by
  rw [row_new_ids_take, row_new_ids_take, h]

/-! ## Claims on `GetSubgraph` -/

/-- C9: on every accepted input the value array of the first output CSR of `GetSubgraph` is
`0, 1, ..., E-1` in output order, `E` being the number of output entries, and the first output
CSR stays the same when the edge ids stored in the source graph are replaced by others. -/
theorem C9_new_edge_ids_sequential (g : CSR) (V : List Int) (rm : Bool) (sub : CSR)
    (old : Option CSR) (h : GetSubgraph g V rm = .ok (sub, old)) :
    sub.data = (List.range sub.indices.length).map Int.ofNat ∧
    ∀ data' : List Int,
      ∃ old', GetSubgraph { g with data := data' } V rm = .ok (sub, old') := by
  obtain ⟨hs, hlt⟩ := GetSubgraph_ok_inv g V rm _ h
  obtain ⟨sub0, old0, h0, hsh0, hind0, hdat0, hlen0, hptr0, -⟩ := GetSubgraph_spec g V rm hs hlt
  rw [h0] at h
  injection h with h
  injection h with h1 h2
  subst h1
  refine ⟨hdat0, ?_⟩
  intro data'
  obtain ⟨sub1, old1, h1, hsh1, hind1, hdat1, hlen1, hptr1, -⟩ :=
    GetSubgraph_spec { g with data := data' } V rm hs hlt
  have hrow : ∀ v, row_new_ids V (CSR.row_cols { g with data := data' } v)
      (CSR.row_vals { g with data := data' } v) =
      row_new_ids V (g.row_cols v) (g.row_vals v) := by
    intro v
    apply row_new_ids_congr
    simp [CSR.row_vals, CSR.row_range]
  simp only [hrow] at hind1 hptr1
  have hind : sub1.indices = sub0.indices := by rw [hind1, hind0]
  have hptr : sub1.indptr = sub0.indptr := by
    apply list_ext_getD _ _ (by rw [hlen1, hlen0])
    intro k hk
    rw [hptr1 k (by omega), hptr0 k (by omega)]
  have hdat : sub1.data = sub0.data := by rw [hdat1, hdat0, hind]
  have hsh : sub1.shape0 = sub0.shape0 := by rw [hsh1, hsh0]
  have : sub1 = sub0 := by
    cases sub1; cases sub0; simp_all
  exact ⟨old1, by rw [h1, this]⟩

/-- Witness of C9 on the documented 4x4 example. -/
theorem C9_new_edge_ids_sequential_witness :
    example_sub.data = (List.range example_sub.indices.length).map Int.ofNat ∧
    ∀ data' : List Int,
      ∃ old', GetSubgraph { example_graph with data := data' } [0, 1, 2] true =
        .ok (example_sub, old') :=
  C9_new_edge_ids_sequential example_graph [0, 1, 2] true example_sub (some example_old)
    (by decide)

/-- C10: when the mapping is requested, on every accepted input the original-edge-id CSR has the
row pointer and the column indices of the new-edge-id CSR, and its values are the source edge ids
of the accepted source entries (those whose column is in the vertex array), rows taken in the
order of the vertex array and entries in source order. -/
theorem C10_mapping_same_structure (g : CSR) (V : List Int) (sub : CSR) (old : Option CSR)
    (h : GetSubgraph g V true = .ok (sub, old)) :
    ∃ o : CSR, old = some o ∧ o.indptr = sub.indptr ∧ o.indices = sub.indices ∧
      o.data.length = sub.data.length ∧
      o.data = V.flatMap (fun v =>
        (((g.row_cols v).zip (g.row_vals v)).filter (fun p => decide (p.1 ∈ V))).map Prod.snd) := by
  obtain ⟨hs, hlt⟩ := GetSubgraph_ok_inv g V true _ h
  obtain ⟨sub0, old0, h0, -, hind0, hdat0, -, -, hold⟩ := GetSubgraph_spec g V true hs hlt
  rw [h0] at h
  injection h with h
  injection h with h1 h2
  subst h1 h2
  simp only [if_true] at hold
  refine ⟨_, hold, rfl, rfl, ?_, ?_⟩
  · simp [hdat0, hind0, List.length_flatMap, Function.comp_def, row_ids_length]
  · simp only [row_old_eids_eq]

/-- Witness of C10 on the documented 4x4 example. -/
theorem C10_mapping_same_structure_witness :
    ∃ o : CSR, some example_old = some o ∧ o.indptr = example_sub.indptr ∧
      o.indices = example_sub.indices ∧ o.data.length = example_sub.data.length ∧
      o.data = [0, 1, 2].flatMap (fun v =>
        (((example_graph.row_cols v).zip (example_graph.row_vals v)).filter
          (fun p => decide (p.1 ∈ [0, 1, 2]))).map Prod.snd) :=
  C10_mapping_same_structure example_graph [0, 1, 2] example_sub (some example_old) (by decide)

theorem map_getD_range' (l : List Int) (a n : Nat) (h : a + n ≤ l.length) :
    (List.range' a n).map (fun i => l.getD i 0) = (l.drop a).take n := by
  apply List.ext_getElem
  · simp; omega
  · intro k h1 h2
    simp only [List.length_map, List.length_range'] at h1
    simp only [List.getElem_map, List.getElem_range'_1, List.getElem_take, List.getElem_drop]
    rw [List.getD_eq_getElem _ _ (by omega)]

theorem flatMap_take_length_le {α β : Type} (F : α → List β) (V : List α) (k : Nat) :
    ((V.take k).flatMap F).length ≤ (V.flatMap F).length := by
  conv_rhs => rw [← List.take_append_drop k V, List.flatMap_append, List.length_append]
  omega

theorem sub_row_cols_eq (g : CSR) (V : List Int) (sub : CSR)
    (hind : sub.indices = V.flatMap (fun v => row_new_ids V (g.row_cols v) (g.row_vals v)))
    (hptr : ∀ k, k ≤ V.length → sub.indptr.getD k 0 = (((V.take k).flatMap
        (fun v => row_new_ids V (g.row_cols v) (g.row_vals v))).length : Int))
    (i : Nat) (hi : i < V.length) :
    sub.row_cols (i : Int) = row_new_ids V (g.row_cols V[i]) (g.row_vals V[i]) := by
  have h1 := hptr i (by omega)
  have h2 := hptr (i + 1) (by omega)
  have e1 : rd sub.indptr (i : Int) = sub.indptr.getD i 0 := by simp [rd]
  have e2 : rd sub.indptr ((i : Int) + 1) = sub.indptr.getD (i + 1) 0 := by
    have : ((i : Int) + 1).toNat = i + 1 := by omega
    have hnn : ¬ ((i : Int) + 1 < 0) := by omega
    simp [rd, this, hnn]
  have h3 : ∀ a b : Nat, ((a : Int) - (b : Int)).toNat = a - b := by intro a b; omega
  have hmono : ((V.take i).flatMap
      (fun v => row_new_ids V (g.row_cols v) (g.row_vals v))).length ≤
      ((V.take (i + 1)).flatMap
        (fun v => row_new_ids V (g.row_cols v) (g.row_vals v))).length := by
    have := flatMap_take_length_le (fun v => row_new_ids V (g.row_cols v) (g.row_vals v))
      (V.take (i + 1)) i
    rwa [List.take_take, Nat.min_eq_left (by omega)] at this
  have hle := flatMap_take_length_le (fun v => row_new_ids V (g.row_cols v) (g.row_vals v))
    V (i + 1)
  unfold CSR.row_cols CSR.row_range
  rw [e1, e2, h1, h2, h3, Int.toNat_ofNat, map_getD_range' _ _ _ (by rw [hind]; omega), hind]
  exact slice_flatMap (fun v => row_new_ids V (g.row_cols v) (g.row_vals v)) V i hi

/-- C2: for a strictly increasing vertex array `V` with ids in `[0, num_vertices)`, `GetSubgraph`
returns a CSR whose row `i` is the list of the ranks in `V` of the columns `c` of source row
`V[i]` with `c ∈ V`, in source order; so every local column is a position of `V`, and local
column `j` is in row `i` exactly when the source graph has an entry `(V[i], V[j])`. -/
theorem C2_induced_rows_exact (g : CSR) (V : List Int) (rm : Bool)
    (hV : V.Sorted (· < ·)) (hin : ∀ v ∈ V, 0 ≤ v ∧ v < g.shape0) :
    ∃ sub old, GetSubgraph g V rm = .ok (sub, old) ∧
      ∀ i (hi : i < V.length),
        sub.row_cols (i : Int) =
          ((g.row_cols V[i]).filter (fun c => decide (c ∈ V))).map
            (fun c => ((V.indexOf c : Nat) : Int)) ∧
        (∀ c ∈ sub.row_cols (i : Int), 0 ≤ c ∧ c < V.length) ∧
        ∀ j (hj : j < V.length), ((j : Int) ∈ sub.row_cols (i : Int) ↔ V[j] ∈ g.row_cols V[i]) := by
  have hnd : V.Nodup := hV.nodup
  have hs : is_sorted V = true := by
    apply is_sorted_of_chain
    exact (List.chain'_iff_pairwise.mpr hV).imp (fun {a b} h => le_of_lt h)
  obtain ⟨sub, old, hok, -, hind, -, -, hptr, -⟩ :=
    GetSubgraph_spec g V rm hs (fun v hv => (hin v hv).2)
  refine ⟨sub, old, hok, ?_⟩
  intro i hi
  have hrow : sub.row_cols (i : Int) =
      ((g.row_cols V[i]).filter (fun c => decide (c ∈ V))).map
        (fun c => ((V.indexOf c : Nat) : Int)) := by
    rw [sub_row_cols_eq g V sub hind hptr i hi]
    exact row_new_ids_nodup V hnd _ _ (row_lengths g _)
  refine ⟨hrow, ?_, ?_⟩
  · intro c hc
    rw [hrow] at hc
    obtain ⟨x, hx, rfl⟩ := List.mem_map.mp hc
    have hxV : x ∈ V := by simpa using (List.mem_filter.mp hx).2
    have := List.indexOf_lt_length.mpr hxV
    omega
  · intro j hj
    rw [hrow]
    constructor
    · intro h
      obtain ⟨x, hx, hxj⟩ := List.mem_map.mp h
      have hxV : x ∈ V := by simpa using (List.mem_filter.mp hx).2
      have hidx : V.indexOf x = j := by exact_mod_cast hxj
      have : V[j] = x := by
        subst hidx
        exact List.getElem_indexOf _
      rw [this]
      exact (List.mem_filter.mp hx).1
    · intro h
      refine List.mem_map.mpr ⟨V[j], List.mem_filter.mpr ⟨h, by simp⟩, ?_⟩
      rw [List.indexOf_getElem hnd j hj]

/-- Witness of C2 on the documented 4x4 example. -/
theorem C2_induced_rows_exact_witness :
    ∃ sub old, GetSubgraph example_graph [0, 1, 2] true = .ok (sub, old) ∧
      ∀ i (hi : i < [(0 : Int), 1, 2].length),
        sub.row_cols (i : Int) =
          ((example_graph.row_cols [(0 : Int), 1, 2][i]).filter
            (fun c => decide (c ∈ [(0 : Int), 1, 2]))).map
            (fun c => (([(0 : Int), 1, 2].indexOf c : Nat) : Int)) ∧
        (∀ c ∈ sub.row_cols (i : Int), 0 ≤ c ∧ c < [(0 : Int), 1, 2].length) ∧
        ∀ j (hj : j < [(0 : Int), 1, 2].length),
          ((j : Int) ∈ sub.row_cols (i : Int) ↔
            [(0 : Int), 1, 2][j] ∈ example_graph.row_cols [(0 : Int), 1, 2][i]) :=
  C2_induced_rows_exact example_graph [0, 1, 2] true (by decide) (by decide)

/-! ## Uniform sampling -/

theorem uset_insert_nodup (s : List Nat) (x : Nat) (h : s.Nodup) : (uset_insert s x).Nodup := by
  unfold uset_insert
  by_cases hx : x ∈ s
  · simpa [hx] using h
  · simp only [hx, if_false]
    exact List.nodup_append.mpr ⟨h, List.nodup_singleton x, by
      intro a ha hb
      rw [List.mem_singleton] at hb
      exact hx (hb ▸ ha)⟩

theorem uset_insert_length (s : List Nat) (x : Nat) :
    (uset_insert s x).length ≤ s.length + 1 ∧ s.length ≤ (uset_insert s x).length := by
  unfold uset_insert
  by_cases hx : x ∈ s <;> simp [hx]

theorem uset_insert_mem (s : List Nat) (x y : Nat) :
    y ∈ uset_insert s x ↔ y ∈ s ∨ y = x := by
  unfold uset_insert
  by_cases hx : x ∈ s
  · simp only [hx, if_true]
    constructor
    · exact Or.inl
    · rintro (h | rfl)
      · exact h
      · exact hx
  · simp [hx]

theorem RandomSample_loop_spec (n num : Nat) (hn : 0 < n) (draws s : List Nat)
    (out rest : List Nat) (hs : s.Nodup) (hb : ∀ x ∈ s, x < n) (hl : s.length ≤ num)
    (h : RandomSample.loop n num s draws = .ok (out, rest)) :
    out.Nodup ∧ (∀ x ∈ out, x < n) ∧ out.length = num := by
  induction draws generalizing s with
  | nil =>
    unfold RandomSample.loop at h
    by_cases hlt : s.length < num
    · simp [hlt] at h
    · simp only [hlt, if_false, Res.ok.injEq, Prod.mk.injEq] at h
      obtain ⟨rfl, -⟩ := h
      exact ⟨hs, hb, by omega⟩
  | cons d ds ih =>
    unfold RandomSample.loop at h
    by_cases hlt : s.length < num
    · simp only [hlt, if_true] at h
      refine ih _ (uset_insert_nodup s _ hs) ?_ ?_ h
      · intro x hx
        rcases (uset_insert_mem s _ x).mp hx with hx | rfl
        · exact hb x hx
        · exact Nat.mod_lt _ hn
      · have := (uset_insert_length s (d % n)).1
        omega
    · simp only [hlt, if_false, Res.ok.injEq, Prod.mk.injEq] at h
      obtain ⟨rfl, -⟩ := h
      exact ⟨hs, hb, by omega⟩

theorem sort_idxs_spec (l : List Nat) (hnd : l.Nodup) :
    (sort_idxs l).Sorted (· < ·) ∧ (sort_idxs l).length = l.length ∧
      ∀ x, x ∈ sort_idxs l ↔ x ∈ l := by
  have hp : (sort_idxs l).Perm l := List.perm_insertionSort _ l
  have hsrt : (sort_idxs l).Sorted (· ≤ ·) := List.sorted_insertionSort _ l
  refine ⟨?_, hp.length_eq, fun x => hp.mem_iff⟩
  exact hsrt.lt_of_le (hp.nodup_iff.mpr hnd)

theorem strictly_increasing_of_sorted (l : List Nat) (h : l.Sorted (· < ·)) :
    strictly_increasing l = true := by
  induction l with
  | nil => rfl
  | cons a l ih =>
    cases l with
    | nil => rfl
    | cons b l =>
      have h1 : a < b := List.rel_of_sorted_cons h b (List.mem_cons_self _ _)
      simp [strictly_increasing, h1, ih h.of_cons]

theorem NegateSet_loop_spec (steps : Nat) (i : Nat) (idxs out : List Nat)
    (hs : idxs.Sorted (· < ·)) (hb : ∀ x ∈ idxs, i ≤ x ∧ x < i + steps) :
    NegateSet.loop steps i idxs out =
        out ++ (List.range' i steps).filter (fun x => decide (x ∉ idxs)) ∧
      ((List.range' i steps).filter (fun x => decide (x ∉ idxs))).length + idxs.length = steps := by
  induction steps generalizing i idxs out with
  | zero =>
    cases idxs with
    | nil => simp [NegateSet.loop]
    | cons x it =>
      have := hb x (List.mem_cons_self _ _)
      omega
  | succ steps ih =>
    cases idxs with
    | nil =>
      obtain ⟨h1, h2⟩ := ih (i + 1) [] (out ++ [i]) (List.sorted_nil) (by simp)
      simp only [NegateSet.loop, h1, List.range'_succ]
      simp at h2 ⊢
    | cons x it =>
      have hx := hb x (List.mem_cons_self _ _)
      have hgt : ∀ y ∈ it, x < y := fun y hy => List.rel_of_sorted_cons hs y hy
      by_cases hxi : x = i
      · subst hxi
        obtain ⟨h1, h2⟩ := ih (x + 1) it out hs.of_cons (by
          intro y hy
          have := hgt y hy
          have := (hb y (List.mem_cons_of_mem _ hy)).2
          omega)
        have hcongr : (List.range' (x + 1) steps).filter (fun y => decide (y ∉ x :: it)) =
            (List.range' (x + 1) steps).filter (fun y => decide (y ∉ it)) := by
          apply List.filter_congr
          intro y hy
          have := (List.mem_range'_1.mp hy).1
          have hne : y ≠ x := by omega
          simp [hne]
        have e : (List.range' x (steps + 1)).filter (fun y => decide (y ∉ x :: it)) =
            (List.range' (x + 1) steps).filter (fun y => decide (y ∉ it)) := by
          rw [List.range'_succ, List.filter_cons_of_neg (by simp), hcongr]
        rw [e]
        refine ⟨by simp only [NegateSet.loop, if_true, h1], ?_⟩
        simp only [List.length_cons]
        omega
      · have hlt : i < x := by omega
        obtain ⟨h1, h2⟩ := ih (i + 1) (x :: it) (out ++ [i]) hs (by
          intro y hy
          rcases List.mem_cons.mp hy with rfl | hy'
          · omega
          · have := hgt y hy'
            have := (hb y hy).2
            omega)
        have hni : i ∉ x :: it := by
          intro hmem
          rcases List.mem_cons.mp hmem with rfl | hy'
          · omega
          · have := hgt i hy'
            omega
        have e : (List.range' i (steps + 1)).filter (fun y => decide (y ∉ x :: it)) =
            i :: (List.range' (i + 1) steps).filter (fun y => decide (y ∉ x :: it)) := by
          rw [List.range'_succ, List.filter_cons_of_pos (by simpa using hni)]
        rw [e]
        refine ⟨by simp only [NegateSet.loop, hxi, if_false, h1, List.append_assoc,
          List.singleton_append], ?_⟩
        simp only [List.length_cons] at h2 ⊢
        omega

theorem RandomSample_loop_cases (n num : Nat) (draws s : List Nat) :
    RandomSample.loop n num s draws = .fail .draws_exhausted ∨
      ∃ out rest, RandomSample.loop n num s draws = .ok (out, rest) := by
  induction draws generalizing s with
  | nil =>
    unfold RandomSample.loop
    by_cases hlt : s.length < num
    · simp [hlt]
    · simp [hlt]
  | cons d ds ih =>
    unfold RandomSample.loop
    by_cases hlt : s.length < num
    · simp only [hlt, if_true]
      exact ih _
    · simp [hlt]

theorem NegateSet_spec (idxs : List Nat) (n : Nat) (hne : idxs ≠ [])
    (hs : idxs.Sorted (· < ·)) (hb : ∀ x ∈ idxs, x < n) :
    ∃ out, NegateSet idxs n [] = .ok out ∧ out.Sorted (· < ·) ∧
      out.length + idxs.length = n ∧ (∀ x ∈ out, x < n ∧ x ∉ idxs) := by
  obtain ⟨h1, h2⟩ := NegateSet_loop_spec n 0 idxs [] hs (fun x hx => ⟨Nat.zero_le _, by
    have := hb x hx
    omega⟩)
  refine ⟨_, ?_, ?_, h2, ?_⟩
  · unfold NegateSet
    rw [List.getLast?_eq_getLast idxs hne]
    have := hb _ (List.getLast_mem hne)
    simp only [gt_iff_lt, this, if_true, h1, List.nil_append]
  · exact (List.pairwise_lt_range' 0 n).filter _
  · intro x hx
    obtain ⟨hx1, hx2⟩ := List.mem_filter.mp hx
    have := (List.mem_range'_1.mp hx1).2
    exact ⟨by omega, by simpa using hx2⟩

theorem sorted_idxs_spec (n k : Nat) (hk : k < n) (draws : List Nat) :
    GetUniformSample.sorted_idxs n k draws = .fail .draws_exhausted ∨
      ∃ idxs rest, GetUniformSample.sorted_idxs n k draws = .ok (idxs, rest) ∧
        idxs.Sorted (· < ·) ∧ idxs.length = k ∧ ∀ x ∈ idxs, x < n := by
  have hn : 0 < n := by omega
  unfold GetUniformSample.sorted_idxs
  by_cases hbig : n > k * 2
  · simp only [hbig, if_true]
    rcases RandomSample_loop_cases n k draws [] with hf | ⟨out, rest, hok⟩
    · left
      simp only [RandomSample, hf]
    · right
      obtain ⟨hnd, hb, hl⟩ := RandomSample_loop_spec n k hn draws [] out rest List.nodup_nil
        (by simp) (by simp) hok
      obtain ⟨h1, h2, h3⟩ := sort_idxs_spec out hnd
      refine ⟨sort_idxs out, rest, by simp only [RandomSample, hok], h1, by omega, ?_⟩
      intro x hx
      exact hb x ((h3 x).mp hx)
  · simp only [hbig, if_false]
    rcases RandomSample_loop_cases n (n - k) draws [] with hf | ⟨out, rest, hok⟩
    · left
      simp only [RandomSample, hf]
    · right
      obtain ⟨hnd, hb, hl⟩ := RandomSample_loop_spec n (n - k) hn draws [] out rest
        List.nodup_nil (by simp) (by simp) hok
      obtain ⟨h1, h2, h3⟩ := sort_idxs_spec out hnd
      have hne : sort_idxs out ≠ [] := by
        intro h
        rw [h] at h2
        simp at h2
        omega
      obtain ⟨res, hres, hsrt, hlen, hmem⟩ := NegateSet_spec (sort_idxs out) n hne h1
        (fun x hx => hb x ((h3 x).mp hx))
      refine ⟨res, rest, by simp only [RandomSample, hok, hres], hsrt, by omega, ?_⟩
      intro x hx
      exact (hmem x hx).1

theorem map_getD_range (l : List Int) : (List.range l.length).map (fun i => l.getD i 0) = l := by
  apply List.ext_getElem (by simp)
  intro i h1 h2
  simp [List.getElem?_eq_getElem h2]

/-- C4: for neighbor lists of length `n` and `0 ≤ k ≤ n`, on every draw sequence on which the
rejection loop finishes, `GetUniformSample` keeps exactly `k` positions of `[0, n)`, pairwise
distinct and in strictly increasing order; with `k = n` they are `0, ..., n-1`, with `k = 0`
there are none. -/
theorem C4_uniform_positions (ver_list edge_list : List Int) (k : Nat) (draws : List Nat)
    (hlen : ver_list.length = edge_list.length) (hk : k ≤ ver_list.length)
    (hfin : GetUniformSample ver_list edge_list k draws ≠ .fail .draws_exhausted) :
    ∃ idxs rest,
      GetUniformSample ver_list edge_list k draws =
        .ok (idxs.map (fun i => ver_list.getD i 0), idxs.map (fun i => edge_list.getD i 0),
             rest) ∧
      idxs.length = k ∧ idxs.Sorted (· < ·) ∧ idxs.Nodup ∧ (∀ i ∈ idxs, i < ver_list.length) ∧
      (k = ver_list.length → idxs = List.range ver_list.length) ∧ (k = 0 → idxs = []) := by
  by_cases hle : ver_list.length ≤ k
  · have hkn : k = ver_list.length := by omega
    refine ⟨List.range ver_list.length, draws, ?_, by simp [hkn], ?_, List.nodup_range _, ?_,
      fun _ => rfl, ?_⟩
    · unfold GetUniformSample
      simp only [hlen, ne_eq, not_true_eq_false, if_false]
      rw [← hlen]
      simp only [hle, if_true]
      conv_rhs => rw [hlen, map_getD_range edge_list, ← hlen, map_getD_range ver_list]
    · exact List.pairwise_lt_range _
    · intro i hi
      exact List.mem_range.mp hi
    · intro h0
      have : ver_list.length = 0 := by omega
      simp [this]
  · have hlt : k < ver_list.length := by omega
    rcases sorted_idxs_spec ver_list.length k hlt draws with hf | ⟨idxs, rest, hok, hs, hl, hb⟩
    · exfalso
      apply hfin
      unfold GetUniformSample
      simp only [hlen, ne_eq, not_true_eq_false, if_false]
      rw [← hlen]
      simp only [hle, if_false, hf]
    · refine ⟨idxs, rest, ?_, hl, hs, hs.nodup, hb, fun h => by omega, ?_⟩
      · unfold GetUniformSample
        simp only [hlen, ne_eq, not_true_eq_false, if_false]
        rw [← hlen]
        simp only [hle, if_false, hok, hl, not_true_eq_false,
          strictly_increasing_of_sorted idxs hs]
      · intro h0
        exact List.length_eq_zero.mp (by omega)

/-- Witness of C4: two of five positions, drawn directly. -/
theorem C4_uniform_positions_witness :
    ∃ idxs rest,
      GetUniformSample [10, 11, 12, 13, 14] [1, 2, 3, 4, 5] 2 [7, 7, 3, 9] =
        .ok (idxs.map (fun i => [(10 : Int), 11, 12, 13, 14].getD i 0),
             idxs.map (fun i => [(1 : Int), 2, 3, 4, 5].getD i 0), rest) ∧
      idxs.length = 2 ∧ idxs.Sorted (· < ·) ∧ idxs.Nodup ∧
      (∀ i ∈ idxs, i < [(10 : Int), 11, 12, 13, 14].length) ∧
      (2 = [(10 : Int), 11, 12, 13, 14].length → idxs = List.range [(10 : Int), 11, 12, 13, 14].length) ∧
      (2 = 0 → idxs = []) :=
  C4_uniform_positions [10, 11, 12, 13, 14] [1, 2, 3, 4, 5] 2 [7, 7, 3, 9] (by decide)
    (by decide) (by decide)

/-! ## Weighted sampling: the segment-sum tree -/

theorem getD_set_q (l : List ℚ) (i j : Nat) (v : ℚ) :
    (l.set i v).getD j 0 = if i = j ∧ j < l.length then v else l.getD j 0 := by
  simp only [List.getD_eq_getElem?_getD, List.getElem?_set]
  by_cases h : i = j
  · subst h
    by_cases h2 : i < l.length
    · simp [h2]
    · simp [h2, List.getElem?_eq_none (Nat.le_of_not_lt h2)]
  · simp [h]

theorem Delete_loop_length (w : ℚ) (steps : Nat) (heap : List ℚ) (i : Nat) :
    (ArrayHeap.Delete.loop w steps heap i).length = heap.length := by
  induction steps generalizing heap i with
  | zero => rfl
  | succ s ih => simp [ArrayHeap.Delete.loop, ih]

theorem Delete_loop_getD (w : ℚ) (steps : Nat) (heap : List ℚ) (i j : Nat)
    (hj : j < heap.length) :
    (ArrayHeap.Delete.loop w steps heap i).getD j 0 =
      heap.getD j 0 - w * (path_count steps i j : ℚ) := by
  induction steps generalizing heap i with
  | zero => simp [ArrayHeap.Delete.loop, path_count]
  | succ s ih =>
    simp only [ArrayHeap.Delete.loop, path_count]
    rw [ih _ _ (by simpa using hj), getD_set_q]
    by_cases h : i = j
    · subst h
      simp only [hj, and_self, if_true, Nat.cast_add, Nat.cast_one]
      ring
    · simp only [h, false_and, if_false, Nat.cast_add, Nat.cast_zero]
      ring

theorem path_count_succ (steps i j : Nat) :
    path_count (steps + 1) i j = (if i = j then 1 else 0) + path_count steps (i / 2) j := rfl

theorem path_count_of_lt (steps i j : Nat) (h : i < j) : path_count steps i j = 0 := by
  induction steps generalizing i with
  | zero => rfl
  | succ s ih =>
    have h1 : i ≠ j := by omega
    have h2 : i / 2 < j := by omega
    simp [path_count, h1, ih _ h2]

/-- Among the nodes of the level of `i`, the loop of `Delete` touches `i` alone. -/
theorem path_count_same_level (s i j : Nat) (hi : i < 2 ^ (s + 1)) (hj : 2 ^ s ≤ j) :
    path_count (s + 1) i j = if i = j then 1 else 0 := by
  have h2 : i / 2 < j := by
    have : 2 ^ (s + 1) = 2 * 2 ^ s := by ring
    omega
  simp [path_count, path_count_of_lt _ _ _ h2]

/-- An inner node is touched exactly when one of its children is. -/
theorem path_count_children (s i j : Nat) (hi1 : 2 ^ s ≤ i) (hi2 : i < 2 ^ (s + 1))
    (hj1 : 1 ≤ j) (hj2 : j < 2 ^ s) :
    path_count (s + 1) i (2 * j) + path_count (s + 1) i (2 * j + 1) =
      path_count (s + 1) i j := by
  induction s generalizing i with
  | zero => simp at hj2; omega
  | succ s ih =>
    have hp : 2 ^ (s + 1) = 2 * 2 ^ s := by ring
    have hp2 : 2 ^ (s + 1 + 1) = 2 * 2 ^ (s + 1) := by ring
    have hne : i ≠ j := by omega
    rw [path_count_succ (s + 1) i (2 * j), path_count_succ (s + 1) i (2 * j + 1),
      path_count_succ (s + 1) i j]
    simp only [hne, if_false, zero_add]
    by_cases hlow : j < 2 ^ s
    · have e := ih (i / 2) (by omega) (by omega) hlow
      have h1 : i ≠ 2 * j := by omega
      have h2 : i ≠ 2 * j + 1 := by omega
      simp only [h1, h2, if_false, zero_add]
      exact e
    · have hj : 2 ^ s ≤ j := by omega
      rw [path_count_of_lt _ (i / 2) (2 * j) (by omega),
        path_count_of_lt _ (i / 2) (2 * j + 1) (by omega),
        path_count_same_level s (i / 2) j (by omega) hj]
      by_cases h1 : i = 2 * j
      · have : i / 2 = j := by omega
        have h2 : i ≠ 2 * j + 1 := by omega
        simp [h1, this]
      · by_cases h2 : i = 2 * j + 1
        · have : i / 2 = j := by omega
          rw [if_neg h1, if_pos h2, if_pos this]
        · have : i / 2 ≠ j := by omega
          simp [h1, h2, this]

/-! ### Construction -/

theorem foldl_set_length (f : List ℚ → Nat → ℚ) (js : List Nat) (heap : List ℚ) :
    (js.foldl (fun h i => h.set i (f h i)) heap).length = heap.length := by
  induction js generalizing heap with
  | nil => rfl
  | cons j js ih => simp [List.foldl_cons, ih]

theorem fill_leaves_getD (prob : List ℚ) (limit : Nat) (heap : List ℚ) (j : Nat)
    (hj : j < heap.length) :
    (ArrayHeap.fill_leaves prob limit heap).getD j 0 =
      if limit ≤ j ∧ j < limit + prob.length then prob.getD (j - limit) 0 else heap.getD j 0 := by
  unfold ArrayHeap.fill_leaves
  have key : ∀ (js : List Nat) (heap : List ℚ), j < heap.length →
      (js.foldl (fun h i => h.set i (prob.getD (i - limit) 0)) heap).getD j 0 =
        if j ∈ js then prob.getD (j - limit) 0 else heap.getD j 0 := by
    intro js
    induction js with
    | nil => intro heap _; simp
    | cons i js ih =>
      intro heap hl
      rw [List.foldl_cons, ih _ (by simpa using hl), getD_set_q]
      by_cases h1 : j ∈ js
      · simp [h1]
      · by_cases h2 : i = j
        · subst h2; simp [hl]
        · have h3 : ¬ j = i := fun e => h2 e.symm
          simp [h1, h2, h3]
  rw [key _ _ hj]
  simp only [List.mem_range'_1]

theorem sum_level_length (js : List Nat) (heap : List ℚ) :
    (ArrayHeap.sum_level js heap).length = heap.length :=
  foldl_set_length (fun h j => h.getD (2 * j) 0 + h.getD (2 * j + 1) 0) js heap

theorem sum_level_getD (js : List Nat) (heap : List ℚ)
    (hjs : ∀ j ∈ js, 2 * j ∉ js ∧ 2 * j + 1 ∉ js ∧ j < heap.length) (x : Nat) :
    (ArrayHeap.sum_level js heap).getD x 0 =
      if x ∈ js then heap.getD (2 * x) 0 + heap.getD (2 * x + 1) 0 else heap.getD x 0 := by
  unfold ArrayHeap.sum_level
  induction js generalizing heap with
  | nil => simp
  | cons j js ih =>
    have hj := hjs j (List.mem_cons_self _ _)
    have hjs' : ∀ y ∈ js, 2 * y ∉ js ∧ 2 * y + 1 ∉ js ∧
        y < (heap.set j (heap.getD (2 * j) 0 + heap.getD (2 * j + 1) 0)).length := by
      intro y hy
      have := hjs y (List.mem_cons_of_mem _ hy)
      exact ⟨fun h => this.1 (List.mem_cons_of_mem _ h),
        fun h => this.2.1 (List.mem_cons_of_mem _ h), by simpa using this.2.2⟩
    rw [List.foldl_cons, ih _ hjs']
    by_cases hx : x ∈ js
    · have hxx := hjs x (List.mem_cons_of_mem _ hx)
      have h1 : j ≠ 2 * x := fun e => hxx.1 (e ▸ List.mem_cons_self _ _)
      have h2 : j ≠ 2 * x + 1 := fun e => hxx.2.1 (e ▸ List.mem_cons_self _ _)
      simp [hx, getD_set_q, h1, h2]
    · by_cases hxj : j = x
      · subst hxj
        simp [hx, getD_set_q, hj.2.2]
      · have h3 : ¬ x = j := fun e => hxj e.symm
        simp [hx, getD_set_q, hxj, h3]

theorem sum_up_length (bit_len : Nat) (heap : List ℚ) :
    (ArrayHeap.sum_up bit_len heap).length = heap.length := by
  unfold ArrayHeap.sum_up
  induction bit_len generalizing heap with
  | zero => rfl
  | succ m ih =>
    rw [List.range_succ, List.reverse_append, List.reverse_singleton, List.singleton_append,
      List.foldl_cons, ih, sum_level_length]

theorem sum_up_spec (bl m : Nat) (hm : m ≤ bl) (heap : List ℚ) (hlen : heap.length = 2 * 2 ^ bl)
    (hinv : ∀ j, 2 ^ m ≤ j → j < 2 ^ bl →
      heap.getD j 0 = heap.getD (2 * j) 0 + heap.getD (2 * j + 1) 0) :
    (∀ j, 1 ≤ j → j < 2 ^ bl →
      (ArrayHeap.sum_up m heap).getD j 0 =
        (ArrayHeap.sum_up m heap).getD (2 * j) 0 + (ArrayHeap.sum_up m heap).getD (2 * j + 1) 0) ∧
    (∀ x, 2 ^ bl ≤ x → (ArrayHeap.sum_up m heap).getD x 0 = heap.getD x 0) := by
  induction m generalizing heap with
  | zero =>
    refine ⟨fun j h1 h2 => ?_, fun x _ => rfl⟩
    exact hinv j (by simpa using h1) h2
  | succ m ih =>
    have hpm : 2 ^ (m + 1) = 2 * 2 ^ m := by ring
    have hmb : 2 ^ (m + 1) ≤ 2 ^ bl := Nat.pow_le_pow_right (by norm_num) hm
    have hstep : ArrayHeap.sum_up (m + 1) heap =
        ArrayHeap.sum_up m (ArrayHeap.sum_level (List.range' (2 ^ m) (2 ^ m)) heap) := by
      unfold ArrayHeap.sum_up
      rw [List.range_succ, List.reverse_append, List.reverse_singleton, List.singleton_append,
        List.foldl_cons]
    have hjs : ∀ j ∈ List.range' (2 ^ m) (2 ^ m), 2 * j ∉ List.range' (2 ^ m) (2 ^ m) ∧
        2 * j + 1 ∉ List.range' (2 ^ m) (2 ^ m) ∧ j < heap.length := by
      intro j hj
      have := List.mem_range'_1.mp hj
      refine ⟨fun h => ?_, fun h => ?_, by omega⟩
      · have := List.mem_range'_1.mp h; omega
      · have := List.mem_range'_1.mp h; omega
    have hlv := sum_level_getD _ heap hjs
    obtain ⟨h1, h2⟩ := ih (by omega) (ArrayHeap.sum_level (List.range' (2 ^ m) (2 ^ m)) heap)
      (by rw [sum_level_length, hlen]) (by
        intro j hj1 hj2
        rw [hlv j, hlv (2 * j), hlv (2 * j + 1)]
        have n1 : 2 * j ∉ List.range' (2 ^ m) (2 ^ m) := by
          intro h; have := List.mem_range'_1.mp h; omega
        have n2 : 2 * j + 1 ∉ List.range' (2 ^ m) (2 ^ m) := by
          intro h; have := List.mem_range'_1.mp h; omega
        simp only [n1, n2, if_false]
        by_cases hj : j ∈ List.range' (2 ^ m) (2 ^ m)
        · simp only [hj, if_true]
        · simp only [hj, if_false]
          have : ¬ (2 ^ m ≤ j ∧ j < 2 ^ m + 2 ^ m) := fun h => hj (List.mem_range'_1.mpr h)
          exact hinv j (by omega) hj2)
    rw [hstep]
    refine ⟨h1, fun x hx => ?_⟩
    rw [h2 x hx, hlv x]
    have : x ∉ List.range' (2 ^ m) (2 ^ m) := by
      intro h; have := List.mem_range'_1.mp h; omega
    simp only [this, if_false]

theorem ceil_log2_go_le (n fuel b : Nat) (h : n ≤ 2 ^ (b + fuel)) :
    n ≤ 2 ^ ceil_log2.go n fuel b := by
  induction fuel generalizing b with
  | zero => simpa [ceil_log2.go] using h
  | succ f ih =>
    unfold ceil_log2.go
    by_cases hb : n ≤ 2 ^ b
    · simp [hb]
    · simp only [hb, if_false]
      exact ih (b + 1) (by rw [show b + 1 + f = b + (f + 1) by ring]; exact h)

theorem le_two_pow_ceil_log2 (n : Nat) : n ≤ 2 ^ ceil_log2 n := by
  apply ceil_log2_go_le
  rw [Nat.zero_add]
  exact Nat.le_of_lt (Nat.lt_two_pow n)

/-- The constructor establishes the tree invariant. -/
theorem mk_from_WF (prob : List ℚ) : (ArrayHeap.mk_from prob).WF prob [] := by
  have hsz : prob.length ≤ 2 ^ ceil_log2 prob.length := le_two_pow_ceil_log2 _
  have hlen0 : (ArrayHeap.fill_leaves prob (2 ^ ceil_log2 prob.length)
      (List.replicate (2 * 2 ^ ceil_log2 prob.length) 0)).length =
      2 * 2 ^ ceil_log2 prob.length := by
    unfold ArrayHeap.fill_leaves
    rw [foldl_set_length (fun _ i => prob.getD (i - 2 ^ ceil_log2 prob.length) 0)]
    simp
  obtain ⟨h1, h2⟩ := sum_up_spec (ceil_log2 prob.length) (ceil_log2 prob.length) (le_refl _)
    _ hlen0 (by intro j hj1 hj2; omega)
  have e_heap : (ArrayHeap.mk_from prob).heap_ = ArrayHeap.sum_up (ceil_log2 prob.length)
      (ArrayHeap.fill_leaves prob (2 ^ ceil_log2 prob.length)
        (List.replicate (2 * 2 ^ ceil_log2 prob.length) 0)) := rfl
  have e_lim : (ArrayHeap.mk_from prob).limit_ = 2 ^ ceil_log2 prob.length := rfl
  have e_bl : (ArrayHeap.mk_from prob).bit_len_ = ceil_log2 prob.length := rfl
  refine ⟨by rw [e_lim, e_bl], by rw [e_lim]; exact hsz,
    by rw [e_heap, e_lim, sum_up_length, hlen0], ?_, ?_⟩
  · intro j hj1 hj2
    rw [e_lim] at hj2
    rw [e_heap]
    exact h1 j hj1 hj2
  · intro p hp
    rw [e_lim] at hp
    rw [e_heap, e_lim, h2 _ (Nat.le_add_right _ _),
      fill_leaves_getD _ _ _ _ (by simp; omega)]
    simp only [List.not_mem_nil, if_false, Nat.le_add_right, true_and, Nat.add_sub_cancel_left,
      Nat.add_lt_add_iff_left]
    by_cases hpn : p < prob.length
    · simp [hpn]
    · simp only [hpn, if_false]
      rw [List.getD_eq_default prob 0 (by omega)]
      simp only [List.getD_eq_getElem?_getD, List.getElem?_replicate]
      split <;> rfl

/-- `Delete` keeps the tree invariant and zeroes the leaf. -/
theorem Delete_WF (a : ArrayHeap) (prob : List ℚ) (D : List Nat) (s : Nat)
    (hwf : a.WF prob D) (hs : s < a.limit_) : (a.Delete s).WF prob (s :: D) := by
  obtain ⟨hlim, hsz, hlen, hnode, hleaf⟩ := hwf
  have hget : ∀ j, j < 2 * a.limit_ → (a.Delete s).heap_.getD j 0 =
      a.heap_.getD j 0 -
        a.heap_.getD (s + a.limit_) 0 * (path_count (a.bit_len_ + 1) (s + a.limit_) j : ℚ) := by
    intro j hj
    exact Delete_loop_getD _ _ _ _ _ (by omega)
  have hl1 : 2 ^ a.bit_len_ ≤ s + a.limit_ := by omega
  have hl2 : s + a.limit_ < 2 ^ (a.bit_len_ + 1) := by
    have : 2 ^ (a.bit_len_ + 1) = 2 * 2 ^ a.bit_len_ := by ring
    omega
  have e_lim : (a.Delete s).limit_ = a.limit_ := rfl
  have e_bl : (a.Delete s).bit_len_ = a.bit_len_ := rfl
  have e_heap : (a.Delete s).heap_ = ArrayHeap.Delete.loop (a.heap_.getD (s + a.limit_) 0)
      (a.bit_len_ + 1) a.heap_ (s + a.limit_) := rfl
  refine ⟨by rw [e_lim, e_bl]; exact hlim, by rw [e_lim]; exact hsz,
    by rw [e_heap, e_lim, Delete_loop_length, hlen], ?_, ?_⟩
  · intro j hj1 hj2
    rw [e_lim] at hj2
    rw [hget j (by omega), hget (2 * j) (by omega), hget (2 * j + 1) (by omega),
      hnode j hj1 hj2,
      ← path_count_children a.bit_len_ (s + a.limit_) j hl1 hl2 hj1 (by omega)]
    push_cast
    ring
  · intro p hp
    rw [e_lim] at hp ⊢
    rw [hget _ (by omega), path_count_same_level _ _ _ hl2 (by omega), hleaf p hp]
    by_cases hps : p = s
    · subst hps
      have : p + a.limit_ = a.limit_ + p := by omega
      simp only [this, if_true, List.mem_cons, true_or, hleaf p hp, Nat.cast_one, mul_one,
        sub_self]
    · have h1 : ¬ s + a.limit_ = a.limit_ + p := by omega
      simp only [h1, if_false, Nat.cast_zero, mul_zero, sub_zero, List.mem_cons, hps, false_or]

/-! ### The root is the sum of the leaves -/

theorem sum_children (h : Nat → ℚ) (a n : Nat) :
    ∑ j ∈ Finset.Ico a (a + n), (h (2 * j) + h (2 * j + 1)) =
      ∑ c ∈ Finset.Ico (2 * a) (2 * (a + n)), h c := by
  induction n with
  | zero => simp
  | succ n ih =>
    rw [← Nat.add_assoc, Finset.sum_Ico_succ_top (by omega), ih,
      show 2 * (a + n + 1) = 2 * (a + n) + 1 + 1 by ring,
      Finset.sum_Ico_succ_top (by omega), Finset.sum_Ico_succ_top (by omega)]
    ring

theorem level_sum (a : ArrayHeap) (prob : List ℚ) (D : List Nat) (hwf : a.WF prob D)
    (d : Nat) (hd : d ≤ a.bit_len_) :
    a.heap_.getD 1 0 = ∑ j ∈ Finset.Ico (2 ^ d) (2 ^ (d + 1)), a.heap_.getD j 0 := by
  induction d with
  | zero => simp
  | succ d ih =>
    rw [ih (by omega)]
    have hp : ∀ e : Nat, 2 ^ (e + 1) = 2 ^ e + 2 ^ e := by intro e; ring
    have hle : 2 ^ (d + 1) ≤ 2 ^ a.bit_len_ := Nat.pow_le_pow_right (by norm_num) hd
    have hpos : 0 < 2 ^ d := Nat.pos_pow_of_pos d (by norm_num)
    have h1 : ∑ j ∈ Finset.Ico (2 ^ d) (2 ^ (d + 1)), a.heap_.getD j 0 =
        ∑ j ∈ Finset.Ico (2 ^ d) (2 ^ (d + 1)),
          (a.heap_.getD (2 * j) 0 + a.heap_.getD (2 * j + 1) 0) := by
      apply Finset.sum_congr rfl
      intro j hj
      have := Finset.mem_Ico.mp hj
      exact hwf.node_eq j (by omega) (by rw [hwf.limit_eq]; omega)
    rw [h1, hp d, sum_children (fun j => a.heap_.getD j 0) (2 ^ d) (2 ^ d)]
    congr 2
    · ring
    · ring

theorem root_eq_sum_leaves (a : ArrayHeap) (prob : List ℚ) (D : List Nat) (hwf : a.WF prob D) :
    a.heap_.getD 1 0 = ∑ p ∈ Finset.range a.limit_, a.heap_.getD (a.limit_ + p) 0 := by
  rw [level_sum a prob D hwf a.bit_len_ (le_refl _), Finset.sum_Ico_eq_sum_range, hwf.limit_eq]
  congr 2
  have : 2 ^ (a.bit_len_ + 1) = 2 ^ a.bit_len_ + 2 ^ a.bit_len_ := by ring
  rw [this, Nat.add_sub_cancel]

theorem root_pos (a : ArrayHeap) (prob : List ℚ) (D : List Nat) (hwf : a.WF prob D)
    (hnn : ∀ w ∈ prob, (0 : ℚ) ≤ w) (p : Nat) (hpD : p ∉ D) (hp : 0 < prob.getD p 0) :
    0 < a.heap_.getD 1 0 := by
  have hpn : p < prob.length := by
    by_contra hc
    rw [List.getD_eq_default _ _ (by omega)] at hp
    exact lt_irrefl _ hp
  have hpl : p < a.limit_ := lt_of_lt_of_le hpn hwf.size_le
  rw [root_eq_sum_leaves a prob D hwf]
  apply Finset.sum_pos'
  · intro q hq
    rw [hwf.leaf_eq q (Finset.mem_range.mp hq)]
    by_cases hqD : q ∈ D
    · simp [hqD]
    · simp only [hqD, if_false]
      by_cases hqn : q < prob.length
      · rw [List.getD_eq_getElem _ _ hqn]
        exact hnn _ (List.getElem_mem _)
      · rw [List.getD_eq_default _ _ (by omega)]
  · refine ⟨p, Finset.mem_range.mpr hpl, ?_⟩
    rw [hwf.leaf_eq p hpl]
    simpa [hpD] using hp

/-! ### The descent of `Sample` -/

theorem descend_spec (heap : List ℚ) (bl : Nat)
    (hnode : ∀ j, 1 ≤ j → j < 2 ^ bl →
      heap.getD j 0 = heap.getD (2 * j) 0 + heap.getD (2 * j + 1) 0)
    (fuel t i : Nat) (xi : ℚ) (ht : t + fuel = bl) (hi1 : 2 ^ t ≤ i) (hi2 : i < 2 ^ (t + 1))
    (hx0 : 0 ≤ xi) (hx1 : xi < heap.getD i 0) :
    2 ^ bl ≤ ArrayHeap.Sample.descend heap (2 ^ bl) fuel xi i ∧
      ArrayHeap.Sample.descend heap (2 ^ bl) fuel xi i < 2 * 2 ^ bl ∧
      0 < heap.getD (ArrayHeap.Sample.descend heap (2 ^ bl) fuel xi i) 0 := by
  induction fuel generalizing t i xi with
  | zero =>
    have : t = bl := by omega
    subst this
    have hp : 2 ^ (t + 1) = 2 * 2 ^ t := by ring
    exact ⟨hi1, by rw [← hp]; exact hi2, lt_of_le_of_lt hx0 hx1⟩
  | succ f ih =>
    have hp : 2 ^ (t + 1) = 2 * 2 ^ t := by ring
    have hp2 : 2 ^ (t + 1 + 1) = 2 * 2 ^ (t + 1) := by ring
    have hle : 2 ^ (t + 1) ≤ 2 ^ bl := Nat.pow_le_pow_right (by norm_num) (by omega)
    have hpos : 0 < 2 ^ t := Nat.pos_pow_of_pos t (by norm_num)
    have hil : i < 2 ^ bl := by omega
    have hn := hnode i (by omega) hil
    unfold ArrayHeap.Sample.descend
    simp only [hil, if_true]
    by_cases hc : xi ≥ heap.getD (2 * i) 0
    · simp only [hc, if_true]
      exact ih (t + 1) (2 * i + 1) (xi - heap.getD (2 * i) 0) (by omega) (by omega) (by omega)
        (by linarith) (by linarith)
    · simp only [hc, if_false]
      exact ih (t + 1) (2 * i) xi (by omega) (by omega) (by omega) hx0 (by linarith)

theorem Sample_spec (a : ArrayHeap) (prob : List ℚ) (D : List Nat) (hwf : a.WF prob D)
    (hroot : 0 < a.heap_.getD 1 0) (r : Nat) (rest : List Nat) :
    ∃ s, a.Sample (r :: rest) = .ok (s, rest) ∧ s < prob.length ∧ s ∉ D ∧
      0 < prob.getD s 0 := by
  have hx0 : (0 : ℚ) ≤ a.heap_.getD 1 0 * (((r % 100 : Nat) : ℚ) / 101) := by positivity
  have hx1 : a.heap_.getD 1 0 * (((r % 100 : Nat) : ℚ) / 101) < a.heap_.getD 1 0 := by
    have h100 : ((r % 100 : Nat) : ℚ) < 101 := by
      have : r % 100 < 101 := by omega
      exact_mod_cast this
    have : (((r % 100 : Nat) : ℚ) / 101) < 1 := by
      rw [div_lt_one (by norm_num)]
      exact h100
    calc a.heap_.getD 1 0 * (((r % 100 : Nat) : ℚ) / 101)
        < a.heap_.getD 1 0 * 1 := by
          apply mul_lt_mul_of_pos_left this hroot
      _ = a.heap_.getD 1 0 := mul_one _
  have hnode : ∀ j, 1 ≤ j → j < 2 ^ a.bit_len_ →
      a.heap_.getD j 0 = a.heap_.getD (2 * j) 0 + a.heap_.getD (2 * j + 1) 0 := by
    intro j h1 h2
    exact hwf.node_eq j h1 (by rw [hwf.limit_eq]; exact h2)
  obtain ⟨h1, h2, h3⟩ := descend_spec a.heap_ a.bit_len_ hnode a.bit_len_ 0 1 _
    (by omega) (by simp) (by simp) hx0 hx1
  rw [← hwf.limit_eq] at h1 h2 h3
  generalize hr : ArrayHeap.Sample.descend a.heap_ a.limit_ a.bit_len_
    (a.heap_.getD 1 0 * (((r % 100 : Nat) : ℚ) / 101)) 1 = res at h1 h2 h3
  have hsl : res - a.limit_ < a.limit_ := by omega
  have hleaf := hwf.leaf_eq (res - a.limit_) hsl
  rw [show a.limit_ + (res - a.limit_) = res by omega] at hleaf
  rw [hleaf] at h3
  have hnD : res - a.limit_ ∉ D := by
    intro hmem
    simp [hmem] at h3
  simp only [hnD, if_false] at h3
  refine ⟨res - a.limit_, ?_, ?_, hnD, h3⟩
  · simp only [ArrayHeap.Sample, hr]
  · by_contra hc
    rw [List.getD_eq_default _ _ (by omega)] at h3
    exact lt_irrefl _ h3

/-! ### Sampling without replacement -/

theorem map_getD_range_q (l : List ℚ) : (List.range l.length).map (fun i => l.getD i 0) = l := by
  apply List.ext_getElem (by simp)
  intro i h1 h2
  simp [List.getElem?_eq_getElem h2]

theorem exists_fresh_positive (prob : List ℚ) (D : List Nat)
    (hlt : D.length < prob.countP (fun w => decide (0 < w))) :
    ∃ p, p ∉ D ∧ 0 < prob.getD p 0 := by
  by_contra hc
  push_neg at hc
  have hQ : ((List.range prob.length).filter (fun p => decide (0 < prob.getD p 0))).length =
      prob.countP (fun w => decide (0 < w)) := by
    conv_rhs => rw [← map_getD_range_q prob, List.countP_map]
    rw [List.countP_eq_length_filter]
    rfl
  have hsub : (List.range prob.length).filter (fun p => decide (0 < prob.getD p 0)) ⊆ D := by
    intro p hp
    have h2 := (List.mem_filter.mp hp).2
    by_contra hpD
    have := hc p hpD
    simp only [decide_eq_true_eq] at h2
    exact absurd h2 (not_lt.mpr this)
  have hnd : ((List.range prob.length).filter (fun p => decide (0 < prob.getD p 0))).Nodup :=
    (List.nodup_range _).filter _
  have := (hnd.subperm hsub).length_le
  omega

theorem SampleWithoutReplacement_spec (prob : List ℚ) (hnn : ∀ w ∈ prob, (0 : ℚ) ≤ w)
    (k : Nat) (a : ArrayHeap) (D : List Nat) (draws : List Nat) (hwf : a.WF prob D)
    (hcount : D.length + k ≤ prob.countP (fun w => decide (0 < w)))
    (hdraws : k ≤ draws.length) :
    ∃ samples a' rest, a.SampleWithoutReplacement k draws = .ok (samples, a', rest) ∧
      samples.length = k ∧ samples.Nodup ∧ rest = draws.drop k ∧
      a'.WF prob (samples.reverse ++ D) ∧
      ∀ s ∈ samples, s ∉ D ∧ s < prob.length ∧ 0 < prob.getD s 0 := by
  induction k generalizing a D draws with
  | zero =>
    exact ⟨[], a, draws, rfl, rfl, List.nodup_nil, rfl, by simpa using hwf, by simp⟩
  | succ k ih =>
    cases draws with
    | nil => simp at hdraws
    | cons r rest =>
      obtain ⟨p, hpD, hp⟩ := exists_fresh_positive prob D (by omega)
      have hroot := root_pos a prob D hwf hnn p hpD hp
      obtain ⟨s, hs, hsn, hsD, hspos⟩ := Sample_spec a prob D hwf hroot r rest
      have hsl : s < a.limit_ := lt_of_lt_of_le hsn hwf.size_le
      obtain ⟨ss, a', rest', hok, hlen, hnd, hrest, hwf', hall⟩ :=
        ih (a.Delete s) (s :: D) rest (Delete_WF a prob D s hwf hsl)
          (by simp only [List.length_cons]; omega) (by simpa using hdraws)
      refine ⟨s :: ss, a', rest', ?_, by simp [hlen], ?_, by simpa using hrest, ?_, ?_⟩
      · simp only [ArrayHeap.SampleWithoutReplacement, hs, hok]
      · refine List.nodup_cons.mpr ⟨?_, hnd⟩
        intro hmem
        exact (hall s hmem).1 (List.mem_cons_self _ _)
      · simpa [List.append_assoc] using hwf'
      · intro x hx
        rcases List.mem_cons.mp hx with rfl | hx
        · exact ⟨hsD, hsn, hspos⟩
        · have := hall x hx
          exact ⟨fun h => this.1 (List.mem_cons_of_mem _ h), this.2⟩

/-- C3: for a non-negative weight vector of length `n ≥ 1` with at least `k` positive entries,
on every sequence of draws (one draw per sample), `SampleWithoutReplacement(k)` on the freshly
built tree returns `k` pairwise distinct indices, each `< n` and of positive original weight. -/
theorem C3_sample_without_replacement (prob : List ℚ) (k : Nat) (draws : List Nat)
    (_hn : 1 ≤ prob.length) (hnn : ∀ w ∈ prob, (0 : ℚ) ≤ w)
    (hpos : k ≤ prob.countP (fun w => decide (0 < w))) (hdraws : k ≤ draws.length) :
    ∃ samples a' rest,
      (ArrayHeap.mk_from prob).SampleWithoutReplacement k draws = .ok (samples, a', rest) ∧
      samples.length = k ∧ samples.Nodup ∧
      ∀ s ∈ samples, s < prob.length ∧ 0 < prob.getD s 0 := by
  obtain ⟨samples, a', rest, hok, hlen, hnd, -, -, hall⟩ :=
    SampleWithoutReplacement_spec prob hnn k (ArrayHeap.mk_from prob) [] draws (mk_from_WF prob)
      (by simpa using hpos) hdraws
  exact ⟨samples, a', rest, hok, hlen, hnd, fun s hs => (hall s hs).2⟩

/-- Witness of C3: two samples from the weights `1, 2, 3`. -/
theorem C3_sample_without_replacement_witness :
    ∃ samples a' rest,
      (ArrayHeap.mk_from [1, 2, 3]).SampleWithoutReplacement 2 [50, 99] =
        .ok (samples, a', rest) ∧
      samples.length = 2 ∧ samples.Nodup ∧
      ∀ s ∈ samples, s < [(1 : ℚ), 2, 3].length ∧ 0 < [(1 : ℚ), 2, 3].getD s 0 :=
  C3_sample_without_replacement [1, 2, 3] 2 [50, 99] (by decide) (by simp) (by simp)
    (by decide)

/-! ## Neighbor sampling: association lists -/

theorem umap_find_none_iff {β : Type} (m : List (Int × β)) (k : Int) :
    umap_find m k = none ↔ k ∉ m.map Prod.fst := by
  induction m with
  | nil => simp [umap_find]
  | cons p m ih =>
    obtain ⟨k', v'⟩ := p
    by_cases h : k' = k
    · simp [umap_find, h]
    · have h' : ¬ k = k' := fun e => h e.symm
      simp [umap_find, h, h', ih]

theorem umap_assign_of_none {β : Type} (m : List (Int × β)) (k : Int) (v : β)
    (h : umap_find m k = none) : umap_assign m k v = m ++ [(k, v)] := by
  induction m with
  | nil => rfl
  | cons p m ih =>
    obtain ⟨k', v'⟩ := p
    by_cases hk : k' = k
    · simp [umap_find, hk] at h
    · simp only [umap_find, hk, if_false] at h
      simp [umap_assign, hk, ih h]

theorem umap_insert_of_none {β : Type} (m : List (Int × β)) (k : Int) (v : β)
    (h : umap_find m k = none) : umap_insert m k v = m ++ [(k, v)] := by
  simp [umap_insert, h]

theorem umap_find_append_single {β : Type} (m : List (Int × β)) (k x : Int) (v : β) :
    umap_find (m ++ [(k, v)]) x =
      match umap_find m x with
      | some y => some y
      | none => if k = x then some v else none := by
  induction m with
  | nil => simp [umap_find]
  | cons p m ih =>
    obtain ⟨k', v'⟩ := p
    by_cases h : k' = x
    · simp [umap_find, h]
    · simp [umap_find, h, ih]

theorem umap_find_some_mem {β : Type} (m : List (Int × β)) (k : Int) (v : β)
    (h : umap_find m k = some v) : (k, v) ∈ m := by
  induction m with
  | nil => simp [umap_find] at h
  | cons p m ih =>
    obtain ⟨k', v'⟩ := p
    by_cases hk : k' = k
    · simp only [umap_find, hk, if_true, Option.some.injEq] at h
      simp [hk, h]
    · simp only [umap_find, hk, if_false] at h
      exact List.mem_cons_of_mem _ (ih h)

theorem umap_find_of_mem {β : Type} (m : List (Int × β)) (k : Int) (v : β)
    (hnd : (m.map Prod.fst).Nodup) (h : (k, v) ∈ m) : umap_find m k = some v := by
  induction m with
  | nil => simp at h
  | cons p m ih =>
    obtain ⟨k', v'⟩ := p
    rw [List.map_cons, List.nodup_cons] at hnd
    rcases List.mem_cons.mp h with heq | hmem
    · injection heq with h1 h2
      simp [umap_find, h1, h2]
    · have hk : k' ≠ k := by
        intro e
        apply hnd.1
        rw [e]
        exact List.mem_map.mpr ⟨(k, v), hmem, rfl⟩
      simp [umap_find, hk, ih hnd.2 hmem]

/-! ## Neighbor sampling: sizes of the samples -/

theorem GetUniformSample_length (vl el : List Int) (k : Nat) (draws : List Nat)
    (ov oe : List Int) (rest : List Nat)
    (h : GetUniformSample vl el k draws = .ok (ov, oe, rest)) :
    ov.length = min vl.length k ∧ ov.length = oe.length := by
  unfold GetUniformSample at h
  by_cases hlen : vl.length = el.length
  · simp only [hlen, ne_eq, not_true_eq_false, if_false] at h
    by_cases hle : el.length ≤ k
    · simp only [hle, if_true, Res.ok.injEq, Prod.mk.injEq] at h
      obtain ⟨rfl, rfl, -⟩ := h
      exact ⟨by omega, hlen⟩
    · simp only [hle, if_false] at h
      split at h
      · exact absurd h (by simp)
      · next idxs draws' heq =>
        by_cases hl : idxs.length = k
        · simp only [hl, ne_eq, not_true_eq_false, if_false] at h
          split at h
          · exact absurd h (by simp)
          · simp only [Res.ok.injEq, Prod.mk.injEq] at h
            obtain ⟨rfl, rfl, -⟩ := h
            simp only [List.length_map, hl, hlen]
            exact ⟨by omega, trivial⟩
        · simp [hl] at h
  · simp [hlen] at h

theorem SampleWithoutReplacement_length (k : Nat) (a : ArrayHeap) (draws : List Nat)
    (s : List Nat) (a' : ArrayHeap) (rest : List Nat)
    (h : a.SampleWithoutReplacement k draws = .ok (s, a', rest)) : s.length = k := by
  induction k generalizing a draws s a' rest with
  | zero =>
    simp only [ArrayHeap.SampleWithoutReplacement, Res.ok.injEq, Prod.mk.injEq] at h
    rw [← h.1]; rfl
  | succ k ih =>
    unfold ArrayHeap.SampleWithoutReplacement at h
    split at h
    · exact absurd h (by simp)
    · split at h
      · exact absurd h (by simp)
      · next ss a'' d'' heq =>
        simp only [Res.ok.injEq, Prod.mk.injEq] at h
        rw [← h.1, List.length_cons, ih _ _ _ _ _ heq]

theorem sort_ids_length (l : List Int) : (sort_ids l).length = l.length :=
  (List.perm_insertionSort _ l).length_eq

theorem GetNonUniformSample_length (p : List ℚ) (vl el : List Int) (k : Nat)
    (draws : List Nat) (ov oe : List Int) (rest : List Nat)
    (h : GetNonUniformSample p vl el k draws = .ok (ov, oe, rest)) :
    ov.length = min vl.length k ∧ ov.length = oe.length := by
  unfold GetNonUniformSample at h
  by_cases hlen : vl.length = el.length
  · simp only [hlen, ne_eq, not_true_eq_false, if_false] at h
    by_cases hle : el.length ≤ k
    · simp only [hle, if_true, Res.ok.injEq, Prod.mk.injEq] at h
      obtain ⟨rfl, rfl, -⟩ := h
      exact ⟨by omega, hlen⟩
    · simp only [hle, if_false] at h
      split at h
      · exact absurd h (by simp)
      · next sp a' d' heq =>
        simp only [Res.ok.injEq, Prod.mk.injEq] at h
        obtain ⟨rfl, rfl, -⟩ := h
        have := SampleWithoutReplacement_length _ _ _ _ _ _ heq
        simp only [sort_ids_length, List.length_map, this, hlen]
        exact ⟨by omega, trivial⟩
  · simp [hlen] at h

/-! ## Neighbor sampling: the traversal -/

/-- The two outcomes of one iteration: the front node is skipped (already visited), or it is
visited and gets a record. -/
theorem step_cases (csr : CSR) (probability : Option (List ℚ)) (num_hops num_neighbor : Int)
    (cur : ver_node) (queue : List ver_node) (st st' : BfsState)
    (h : SampleSubgraph.step csr probability num_hops num_neighbor cur queue st = .ok st') :
    ((∃ l, umap_find st.sub_ver_mp cur.vertex_id = some l) ∧
      st'.sub_ver_mp = st.sub_ver_mp ∧ st'.neigh_mp = st.neigh_mp ∧
      st'.sub_vertices_count = st.sub_vertices_count ∧ st'.num_edges = st.num_edges ∧
      st'.node_queue = queue) ∨
    (umap_find st.sub_ver_mp cur.vertex_id = none ∧
      st'.sub_ver_mp = st.sub_ver_mp ++ [(cur.vertex_id, cur.level)] ∧
      ∃ rec : neigh_list, st'.neigh_mp = umap_insert st.neigh_mp cur.vertex_id rec ∧
        rec.neighs.length = rec.edges.length ∧
        (cur.level < num_hops →
          rec.neighs.length = min (csr.row_cols cur.vertex_id).length (to_size_t num_neighbor)) ∧
        (¬ cur.level < num_hops → rec.neighs = [] ∧ rec.edges = []) ∧
        st'.sub_vertices_count = st.sub_vertices_count + 1 ∧
        st'.num_edges = st.num_edges + rec.neighs.length ∧
        st'.node_queue = queue ++ (rec.neighs.filter
          (fun v => (umap_find st'.sub_ver_mp v).isNone)).map
          (fun v => ({ vertex_id := v, level := cur.level + 1 } : ver_node))) := by
  unfold SampleSubgraph.step at h
  by_cases hlv : cur.level < num_hops
  · simp only [hlv, if_true] at h
    cases hf : umap_find st.sub_ver_mp cur.vertex_id with
    | some l =>
      simp only [hf, Res.ok.injEq] at h
      subst h
      exact Or.inl ⟨⟨l, rfl⟩, rfl, rfl, rfl, rfl, rfl⟩
    | none =>
      simp only [hf] at h
      right
      have hsz : ∀ (src edge : List Int) (d : List Nat),
          (match probability with
            | none => GetUniformSample (GetSrcList csr cur.vertex_id).1
                (GetSrcList csr cur.vertex_id).2 (to_size_t num_neighbor) st.draws
            | some p => GetNonUniformSample p (GetSrcList csr cur.vertex_id).1
                (GetSrcList csr cur.vertex_id).2 (to_size_t num_neighbor) st.draws) =
            .ok (src, edge, d) →
          src.length = min (csr.row_cols cur.vertex_id).length (to_size_t num_neighbor) ∧
            src.length = edge.length := by
        intro src edge d hs
        cases probability with
        | none => exact GetUniformSample_length _ _ _ _ _ _ _ hs
        | some p => exact GetNonUniformSample_length _ _ _ _ _ _ _ _ hs
      split at h
      · exact absurd h (by simp)
      · next src edge d heq =>
        obtain ⟨h1, h2⟩ := hsz src edge d heq
        simp only [Res.ok.injEq] at h
        subst h
        refine ⟨rfl, umap_assign_of_none _ _ _ hf, ⟨src, edge⟩, rfl, h2, fun _ => h1,
          fun hn => absurd hlv hn, rfl, rfl, rfl⟩
  · simp only [hlv, if_false] at h
    cases hf : umap_find st.sub_ver_mp cur.vertex_id with
    | some l =>
      simp only [hf, Res.ok.injEq] at h
      subst h
      exact Or.inl ⟨⟨l, rfl⟩, rfl, rfl, rfl, rfl, rfl⟩
    | none =>
      simp only [hf, Res.ok.injEq] at h
      subst h
      right
      refine ⟨rfl, umap_assign_of_none _ _ _ hf, ⟨[], []⟩, rfl, rfl, fun hl => absurd hl hlv,
        fun _ => ⟨rfl, rfl⟩, rfl, rfl, by simp⟩

/-- A property kept by every iteration holds when the loop ends. -/
theorem loop_preserves (csr : CSR) (probability : Option (List ℚ))
    (num_hops num_neighbor max_num_vertices : Int) (P : BfsState → Prop)
    (hstep : ∀ cur queue st st', P st → st.node_queue = cur :: queue →
      st.sub_vertices_count ≤ max_num_vertices →
      SampleSubgraph.step csr probability num_hops num_neighbor cur queue st = .ok st' → P st')
    (fuel : Nat) (st st' : BfsState) (hP : P st)
    (h : SampleSubgraph.loop csr probability num_hops num_neighbor max_num_vertices fuel st =
      .ok st') : P st' := by
  induction fuel generalizing st with
  | zero =>
    unfold SampleSubgraph.loop at h
    split at h
    · simp only [Res.ok.injEq] at h; exact h ▸ hP
    · split at h
      · exact absurd h (by simp)
      · simp only [Res.ok.injEq] at h; exact h ▸ hP
  | succ fuel ih =>
    unfold SampleSubgraph.loop at h
    split at h
    · simp only [Res.ok.injEq] at h; exact h ▸ hP
    · next cur queue hq =>
      by_cases hc : st.sub_vertices_count ≤ max_num_vertices
      · simp only [hc, not_true_eq_false, if_false] at h
        split at h
        · exact absurd h (by simp)
        · next st1 hs => exact ih st1 (hstep cur queue st st1 hP hq hc hs) h
      · simp only [hc, not_false_eq_true, if_true, Res.ok.injEq] at h
        exact h ▸ hP

theorem forall₂_keys {csr : CSR} {num_hops : Int} {k : Nat} {mp : List (Int × Int)}
    {nm : List (Int × neigh_list)} (h : List.Forall₂ (record_ok csr num_hops k) mp nm) :
    nm.map Prod.fst = mp.map Prod.fst := by
  induction h with
  | nil => rfl
  | cons hr _ ih => simp [ih, hr.1]

theorem init_inv (csr : CSR) (num_hops : Int) (k : Nat) (seed : List Int) (draws : List Nat) :
    BfsInv csr num_hops k (SampleSubgraph.init seed draws) :=
  ⟨List.nodup_nil, List.Forall₂.nil, rfl, rfl⟩

theorem step_inv (csr : CSR) (probability : Option (List ℚ)) (num_hops num_neighbor : Int)
    (cur : ver_node) (queue : List ver_node) (st st' : BfsState)
    (hinv : BfsInv csr num_hops (to_size_t num_neighbor) st)
    (h : SampleSubgraph.step csr probability num_hops num_neighbor cur queue st = .ok st') :
    BfsInv csr num_hops (to_size_t num_neighbor) st' := by
  rcases step_cases csr probability num_hops num_neighbor cur queue st st' h with
    ⟨-, h1, h2, h3, h4, -⟩ | ⟨hf, h1, rec, h2, h3, h4, h5, h6, h7, -⟩
  · exact ⟨h1 ▸ hinv.keys_nodup, by rw [h1, h2]; exact hinv.records,
      by rw [h3, h1]; exact hinv.count_eq, by rw [h4, h2]; exact hinv.edges_eq⟩
  · have hkeys := forall₂_keys hinv.records
    have hnotin : cur.vertex_id ∉ st.sub_ver_mp.map Prod.fst := (umap_find_none_iff _ _).mp hf
    have hf' : umap_find st.neigh_mp cur.vertex_id = none := by
      rw [umap_find_none_iff, hkeys]; exact hnotin
    rw [umap_insert_of_none _ _ _ hf'] at h2
    refine ⟨?_, ?_, ?_, ?_⟩
    · rw [h1, List.map_append]
      refine List.nodup_append.mpr ⟨hinv.keys_nodup, by simp, ?_⟩
      intro a ha hb
      simp only [List.map_cons, List.map_nil, List.mem_singleton] at hb
      exact hnotin (hb ▸ ha)
    · rw [h1, h2]
      exact List.rel_append hinv.records
        (List.Forall₂.cons ⟨rfl, h3, h4, h5⟩ List.Forall₂.nil)
    · rw [h6, h1, hinv.count_eq]
      simp
    · rw [h7, h2, hinv.edges_eq]
      simp

/-- The invariant holds in the state in which the traversal ends. -/
theorem bfs_inv (csr : CSR) (seed : List Int) (probability : Option (List ℚ))
    (num_hops num_neighbor max_num_vertices : Int) (draws : List Nat) (st : BfsState)
    (h : SampleSubgraph.bfs csr seed probability num_hops num_neighbor max_num_vertices draws =
      .ok st) : BfsInv csr num_hops (to_size_t num_neighbor) st := by
  unfold SampleSubgraph.bfs at h
  split at h
  · exact absurd h (by simp)
  · exact loop_preserves csr probability num_hops num_neighbor max_num_vertices
      (BfsInv csr num_hops (to_size_t num_neighbor))
      (fun cur queue s s' hP _ _ hs => step_inv csr probability num_hops num_neighbor cur queue
        s s' hP hs) _ _ _ (init_inv _ _ _ _ _) h

theorem forall₂_mem_left {α β : Type} {R : α → β → Prop} {l₁ : List α} {l₂ : List β}
    (h : List.Forall₂ R l₁ l₂) (a : α) (ha : a ∈ l₁) : ∃ b ∈ l₂, R a b := by
  induction h with
  | nil => simp at ha
  | cons hr _ ih =>
    rcases List.mem_cons.mp ha with rfl | ha
    · exact ⟨_, List.mem_cons_self _ _, hr⟩
    · obtain ⟨b, hb, hR⟩ := ih ha
      exact ⟨b, List.mem_cons_of_mem _ hb, hR⟩

/-- Every visited vertex has a record, of the shape its level requires. -/
theorem record_of_visited (csr : CSR) (num_hops : Int) (k : Nat) (st : BfsState)
    (hinv : BfsInv csr num_hops k st) (v l : Int) (hf : umap_find st.sub_ver_mp v = some l) :
    ∃ nl, umap_find st.neigh_mp v = some nl ∧ record_ok csr num_hops k (v, l) (v, nl) := by
  obtain ⟨r, hr, hR⟩ := forall₂_mem_left hinv.records (v, l) (umap_find_some_mem _ _ _ hf)
  obtain ⟨v', nl⟩ := r
  have hv : v = v' := hR.1
  subst hv
  refine ⟨nl, umap_find_of_mem _ _ _ ?_ hr, hR⟩
  rw [forall₂_keys hinv.records]
  exact hinv.keys_nodup

theorem to_size_t_of_nonneg (x : Int) (h0 : 0 ≤ x) (h1 : x < 2 ^ 63) : to_size_t x = x.toNat := by
  unfold to_size_t
  rw [Int.emod_eq_of_lt h0 (by omega)]

/-- C5: in uniform and in weighted mode, for `num_neighbor ≥ 0`, every vertex that the traversal
of `SampleSubgraph` visits at a level below `num_hops` gets a record of at most `num_neighbor`
(neighbor, edge) pairs, exactly `min(degree, num_neighbor)` of them, hence all `degree` pairs
when `degree ≤ num_neighbor`. -/
theorem C5_fanout_cap (csr : CSR) (seed : List Int) (probability : Option (List ℚ))
    (num_hops num_neighbor max_num_vertices : Int) (draws : List Nat) (st : BfsState)
    (hnn : 0 ≤ num_neighbor) (hnn2 : num_neighbor < 2 ^ 63)
    (h : SampleSubgraph.bfs csr seed probability num_hops num_neighbor max_num_vertices draws =
      .ok st)
    (v l : Int) (hv : umap_find st.sub_ver_mp v = some l) (hl : l < num_hops) :
    ∃ nl, umap_find st.neigh_mp v = some nl ∧ nl.edges.length = nl.neighs.length ∧
      (nl.neighs.length : Int) ≤ num_neighbor ∧
      nl.neighs.length =
        min (rd csr.indptr (v + 1) - rd csr.indptr v).toNat num_neighbor.toNat ∧
      ((rd csr.indptr (v + 1) - rd csr.indptr v) ≤ num_neighbor →
        nl.neighs.length = (rd csr.indptr (v + 1) - rd csr.indptr v).toNat) := by
  have hinv := bfs_inv csr seed probability num_hops num_neighbor max_num_vertices draws st h
  obtain ⟨nl, hfind, -, hlen, hexp, -⟩ := record_of_visited _ _ _ st hinv v l hv
  have hmin := hexp hl
  rw [to_size_t_of_nonneg _ hnn hnn2] at hmin
  have hdeg : (csr.row_cols v).length = (rd csr.indptr (v + 1) - rd csr.indptr v).toNat := by
    simp [CSR.row_cols, CSR.row_range]
  simp only [hdeg] at hmin
  refine ⟨nl, hfind, hlen.symm, ?_, hmin, ?_⟩
  · rw [hmin]; omega
  · intro hle
    rw [hmin]; omega

/-- Witness of C5: vertex 0 of `edge_graph`, visited at level 0 with one hop. -/
theorem C5_fanout_cap_witness :
    ∃ nl, umap_find edge_graph_final.neigh_mp 0 = some nl ∧
      nl.edges.length = nl.neighs.length ∧ (nl.neighs.length : Int) ≤ 1 ∧
      nl.neighs.length =
        min (rd edge_graph.indptr (0 + 1) - rd edge_graph.indptr 0).toNat (1 : Int).toNat ∧
      ((rd edge_graph.indptr (0 + 1) - rd edge_graph.indptr 0) ≤ 1 →
        nl.neighs.length = (rd edge_graph.indptr (0 + 1) - rd edge_graph.indptr 0).toNat) :=
  C5_fanout_cap edge_graph [0] none 1 1 1 [] edge_graph_final (by decide) (by decide)
    (by decide) 0 0 (by decide) (by decide)

/-- C1 (the code at the failing input): with `max_num_vertices = 1`, one seed and one edge
`0 → 1`, the traversal of `SampleSubgraph` ends with two vertices in the visited map, one more
than `max_num_vertices`; writing the outputs then reads a record that does not exist. -/
theorem C1_visited_count_exceeds_cap :
    SampleSubgraph.bfs edge_graph [0] none 1 1 1 [] = .ok edge_graph_final ∧
    edge_graph_final.sub_ver_mp.length = 2 ∧ edge_graph_final.sub_vertices_count = 2 ∧
    SampleSubgraph edge_graph [0] [0, 0] none [0] none 1 1 1 [] = .fail .undefined := by
  decide

/-! ## Neighbor sampling: every seed is visited at level 0 -/

theorem loop_find_mono (csr : CSR) (probability : Option (List ℚ))
    (num_hops num_neighbor max_num_vertices : Int) (fuel : Nat) (st st' : BfsState)
    (k l : Int) (hk : umap_find st.sub_ver_mp k = some l)
    (h : SampleSubgraph.loop csr probability num_hops num_neighbor max_num_vertices fuel st =
      .ok st') : umap_find st'.sub_ver_mp k = some l := by
  refine loop_preserves csr probability num_hops num_neighbor max_num_vertices
    (fun s => umap_find s.sub_ver_mp k = some l) ?_ fuel st st' hk h
  intro cur queue s s' hP _ _ hs
  rcases step_cases csr probability num_hops num_neighbor cur queue s s' hs with
    ⟨-, h1, -⟩ | ⟨-, h1, -⟩
  · show umap_find s'.sub_ver_mp k = some l
    rw [h1]; exact hP
  · show umap_find s'.sub_ver_mp k = some l
    rw [h1, umap_find_append_single]
    have hP' : umap_find s.sub_ver_mp k = some l := hP
    rw [hP']

theorem seeds_visited (csr : CSR) (probability : Option (List ℚ))
    (num_hops num_neighbor max_num_vertices : Int) (R : List Int) (fuel : Nat)
    (st st' : BfsState) (rest : List ver_node)
    (hq : st.node_queue =
      R.map (fun v => ({ vertex_id := v, level := 0 } : ver_node)) ++ rest)
    (hc : st.sub_vertices_count + (R.length : Int) ≤ max_num_vertices)
    (hz : ∀ k l, umap_find st.sub_ver_mp k = some l → l = 0)
    (h : SampleSubgraph.loop csr probability num_hops num_neighbor max_num_vertices fuel st =
      .ok st') : ∀ s ∈ R, umap_find st'.sub_ver_mp s = some 0 := by
  induction R generalizing fuel st rest with
  | nil => simp
  | cons s R ih =>
    simp only [List.map_cons, List.cons_append] at hq
    simp only [List.length_cons, Nat.cast_add, Nat.cast_one] at hc
    have hcount : st.sub_vertices_count ≤ max_num_vertices := by omega
    cases fuel with
    | zero =>
      unfold SampleSubgraph.loop at h
      rw [hq] at h
      simp [hcount] at h
    | succ fuel =>
      unfold SampleSubgraph.loop at h
      rw [hq] at h
      simp only [hcount, not_true_eq_false, if_false] at h
      split at h
      · exact absurd h (by simp)
      · next st1 hs =>
        rcases step_cases csr probability num_hops num_neighbor _ _ st st1 hs with
          ⟨⟨l, hl⟩, h1, -, h3, -, h5⟩ | ⟨hf, h1, rec, -, -, -, -, h6, -, h8⟩
        · have hl0 : l = 0 := hz _ _ hl
          subst hl0
          have hrest := ih fuel st1 rest h5 (by rw [h3]; omega)
            (by rw [h1]; exact hz) h
          intro x hx
          rcases List.mem_cons.mp hx with rfl | hx
          · exact loop_find_mono _ _ _ _ _ _ _ _ _ _ (by rw [h1]; exact hl) h
          · exact hrest x hx
        · have hs0 : umap_find st1.sub_ver_mp s = some 0 := by
            rw [h1, umap_find_append_single]
            simp only at hf
            rw [hf]
            simp
          have hrest := ih fuel st1 _ (by rw [h8, List.append_assoc]) (by rw [h6]; omega)
            (by
              intro k l hkl
              rw [h1, umap_find_append_single] at hkl
              cases hfk : umap_find st.sub_ver_mp k with
              | some y =>
                rw [hfk] at hkl
                simp only [Option.some.injEq] at hkl
                exact hz k y hfk ▸ hkl.symm
              | none =>
                rw [hfk] at hkl
                simp only at hkl
                split at hkl
                · simp only [Option.some.injEq] at hkl; exact hkl.symm
                · exact absurd hkl (by simp)) h
          intro x hx
          rcases List.mem_cons.mp hx with rfl | hx
          · exact loop_find_mono _ _ _ _ _ _ _ _ _ _ hs0 h
          · exact hrest x hx

/-! ## Neighbor sampling: the output buffers -/

theorem getD_set_int (l : List Int) (i j : Nat) (v : Int) :
    (l.set i v).getD j 0 = if i = j ∧ j < l.length then v else l.getD j 0 := by
  simp only [List.getD_eq_getElem?_getD, List.getElem?_set]
  by_cases h : i = j
  · subst h
    by_cases h2 : i < l.length
    · simp [h2]
    · simp [h2, List.getElem?_eq_none (Nat.le_of_not_lt h2)]
  · simp [h]

theorem copy_list_length (src : List Int) (off : Nat) (buf : List Int) :
    (copy_list src off buf).length = buf.length := by
  induction src generalizing off buf with
  | nil => rfl
  | cons x xs ih => simp [copy_list, ih]

theorem copy_list_getD (src : List Int) (off : Nat) (buf : List Int) (j : Nat) :
    (copy_list src off buf).getD j 0 =
      if off ≤ j ∧ j < off + src.length ∧ j < buf.length then src.getD (j - off) 0
      else buf.getD j 0 := by
  induction src generalizing off buf with
  | nil =>
    have : ¬ (off ≤ j ∧ j < off + ([] : List Int).length ∧ j < buf.length) := by
      simp only [List.length_nil]; omega
    rw [if_neg this, copy_list]
  | cons x xs ih =>
    rw [copy_list, ih, getD_set_int]
    simp only [List.length_set, List.length_cons]
    by_cases hj : j < buf.length
    · by_cases h1 : off = j
      · subst h1
        have : ¬ (off + 1 ≤ off ∧ off < off + 1 + xs.length ∧ off < buf.length) := by omega
        simp [this, hj]
      · by_cases h2 : off + 1 ≤ j ∧ j < off + 1 + xs.length
        · have h3 : off ≤ j ∧ j < off + (xs.length + 1) ∧ j < buf.length := by omega
          have h4 : off + 1 ≤ j ∧ j < off + 1 + xs.length ∧ j < buf.length := by omega
          have h5 : j - off = (j - (off + 1)) + 1 := by omega
          simp only [h3, h4, and_self, if_true, h5, List.getD_cons_succ]
        · have h3 : ¬ (off ≤ j ∧ j < off + (xs.length + 1) ∧ j < buf.length) := by omega
          have h4 : ¬ (off + 1 ≤ j ∧ j < off + 1 + xs.length ∧ j < buf.length) := by omega
          simp only [h3, h4, if_false, h1, false_and]
    · have h3 : ¬ (off ≤ j ∧ j < off + (xs.length + 1) ∧ j < buf.length) := by omega
      have h4 : ¬ (off + 1 ≤ j ∧ j < off + 1 + xs.length ∧ j < buf.length) := by omega
      simp only [h3, h4, if_false, hj, and_false]

theorem fill_const_length (v : Int) (js : List Nat) (buf : List Int) :
    (js.foldl (fun o i => o.set i v) buf).length = buf.length := by
  induction js generalizing buf with
  | nil => rfl
  | cons j js ih => simp [List.foldl_cons, ih]

theorem fill_const_getD (v : Int) (js : List Nat) (buf : List Int) (j : Nat) :
    (js.foldl (fun o i => o.set i v) buf).getD j 0 =
      if j ∈ js ∧ j < buf.length then v else buf.getD j 0 := by
  induction js generalizing buf with
  | nil => simp
  | cons i js ih =>
    rw [List.foldl_cons, ih, getD_set_int]
    simp only [List.length_set, List.mem_cons]
    by_cases h1 : j ∈ js ∧ j < buf.length
    · have : (j = i ∨ j ∈ js) ∧ j < buf.length := ⟨Or.inr h1.1, h1.2⟩
      simp [h1, this]
    · by_cases h2 : i = j ∧ j < buf.length
      · have : (j = i ∨ j ∈ js) ∧ j < buf.length := ⟨Or.inl h2.1.symm, h2.2⟩
        simp [h1, h2, this]
      · have : ¬ ((j = i ∨ j ∈ js) ∧ j < buf.length) := by
          rintro ⟨hj | hj, hl⟩
          · exact h2 ⟨hj.symm, hl⟩
          · exact h1 ⟨hj, hl⟩
        simp [h1, h2, this]

theorem sort_ids_spec (l : List Int) (hnd : l.Nodup) :
    (sort_ids l).Sorted (· < ·) ∧ (sort_ids l).Perm l := by
  have hp : (sort_ids l).Perm l := List.perm_insertionSort _ l
  have hsrt : (sort_ids l).Sorted (· ≤ ·) := List.sorted_insertionSort _ l
  exact ⟨hsrt.lt_of_le (hp.nodup_iff.mpr hnd), hp⟩

theorem getD_append_int (a b : List Int) (j : Nat) :
    (a ++ b).getD j 0 = if j < a.length then a.getD j 0 else b.getD (j - a.length) 0 := by
  simp only [List.getD_eq_getElem?_getD]
  by_cases h : j < a.length
  · simp [h, List.getElem?_append_left h]
  · simp [h, List.getElem?_append_right (Nat.le_of_not_lt h)]

theorem getD_drop_int (l : List Int) (n j : Nat) : (l.drop n).getD j 0 = l.getD (n + j) 0 := by
  simp [List.getD_eq_getElem?_getD]

theorem take_eq_of_getD (l s : List Int) (hs : s.length ≤ l.length)
    (h : ∀ j, j < s.length → l.getD j 0 = s.getD j 0) : l.take s.length = s := by
  apply List.ext_getElem
  · simp; omega
  · intro n h1 h2
    have := h n h2
    rw [List.getD_eq_getElem _ _ (by omega), List.getD_eq_getElem _ _ h2] at this
    simpa using this

/-- The vertex buffer, slot by slot, when the visited count is at most `max_num_vertices`. -/
theorem copy_ids_spec (max_num_vertices : Int) (sampled_ids : List Int) (st : BfsState)
    (hmax : 0 ≤ max_num_vertices) (hc : st.sub_ver_mp.length ≤ max_num_vertices.toNat)
    (hbuf : sampled_ids.length = max_num_vertices.toNat + 1) :
    (SampleSubgraph.copy_ids max_num_vertices sampled_ids st).length =
        max_num_vertices.toNat + 1 ∧
      (∀ j, j < st.sub_ver_mp.length →
        (SampleSubgraph.copy_ids max_num_vertices sampled_ids st).getD j 0 =
          (sort_ids (st.sub_ver_mp.map Prod.fst)).getD j 0) ∧
      (∀ j, st.sub_ver_mp.length ≤ j → j < max_num_vertices.toNat →
        (SampleSubgraph.copy_ids max_num_vertices sampled_ids st).getD j 0 = -1) ∧
      (SampleSubgraph.copy_ids max_num_vertices sampled_ids st).getD max_num_vertices.toNat 0 =
        (st.sub_ver_mp.length : Int) := by
  have hkl : (st.sub_ver_mp.map Prod.fst).length = st.sub_ver_mp.length := by simp
  have h1len : (copy_list (st.sub_ver_mp.map Prod.fst) 0 sampled_ids).length =
      max_num_vertices.toNat + 1 := by rw [copy_list_length, hbuf]
  have htake : (copy_list (st.sub_ver_mp.map Prod.fst) 0 sampled_ids).take
      st.sub_ver_mp.length = st.sub_ver_mp.map Prod.fst := by
    rw [← hkl]
    apply take_eq_of_getD
    · rw [h1len, hkl]; omega
    · intro j hj
      rw [copy_list_getD]
      have : 0 ≤ j ∧ j < 0 + (st.sub_ver_mp.map Prod.fst).length ∧ j < sampled_ids.length := by
        rw [hkl] at hj ⊢; omega
      rw [if_pos this, Nat.sub_zero]
  have hsl : (sort_ids (st.sub_ver_mp.map Prod.fst)).length = st.sub_ver_mp.length := by
    rw [sort_ids_length, hkl]
  have h2len : (sort_ids ((copy_list (st.sub_ver_mp.map Prod.fst) 0 sampled_ids).take
      st.sub_ver_mp.length) ++
      (copy_list (st.sub_ver_mp.map Prod.fst) 0 sampled_ids).drop st.sub_ver_mp.length).length =
      max_num_vertices.toNat + 1 := by
    rw [htake, List.length_append, hsl, List.length_drop, h1len]; omega
  unfold SampleSubgraph.copy_ids
  have hwr : ∀ (l : List Int) (v : Int), wr l max_num_vertices v =
      l.set max_num_vertices.toNat v := by
    intro l v
    unfold wr
    rw [if_neg (by omega)]
  simp only [hkl, hwr]
  refine ⟨?_, ?_, ?_, ?_⟩
  · rw [List.length_set, fill_const_length, h2len]
  · intro j hj
    rw [getD_set_int, fill_const_getD, htake, getD_append_int, hsl]
    have n1 : ¬ (max_num_vertices.toNat = j ∧ j < (List.foldl (fun o i => o.set i (-1))
        (sort_ids (st.sub_ver_mp.map Prod.fst) ++
          (copy_list (st.sub_ver_mp.map Prod.fst) 0 sampled_ids).drop st.sub_ver_mp.length)
        (List.range' st.sub_ver_mp.length
          (max_num_vertices.toNat - st.sub_ver_mp.length))).length) := by
      intro h; omega
    have n2 : ¬ (j ∈ List.range' st.sub_ver_mp.length
        (max_num_vertices.toNat - st.sub_ver_mp.length) ∧ j < (sort_ids
          (st.sub_ver_mp.map Prod.fst) ++ (copy_list (st.sub_ver_mp.map Prod.fst) 0
            sampled_ids).drop st.sub_ver_mp.length).length) := by
      intro h
      have := List.mem_range'_1.mp h.1
      omega
    rw [if_neg n1, if_neg n2, if_pos hj]
  · intro j hj1 hj2
    rw [getD_set_int, fill_const_getD, htake]
    have n1 : ¬ (max_num_vertices.toNat = j ∧ j < (List.foldl (fun o i => o.set i (-1))
        (sort_ids (st.sub_ver_mp.map Prod.fst) ++
          (copy_list (st.sub_ver_mp.map Prod.fst) 0 sampled_ids).drop st.sub_ver_mp.length)
        (List.range' st.sub_ver_mp.length
          (max_num_vertices.toNat - st.sub_ver_mp.length))).length) := by
      intro h; omega
    have p2 : j ∈ List.range' st.sub_ver_mp.length
        (max_num_vertices.toNat - st.sub_ver_mp.length) ∧ j < (sort_ids
          (st.sub_ver_mp.map Prod.fst) ++ (copy_list (st.sub_ver_mp.map Prod.fst) 0
            sampled_ids).drop st.sub_ver_mp.length).length := by
      rw [htake] at h2len
      rw [h2len]
      exact ⟨List.mem_range'_1.mpr (by omega), by omega⟩
    rw [if_neg n1, if_pos p2]
  · rw [getD_set_int, fill_const_length, h2len]
    simp

theorem getD_take_int (l : List Int) (n j : Nat) :
    (l.take n).getD j 0 = if j < n then l.getD j 0 else 0 := by
  simp only [List.getD_eq_getElem?_getD, List.getElem?_take]
  by_cases h : j < n
  · simp [h]
  · simp [h]

theorem copy_list_take (src : List Int) (coll : Nat) (buf A : List Int)
    (hA : buf.take coll = A) (hcoll : coll = A.length)
    (hle : coll + src.length ≤ buf.length) :
    (copy_list src coll buf).take (coll + src.length) = A ++ src := by
  apply list_ext_getD
  · simp [copy_list_length, hcoll]; omega
  · intro k hk
    simp only [List.length_take, copy_list_length] at hk
    rw [getD_take_int, if_pos (by omega), copy_list_getD, getD_append_int, ← hcoll]
    by_cases h : k < coll
    · have : ¬ (coll ≤ k ∧ k < coll + src.length ∧ k < buf.length) := by omega
      rw [if_neg this, if_pos h, ← hA, getD_take_int, if_pos h]
    · have : coll ≤ k ∧ k < coll + src.length ∧ k < buf.length := by omega
      rw [if_pos this, if_neg h]

theorem flatMap_take_succ {α β : Type} (F : α → List β) (l : List α) (i : Nat)
    (hi : i < l.length) :
    (l.take (i + 1)).flatMap F = (l.take i).flatMap F ++ F l[i] := by
  have h2 : l.take (i + 1) = l.take i ++ [l[i]] := by
    rw [List.take_succ, List.getElem?_eq_getElem hi]; rfl
  rw [h2, List.flatMap_append]
  simp

theorem flatMap_take_succ_length {α β : Type} (F : α → List β) (l : List α) (i : Nat)
    (hi : i < l.length) :
    ((l.take (i + 1)).flatMap F).length = ((l.take i).flatMap F).length + (F l[i]).length := by
  rw [flatMap_take_succ F l i hi, List.length_append]

theorem flatMap_neighs_edges_length (recs : List neigh_list)
    (h : ∀ r ∈ recs, r.edges.length = r.neighs.length) :
    (recs.flatMap (fun r => r.neighs)).length = (recs.flatMap (fun r => r.edges)).length := by
  induction recs with
  | nil => rfl
  | cons r recs ih =>
    simp only [List.flatMap_cons, List.length_append]
    rw [ih (fun x hx => h x (List.mem_cons_of_mem _ hx)), h r (List.mem_cons_self _ _)]

/-- The loop that fills the sub-CSR, from position `i` on, against the list `recs` of the
records of the vertices stored in `out`. -/
theorem fill_csr_spec (out : List Int) (nm : List (Int × neigh_list)) (recs : List neigh_list)
    (E : Nat)
    (hrec : ∀ t (ht : t < recs.length), umap_find nm (out.getD t 0) = some recs[t] ∧
      recs[t].edges.length = recs[t].neighs.length)
    (hE : (recs.flatMap (fun r => r.edges)).length ≤ E)
    (n i : Nat) (acc : SubCsrAcc) (hin : i + n = recs.length)
    (hcoll : acc.collected_nedges = ((recs.take i).flatMap (fun r => r.edges)).length)
    (hvl : acc.val_list_out.length = E) (hcl : acc.col_list_out.length = E)
    (hv : acc.val_list_out.take acc.collected_nedges = (recs.take i).flatMap (fun r => r.edges))
    (hcv : acc.col_list_out.take acc.collected_nedges =
      (recs.take i).flatMap (fun r => r.neighs))
    (hpl : recs.length < acc.indptr_out.length)
    (hp : ∀ t, t ≤ i → acc.indptr_out.getD t 0 =
      (((recs.take t).flatMap (fun r => r.edges)).length : Int)) :
    ∃ acc', SampleSubgraph.fill_csr out nm (List.range' i n) acc = .ok acc' ∧
      acc'.val_list_out.length = E ∧ acc'.col_list_out.length = E ∧
      acc'.val_list_out.take (recs.flatMap (fun r => r.edges)).length =
        recs.flatMap (fun r => r.edges) ∧
      acc'.col_list_out.take (recs.flatMap (fun r => r.edges)).length =
        recs.flatMap (fun r => r.neighs) ∧
      acc'.indptr_out.length = acc.indptr_out.length ∧
      (∀ t, t ≤ recs.length → acc'.indptr_out.getD t 0 =
        (((recs.take t).flatMap (fun r => r.edges)).length : Int)) ∧
      (∀ t, recs.length < t → acc'.indptr_out.getD t 0 = acc.indptr_out.getD t 0) := by
  induction n generalizing i acc with
  | zero =>
    have hi : i = recs.length := by omega
    subst hi
    rw [List.take_length] at hcoll hv hcv
    refine ⟨acc, rfl, hvl, hcl, by rw [← hcoll]; exact hv, by rw [← hcoll]; exact hcv, rfl,
      hp, fun _ _ => rfl⟩
  | succ n ih =>
    have hi : i < recs.length := by omega
    obtain ⟨hfind, hlen⟩ := hrec i hi
    have hsucc := flatMap_take_succ_length (fun r : neigh_list => r.edges) recs i hi
    have hle := flatMap_take_length_le (fun r : neigh_list => r.edges) recs (i + 1)
    have hall : ∀ r ∈ recs.take i, r.edges.length = r.neighs.length := by
      intro r hr
      obtain ⟨t, ht, rfl⟩ := List.getElem_of_mem (List.mem_of_mem_take hr)
      exact (hrec t ht).2
    have hnl : ((recs.take i).flatMap (fun r => r.neighs)).length =
        ((recs.take i).flatMap (fun r => r.edges)).length :=
      flatMap_neighs_edges_length _ hall
    simp only at hsucc
    obtain ⟨acc', hok, h1, h2, h3, h4, h5, h6, h7⟩ := ih (i + 1)
      { val_list_out := copy_list recs[i].edges acc.collected_nedges acc.val_list_out,
        col_list_out := copy_list recs[i].neighs acc.collected_nedges acc.col_list_out,
        indptr_out := acc.indptr_out.set (i + 1)
          (acc.indptr_out.getD i 0 + (recs[i].edges.length : Int)),
        collected_nedges := acc.collected_nedges + recs[i].edges.length }
      (by omega) (by simp only; rw [hsucc, hcoll])
      (by simp only; rw [copy_list_length, hvl]) (by simp only; rw [copy_list_length, hcl])
      (by
        simp only
        rw [flatMap_take_succ _ _ _ hi]
        exact copy_list_take _ _ _ _ hv hcoll (by rw [hvl, hcoll]; omega))
      (by
        simp only
        rw [flatMap_take_succ _ _ _ hi, hlen]
        exact copy_list_take _ _ _ _ hcv (by rw [hcoll, hnl])
          (by rw [hcl, hcoll, ← hlen]; omega))
      (by simpa using hpl)
      (by
        intro t ht
        simp only
        rw [getD_set_int]
        by_cases hti : i + 1 = t
        · subst hti
          rw [if_pos ⟨rfl, by omega⟩, hp i (le_refl _), hsucc]
          push_cast
          ring
        · rw [if_neg (fun h => hti h.1)]
          exact hp t (by omega))
    refine ⟨acc', ?_, h1, h2, h3, h4, by rw [h5]; simp, h6, ?_⟩
    · rw [List.range'_succ, SampleSubgraph.fill_csr]
      have hne : ¬ (recs[i].edges.length ≠ recs[i].neighs.length) := by simp [hlen]
      have hin : ¬ (acc.indptr_out.length ≤ i + 1) := by omega
      simp only [hfind, hne, hin, if_false]
      exact hok
    · intro t ht
      rw [h7 t ht, getD_set_int]
      have : ¬ (i + 1 = t ∧ t < acc.indptr_out.length) := by omega
      rw [if_neg this]

theorem tail_fill_spec (n a : Nat) (p : List Int) (ha : 1 ≤ a) (hle : a + n ≤ p.length) :
    ((List.range' a n).foldl (fun p i => p.set i (p.getD (i - 1) 0)) p).length = p.length ∧
      ∀ t, ((List.range' a n).foldl (fun p i => p.set i (p.getD (i - 1) 0)) p).getD t 0 =
        if a ≤ t ∧ t < a + n then p.getD (a - 1) 0 else p.getD t 0 := by
  induction n generalizing a p with
  | zero =>
    refine ⟨rfl, fun t => ?_⟩
    have : ¬ (a ≤ t ∧ t < a + 0) := by omega
    rw [if_neg this]
    rfl
  | succ n ih =>
    obtain ⟨h1, h2⟩ := ih (a + 1) (p.set a (p.getD (a - 1) 0)) (by omega)
      (by rw [List.length_set]; omega)
    rw [List.range'_succ, List.foldl_cons]
    refine ⟨by rw [h1, List.length_set], fun t => ?_⟩
    rw [h2 t, getD_set_int, getD_set_int, Nat.add_sub_cancel]
    by_cases ht : a + 1 ≤ t ∧ t < a + 1 + n
    · have h3 : a ≤ t ∧ t < a + (n + 1) := by omega
      rw [if_pos ht, if_pos h3, if_pos ⟨rfl, by omega⟩]
    · rw [if_neg ht]
      by_cases hta : a = t
      · subst hta
        rw [if_pos ⟨rfl, by omega⟩, if_pos (by omega)]
      · have h3 : ¬ (a ≤ t ∧ t < a + (n + 1)) := by omega
        rw [if_neg (fun h => hta h.1), if_neg h3]

theorem forall₂_mem_right {α β : Type} {R : α → β → Prop} {l₁ : List α} {l₂ : List β}
    (h : List.Forall₂ R l₁ l₂) (b : β) (hb : b ∈ l₂) : ∃ a ∈ l₁, R a b := by
  induction h with
  | nil => simp at hb
  | cons hr _ ih =>
    rcases List.mem_cons.mp hb with rfl | hb
    · exact ⟨_, List.mem_cons_self _ _, hr⟩
    · obtain ⟨a, ha, hR⟩ := ih hb
      exact ⟨a, List.mem_cons_of_mem _ ha, hR⟩

theorem visited_records_length (st : BfsState) :
    (visited_records st).length = st.sub_ver_mp.length := by
  simp [visited_records, sorted_visited, sort_ids_length]

theorem sorted_visited_length (st : BfsState) :
    (sorted_visited st).length = st.sub_ver_mp.length := by
  simp [sorted_visited, sort_ids_length]

theorem sorted_visited_mem (st : BfsState) (v : Int) :
    v ∈ sorted_visited st ↔ v ∈ st.sub_ver_mp.map Prod.fst :=
  (List.perm_insertionSort _ _).mem_iff

/-- The record of the `t`-th smallest visited vertex is in the record map. -/
theorem visited_records_find (csr : CSR) (num_hops : Int) (k : Nat) (st : BfsState)
    (hinv : BfsInv csr num_hops k st) (t : Nat) (ht : t < (visited_records st).length) :
    umap_find st.neigh_mp ((sorted_visited st).getD t 0) = some (visited_records st)[t] ∧
      (visited_records st)[t].edges.length = (visited_records st)[t].neighs.length := by
  have ht' : t < (sorted_visited st).length := by
    rw [sorted_visited_length, ← visited_records_length]; exact ht
  have hmem : (sorted_visited st)[t] ∈ st.sub_ver_mp.map Prod.fst :=
    (sorted_visited_mem st _).mp (List.getElem_mem _)
  have hsome : ∃ l, umap_find st.sub_ver_mp (sorted_visited st)[t] = some l := by
    cases hf : umap_find st.sub_ver_mp (sorted_visited st)[t] with
    | none => exact absurd hmem ((umap_find_none_iff _ _).mp hf)
    | some l => exact ⟨l, rfl⟩
  obtain ⟨l, hl⟩ := hsome
  obtain ⟨nl, hfind, hR⟩ := record_of_visited csr num_hops k st hinv _ l hl
  have hrec : (visited_records st)[t] = nl := by
    simp only [visited_records, List.getElem_map, hfind, Option.getD_some]
  rw [List.getD_eq_getElem _ _ ht', hrec]
  exact ⟨hfind, hR.2.1.symm⟩

/-- The number of sampled edges is the total size of the records. -/
theorem visited_records_total (csr : CSR) (num_hops : Int) (k : Nat) (st : BfsState)
    (hinv : BfsInv csr num_hops k st) :
    ((visited_records st).flatMap (fun r => r.edges)).length = st.num_edges := by
  have hkeys := forall₂_keys hinv.records
  have hnd : (st.neigh_mp.map Prod.fst).Nodup := hkeys ▸ hinv.keys_nodup
  have h1 : st.neigh_mp.map (fun p => p.2.neighs.length) =
      (st.sub_ver_mp.map Prod.fst).map (fun v =>
        ((umap_find st.neigh_mp v).getD { neighs := [], edges := [] }).edges.length) := by
    rw [← hkeys, List.map_map]
    apply List.map_congr_left
    intro p hp
    obtain ⟨a, -, hR⟩ := forall₂_mem_right hinv.records p hp
    have hf : umap_find st.neigh_mp p.1 = some p.2 := umap_find_of_mem _ _ _ hnd hp
    simp only [Function.comp, hf, Option.getD_some]
    exact hR.2.1
  have hperm : (sorted_visited st).Perm (st.sub_ver_mp.map Prod.fst) :=
    List.perm_insertionSort _ _
  rw [hinv.edges_eq, h1, List.length_flatMap, visited_records, List.map_map]
  exact (hperm.map _).sum_eq

/-- The sub-CSR that `SampleSubgraph` builds when the visited count is at most
`max_num_vertices`. -/
theorem build_csr_spec (csr : CSR) (num_hops : Int) (k : Nat) (st : BfsState)
    (hinv : BfsInv csr num_hops k st) (max_num_vertices : Int) (out : List Int)
    (hc : (st.sub_ver_mp.length : Int) ≤ max_num_vertices)
    (hout : ∀ j, j < st.sub_ver_mp.length → out.getD j 0 = (sorted_visited st).getD j 0) :
    ∃ sub : CSR, SampleSubgraph.build_csr max_num_vertices out st = .ok sub ∧
      sub.data = (visited_records st).flatMap (fun r => r.edges) ∧
      sub.indices = (visited_records st).flatMap (fun r => r.neighs) ∧
      sub.indptr.length = max_num_vertices.toNat + 1 ∧
      (∀ t, t ≤ st.sub_ver_mp.length → sub.indptr.getD t 0 =
        ((((visited_records st).take t).flatMap (fun r => r.edges)).length : Int)) ∧
      (∀ t, st.sub_ver_mp.length < t → t ≤ max_num_vertices.toNat →
        sub.indptr.getD t 0 = (st.num_edges : Int)) := by
  have hrl := visited_records_length st
  have htot := visited_records_total csr num_hops k st hinv
  have hmax : (max_num_vertices + 1).toNat = max_num_vertices.toNat + 1 := by omega
  have hcn : st.sub_ver_mp.length ≤ max_num_vertices.toNat := by omega
  obtain ⟨acc', hok, h1, h2, h3, h4, h5, h6, -⟩ :=
    fill_csr_spec out st.neigh_mp (visited_records st) st.num_edges
      (by
        intro t ht
        have := visited_records_find csr num_hops k st hinv t ht
        rw [hout t (by rw [← hrl]; exact ht)]
        exact this)
      (by rw [htot]) (visited_records st).length 0
      { val_list_out := List.replicate st.num_edges 0,
        col_list_out := List.replicate st.num_edges 0,
        indptr_out := (List.replicate (max_num_vertices + 1).toNat 0).set 0 0,
        collected_nedges := 0 }
      (by omega) (by simp) (by simp) (by simp) (by simp) (by simp)
      (by simp [hmax, hrl]; omega)
      (by
        intro t ht
        have : t = 0 := by omega
        subst this
        rw [getD_set_int]
        simp)
  simp only [List.length_set, List.length_replicate, hmax] at h5
  have htail := tail_fill_spec (max_num_vertices.toNat - st.sub_ver_mp.length)
    (st.sub_ver_mp.length + 1) acc'.indptr_out (by omega) (by rw [h5]; omega)
  have hbuild : SampleSubgraph.build_csr max_num_vertices out st = .ok
      { shape0 := max_num_vertices, data := acc'.val_list_out, indices := acc'.col_list_out,
        indptr := (List.range' (st.sub_ver_mp.length + 1)
          (max_num_vertices.toNat - st.sub_ver_mp.length)).foldl
          (fun p i => p.set i (p.getD (i - 1) 0)) acc'.indptr_out } := by
    have hok' : SampleSubgraph.fill_csr out st.neigh_mp (List.range st.sub_ver_mp.length)
        { val_list_out := List.replicate st.num_edges 0,
          col_list_out := List.replicate st.num_edges 0,
          indptr_out := (List.replicate (max_num_vertices + 1).toNat 0).set 0 0,
          collected_nedges := 0 } = .ok acc' := by
      rw [List.range_eq_range', ← hrl]; exact hok
    unfold SampleSubgraph.build_csr
    simp only [hok']
  refine ⟨_, hbuild, ?_, ?_, ?_, ?_, ?_⟩
  · show acc'.val_list_out = _
    rw [← h3, htot, ← h1, List.take_length]
  · show acc'.col_list_out = _
    rw [← h4, htot, ← h2, List.take_length]
  · simp only
    rw [htail.1, h5]
  · intro t ht
    simp only
    rw [htail.2 t, if_neg (by omega)]
    exact h6 t (by rw [hrl]; exact ht)
  · intro t ht1 ht2
    simp only
    rw [htail.2 t, if_pos (by omega), Nat.add_sub_cancel, h6 _ (by rw [hrl]), ← hrl,
      List.take_length, htot]

theorem flatMap_length_congr {α β : Type} (F G : α → List β) (l : List α)
    (h : ∀ r ∈ l, (F r).length = (G r).length) :
    (l.flatMap F).length = (l.flatMap G).length := by
  induction l with
  | nil => rfl
  | cons r l ih =>
    simp only [List.flatMap_cons, List.length_append]
    rw [ih (fun x hx => h x (List.mem_cons_of_mem _ hx)), h r (List.mem_cons_self _ _)]

/-- Rows of a CSR whose arrays are concatenations of per-row lists and whose row pointer holds
the running lengths. -/
theorem csr_rows_of_flatMap {α : Type} (rows : List α) (F G : α → List Int)
    (hFG : ∀ r ∈ rows, (F r).length = (G r).length) (sub : CSR)
    (hdata : sub.data = rows.flatMap F) (hind : sub.indices = rows.flatMap G)
    (hptr : ∀ t, t ≤ rows.length →
      sub.indptr.getD t 0 = (((rows.take t).flatMap F).length : Int))
    (i : Nat) (hi : i < rows.length) :
    sub.row_vals (i : Int) = F rows[i] ∧ sub.row_cols (i : Int) = G rows[i] := by
  have h1 := hptr i (by omega)
  have h2 := hptr (i + 1) (by omega)
  have e1 : rd sub.indptr (i : Int) = sub.indptr.getD i 0 := by simp [rd]
  have e2 : rd sub.indptr ((i : Int) + 1) = sub.indptr.getD (i + 1) 0 := by
    have : ((i : Int) + 1).toNat = i + 1 := by omega
    have hnn : ¬ ((i : Int) + 1 < 0) := by omega
    simp [rd, this, hnn]
  have h3 : ∀ a b : Nat, ((a : Int) - (b : Int)).toNat = a - b := by intro a b; omega
  have hsucc := flatMap_take_succ_length F rows i hi
  have hle := flatMap_take_length_le F rows (i + 1)
  have hG : ∀ t, ((rows.take t).flatMap F).length = ((rows.take t).flatMap G).length := by
    intro t
    exact flatMap_length_congr F G _ (fun r hr => hFG r (List.mem_of_mem_take hr))
  have hGall : (rows.flatMap F).length = (rows.flatMap G).length :=
    flatMap_length_congr F G rows hFG
  constructor
  · unfold CSR.row_vals CSR.row_range
    rw [e1, e2, h1, h2, h3, Int.toNat_ofNat, map_getD_range' _ _ _ (by rw [hdata]; omega),
      hdata]
    exact slice_flatMap F rows i hi
  · unfold CSR.row_cols CSR.row_range
    rw [e1, e2, h1, h2, h3, Int.toNat_ofNat,
      map_getD_range' _ _ _ (by rw [hind, ← hGall]; omega), hind, hG i, hG (i + 1)]
    exact slice_flatMap G rows i hi

/-- With a visited count of at most `max_num_vertices` the second part of `SampleSubgraph`
returns, with the vertex buffer of `copy_ids` and a sub-CSR as in `build_csr_spec`. -/
theorem SampleSubgraph_ok (csr : CSR) (seed_arr sampled_ids : List Int)
    (sub_prob : Option (List ℚ)) (sub_layer : List Int) (probability : Option (List ℚ))
    (num_hops num_neighbor max_num_vertices : Int) (draws : List Nat) (st : BfsState)
    (hb : SampleSubgraph.bfs csr seed_arr probability num_hops num_neighbor max_num_vertices
      draws = .ok st)
    (hc : (st.sub_ver_mp.length : Int) ≤ max_num_vertices)
    (hbuf : sampled_ids.length = max_num_vertices.toNat + 1) :
    ∃ out, SampleSubgraph csr seed_arr sampled_ids sub_prob sub_layer probability num_hops
        num_neighbor max_num_vertices draws = .ok out ∧
      out.sampled_ids = SampleSubgraph.copy_ids max_num_vertices sampled_ids st ∧
      SampleSubgraph.build_csr max_num_vertices
        (SampleSubgraph.copy_ids max_num_vertices sampled_ids st) st = .ok out.sub_csr := by
  have hinv := bfs_inv csr seed_arr probability num_hops num_neighbor max_num_vertices draws
    st hb
  obtain ⟨-, hids, -, -⟩ := copy_ids_spec max_num_vertices sampled_ids st (by omega) (by omega) hbuf
  obtain ⟨sub, hsub, -⟩ := build_csr_spec csr num_hops _ st hinv max_num_vertices
    (SampleSubgraph.copy_ids max_num_vertices sampled_ids st) hc hids
  refine ⟨{ sampled_ids := SampleSubgraph.copy_ids max_num_vertices sampled_ids st,
            sub_csr := sub,
            sub_prob := sub_prob.map (SampleSubgraph.copy_prob probability max_num_vertices
              (SampleSubgraph.copy_ids max_num_vertices sampled_ids st)),
            sub_layer := SampleSubgraph.copy_layer max_num_vertices
              (SampleSubgraph.copy_ids max_num_vertices sampled_ids st) st sub_layer },
    ?_, rfl, hsub⟩
  unfold SampleSubgraph
  rw [hb]
  simp only [SampleSubgraph.emit, hsub]

/-- The first `c` slots of the vertex buffer are the visited ids in increasing order. -/
theorem sampled_ids_take (max_num_vertices : Int) (sampled_ids : List Int) (st : BfsState)
    (hc : (st.sub_ver_mp.length : Int) ≤ max_num_vertices)
    (hbuf : sampled_ids.length = max_num_vertices.toNat + 1) :
    (SampleSubgraph.copy_ids max_num_vertices sampled_ids st).take st.sub_ver_mp.length =
      sorted_visited st := by
  obtain ⟨h1, h2, -, -⟩ := copy_ids_spec max_num_vertices sampled_ids st (by omega) (by omega) hbuf
  rw [← sorted_visited_length st]
  apply take_eq_of_getD
  · rw [h1, sorted_visited_length]; omega
  · intro j hj
    rw [sorted_visited_length] at hj
    exact h2 j hj

/-- C7: when the traversal ends with a visited count `c ≤ max_num_vertices`, the vertex buffer
holds the visited vertex ids in strictly increasing order in slots `[0, c)`, `-1` in every slot
of `[c, max_num_vertices)`, and `c` in slot `max_num_vertices`. -/
theorem C7_vertex_buffer_layout (csr : CSR) (seed_arr sampled_ids : List Int)
    (sub_prob : Option (List ℚ)) (sub_layer : List Int) (probability : Option (List ℚ))
    (num_hops num_neighbor max_num_vertices : Int) (draws : List Nat) (st : BfsState)
    (hb : SampleSubgraph.bfs csr seed_arr probability num_hops num_neighbor max_num_vertices
      draws = .ok st)
    (hc : (st.sub_ver_mp.length : Int) ≤ max_num_vertices)
    (hbuf : sampled_ids.length = max_num_vertices.toNat + 1) :
    ∃ out, SampleSubgraph csr seed_arr sampled_ids sub_prob sub_layer probability num_hops
        num_neighbor max_num_vertices draws = .ok out ∧
      out.sampled_ids.length = max_num_vertices.toNat + 1 ∧
      (out.sampled_ids.take st.sub_ver_mp.length).Sorted (· < ·) ∧
      (out.sampled_ids.take st.sub_ver_mp.length).length = st.sub_ver_mp.length ∧
      (∀ v, v ∈ out.sampled_ids.take st.sub_ver_mp.length ↔
        (umap_find st.sub_ver_mp v).isSome) ∧
      (∀ j, st.sub_ver_mp.length ≤ j → j < max_num_vertices.toNat →
        out.sampled_ids.getD j 0 = -1) ∧
      out.sampled_ids.getD max_num_vertices.toNat 0 = (st.sub_ver_mp.length : Int) := by
  have hinv := bfs_inv csr seed_arr probability num_hops num_neighbor max_num_vertices draws
    st hb
  obtain ⟨out, hok, hids, -⟩ := SampleSubgraph_ok csr seed_arr sampled_ids sub_prob sub_layer
    probability num_hops num_neighbor max_num_vertices draws st hb hc hbuf
  obtain ⟨h1, h2, h3, h4⟩ := copy_ids_spec max_num_vertices sampled_ids st (by omega) (by omega) hbuf
  rw [← hids] at h1 h2 h3 h4
  have htake : out.sampled_ids.take st.sub_ver_mp.length = sorted_visited st := by
    rw [hids]; exact sampled_ids_take max_num_vertices sampled_ids st hc hbuf
  obtain ⟨hs, hp⟩ := sort_ids_spec _ hinv.keys_nodup
  refine ⟨out, hok, h1, ?_, ?_, ?_, h3, h4⟩
  · rw [htake]; exact hs
  · rw [htake, sorted_visited_length]
  · intro v
    rw [htake, sorted_visited_mem]
    constructor
    · intro hv
      cases hf : umap_find st.sub_ver_mp v with
      | none => exact absurd hv ((umap_find_none_iff _ _).mp hf)
      | some l => rfl
    · intro hv
      by_contra hn
      rw [(umap_find_none_iff _ _).mpr hn] at hv
      simp at hv

/-- Witness of C7: `edge_graph` from seed `0` with `max_num_vertices = 2`. -/
theorem C7_vertex_buffer_layout_witness :
    ∃ out, SampleSubgraph edge_graph [0] [0, 0, 0] none [0, 0] none 2 1 2 [] = .ok out ∧
      out.sampled_ids.length = (2 : Int).toNat + 1 ∧
      (out.sampled_ids.take edge_graph_final.sub_ver_mp.length).Sorted (· < ·) ∧
      (out.sampled_ids.take edge_graph_final.sub_ver_mp.length).length =
        edge_graph_final.sub_ver_mp.length ∧
      (∀ v, v ∈ out.sampled_ids.take edge_graph_final.sub_ver_mp.length ↔
        (umap_find edge_graph_final.sub_ver_mp v).isSome) ∧
      (∀ j, edge_graph_final.sub_ver_mp.length ≤ j → j < (2 : Int).toNat →
        out.sampled_ids.getD j 0 = -1) ∧
      out.sampled_ids.getD (2 : Int).toNat 0 = (edge_graph_final.sub_ver_mp.length : Int) :=
  C7_vertex_buffer_layout edge_graph [0] [0, 0, 0] none [0, 0] none 2 1 2 [] edge_graph_final
    (by decide) (by decide) (by decide)

/-- C8: when the traversal ends with a visited count `c ≤ max_num_vertices`, the sub-CSR has
`row_ptr[0] = 0`; for `i < c` row `i` has the size of the record of the `i`-th smallest visited
vertex and holds that record's edge ids as values and its neighbor ids as columns, in recorded
order; `row_ptr[i] = row_ptr[c]` for `c < i ≤ max_num_vertices`; and
`row_ptr[max_num_vertices]` is the number of sampled edges. -/
theorem C8_sub_csr_layout (csr : CSR) (seed_arr sampled_ids : List Int)
    (sub_prob : Option (List ℚ)) (sub_layer : List Int) (probability : Option (List ℚ))
    (num_hops num_neighbor max_num_vertices : Int) (draws : List Nat) (st : BfsState)
    (hb : SampleSubgraph.bfs csr seed_arr probability num_hops num_neighbor max_num_vertices
      draws = .ok st)
    (hc : (st.sub_ver_mp.length : Int) ≤ max_num_vertices)
    (hbuf : sampled_ids.length = max_num_vertices.toNat + 1) :
    ∃ out, SampleSubgraph csr seed_arr sampled_ids sub_prob sub_layer probability num_hops
        num_neighbor max_num_vertices draws = .ok out ∧
      out.sub_csr.indptr.length = max_num_vertices.toNat + 1 ∧
      out.sub_csr.indptr.getD 0 0 = 0 ∧
      (∀ i, i < st.sub_ver_mp.length →
        ∃ nl, umap_find st.neigh_mp ((sorted_visited st).getD i 0) = some nl ∧
          out.sampled_ids.getD i 0 = (sorted_visited st).getD i 0 ∧
          out.sub_csr.indptr.getD (i + 1) 0 - out.sub_csr.indptr.getD i 0 =
            (nl.neighs.length : Int) ∧
          out.sub_csr.row_vals (i : Int) = nl.edges ∧
          out.sub_csr.row_cols (i : Int) = nl.neighs) ∧
      (∀ i, st.sub_ver_mp.length < i → i ≤ max_num_vertices.toNat →
        out.sub_csr.indptr.getD i 0 = out.sub_csr.indptr.getD st.sub_ver_mp.length 0) ∧
      out.sub_csr.indptr.getD max_num_vertices.toNat 0 = (st.num_edges : Int) ∧
      out.sub_csr.data.length = st.num_edges ∧ out.sub_csr.indices.length = st.num_edges := by
  have hinv := bfs_inv csr seed_arr probability num_hops num_neighbor max_num_vertices draws
    st hb
  obtain ⟨out, hok, hids, hcsr⟩ := SampleSubgraph_ok csr seed_arr sampled_ids sub_prob
    sub_layer probability num_hops num_neighbor max_num_vertices draws st hb hc hbuf
  obtain ⟨-, hget, -, -⟩ := copy_ids_spec max_num_vertices sampled_ids st (by omega) (by omega) hbuf
  obtain ⟨sub, hsub, hdata, hind, hlen, hptr, htail⟩ := build_csr_spec csr num_hops _ st hinv
    max_num_vertices (SampleSubgraph.copy_ids max_num_vertices sampled_ids st) hc hget
  rw [hcsr] at hsub
  injection hsub with hsub
  subst hsub
  have hrl := visited_records_length st
  have htot := visited_records_total csr num_hops _ st hinv
  have hall : ∀ r ∈ visited_records st, r.edges.length = r.neighs.length := by
    intro r hr
    obtain ⟨t, ht, rfl⟩ := List.getElem_of_mem hr
    exact (visited_records_find csr num_hops _ st hinv t ht).2
  have hfull : out.sub_csr.indptr.getD st.sub_ver_mp.length 0 = (st.num_edges : Int) := by
    rw [hptr _ (le_refl _), ← hrl, List.take_length, htot]
  refine ⟨out, hok, hlen, ?_, ?_, ?_, ?_, ?_, ?_⟩
  · rw [hptr 0 (Nat.zero_le _)]; simp
  · intro i hi
    have hi' : i < (visited_records st).length := by rw [hrl]; exact hi
    obtain ⟨hfind, hl⟩ := visited_records_find csr num_hops _ st hinv i hi'
    obtain ⟨hv, hcols⟩ := csr_rows_of_flatMap (visited_records st) (fun r => r.edges)
      (fun r => r.neighs) hall out.sub_csr hdata hind
      (fun t ht => hptr t (by rw [← hrl]; exact ht)) i hi'
    refine ⟨(visited_records st)[i], hfind, ?_, ?_, hv, hcols⟩
    · rw [hids, hget i hi]; rfl
    · rw [hptr (i + 1) (by omega), hptr i (by omega),
        flatMap_take_succ_length (fun r : neigh_list => r.edges) _ i hi', ← hl]
      push_cast
      ring
  · intro i hi1 hi2
    rw [htail i hi1 hi2, hfull]
  · rcases Nat.lt_or_ge st.sub_ver_mp.length max_num_vertices.toNat with hlt | hge
    · exact htail _ hlt (le_refl _)
    · have : max_num_vertices.toNat = st.sub_ver_mp.length := by omega
      rw [this]; exact hfull
  · rw [hdata, htot]
  · rw [hind, flatMap_length_congr (fun r : neigh_list => r.neighs) (fun r => r.edges) _
      (fun r hr => (hall r hr).symm), htot]

/-- Witness of C8: `edge_graph` from seed `0` with `max_num_vertices = 2`. -/
theorem C8_sub_csr_layout_witness :
    ∃ out, SampleSubgraph edge_graph [0] [0, 0, 0] none [0, 0] none 2 1 2 [] = .ok out ∧
      out.sub_csr.indptr.length = (2 : Int).toNat + 1 ∧
      out.sub_csr.indptr.getD 0 0 = 0 ∧
      (∀ i, i < edge_graph_final.sub_ver_mp.length →
        ∃ nl, umap_find edge_graph_final.neigh_mp
            ((sorted_visited edge_graph_final).getD i 0) = some nl ∧
          out.sampled_ids.getD i 0 = (sorted_visited edge_graph_final).getD i 0 ∧
          out.sub_csr.indptr.getD (i + 1) 0 - out.sub_csr.indptr.getD i 0 =
            (nl.neighs.length : Int) ∧
          out.sub_csr.row_vals (i : Int) = nl.edges ∧
          out.sub_csr.row_cols (i : Int) = nl.neighs) ∧
      (∀ i, edge_graph_final.sub_ver_mp.length < i → i ≤ (2 : Int).toNat →
        out.sub_csr.indptr.getD i 0 =
          out.sub_csr.indptr.getD edge_graph_final.sub_ver_mp.length 0) ∧
      out.sub_csr.indptr.getD (2 : Int).toNat 0 = (edge_graph_final.num_edges : Int) ∧
      out.sub_csr.data.length = edge_graph_final.num_edges ∧
      out.sub_csr.indices.length = edge_graph_final.num_edges :=
  C8_sub_csr_layout edge_graph [0] [0, 0, 0] none [0, 0] none 2 1 2 [] edge_graph_final
    (by decide) (by decide) (by decide)

theorem chain_of_is_sorted (V : List Int) (h : is_sorted V = true) : List.Chain' (· ≤ ·) V := by
  induction V with
  | nil => exact List.chain'_nil
  | cons a l ih =>
    cases l with
    | nil => exact List.chain'_singleton a
    | cons b l =>
      simp only [is_sorted, Bool.and_eq_true, decide_eq_true_eq] at h
      exact List.chain'_cons.mpr ⟨h.1, ih h.2⟩

theorem is_sorted_iff (V : List Int) : is_sorted V = true ↔ V.Sorted (· ≤ ·) := by
  constructor
  · intro h
    exact List.chain'_iff_pairwise.mp (chain_of_is_sorted V h)
  · intro h
    exact is_sorted_of_chain V (List.chain'_iff_pairwise.mpr h)

/-- C11: for every vertex array that is not sorted ascending (not non-decreasing),
`GetSubgraph` ends with a failed check, whatever the graph and whether or not the mapping is
requested; the failed call has no output CSR. -/
theorem C11_unsorted_is_rejected (g : CSR) (V : List Int) (rm : Bool)
    (h : ¬ V.Sorted (· ≤ ·)) : GetSubgraph g V rm = .fail .check_failed := by
  have hs : ¬ is_sorted V = true := fun hs => h ((is_sorted_iff V).mp hs)
  unfold GetSubgraph
  rw [if_pos hs]

/-- Witness of C11: the vertex array `[1, 0]`. -/
theorem C11_unsorted_is_rejected_witness :
    GetSubgraph example_graph [1, 0] true = .fail .check_failed :=
  C11_unsorted_is_rejected example_graph [1, 0] true (by decide)

/-- C12 (counterexample): the vertex array `[0, 0]` holds a duplicate id, and `GetSubgraph`
returns a result for it. -/
theorem C12_duplicate_is_accepted :
    ¬ [(0 : Int), 0].Nodup ∧
      GetSubgraph example_graph [0, 0] true = .ok (dup_sub, some dup_old) := by
  decide

/-- The outcome of `GetSubgraph` is a failure exactly when the array is not non-decreasing or
holds an id that is not below the number of rows. -/
theorem GetSubgraph_fail_iff (g : CSR) (V : List Int) (rm : Bool) :
    (∃ e, GetSubgraph g V rm = .fail e) ↔
      (¬ V.Sorted (· ≤ ·) ∨ ∃ v ∈ V, ¬ v < g.shape0) := by
  constructor
  · rintro ⟨e, he⟩
    by_contra hn
    push_neg at hn
    obtain ⟨sub, old, hok, -⟩ := GetSubgraph_spec g V rm ((is_sorted_iff V).mpr hn.1) hn.2
    rw [hok] at he
    exact absurd he (by simp)
  · intro h
    cases hres : GetSubgraph g V rm with
    | fail e => exact ⟨e, rfl⟩
    | ok r =>
      exfalso
      obtain ⟨hs, hlt⟩ := GetSubgraph_ok_inv g V rm r hres
      rcases h with h | ⟨v, hv, hnv⟩
      · exact h ((is_sorted_iff V).mp hs)
      · exact hnv (hlt v hv)

/-- C12 (amended): for a vertex array that holds a duplicate id, `GetSubgraph` fails exactly
when the array is not non-decreasing or holds an id that is not below the number of vertices;
a non-decreasing array of valid ids is accepted with its duplicates. -/
theorem C12_duplicates_fail_only_if_unsorted (g : CSR) (V : List Int) (rm : Bool)
    (_hdup : ¬ V.Nodup) :
    ((∃ e, GetSubgraph g V rm = .fail e) ↔
      (¬ V.Sorted (· ≤ ·) ∨ ∃ v ∈ V, ¬ v < g.shape0)) ∧
    (V.Sorted (· ≤ ·) → (∀ v ∈ V, v < g.shape0) → ∃ r, GetSubgraph g V rm = .ok r) := by
  refine ⟨GetSubgraph_fail_iff g V rm, ?_⟩
  intro hs hlt
  obtain ⟨sub, old, hok, -⟩ := GetSubgraph_spec g V rm ((is_sorted_iff V).mpr hs) hlt
  exact ⟨_, hok⟩

/-- Witness of C12 (amended): the vertex array `[0, 0]`. -/
theorem C12_duplicates_fail_only_if_unsorted_witness :
    ((∃ e, GetSubgraph example_graph [0, 0] true = .fail e) ↔
      (¬ [(0 : Int), 0].Sorted (· ≤ ·) ∨ ∃ v ∈ [(0 : Int), 0], ¬ v < example_graph.shape0)) ∧
    ([(0 : Int), 0].Sorted (· ≤ ·) → (∀ v ∈ [(0 : Int), 0], v < example_graph.shape0) →
      ∃ r, GetSubgraph example_graph [0, 0] true = .ok r) :=
  C12_duplicates_fail_only_if_unsorted example_graph [0, 0] true (by decide)

/-! ## The membership index against its specification -/

/-- C20: for a vertex array `V` without duplicates, `Collect` appends the rank of `old_vertex`
in `V` (and `old_edge`, when the edge ids are collected) if `old_vertex` is in `V`, and nothing
otherwise; it agrees with the lookup in the exact map alone, the bitmap test being true for
every id of `V`. -/
theorem C20_collect_refines_rank_lookup (V : List Int) (hnd : V.Nodup)
    (old_vertex old_edge : Int) (col_idx : List Int) (orig_eids : Option (List Int)) :
    (HashTableChecker.mk_from V).Collect old_vertex old_edge col_idx orig_eids =
        Collect_by_rank V old_vertex old_edge col_idx orig_eids ∧
      (HashTableChecker.mk_from V).Collect old_vertex old_edge col_idx orig_eids =
        Collect_map_only (HashTableChecker.mk_from V) old_vertex old_edge col_idx orig_eids ∧
      (∀ v ∈ V, (HashTableChecker.mk_from V).map.test v = true) := by
  refine ⟨?_, ?_, fun v hv => bitmap_test_of_mem V v hv⟩
  · rw [Collect_eq, find_of_nodup V hnd]
    unfold Collect_by_rank
    by_cases hx : old_vertex ∈ V
    · simp only [hx, if_true]
    · simp only [hx, if_false]
  · rw [Collect_eq]
    rfl

/-- Witness of C20: the vertex array `[0, 1, 2]` and the entry `(2, 4)`. -/
theorem C20_collect_refines_rank_lookup_witness :
    (HashTableChecker.mk_from [0, 1, 2]).Collect 2 4 [0] (some [3]) =
        Collect_by_rank [0, 1, 2] 2 4 [0] (some [3]) ∧
      (HashTableChecker.mk_from [0, 1, 2]).Collect 2 4 [0] (some [3]) =
        Collect_map_only (HashTableChecker.mk_from [0, 1, 2]) 2 4 [0] (some [3]) ∧
      (∀ v ∈ [(0 : Int), 1, 2], (HashTableChecker.mk_from [0, 1, 2]).map.test v = true) :=
  C20_collect_refines_rank_lookup [0, 1, 2] (by decide) 2 4 [0] (some [3])

/-! ## Error handling of `SampleSubgraph` -/

/-- C13: for `max_num_vertices ≥ 0`, a seed array with more than `max_num_vertices` seeds makes
`SampleSubgraph` end with a failed check, whatever the graph, the buffers and the draws (the
check comes first, so nothing is read from the graph and no output exists); with at most
`max_num_vertices` seeds the check passes and the call continues with the traversal. -/
theorem C13_seed_count_check (csr : CSR) (seed_arr sampled_ids : List Int)
    (sub_prob : Option (List ℚ)) (sub_layer : List Int) (probability : Option (List ℚ))
    (num_hops num_neighbor max_num_vertices : Int) (draws : List Nat)
    (h0 : 0 ≤ max_num_vertices) (h1 : max_num_vertices < 2 ^ 63) :
    (max_num_vertices < (seed_arr.length : Int) →
      SampleSubgraph.bfs csr seed_arr probability num_hops num_neighbor max_num_vertices draws =
          .fail .check_failed ∧
        SampleSubgraph csr seed_arr sampled_ids sub_prob sub_layer probability num_hops
          num_neighbor max_num_vertices draws = .fail .check_failed) ∧
    ((seed_arr.length : Int) ≤ max_num_vertices →
      SampleSubgraph.bfs csr seed_arr probability num_hops num_neighbor max_num_vertices draws =
        SampleSubgraph.loop csr probability num_hops num_neighbor max_num_vertices
          (SampleSubgraph.fuel seed_arr num_neighbor max_num_vertices)
          (SampleSubgraph.init seed_arr draws)) := by
  have hsz := to_size_t_of_nonneg max_num_vertices h0 h1
  constructor
  · intro hlt
    have hb : SampleSubgraph.bfs csr seed_arr probability num_hops num_neighbor
        max_num_vertices draws = .fail .check_failed := by
      unfold SampleSubgraph.bfs
      rw [if_pos (by rw [hsz]; omega)]
    refine ⟨hb, ?_⟩
    unfold SampleSubgraph
    rw [hb]
  · intro hle
    unfold SampleSubgraph.bfs
    rw [if_neg (by rw [hsz]; omega)]

/-- Witness of C13: two seeds with `max_num_vertices = 1`. -/
theorem C13_seed_count_check_witness :
    ((1 : Int) < (([0, 1] : List Int).length : Int) →
      SampleSubgraph.bfs edge_graph [0, 1] none 1 1 1 [] = .fail .check_failed ∧
        SampleSubgraph edge_graph [0, 1] [0, 0] none [0] none 1 1 1 [] =
          .fail .check_failed) ∧
    ((([0, 1] : List Int).length : Int) ≤ 1 →
      SampleSubgraph.bfs edge_graph [0, 1] none 1 1 1 [] =
        SampleSubgraph.loop edge_graph none 1 1 1 (SampleSubgraph.fuel [0, 1] 1 1)
          (SampleSubgraph.init [0, 1] [])) :=
  C13_seed_count_check edge_graph [0, 1] [0, 0] none [0] none 1 1 1 [] (by decide) (by decide)

/-! ## The root of the tree after removals -/

theorem list_sum_eq_range (l : List ℚ) : l.sum = ∑ i ∈ Finset.range l.length, l.getD i 0 := by
  induction l with
  | nil => simp
  | cons a l ih =>
    rw [List.sum_cons, List.length_cons, Finset.sum_range_succ', ih]
    simp only [List.getD_cons_succ, List.getD_cons_zero]
    ring

theorem deletes_WF (prob : List ℚ) (D : List Nat) (hD : ∀ d ∈ D, d < prob.length)
    (a : ArrayHeap) (D0 : List Nat) (hwf : a.WF prob D0) :
    (D.foldl ArrayHeap.Delete a).WF prob (D.reverse ++ D0) := by
  induction D generalizing a D0 with
  | nil => simpa using hwf
  | cons d D ih =>
    have hd : d < a.limit_ := lt_of_lt_of_le (hD d (List.mem_cons_self _ _)) hwf.size_le
    have := ih (fun x hx => hD x (List.mem_cons_of_mem _ hx)) (a.Delete d) (d :: D0)
      (Delete_WF a prob D0 d hwf hd)
    simpa [List.foldl_cons, List.reverse_cons, List.append_assoc] using this

/-- The root of a tree with the invariant is the sum of the weights not removed. -/
theorem root_eq_remaining (a : ArrayHeap) (prob : List ℚ) (D : List Nat) (hwf : a.WF prob D) :
    a.heap_.getD 1 0 =
      ∑ p ∈ (Finset.range prob.length).filter (fun p => p ∉ D), prob.getD p 0 := by
  rw [root_eq_sum_leaves a prob D hwf, Finset.sum_filter]
  have h1 : ∑ p ∈ Finset.range a.limit_, a.heap_.getD (a.limit_ + p) 0 =
      ∑ p ∈ Finset.range a.limit_, (if p ∉ D then prob.getD p 0 else 0) := by
    apply Finset.sum_congr rfl
    intro p hp
    rw [hwf.leaf_eq p (Finset.mem_range.mp hp)]
    by_cases hpD : p ∈ D
    · simp [hpD]
    · simp [hpD]
  rw [h1]
  symm
  apply Finset.sum_subset
  · intro x hx
    exact Finset.mem_range.mpr (lt_of_lt_of_le (Finset.mem_range.mp hx) hwf.size_le)
  · intro x _ hx
    have : prob.length ≤ x := by
      by_contra hc
      exact hx (Finset.mem_range.mpr (by omega))
    rw [List.getD_eq_default _ _ this]
    simp

/-- C15: after the tree is built from a weight vector and `Delete` is called on each index of a
list of indices below `n`, the root `heap_[1]` is the sum of the weights of the elements that
were not removed; the root of the fresh tree is the sum of all weights. -/
theorem C15_root_is_remaining_sum (prob : List ℚ) (D : List Nat) (_hn : 1 ≤ prob.length)
    (hD : ∀ d ∈ D, d < prob.length) :
    (D.foldl ArrayHeap.Delete (ArrayHeap.mk_from prob)).heap_.getD 1 0 =
        ∑ p ∈ (Finset.range prob.length).filter (fun p => p ∉ D), prob.getD p 0 ∧
      (ArrayHeap.mk_from prob).heap_.getD 1 0 = prob.sum := by
  constructor
  · have hwf := deletes_WF prob D hD (ArrayHeap.mk_from prob) [] (mk_from_WF prob)
    rw [root_eq_remaining _ prob _ hwf]
    apply Finset.sum_congr
    · ext p
      simp
    · intro _ _; rfl
  · rw [root_eq_remaining _ prob [] (mk_from_WF prob), list_sum_eq_range]
    apply Finset.sum_congr
    · ext p
      simp
    · intro _ _; rfl

/-- Witness of C15: the weights `1, 2, 3` with index 1 removed. -/
theorem C15_root_is_remaining_sum_witness :
    ([1].foldl ArrayHeap.Delete (ArrayHeap.mk_from [1, 2, 3])).heap_.getD 1 0 =
        ∑ p ∈ (Finset.range [(1 : ℚ), 2, 3].length).filter (fun p => p ∉ [1]),
          [(1 : ℚ), 2, 3].getD p 0 ∧
      (ArrayHeap.mk_from [1, 2, 3]).heap_.getD 1 0 = [(1 : ℚ), 2, 3].sum :=
  C15_root_is_remaining_sum [1, 2, 3] [1] (by decide) (by decide)

/-! ## The frame of `Delete` -/

theorem GetUniformSample_fail (vl el : List Int) (k : Nat) (draws : List Nat) (e : Failure)
    (hlen : vl.length = el.length) (h : GetUniformSample vl el k draws = .fail e) :
    e = .draws_exhausted := by
  unfold GetUniformSample at h
  simp only [hlen, ne_eq, not_true_eq_false, if_false] at h
  by_cases hle : el.length ≤ k
  · simp [hle] at h
  · simp only [hle, if_false] at h
    rcases sorted_idxs_spec el.length k (by omega) draws with hf | ⟨idxs, rest, hok, hs, hl, -⟩
    · rw [hf] at h
      simp only [Res.fail.injEq] at h
      exact h.symm
    · rw [hok] at h
      simp [hl, strictly_increasing_of_sorted idxs hs] at h

theorem Sample_fail (a : ArrayHeap) (draws : List Nat) (e : Failure)
    (h : a.Sample draws = .fail e) : e = .draws_exhausted := by
  cases draws with
  | nil =>
    simp only [ArrayHeap.Sample, Res.fail.injEq] at h
    exact h.symm
  | cons r rest => simp [ArrayHeap.Sample] at h

theorem SampleWithoutReplacement_fail (k : Nat) (a : ArrayHeap) (draws : List Nat)
    (e : Failure) (h : a.SampleWithoutReplacement k draws = .fail e) :
    e = .draws_exhausted := by
  induction k generalizing a draws e with
  | zero => simp [ArrayHeap.SampleWithoutReplacement] at h
  | succ k ih =>
    unfold ArrayHeap.SampleWithoutReplacement at h
    split at h
    · next e' hs =>
      simp only [Res.fail.injEq] at h
      rw [← h]
      exact Sample_fail a draws e' hs
    · split at h
      · next e' hs =>
        simp only [Res.fail.injEq] at h
        rw [← h]
        exact ih _ _ _ hs
      · exact absurd h (by simp)

theorem GetNonUniformSample_fail (p : List ℚ) (vl el : List Int) (k : Nat)
    (draws : List Nat) (e : Failure) (hlen : vl.length = el.length)
    (h : GetNonUniformSample p vl el k draws = .fail e) : e = .draws_exhausted := by
  unfold GetNonUniformSample at h
  simp only [hlen, ne_eq, not_true_eq_false, if_false] at h
  by_cases hle : el.length ≤ k
  · simp [hle] at h
  · simp only [hle, if_false] at h
    split at h
    · next e' hs =>
      simp only [Res.fail.injEq] at h
      rw [← h]
      exact SampleWithoutReplacement_fail _ _ _ e' hs
    · exact absurd h (by simp)

/-- One iteration fails only when the draws are used up. -/
theorem step_fail (csr : CSR) (probability : Option (List ℚ)) (num_hops num_neighbor : Int)
    (cur : ver_node) (queue : List ver_node) (st : BfsState) (e : Failure)
    (h : SampleSubgraph.step csr probability num_hops num_neighbor cur queue st = .fail e) :
    e = .draws_exhausted := by
  unfold SampleSubgraph.step at h
  by_cases hlv : cur.level < num_hops
  · simp only [hlv, if_true] at h
    cases hf : umap_find st.sub_ver_mp cur.vertex_id with
    | some l => simp [hf] at h
    | none =>
      simp only [hf] at h
      split at h
      · next e' hs =>
        simp only [Res.fail.injEq] at h
        rw [← h]
        cases probability with
        | none => exact GetUniformSample_fail _ _ _ _ e' (row_lengths csr _) hs
        | some p => exact GetNonUniformSample_fail p _ _ _ _ e' (row_lengths csr _) hs
      · exact absurd h (by simp)
  · simp only [hlv, if_false] at h
    cases hf : umap_find st.sub_ver_mp cur.vertex_id with
    | some l => simp [hf] at h
    | none => simp [hf] at h

/-- The loop fails only when the draws or the fuel are used up. -/
theorem loop_fail (csr : CSR) (probability : Option (List ℚ))
    (num_hops num_neighbor max_num_vertices : Int) (fuel : Nat) (st : BfsState) (e : Failure)
    (h : SampleSubgraph.loop csr probability num_hops num_neighbor max_num_vertices fuel st =
      .fail e) : e = .draws_exhausted ∨ e = .out_of_fuel := by
  induction fuel generalizing st with
  | zero =>
    unfold SampleSubgraph.loop at h
    split at h
    · exact absurd h (by simp)
    · split at h
      · simp only [Res.fail.injEq] at h
        exact Or.inr h.symm
      · exact absurd h (by simp)
  | succ fuel ih =>
    unfold SampleSubgraph.loop at h
    split at h
    · exact absurd h (by simp)
    · by_cases hc : st.sub_vertices_count ≤ max_num_vertices
      · simp only [hc, not_true_eq_false, if_false] at h
        split at h
        · next e' hs =>
          simp only [Res.fail.injEq] at h
          rw [← h]
          exact Or.inl (step_fail _ _ _ _ _ _ _ e' hs)
        · exact ih _ h
      · simp [hc] at h

/-- When the loop ends, the queue is empty or the visited count is above the cap. -/
theorem loop_exit (csr : CSR) (probability : Option (List ℚ))
    (num_hops num_neighbor max_num_vertices : Int) (fuel : Nat) (st st' : BfsState)
    (h : SampleSubgraph.loop csr probability num_hops num_neighbor max_num_vertices fuel st =
      .ok st') : st'.node_queue = [] ∨ max_num_vertices < st'.sub_vertices_count := by
  induction fuel generalizing st with
  | zero =>
    unfold SampleSubgraph.loop at h
    split at h
    · next hq =>
      simp only [Res.ok.injEq] at h
      exact Or.inl (h ▸ hq)
    · split at h
      · exact absurd h (by simp)
      · next hc =>
        simp only [Res.ok.injEq] at h
        exact Or.inr (h ▸ (by omega))
  | succ fuel ih =>
    unfold SampleSubgraph.loop at h
    split at h
    · next hq =>
      simp only [Res.ok.injEq] at h
      exact Or.inl (h ▸ hq)
    · by_cases hc : st.sub_vertices_count ≤ max_num_vertices
      · simp only [hc, not_true_eq_false, if_false] at h
        split at h
        · exact absurd h (by simp)
        · exact ih _ h
      · simp only [hc, not_false_eq_true, if_true, Res.ok.injEq] at h
        exact Or.inr (h ▸ (by omega))

/-! ## Neighbor sampling: the ids in the queue and in the visited map -/

theorem getD_mem_or_zero (l : List Int) (i : Nat) : l.getD i 0 ∈ l ∨ l.getD i 0 = 0 := by
  by_cases h : i < l.length
  · left
    rw [List.getD_eq_getElem _ _ h]
    exact List.getElem_mem _
  · right
    exact List.getD_eq_default _ _ (by omega)

theorem GetUniformSample_mem (vl el : List Int) (k : Nat) (draws : List Nat)
    (ov oe : List Int) (rest : List Nat)
    (h : GetUniformSample vl el k draws = .ok (ov, oe, rest)) :
    ∀ x ∈ ov, x ∈ vl ∨ x = 0 := by
  unfold GetUniformSample at h
  by_cases hlen : vl.length = el.length
  · simp only [hlen, ne_eq, not_true_eq_false, if_false] at h
    by_cases hle : el.length ≤ k
    · simp only [hle, if_true, Res.ok.injEq, Prod.mk.injEq] at h
      obtain ⟨rfl, -, -⟩ := h
      exact fun x hx => Or.inl hx
    · simp only [hle, if_false] at h
      split at h
      · exact absurd h (by simp)
      · split at h
        · exact absurd h (by simp)
        · split at h
          · exact absurd h (by simp)
          · simp only [Res.ok.injEq, Prod.mk.injEq] at h
            obtain ⟨rfl, -, -⟩ := h
            intro x hx
            obtain ⟨i, -, rfl⟩ := List.mem_map.mp hx
            exact getD_mem_or_zero vl i
  · simp [hlen] at h

theorem GetNonUniformSample_mem (p : List ℚ) (vl el : List Int) (k : Nat)
    (draws : List Nat) (ov oe : List Int) (rest : List Nat)
    (h : GetNonUniformSample p vl el k draws = .ok (ov, oe, rest)) :
    ∀ x ∈ ov, x ∈ vl ∨ x = 0 := by
  unfold GetNonUniformSample at h
  by_cases hlen : vl.length = el.length
  · simp only [hlen, ne_eq, not_true_eq_false, if_false] at h
    by_cases hle : el.length ≤ k
    · simp only [hle, if_true, Res.ok.injEq, Prod.mk.injEq] at h
      obtain ⟨rfl, -, -⟩ := h
      exact fun x hx => Or.inl hx
    · simp only [hle, if_false] at h
      split at h
      · exact absurd h (by simp)
      · simp only [Res.ok.injEq, Prod.mk.injEq] at h
        obtain ⟨rfl, -, -⟩ := h
        intro x hx
        have hx' := (List.perm_insertionSort _ _).mem_iff.mp hx
        obtain ⟨i, -, rfl⟩ := List.mem_map.mp hx'
        exact getD_mem_or_zero vl i
  · simp [hlen] at h

theorem row_cols_mem (csr : CSR) (v x : Int) (hx : x ∈ csr.row_cols v) :
    x ∈ csr.indices ∨ x = 0 := by
  unfold CSR.row_cols at hx
  obtain ⟨i, -, rfl⟩ := List.mem_map.mp hx
  exact getD_mem_or_zero _ i

/-- The nodes queued by one iteration carry column ids of the row of the front node (or the
value `0` read outside a buffer). -/
theorem step_queue_ids (csr : CSR) (probability : Option (List ℚ)) (num_hops num_neighbor : Int)
    (cur : ver_node) (queue : List ver_node) (st st' : BfsState)
    (h : SampleSubgraph.step csr probability num_hops num_neighbor cur queue st = .ok st') :
    ∀ nd ∈ st'.node_queue, nd ∈ queue ∨ nd.vertex_id ∈ csr.indices ∨ nd.vertex_id = 0 := by
  unfold SampleSubgraph.step at h
  by_cases hlv : cur.level < num_hops
  · simp only [hlv, if_true] at h
    cases hf : umap_find st.sub_ver_mp cur.vertex_id with
    | some l =>
      simp only [hf, Res.ok.injEq] at h
      subst h
      exact fun nd hnd => Or.inl hnd
    | none =>
      simp only [hf] at h
      split at h
      · exact absurd h (by simp)
      · next src edge d heq =>
        have hmem : ∀ x ∈ src, x ∈ csr.row_cols cur.vertex_id ∨ x = 0 := by
          cases probability with
          | none => exact GetUniformSample_mem _ _ _ _ _ _ _ heq
          | some p => exact GetNonUniformSample_mem p _ _ _ _ _ _ _ heq
        simp only [Res.ok.injEq] at h
        subst h
        intro nd hnd
        rcases List.mem_append.mp hnd with hq | hp
        · exact Or.inl hq
        · right
          obtain ⟨x, hx, rfl⟩ := List.mem_map.mp hp
          rcases hmem x (List.mem_filter.mp hx).1 with h1 | h2
          · exact row_cols_mem csr _ x h1
          · exact Or.inr h2
  · simp only [hlv, if_false] at h
    cases hf : umap_find st.sub_ver_mp cur.vertex_id with
    | some l =>
      simp only [hf, Res.ok.injEq] at h
      subst h
      exact fun nd hnd => Or.inl hnd
    | none =>
      simp only [hf, Res.ok.injEq] at h
      subst h
      exact fun nd hnd => Or.inl hnd

/-- With non-negative seeds and column ids, every visited id is non-negative. -/
theorem bfs_keys_nonneg (csr : CSR) (seed : List Int) (probability : Option (List ℚ))
    (num_hops num_neighbor max_num_vertices : Int) (draws : List Nat) (st : BfsState)
    (hseed : ∀ s ∈ seed, 0 ≤ s) (hcols : ∀ c ∈ csr.indices, 0 ≤ c)
    (h : SampleSubgraph.bfs csr seed probability num_hops num_neighbor max_num_vertices draws =
      .ok st) : ∀ v ∈ st.sub_ver_mp.map Prod.fst, 0 ≤ v := by
  unfold SampleSubgraph.bfs at h
  split at h
  · exact absurd h (by simp)
  · have key := loop_preserves csr probability num_hops num_neighbor max_num_vertices
      (fun s => (∀ nd ∈ s.node_queue, 0 ≤ nd.vertex_id) ∧
        (∀ v ∈ s.sub_ver_mp.map Prod.fst, 0 ≤ v))
      (by
        intro cur queue s s' hP hq _ hs
        obtain ⟨hP1, hP2⟩ := hP
        have hcur : 0 ≤ cur.vertex_id := hP1 cur (by rw [hq]; exact List.mem_cons_self _ _)
        constructor
        · intro nd hnd
          rcases step_queue_ids csr probability num_hops num_neighbor cur queue s s' hs nd hnd
            with h1 | h2 | h3
          · exact hP1 nd (by rw [hq]; exact List.mem_cons_of_mem _ h1)
          · exact hcols _ h2
          · omega
        · rcases step_cases csr probability num_hops num_neighbor cur queue s s' hs with
            ⟨-, h1, -⟩ | ⟨-, h1, -⟩
          · rw [h1]; exact hP2
          · rw [h1]
            intro v hv
            simp only [List.map_append, List.map_cons, List.map_nil, List.mem_append,
              List.mem_singleton] at hv
            rcases hv with hv | hv
            · exact hP2 v hv
            · rw [hv]; exact hcur)
      _ (SampleSubgraph.init seed draws) st
      (by
        constructor
        · intro nd hnd
          simp only [SampleSubgraph.init, List.mem_map] at hnd
          obtain ⟨s, hs, rfl⟩ := hnd
          exact hseed s hs
        · intro v hv
          simp [SampleSubgraph.init] at hv) h
    exact key.2

/-! ## The per-slot loops over the vertex buffer -/

theorem range_set_length {α : Type} (f : Nat → α) (n : Nat) (buf : List α) :
    ((List.range n).foldl (fun b i => b.set i (f i)) buf).length = buf.length := by
  induction n with
  | zero => rfl
  | succ n ih => rw [List.range_succ, List.foldl_append]; simpa using ih

/-- A loop `for (i = 0; i < n; ++i) buf[i] = f(i)`, slot by slot. -/
theorem range_set_getD {α : Type} (f : Nat → α) (d : α) (n : Nat) (buf : List α) (j : Nat) :
    ((List.range n).foldl (fun b i => b.set i (f i)) buf).getD j d =
      if j < n ∧ j < buf.length then f j else buf.getD j d := by
  induction n with
  | zero => simp
  | succ n ih =>
    rw [List.range_succ, List.foldl_append]
    simp only [List.foldl_cons, List.foldl_nil]
    simp only [List.getD_eq_getElem?_getD, List.getElem?_set] at ih ⊢
    rw [range_set_length]
    by_cases h : n = j
    · subst h
      by_cases h2 : n < buf.length
      · simp [h2]
      · have hnone : buf[n]? = none := List.getElem?_eq_none (Nat.le_of_not_lt h2)
        simp [h2, hnone]
    · rw [if_neg h, ih]
      by_cases h3 : j < n
      · have : j < n + 1 := by omega
        simp [h3, this]
      · have : ¬ j < n + 1 := by omega
        simp [h3, this]

/-- With a visited count of at most `max_num_vertices` the call returns, and each output is
the buffer written by its block of the second part. -/
theorem SampleSubgraph_ok_outputs (csr : CSR) (seed_arr sampled_ids : List Int)
    (sub_prob : Option (List ℚ)) (sub_layer : List Int) (probability : Option (List ℚ))
    (num_hops num_neighbor max_num_vertices : Int) (draws : List Nat) (st : BfsState)
    (hb : SampleSubgraph.bfs csr seed_arr probability num_hops num_neighbor max_num_vertices
      draws = .ok st)
    (hc : (st.sub_ver_mp.length : Int) ≤ max_num_vertices)
    (hbuf : sampled_ids.length = max_num_vertices.toNat + 1) :
    ∃ out, SampleSubgraph csr seed_arr sampled_ids sub_prob sub_layer probability num_hops
        num_neighbor max_num_vertices draws = .ok out ∧
      out.sampled_ids = SampleSubgraph.copy_ids max_num_vertices sampled_ids st ∧
      out.sub_prob = sub_prob.map (SampleSubgraph.copy_prob probability max_num_vertices
        (SampleSubgraph.copy_ids max_num_vertices sampled_ids st)) ∧
      out.sub_layer = SampleSubgraph.copy_layer max_num_vertices
        (SampleSubgraph.copy_ids max_num_vertices sampled_ids st) st sub_layer := by
  have hinv := bfs_inv csr seed_arr probability num_hops num_neighbor max_num_vertices draws
    st hb
  obtain ⟨-, hids, -, -⟩ := copy_ids_spec max_num_vertices sampled_ids st (by omega) (by omega) hbuf
  obtain ⟨sub, hsub, -⟩ := build_csr_spec csr num_hops _ st hinv max_num_vertices
    (SampleSubgraph.copy_ids max_num_vertices sampled_ids st) hc hids
  refine ⟨{ sampled_ids := SampleSubgraph.copy_ids max_num_vertices sampled_ids st,
            sub_csr := sub,
            sub_prob := sub_prob.map (SampleSubgraph.copy_prob probability max_num_vertices
              (SampleSubgraph.copy_ids max_num_vertices sampled_ids st)),
            sub_layer := SampleSubgraph.copy_layer max_num_vertices
              (SampleSubgraph.copy_ids max_num_vertices sampled_ids st) st sub_layer },
    ?_, rfl, rfl, rfl⟩
  unfold SampleSubgraph
  rw [hb]
  simp only [SampleSubgraph.emit, hsub]

/-- The vertex buffer slot by slot: a visited id that is not `-1` below the visited count,
`-1` from there on. -/
theorem copy_ids_slots (csr : CSR) (seed_arr sampled_ids : List Int)
    (probability : Option (List ℚ)) (num_hops num_neighbor max_num_vertices : Int)
    (draws : List Nat) (st : BfsState)
    (hseed : ∀ s ∈ seed_arr, 0 ≤ s) (hcols : ∀ c ∈ csr.indices, 0 ≤ c)
    (hb : SampleSubgraph.bfs csr seed_arr probability num_hops num_neighbor max_num_vertices
      draws = .ok st)
    (hc : (st.sub_ver_mp.length : Int) ≤ max_num_vertices)
    (hbuf : sampled_ids.length = max_num_vertices.toNat + 1) (i : Nat)
    (hi : i < max_num_vertices.toNat) :
    (i < st.sub_ver_mp.length →
      (SampleSubgraph.copy_ids max_num_vertices sampled_ids st).getD i 0 ≠ -1 ∧
      ∃ l, umap_find st.sub_ver_mp
        ((SampleSubgraph.copy_ids max_num_vertices sampled_ids st).getD i 0) = some l) ∧
    (st.sub_ver_mp.length ≤ i →
      (SampleSubgraph.copy_ids max_num_vertices sampled_ids st).getD i 0 = -1) := by
  obtain ⟨-, h2, h3, -⟩ := copy_ids_spec max_num_vertices sampled_ids st (by omega) (by omega)
    hbuf
  constructor
  · intro hlt
    have hmem : (SampleSubgraph.copy_ids max_num_vertices sampled_ids st).getD i 0 ∈
        st.sub_ver_mp.map Prod.fst := by
      rw [h2 i hlt, ← sorted_visited_mem]
      have hl : i < (sorted_visited st).length := by rw [sorted_visited_length]; exact hlt
      show (sorted_visited st).getD i 0 ∈ sorted_visited st
      rw [List.getD_eq_getElem _ _ hl]
      exact List.getElem_mem _
    have hnn := bfs_keys_nonneg csr seed_arr probability num_hops num_neighbor max_num_vertices
      draws st hseed hcols hb _ hmem
    refine ⟨by omega, ?_⟩
    cases hf : umap_find st.sub_ver_mp
        ((SampleSubgraph.copy_ids max_num_vertices sampled_ids st).getD i 0) with
    | some l => exact ⟨l, rfl⟩
    | none => exact absurd hmem ((umap_find_none_iff _ _).mp hf)
  · intro hge
    exact h3 i hge hi

/-- C17: when the traversal ends with a visited count `c ≤ max_num_vertices` (seeds and column
ids being vertex ids, so non-negative), the call returns and for every position
`i < max_num_vertices` of the hop-level buffer: for `i < c` the vertex in slot `i` of the vertex
buffer is in the visited map and the hop-level buffer holds its recorded level at `i`; for
`i ≥ c` slot `i` of the vertex buffer is the padding `-1` and the hop-level buffer holds `-1`. -/
theorem C17_hop_level_buffer (csr : CSR) (seed_arr sampled_ids : List Int)
    (sub_prob : Option (List ℚ)) (sub_layer : List Int) (probability : Option (List ℚ))
    (num_hops num_neighbor max_num_vertices : Int) (draws : List Nat) (st : BfsState)
    (hseed : ∀ s ∈ seed_arr, 0 ≤ s) (hcols : ∀ c ∈ csr.indices, 0 ≤ c)
    (hb : SampleSubgraph.bfs csr seed_arr probability num_hops num_neighbor max_num_vertices
      draws = .ok st)
    (hc : (st.sub_ver_mp.length : Int) ≤ max_num_vertices)
    (hbuf : sampled_ids.length = max_num_vertices.toNat + 1)
    (hlay : sub_layer.length = max_num_vertices.toNat) :
    ∃ out, SampleSubgraph csr seed_arr sampled_ids sub_prob sub_layer probability num_hops
        num_neighbor max_num_vertices draws = .ok out ∧
      out.sub_layer.length = max_num_vertices.toNat ∧
      ∀ i, i < max_num_vertices.toNat →
        (i < st.sub_ver_mp.length →
          ∃ l, umap_find st.sub_ver_mp (out.sampled_ids.getD i 0) = some l ∧
            out.sub_layer.getD i 0 = l) ∧
        (st.sub_ver_mp.length ≤ i →
          out.sampled_ids.getD i 0 = -1 ∧ out.sub_layer.getD i 0 = -1) := by
  obtain ⟨out, hok, hids, -, hl⟩ := SampleSubgraph_ok_outputs csr seed_arr sampled_ids sub_prob
    sub_layer probability num_hops num_neighbor max_num_vertices draws st hb hc hbuf
  refine ⟨out, hok, ?_, ?_⟩
  · rw [hl, SampleSubgraph.copy_layer, range_set_length, hlay]
  · intro i hi
    obtain ⟨h1, h2⟩ := copy_ids_slots csr seed_arr sampled_ids probability num_hops num_neighbor
      max_num_vertices draws st hseed hcols hb hc hbuf i hi
    have hget : out.sub_layer.getD i 0 =
        if out.sampled_ids.getD i 0 ≠ -1 then
          (umap_find st.sub_ver_mp (out.sampled_ids.getD i 0)).getD 0 else -1 := by
      rw [hl, SampleSubgraph.copy_layer, range_set_getD, if_pos ⟨hi, by rw [hlay]; exact hi⟩,
        hids]
    rw [hids] at hget ⊢
    constructor
    · intro hlt
      obtain ⟨hne, l, hfind⟩ := h1 hlt
      refine ⟨l, hfind, ?_⟩
      rw [hget, if_pos hne, hfind]
      rfl
    · intro hge
      have he := h2 hge
      refine ⟨he, ?_⟩
      rw [hget, he]
      rfl

theorem C17_hop_level_buffer_witness :
    ∃ out, SampleSubgraph edge_graph [0] [0, 0, 0, 0] none [0, 0, 0] none 2 1 3 [] = .ok out ∧
      out.sub_layer.length = (3 : Int).toNat ∧
      ∀ i, i < (3 : Int).toNat →
        (i < edge_graph_final.sub_ver_mp.length →
          ∃ l, umap_find edge_graph_final.sub_ver_mp (out.sampled_ids.getD i 0) = some l ∧
            out.sub_layer.getD i 0 = l) ∧
        (edge_graph_final.sub_ver_mp.length ≤ i →
          out.sampled_ids.getD i 0 = -1 ∧ out.sub_layer.getD i 0 = -1) :=
  C17_hop_level_buffer edge_graph [0] [0, 0, 0, 0] none [0, 0, 0] none 2 1 3 []
    edge_graph_final (by decide) (by decide) (by decide) (by decide) (by decide) (by decide)

/-- C18: in weighted mode (a weight array and a weight output are passed), when the traversal
ends with a visited count `c ≤ max_num_vertices` (seeds and column ids being vertex ids, so
non-negative), the call returns a weight output that holds, at every position
`i < max_num_vertices`, the input weight `probability[v]` of the vertex `v` in slot `i` of the
vertex buffer when `i < c`, and `-1` when `i ≥ c`, where the vertex buffer holds the padding
`-1`. On the documented example, the weights `[0.9, 0.8, 0.2, 0.4, 0.1]` and the vertex buffer
`[0, 1, 2, 3, 4, 5]` give the weight output `[0.9, 0.8, 0.2, 0.4, 0.1]`. -/
theorem C18_weight_output (csr : CSR) (seed_arr sampled_ids : List Int)
    (prob_buf : List ℚ) (sub_layer : List Int) (p : List ℚ)
    (num_hops num_neighbor max_num_vertices : Int) (draws : List Nat) (st : BfsState)
    (hseed : ∀ s ∈ seed_arr, 0 ≤ s) (hcols : ∀ c ∈ csr.indices, 0 ≤ c)
    (hb : SampleSubgraph.bfs csr seed_arr (some p) num_hops num_neighbor max_num_vertices
      draws = .ok st)
    (hc : (st.sub_ver_mp.length : Int) ≤ max_num_vertices)
    (hbuf : sampled_ids.length = max_num_vertices.toNat + 1)
    (hprob : prob_buf.length = max_num_vertices.toNat) :
    (∃ out b, SampleSubgraph csr seed_arr sampled_ids (some prob_buf) sub_layer (some p)
        num_hops num_neighbor max_num_vertices draws = .ok out ∧
      out.sub_prob = some b ∧ b.length = max_num_vertices.toNat ∧
      ∀ i, i < max_num_vertices.toNat →
        (i < st.sub_ver_mp.length → b.getD i 0 = rdq p (out.sampled_ids.getD i 0)) ∧
        (st.sub_ver_mp.length ≤ i → out.sampled_ids.getD i 0 = -1 ∧ b.getD i 0 = -1)) ∧
    SampleSubgraph.copy_prob (some doc_prob) 5 [0, 1, 2, 3, 4, 5] [0, 0, 0, 0, 0] = doc_prob := by
  refine ⟨?_, rfl⟩
  obtain ⟨out, hok, hids, hp, -⟩ := SampleSubgraph_ok_outputs csr seed_arr sampled_ids
    (some prob_buf) sub_layer (some p) num_hops num_neighbor max_num_vertices draws st hb hc hbuf
  refine ⟨out, _, hok, hp, ?_, ?_⟩
  · rw [SampleSubgraph.copy_prob, range_set_length, hprob]
  · intro i hi
    obtain ⟨h1, h2⟩ := copy_ids_slots csr seed_arr sampled_ids (some p) num_hops num_neighbor
      max_num_vertices draws st hseed hcols hb hc hbuf i hi
    have hget : (SampleSubgraph.copy_prob (some p) max_num_vertices
        (SampleSubgraph.copy_ids max_num_vertices sampled_ids st) prob_buf).getD i 0 =
        if (SampleSubgraph.copy_ids max_num_vertices sampled_ids st).getD i 0 ≠ -1 then
          rdq p ((SampleSubgraph.copy_ids max_num_vertices sampled_ids st).getD i 0)
        else -1 := by
      rw [SampleSubgraph.copy_prob, range_set_getD, if_pos ⟨hi, by rw [hprob]; exact hi⟩]
      rfl
    rw [hids]
    constructor
    · intro hlt
      rw [hget, if_pos (h1 hlt).1]
    · intro hge
      have he := h2 hge
      refine ⟨he, ?_⟩
      rw [hget, he]
      rfl

theorem C18_weight_output_witness :
    (∃ out b, SampleSubgraph k5_graph [0, 1, 2, 3, 4] [0, 0, 0, 0, 0, 0, 0]
        (some [0, 0, 0, 0, 0, 0]) [0, 0, 0, 0, 0, 0] (some doc_prob) 1 4 6 [] = .ok out ∧
      out.sub_prob = some b ∧ b.length = (6 : Int).toNat ∧
      ∀ i, i < (6 : Int).toNat →
        (i < k5_final.sub_ver_mp.length → b.getD i 0 = rdq doc_prob (out.sampled_ids.getD i 0)) ∧
        (k5_final.sub_ver_mp.length ≤ i → out.sampled_ids.getD i 0 = -1 ∧ b.getD i 0 = -1)) ∧
    SampleSubgraph.copy_prob (some doc_prob) 5 [0, 1, 2, 3, 4, 5] [0, 0, 0, 0, 0] = doc_prob :=
  C18_weight_output k5_graph [0, 1, 2, 3, 4] [0, 0, 0, 0, 0, 0, 0] [0, 0, 0, 0, 0, 0]
    [0, 0, 0, 0, 0, 0] doc_prob 1 4 6 [] k5_final (by decide) (by decide) (by decide)
    (by decide) (by decide) (by decide)

/-! ## The queue of the traversal: levels in first-in first-out order -/

/-- One unfolding of the loop and of its trace. -/
theorem loop_cases (csr : CSR) (probability : Option (List ℚ))
    (num_hops num_neighbor max_num_vertices : Int) (fuel : Nat) (st st_f : BfsState)
    (h : SampleSubgraph.loop csr probability num_hops num_neighbor max_num_vertices fuel st =
      .ok st_f) :
    (st_f = st ∧
      SampleSubgraph.trace csr probability num_hops num_neighbor max_num_vertices fuel st =
        [st]) ∨
    ∃ fuel' cur queue st', fuel = fuel' + 1 ∧ st.node_queue = cur :: queue ∧
      st.sub_vertices_count ≤ max_num_vertices ∧
      SampleSubgraph.step csr probability num_hops num_neighbor cur queue st = .ok st' ∧
      SampleSubgraph.loop csr probability num_hops num_neighbor max_num_vertices fuel' st' =
        .ok st_f ∧
      SampleSubgraph.trace csr probability num_hops num_neighbor max_num_vertices fuel st =
        st :: SampleSubgraph.trace csr probability num_hops num_neighbor max_num_vertices
          fuel' st' := by
  cases fuel with
  | zero =>
    left
    unfold SampleSubgraph.loop at h
    refine ⟨?_, rfl⟩
    split at h
    · simp only [Res.ok.injEq] at h; exact h.symm
    · split at h
      · exact absurd h (by simp)
      · simp only [Res.ok.injEq] at h; exact h.symm
  | succ fuel =>
    have ht : SampleSubgraph.trace csr probability num_hops num_neighbor max_num_vertices
        (fuel + 1) st =
        match st.node_queue with
        | [] => [st]
        | cur_node :: queue =>
          if ¬ (st.sub_vertices_count ≤ max_num_vertices) then [st]
          else
            match SampleSubgraph.step csr probability num_hops num_neighbor cur_node queue
                st with
            | .fail _ => [st]
            | .ok st' =>
              st :: SampleSubgraph.trace csr probability num_hops num_neighbor
                max_num_vertices fuel st' := rfl
    unfold SampleSubgraph.loop at h
    cases hq : st.node_queue with
    | nil =>
      left
      simp only [hq, Res.ok.injEq] at h
      refine ⟨h.symm, ?_⟩
      rw [ht]
      simp only [hq]
    | cons cur queue =>
      simp only [hq] at h
      by_cases hc : st.sub_vertices_count ≤ max_num_vertices
      · simp only [hc, not_true_eq_false, if_false] at h
        cases hs : SampleSubgraph.step csr probability num_hops num_neighbor cur queue st with
        | fail e => rw [hs] at h; exact absurd h (by simp)
        | ok st' =>
          rw [hs] at h
          right
          refine ⟨fuel, cur, queue, st', rfl, rfl, hc, hs, h, ?_⟩
          rw [ht]
          simp only [hq, hc, not_true_eq_false, if_false, hs]
      · simp only [hc, not_false_eq_true, if_true, Res.ok.injEq] at h
        left
        refine ⟨h.symm, ?_⟩
        rw [ht]
        simp only [hq, hc, not_false_eq_true, if_true]

theorem step_queue_inv (csr : CSR) (probability : Option (List ℚ))
    (num_hops num_neighbor : Int) (cur : ver_node) (queue : List ver_node) (st st' : BfsState)
    (hinv : QueueInv st) (hq : st.node_queue = cur :: queue)
    (h : SampleSubgraph.step csr probability num_hops num_neighbor cur queue st = .ok st') :
    QueueInv st' := by
  obtain ⟨hs, hn, hb⟩ := hinv
  rw [hq] at hs hn hb
  have hs' := List.pairwise_cons.mp hs
  rcases step_cases csr probability num_hops num_neighbor cur queue st st' h with
    ⟨-, h1, -, -, -, h5⟩ | ⟨hf, h1, rec, -, -, -, -, -, -, h5⟩
  · refine ⟨by rw [h5]; exact hs'.2, ?_, ?_⟩
    · rw [h5]
      exact fun a ha b hb' => hn a (List.mem_cons_of_mem _ ha) b (List.mem_cons_of_mem _ hb')
    · rw [h1, h5]
      exact fun v l hv nd hnd => hb v l hv nd (List.mem_cons_of_mem _ hnd)
  · have hpush : ∀ nd ∈ (rec.neighs.filter
        (fun v => (umap_find st'.sub_ver_mp v).isNone)).map
        (fun v => ({ vertex_id := v, level := cur.level + 1 } : ver_node)),
        nd.level = cur.level + 1 := by
      intro nd hnd
      obtain ⟨x, -, rfl⟩ := List.mem_map.mp hnd
      rfl
    have hcq : ∀ a ∈ queue, cur.level ≤ a.level ∧ a.level ≤ cur.level + 1 := fun a ha =>
      ⟨hs'.1 a ha, hn cur (List.mem_cons_self _ _) a (List.mem_cons_of_mem _ ha)⟩
    refine ⟨?_, ?_, ?_⟩
    · rw [h5, List.pairwise_append]
      refine ⟨hs'.2, ?_, ?_⟩
      · apply List.pairwise_of_forall_mem_list
        intro a ha b hb'
        rw [hpush a ha, hpush b hb']
      · intro a ha b hb'
        rw [hpush b hb']
        exact (hcq a ha).2
    · rw [h5]
      intro a ha b hb'
      rcases List.mem_append.mp ha with ha | ha <;> rcases List.mem_append.mp hb' with hb' | hb'
      · exact hn a (List.mem_cons_of_mem _ ha) b (List.mem_cons_of_mem _ hb')
      · rw [hpush b hb']
        have := (hcq a ha).1
        omega
      · rw [hpush a ha]
        have := (hcq b hb').2
        omega
      · rw [hpush a ha, hpush b hb']
        omega
    · intro v l hv nd hnd
      rw [h1, umap_find_append_single] at hv
      have hl : l ≤ cur.level := by
        cases hfv : umap_find st.sub_ver_mp v with
        | some y =>
          rw [hfv] at hv
          simp only [Option.some.injEq] at hv
          rw [← hv]
          exact hb v y hfv cur (List.mem_cons_self _ _)
        | none =>
          rw [hfv] at hv
          by_cases hk : cur.vertex_id = v
          · simp only [hk, if_true, Option.some.injEq] at hv
            omega
          · simp [hk] at hv
      rw [h5] at hnd
      rcases List.mem_append.mp hnd with hnd | hnd
      · have := (hcq nd hnd).1
        omega
      · rw [hpush nd hnd]
        omega

theorem init_queue_inv (seed : List Int) (draws : List Nat) :
    QueueInv (SampleSubgraph.init seed draws) := by
  have hlev : ∀ nd ∈ (SampleSubgraph.init seed draws).node_queue, nd.level = 0 := by
    intro nd hnd
    simp only [SampleSubgraph.init, List.mem_map] at hnd
    obtain ⟨x, -, rfl⟩ := hnd
    rfl
  refine ⟨?_, ?_, ?_⟩
  · apply List.pairwise_of_forall_mem_list
    intro a ha b hb
    rw [hlev a ha, hlev b hb]
  · intro a ha b hb
    rw [hlev a ha, hlev b hb]
    omega
  · intro v l hv
    simp [SampleSubgraph.init, umap_find] at hv

/-- Every state of the trace satisfies the queue invariant and runs to the same final state. -/
theorem trace_inv (csr : CSR) (probability : Option (List ℚ))
    (num_hops num_neighbor max_num_vertices : Int) (fuel : Nat) (st st_f : BfsState)
    (hinv : QueueInv st)
    (h : SampleSubgraph.loop csr probability num_hops num_neighbor max_num_vertices fuel st =
      .ok st_f) :
    ∀ s ∈ SampleSubgraph.trace csr probability num_hops num_neighbor max_num_vertices fuel st,
      QueueInv s ∧ ∃ fuel', SampleSubgraph.loop csr probability num_hops num_neighbor
        max_num_vertices fuel' s = .ok st_f := by
  induction fuel generalizing st with
  | zero =>
    rcases loop_cases csr probability num_hops num_neighbor max_num_vertices 0 st st_f h with
      ⟨-, ht⟩ | ⟨fuel', _, _, _, hf, -⟩
    · rw [ht]
      intro s hs
      rw [List.mem_singleton] at hs
      subst hs
      exact ⟨hinv, 0, h⟩
    · omega
  | succ fuel ih =>
    rcases loop_cases csr probability num_hops num_neighbor max_num_vertices (fuel + 1) st st_f
      h with ⟨-, ht⟩ | ⟨fuel', cur, queue, st', hf, hq, -, hs, hl, ht⟩
    · rw [ht]
      intro s hs
      rw [List.mem_singleton] at hs
      subst hs
      exact ⟨hinv, fuel + 1, h⟩
    · have hfe : fuel' = fuel := by omega
      subst hfe
      rw [ht]
      intro s hs'
      rcases List.mem_cons.mp hs' with rfl | hs'
      · exact ⟨hinv, fuel' + 1, h⟩
      · exact ih st' (step_queue_inv csr probability num_hops num_neighbor cur queue _ st' hinv
          hq hs) hl s hs'

theorem final_mem_trace (csr : CSR) (probability : Option (List ℚ))
    (num_hops num_neighbor max_num_vertices : Int) (fuel : Nat) (st st_f : BfsState)
    (h : SampleSubgraph.loop csr probability num_hops num_neighbor max_num_vertices fuel st =
      .ok st_f) :
    st_f ∈ SampleSubgraph.trace csr probability num_hops num_neighbor max_num_vertices fuel
      st := by
  induction fuel generalizing st with
  | zero =>
    rcases loop_cases csr probability num_hops num_neighbor max_num_vertices 0 st st_f h with
      ⟨he, ht⟩ | ⟨fuel', _, _, _, hf, -⟩
    · rw [ht, he]; exact List.mem_singleton_self _
    · omega
  | succ fuel ih =>
    rcases loop_cases csr probability num_hops num_neighbor max_num_vertices (fuel + 1) st st_f
      h with ⟨he, ht⟩ | ⟨fuel', cur, queue, st', hf, -, -, -, hl, ht⟩
    · rw [ht, he]; exact List.mem_singleton_self _
    · have hfe : fuel' = fuel := by omega
      subst hfe
      rw [ht]
      exact List.mem_cons_of_mem _ (ih st' hl)

/-- The visited map only grows at its end. -/
theorem loop_map_grows (csr : CSR) (probability : Option (List ℚ))
    (num_hops num_neighbor max_num_vertices : Int) (fuel : Nat) (st st_f : BfsState)
    (h : SampleSubgraph.loop csr probability num_hops num_neighbor max_num_vertices fuel st =
      .ok st_f) : st.sub_ver_mp <+: st_f.sub_ver_mp := by
  refine loop_preserves csr probability num_hops num_neighbor max_num_vertices
    (fun s => st.sub_ver_mp <+: s.sub_ver_mp) ?_ fuel st st_f (List.prefix_refl _) h
  intro cur queue s s' hP _ _ hs
  rcases step_cases csr probability num_hops num_neighbor cur queue s s' hs with
    ⟨-, h1, -⟩ | ⟨-, h1, -⟩
  · show st.sub_ver_mp <+: s'.sub_ver_mp
    rw [h1]; exact hP
  · show st.sub_ver_mp <+: s'.sub_ver_mp
    rw [h1]
    exact List.IsPrefix.trans hP (List.prefix_append _ _)

/-- A vertex carried by a queued node is recorded, if at all, at a level not above the level
of that node. -/
theorem loop_min_level (csr : CSR) (probability : Option (List ℚ))
    (num_hops num_neighbor max_num_vertices : Int) (fuel : Nat) (st st_f : BfsState)
    (hinv : QueueInv st)
    (h : SampleSubgraph.loop csr probability num_hops num_neighbor max_num_vertices fuel st =
      .ok st_f) :
    ∀ nd ∈ st.node_queue, ∀ l, umap_find st_f.sub_ver_mp nd.vertex_id = some l →
      l ≤ nd.level := by
  induction fuel generalizing st with
  | zero =>
    rcases loop_cases csr probability num_hops num_neighbor max_num_vertices 0 st st_f h with
      ⟨he, -⟩ | ⟨fuel', _, _, _, hf, -⟩
    · subst he
      exact fun nd hnd l hl => hinv.below _ l hl nd hnd
    · omega
  | succ fuel ih =>
    rcases loop_cases csr probability num_hops num_neighbor max_num_vertices (fuel + 1) st st_f
      h with ⟨he, -⟩ | ⟨fuel', cur, queue, st', hf, hq, -, hs, hl, -⟩
    · subst he
      exact fun nd hnd l hl => hinv.below _ l hl nd hnd
    · have hfe : fuel' = fuel := by omega
      subst hfe
      have hinv' := step_queue_inv csr probability num_hops num_neighbor cur queue _ st' hinv
        hq hs
      intro nd hnd l hfl
      rw [hq] at hnd
      rcases List.mem_cons.mp hnd with rfl | hnd
      · rcases step_cases csr probability num_hops num_neighbor nd queue st st' hs with
          ⟨⟨l', hl'⟩, h1, -⟩ | ⟨hf', h1, -⟩
        · have hfin := loop_find_mono csr probability num_hops num_neighbor max_num_vertices
            fuel' st' st_f nd.vertex_id l' (by rw [h1]; exact hl') hl
          rw [hfin] at hfl
          simp only [Option.some.injEq] at hfl
          rw [← hfl]
          exact hinv.below _ l' hl' nd (by rw [hq]; exact List.mem_cons_self _ _)
        · have hfin := loop_find_mono csr probability num_hops num_neighbor max_num_vertices
            fuel' st' st_f nd.vertex_id nd.level
            (by rw [h1, umap_find_append_single, hf']; simp) hl
          rw [hfin] at hfl
          simp only [Option.some.injEq] at hfl
          omega
      · refine ih st' hinv' hl nd ?_ l hfl
        rcases step_cases csr probability num_hops num_neighbor cur queue st st' hs with
          ⟨-, -, -, -, -, h5⟩ | ⟨-, -, rec, -, -, -, -, -, -, h5⟩
        · rw [h5]; exact hnd
        · rw [h5]; exact List.mem_append_left _ hnd

/-- A recorded level is the level of a node that was at some point in the queue. -/
theorem loop_level_source (csr : CSR) (probability : Option (List ℚ))
    (num_hops num_neighbor max_num_vertices : Int) (fuel : Nat) (st st_f : BfsState)
    (h : SampleSubgraph.loop csr probability num_hops num_neighbor max_num_vertices fuel st =
      .ok st_f) (v l : Int) (hv : umap_find st_f.sub_ver_mp v = some l) :
    umap_find st.sub_ver_mp v = some l ∨
      ∃ s ∈ SampleSubgraph.trace csr probability num_hops num_neighbor max_num_vertices fuel st,
        ∃ nd ∈ s.node_queue, nd.vertex_id = v ∧ nd.level = l := by
  induction fuel generalizing st with
  | zero =>
    rcases loop_cases csr probability num_hops num_neighbor max_num_vertices 0 st st_f h with
      ⟨he, -⟩ | ⟨fuel', _, _, _, hf, -⟩
    · subst he; exact Or.inl hv
    · omega
  | succ fuel ih =>
    rcases loop_cases csr probability num_hops num_neighbor max_num_vertices (fuel + 1) st st_f
      h with ⟨he, -⟩ | ⟨fuel', cur, queue, st', hf, hq, -, hs, hl, ht⟩
    · subst he; exact Or.inl hv
    · have hfe : fuel' = fuel := by omega
      subst hfe
      rw [ht]
      rcases ih st' hl with h' | ⟨s, hs', nd, hnd, hnv⟩
      · rcases step_cases csr probability num_hops num_neighbor cur queue st st' hs with
          ⟨-, h1, -⟩ | ⟨hf', h1, -⟩
        · left; rw [← h1]; exact h'
        · rw [h1, umap_find_append_single] at h'
          cases hfv : umap_find st.sub_ver_mp v with
          | some y =>
            rw [hfv] at h'
            left
            exact h'
          | none =>
            rw [hfv] at h'
            right
            by_cases hk : cur.vertex_id = v
            · simp only [hk, if_true, Option.some.injEq] at h'
              exact ⟨st, List.mem_cons_self _ _, cur, by rw [hq]; exact List.mem_cons_self _ _,
                hk, h'⟩
            · simp [hk] at h'
      · right
        exact ⟨s, List.mem_cons_of_mem _ hs', nd, hnd, hnv⟩

/-- C19: for every run of the traversal of `SampleSubgraph` that returns, the visited map holds
every vertex once, the map of every state of the run is a prefix of the final one (an entry is
never added twice nor changed), the queue's levels are non-decreasing from front to back in
every state, and the level recorded for a visited vertex `v` is the level of a node carrying `v`
that was in the queue and is at most the level of every node carrying `v` that ever was in the
queue. -/
theorem C19_visited_once_min_level (csr : CSR) (seed_arr : List Int)
    (probability : Option (List ℚ)) (num_hops num_neighbor max_num_vertices : Int)
    (draws : List Nat) (st : BfsState)
    (hb : SampleSubgraph.bfs csr seed_arr probability num_hops num_neighbor max_num_vertices
      draws = .ok st) :
    (st.sub_ver_mp.map Prod.fst).Nodup ∧
    st ∈ SampleSubgraph.states csr seed_arr probability num_hops num_neighbor max_num_vertices
      draws ∧
    (∀ s ∈ SampleSubgraph.states csr seed_arr probability num_hops num_neighbor
        max_num_vertices draws,
      s.sub_ver_mp <+: st.sub_ver_mp ∧
        s.node_queue.Pairwise (fun a b => a.level ≤ b.level)) ∧
    ∀ v l, umap_find st.sub_ver_mp v = some l →
      (∃ s ∈ SampleSubgraph.states csr seed_arr probability num_hops num_neighbor
          max_num_vertices draws,
        ∃ nd ∈ s.node_queue, nd.vertex_id = v ∧ nd.level = l) ∧
      ∀ s ∈ SampleSubgraph.states csr seed_arr probability num_hops num_neighbor
          max_num_vertices draws,
        ∀ nd ∈ s.node_queue, nd.vertex_id = v → l ≤ nd.level := by
  have hinv := bfs_inv csr seed_arr probability num_hops num_neighbor max_num_vertices draws
    st hb
  have hloop : SampleSubgraph.loop csr probability num_hops num_neighbor max_num_vertices
      (SampleSubgraph.fuel seed_arr num_neighbor max_num_vertices)
      (SampleSubgraph.init seed_arr draws) = .ok st := by
    unfold SampleSubgraph.bfs at hb
    split at hb
    · exact absurd hb (by simp)
    · exact hb
  have htr := trace_inv csr probability num_hops num_neighbor max_num_vertices _ _ st
    (init_queue_inv seed_arr draws) hloop
  refine ⟨hinv.keys_nodup, final_mem_trace _ _ _ _ _ _ _ _ hloop, ?_, ?_⟩
  · intro s hs
    obtain ⟨hq, fuel', hl⟩ := htr s hs
    exact ⟨loop_map_grows _ _ _ _ _ _ _ _ hl, hq.sorted⟩
  · intro v l hv
    constructor
    · rcases loop_level_source _ _ _ _ _ _ _ _ hloop v l hv with h0 | h1
      · simp [SampleSubgraph.init, umap_find] at h0
      · exact h1
    · intro s hs nd hnd hnv
      obtain ⟨hq, fuel', hl⟩ := htr s hs
      exact loop_min_level _ _ _ _ _ _ _ _ hq hl nd hnd l (by rw [hnv]; exact hv)

theorem C19_visited_once_min_level_witness :
    (chain_full.sub_ver_mp.map Prod.fst).Nodup ∧
    chain_full ∈ SampleSubgraph.states chain_graph [0] none 3 1 4 [] ∧
    (∀ s ∈ SampleSubgraph.states chain_graph [0] none 3 1 4 [],
      s.sub_ver_mp <+: chain_full.sub_ver_mp ∧
        s.node_queue.Pairwise (fun a b => a.level ≤ b.level)) ∧
    ∀ v l, umap_find chain_full.sub_ver_mp v = some l →
      (∃ s ∈ SampleSubgraph.states chain_graph [0] none 3 1 4 [],
        ∃ nd ∈ s.node_queue, nd.vertex_id = v ∧ nd.level = l) ∧
      ∀ s ∈ SampleSubgraph.states chain_graph [0] none 3 1 4 [],
        ∀ nd ∈ s.node_queue, nd.vertex_id = v → l ≤ nd.level :=
  C19_visited_once_min_level chain_graph [0] none 3 1 4 [] chain_full (by decide)

/-! ## The documented example of the induced subgraph -/

/-- C23: for the 4x4 example graph (edge ids `(0,0)=1, (0,3)=2, (1,0)=3, (1,2)=4, (2,1)=5,
(3,1)=6, (3,2)=7`) and `V = [0, 1, 2]`, `GetSubgraph` with the mapping requested returns a CSR
with row pointer `[0, 1, 3, 4]`, column indices `[0, 0, 2, 1]` and new edge ids `[0, 1, 2, 3]`,
and a second CSR of the same structure with the original edge ids `[1, 3, 4, 5]`; without the
mapping the first CSR is the same. -/
theorem C23_induced_example :
    example_graph.indptr = [0, 2, 4, 5, 7] ∧ example_graph.indices = [0, 3, 0, 2, 1, 1, 2] ∧
    example_graph.data = [1, 2, 3, 4, 5, 6, 7] ∧
    GetSubgraph example_graph [0, 1, 2] true = .ok (example_sub, some example_old) ∧
    GetSubgraph example_graph [0, 1, 2] false = .ok (example_sub, none) ∧
    example_sub.indptr = [0, 1, 3, 4] ∧ example_sub.indices = [0, 0, 2, 1] ∧
    example_sub.data = [0, 1, 2, 3] ∧
    example_old.indptr = [0, 1, 3, 4] ∧ example_old.indices = [0, 0, 2, 1] ∧
    example_old.data = [1, 3, 4, 5] := by
  decide

/-- C24 (divergence): on the documented example `GetSubgraph` returns the new edge ids
`0, 1, 2, 3` in its first matrix, not the ids `1, 2, 3, 4` of the documentation; the structure
of the first matrix and the whole second matrix are as documented. -/
theorem C24_new_edge_ids_start_at_zero :
    ∃ sub old, GetSubgraph example_graph [0, 1, 2] true = .ok (sub, some old) ∧
      sub.data = [0, 1, 2, 3] ∧ sub ≠ doc_first_matrix ∧
      sub.indptr = doc_first_matrix.indptr ∧ sub.indices = doc_first_matrix.indices ∧
      doc_first_matrix.data = [1, 2, 3, 4] ∧
      old.indptr = [0, 1, 3, 4] ∧ old.indices = [0, 0, 2, 1] ∧ old.data = [1, 3, 4, 5] := by
  refine ⟨example_sub, example_old, ?_⟩
  decide

/-! ## Uniform sampling: which branch draws the positions -/

/-- A duplicate-free list of `n` numbers below `n` holds every number below `n`. -/
theorem mem_of_nodup_length_eq (l : List Nat) (n : Nat) (hnd : l.Nodup)
    (hb : ∀ x ∈ l, x < n) (hlen : l.length = n) (x : Nat) (hx : x < n) : x ∈ l := by
  have hsub : l.toFinset ⊆ Finset.range n := by
    intro y hy
    exact Finset.mem_range.mpr (hb y (List.mem_toFinset.mp hy))
  have hcard : l.toFinset.card = n := by rw [List.toFinset_card_of_nodup hnd, hlen]
  have heq : l.toFinset = Finset.range n :=
    Finset.eq_of_subset_of_card_le hsub (by rw [hcard, Finset.card_range])
  have : x ∈ l.toFinset := by rw [heq]; exact Finset.mem_range.mpr hx
  exact List.mem_toFinset.mp this

/-- A successful `GetUniformSample` on a list longer than the fan-out reads its outputs at the
positions of `sorted_idxs`. -/
theorem GetUniformSample_ok_inv (vl el : List Int) (k : Nat) (draws : List Nat)
    (ov oe : List Int) (rest : List Nat) (hk : k < vl.length)
    (h : GetUniformSample vl el k draws = .ok (ov, oe, rest)) :
    ∃ idxs, GetUniformSample.sorted_idxs vl.length k draws = .ok (idxs, rest) ∧
      ov = idxs.map (fun i => vl.getD i 0) ∧ oe = idxs.map (fun i => el.getD i 0) := by
  unfold GetUniformSample at h
  by_cases hlen : vl.length = el.length
  · simp only [hlen, ne_eq, not_true_eq_false, if_false] at h
    have hle : ¬ el.length ≤ k := by omega
    simp only [hle, if_false] at h
    rw [hlen]
    cases hs : GetUniformSample.sorted_idxs el.length k draws with
    | fail e => rw [hs] at h; exact absurd h (by simp)
    | ok r =>
      obtain ⟨idxs, d⟩ := r
      rw [hs] at h
      simp only at h
      split at h
      · exact absurd h (by simp)
      · split at h
        · exact absurd h (by simp)
        · simp only [Res.ok.injEq, Prod.mk.injEq] at h
          obtain ⟨h1, h2, h3⟩ := h
          exact ⟨idxs, by rw [h3], h1.symm, h2.symm⟩
  · simp [hlen] at h

/-- C30 (counterexample): with `n = 2` neighbors and fan-out `k = 1` (so `k ≤ n / 2`, `n = 2k`)
and the draw `0`, rejection sampling of one position gives position `0`, but
`GetUniformSample` keeps position `1`: it drew the rejected position and took the
complement. -/
theorem C30_half_uses_complement :
    1 ≤ 2 / 2 ∧ RandomSample 2 1 [0] = .ok ([0], []) ∧
      GetUniformSample.sorted_idxs 2 1 [0] = .ok ([1], []) ∧
      GetUniformSample [10, 20] [1, 2] 1 [0] = .ok ([20], [2], []) := by
  decide

/-- C30 (amended): for a neighbor list of size `n` and a fan-out `k < n` on which
`GetUniformSample` returns, the kept positions are drawn directly by rejection sampling (and
sorted) exactly when `n > 2k`; when `n ≤ 2k`, which includes `n = 2k`, the `n - k` rejected
positions are drawn and the kept positions are the positions of `[0, n)` that were not
drawn. -/
theorem C30_direct_only_above_double (vl el : List Int) (k : Nat) (draws : List Nat)
    (ov oe : List Int) (rest : List Nat) (hk : k < vl.length)
    (h : GetUniformSample vl el k draws = .ok (ov, oe, rest)) :
    ∃ idxs, ov = idxs.map (fun i => vl.getD i 0) ∧ oe = idxs.map (fun i => el.getD i 0) ∧
      (2 * k < vl.length →
        ∃ drawn, RandomSample vl.length k draws = .ok (drawn, rest) ∧ idxs = sort_idxs drawn) ∧
      (vl.length ≤ 2 * k →
        ∃ rejected, RandomSample vl.length (vl.length - k) draws = .ok (rejected, rest) ∧
          rejected.length = vl.length - k ∧
          ∀ x, x ∈ idxs ↔ x < vl.length ∧ x ∉ rejected) := by
  obtain ⟨idxs, hs, h1, h2⟩ := GetUniformSample_ok_inv vl el k draws ov oe rest hk h
  refine ⟨idxs, h1, h2, ?_, ?_⟩
  · intro hgt
    unfold GetUniformSample.sorted_idxs at hs
    have hc : vl.length > k * 2 := by omega
    simp only [hc, if_true] at hs
    cases hr : RandomSample vl.length k draws with
    | fail e => rw [hr] at hs; exact absurd hs (by simp)
    | ok r =>
      obtain ⟨drawn, d⟩ := r
      rw [hr] at hs
      simp only [Res.ok.injEq, Prod.mk.injEq] at hs
      exact ⟨drawn, by rw [hs.2], hs.1.symm⟩
  · intro hle
    unfold GetUniformSample.sorted_idxs at hs
    have hc : ¬ vl.length > k * 2 := by omega
    simp only [hc, if_false] at hs
    cases hr : RandomSample vl.length (vl.length - k) draws with
    | fail e => rw [hr] at hs; exact absurd hs (by simp)
    | ok r =>
      obtain ⟨rejected, d⟩ := r
      rw [hr] at hs
      simp only at hs
      obtain ⟨hnd, hb, hl⟩ := RandomSample_loop_spec vl.length (vl.length - k) (by omega) draws
        [] rejected d List.nodup_nil (by simp) (by simp) hr
      obtain ⟨hss, hsl, hsm⟩ := sort_idxs_spec rejected hnd
      have hne : sort_idxs rejected ≠ [] := by
        intro e
        rw [e] at hsl
        simp only [List.length_nil] at hsl
        omega
      obtain ⟨out, ho, hos, hol, hom⟩ := NegateSet_spec (sort_idxs rejected) vl.length hne hss
        (fun x hx => hb x ((hsm x).mp hx))
      rw [ho] at hs
      simp only [Res.ok.injEq, Prod.mk.injEq] at hs
      obtain ⟨rfl, rfl⟩ := hs
      refine ⟨rejected, rfl, hl, ?_⟩
      intro x
      constructor
      · intro hx
        exact ⟨(hom x hx).1, fun hxr => (hom x hx).2 ((hsm x).mpr hxr)⟩
      · rintro ⟨hx, hxr⟩
        have hond : out.Nodup := hos.nodup
        have hall : (out ++ rejected).Nodup := by
          rw [List.nodup_append]
          refine ⟨hond, hnd, ?_⟩
          intro y hy hyr
          exact (hom y hy).2 ((hsm y).mpr hyr)
        have hmem := mem_of_nodup_length_eq (out ++ rejected) vl.length hall
          (by
            intro y hy
            rcases List.mem_append.mp hy with hy | hy
            · exact (hom y hy).1
            · exact hb y hy)
          (by rw [List.length_append, ← hsl]; exact hol) x hx
        rcases List.mem_append.mp hmem with hm | hm
        · exact hm
        · exact absurd hm hxr

theorem C30_direct_only_above_double_witness :
    ∃ idxs, [(20 : Int)] = idxs.map (fun i => [(10 : Int), 20].getD i 0) ∧
      [(2 : Int)] = idxs.map (fun i => [(1 : Int), 2].getD i 0) ∧
      (2 * 1 < [(10 : Int), 20].length →
        ∃ drawn, RandomSample [(10 : Int), 20].length 1 [0] = .ok (drawn, []) ∧
          idxs = sort_idxs drawn) ∧
      ([(10 : Int), 20].length ≤ 2 * 1 →
        ∃ rejected, RandomSample [(10 : Int), 20].length ([(10 : Int), 20].length - 1) [0] =
            .ok (rejected, []) ∧
          rejected.length = [(10 : Int), 20].length - 1 ∧
          ∀ x, x ∈ idxs ↔ x < [(10 : Int), 20].length ∧ x ∉ rejected) :=
  C30_direct_only_above_double [10, 20] [1, 2] 1 [0] [20] [2] [] (by decide) (by decide)

/-! ## Shape inference -/

theorem getD_set_any {α : Type} (l : List α) (i j : Nat) (v d : α) :
    (l.set i v).getD j d = if i = j ∧ j < l.length then v else l.getD j d := by
  simp only [List.getD_eq_getElem?_getD, List.getElem?_set]
  by_cases h : i = j
  · subst h
    by_cases h2 : i < l.length
    · simp [h2]
    · simp [h2, List.getElem?_eq_none (Nat.le_of_not_lt h2)]
  · simp [h]

theorem mem_output_slots (n off j : Nat) :
    j ∈ output_slots n off ↔ off ≤ j ∧ j < off + n := by
  simp only [output_slots, List.mem_map, List.mem_range]
  constructor
  · rintro ⟨i, hi, rfl⟩
    omega
  · rintro ⟨h1, h2⟩
    exact ⟨j - off, by omega, by omega⟩

/-- One output loop of a shape function: the slots of the loop hold the shape, the others are
unchanged. -/
theorem assign_outputs_spec (shape : List Int) (slots : List Nat)
    (acc acc' : Bool × List (List Int)) (h : assign_outputs shape slots acc = .ok acc') :
    acc'.2.length = acc.2.length ∧
      ∀ j, (j ∈ slots → j < acc.2.length → acc'.2.getD j [] = shape) ∧
        (j ∉ slots → acc'.2.getD j [] = acc.2.getD j []) := by
  induction slots generalizing acc with
  | nil =>
    simp only [assign_outputs, Res.ok.injEq] at h
    subst h
    exact ⟨rfl, fun j => ⟨fun hj => absurd hj (List.not_mem_nil _), fun _ => rfl⟩⟩
  | cons slot slots ih =>
    unfold assign_outputs at h
    unfold SHAPE_ASSIGN_CHECK at h
    split at h
    · exact absurd h (by simp)
    · next out_attrs heq =>
      split at heq
      · simp only [Res.ok.injEq] at heq
        subst heq
        obtain ⟨hl, hj⟩ := ih _ h
        simp only [List.length_set] at hl hj
        refine ⟨hl, fun j => ⟨?_, ?_⟩⟩
        · intro hmem hlt
          by_cases hin : j ∈ slots
          · exact (hj j).1 hin hlt
          · have hjs : j = slot := by
              rcases List.mem_cons.mp hmem with h1 | h1
              · exact h1
              · exact absurd h1 hin
            rw [(hj j).2 hin, getD_set_any, if_pos ⟨hjs.symm, hlt⟩]
        · intro hnot
          have h1 : j ≠ slot := fun e => hnot (e ▸ List.mem_cons_self _ _)
          have h2 : j ∉ slots := fun e => hnot (List.mem_cons_of_mem _ e)
          rw [(hj j).2 h2, getD_set_any, if_neg (fun e => h1 e.1.symm)]
      · exact absurd heq (by simp)

/-- The shapes `CSRNeighborUniformSampleShape` leaves in the output slots. -/
theorem uniform_shape_slots (params : NeighborSampleParam) (in_attrs out_attrs : List (List Int))
    (success : Bool) (outs : List (List Int))
    (h : CSRNeighborUniformSampleShape params in_attrs out_attrs = .ok (success, outs))
    (i : Nat) (hi : i < to_size_t (params.num_args - 1)) :
    outs.getD i [] = [params.max_num_vertices + 1] ∧
    outs.getD (to_size_t (params.num_args - 1) + i) [] =
      [params.max_num_vertices, (in_attrs.getD 0 []).getD 1 0] ∧
    outs.getD (2 * to_size_t (params.num_args - 1) + i) [] = [params.max_num_vertices] := by
  unfold CSRNeighborUniformSampleShape at h
  simp only at h
  split at h
  · exact absurd h (by simp)
  · next hlen =>
    split at h
    · exact absurd h (by simp)
    · split at h
      · exact absurd h (by simp)
      · split at h
        · exact absurd h (by simp)
        · split at h
          · exact absurd h (by simp)
          · next acc1 h1 =>
            split at h
            · exact absurd h (by simp)
            · next acc2 h2 =>
              have hlen' : out_attrs.length = 3 * to_size_t (params.num_args - 1) := by
                by_contra hne
                exact hlen hne
              obtain ⟨l1, s1⟩ := assign_outputs_spec _ _ _ _ h1
              obtain ⟨l2, s2⟩ := assign_outputs_spec _ _ _ _ h2
              obtain ⟨l3, s3⟩ := assign_outputs_spec _ _ _ _ h
              simp only at l1 s1 l3 s3
              refine ⟨?_, ?_, ?_⟩
              · rw [(s3 i).2 (by rw [mem_output_slots]; omega),
                  (s2 i).2 (by rw [mem_output_slots]; omega)]
                exact (s1 i).1 (by rw [mem_output_slots]; omega) (by omega)
              · rw [(s3 _).2 (by rw [mem_output_slots]; omega)]
                exact (s2 _).1 (by rw [mem_output_slots]; omega) (by omega)
              · exact (s3 _).1 (by rw [mem_output_slots]; omega) (by omega)

/-- The shapes `CSRNeighborNonUniformSampleShape` leaves in the output slots. -/
theorem non_uniform_shape_slots (params : NeighborSampleParam)
    (in_attrs out_attrs : List (List Int)) (success : Bool) (outs : List (List Int))
    (h : CSRNeighborNonUniformSampleShape params in_attrs out_attrs = .ok (success, outs))
    (i : Nat) (hi : i < to_size_t (params.num_args - 2)) :
    outs.getD i [] = [params.max_num_vertices + 1] ∧
    outs.getD (to_size_t (params.num_args - 2) + i) [] =
      [params.max_num_vertices, (in_attrs.getD 0 []).getD 1 0] ∧
    outs.getD (2 * to_size_t (params.num_args - 2) + i) [] = [params.max_num_vertices] ∧
    outs.getD (3 * to_size_t (params.num_args - 2) + i) [] = [params.max_num_vertices] := by
  unfold CSRNeighborNonUniformSampleShape at h
  simp only at h
  split at h
  · exact absurd h (by simp)
  · next hlen =>
    split at h
    · exact absurd h (by simp)
    · split at h
      · exact absurd h (by simp)
      · split at h
        · exact absurd h (by simp)
        · split at h
          · exact absurd h (by simp)
          · split at h
            · exact absurd h (by simp)
            · next acc1 h1 =>
              split at h
              · exact absurd h (by simp)
              · next acc2 h2 =>
                split at h
                · exact absurd h (by simp)
                · next acc3 h3 =>
                  have hlen' : out_attrs.length = 4 * to_size_t (params.num_args - 2) := by
                    by_contra hne
                    exact hlen hne
                  obtain ⟨l1, s1⟩ := assign_outputs_spec _ _ _ _ h1
                  obtain ⟨l2, s2⟩ := assign_outputs_spec _ _ _ _ h2
                  obtain ⟨l3, s3⟩ := assign_outputs_spec _ _ _ _ h3
                  obtain ⟨l4, s4⟩ := assign_outputs_spec _ _ _ _ h
                  simp only at l1 s1 l4 s4
                  refine ⟨?_, ?_, ?_, ?_⟩
                  · rw [(s4 i).2 (by rw [mem_output_slots]; omega),
                      (s3 i).2 (by rw [mem_output_slots]; omega),
                      (s2 i).2 (by rw [mem_output_slots]; omega)]
                    exact (s1 i).1 (by rw [mem_output_slots]; omega) (by omega)
                  · rw [(s4 _).2 (by rw [mem_output_slots]; omega),
                      (s3 _).2 (by rw [mem_output_slots]; omega)]
                    exact (s2 _).1 (by rw [mem_output_slots]; omega) (by omega)
                  · rw [(s4 _).2 (by rw [mem_output_slots]; omega)]
                    exact (s3 _).1 (by rw [mem_output_slots]; omega) (by omega)
                  · exact (s4 _).1 (by rw [mem_output_slots]; omega) (by omega)

/-- C27 (counterexample): for the documented call (a 5x5 graph, one seed array,
`max_num_vertices = 5`) both shape functions give the sub-CSR output the shape `(5, 5)`: its row
count is `max_num_vertices`, not `max_num_vertices + 1`. -/
theorem C27_sub_csr_rows_not_max_plus_one :
    CSRNeighborUniformSampleShape (doc_params 2) [[5, 5], [5]] [[], [], []] =
        .ok (true, [[6], [5, 5], [5]]) ∧
      CSRNeighborNonUniformSampleShape (doc_params 3) [[5, 5], [5], [5]] [[], [], [], []] =
        .ok (true, [[6], [5, 5], [5], [5]]) ∧
      (doc_params 2).max_num_vertices + 1 = 6 ∧ (doc_params 3).max_num_vertices + 1 = 6 := by
  decide

/-- C27 (amended): whenever shape inference of a neighbor-sampling operator succeeds, the shape
inferred for each sampled sub-CSR output has row count `max_num_vertices` (and as many columns
as the input graph), for every `max_num_vertices` and every input graph shape; it is the
vertex-id output that has `max_num_vertices + 1` entries. -/
theorem C27_sub_csr_rows_are_max (params : NeighborSampleParam)
    (in_attrs out_attrs outs : List (List Int)) (success : Bool)
    (params' : NeighborSampleParam) (in_attrs' out_attrs' outs' : List (List Int))
    (success' : Bool)
    (hu : CSRNeighborUniformSampleShape params in_attrs out_attrs = .ok (success, outs))
    (hn : CSRNeighborNonUniformSampleShape params' in_attrs' out_attrs' = .ok (success', outs')) :
    (∀ i, i < to_size_t (params.num_args - 1) →
      outs.getD (to_size_t (params.num_args - 1) + i) [] =
          [params.max_num_vertices, (in_attrs.getD 0 []).getD 1 0] ∧
        outs.getD i [] = [params.max_num_vertices + 1]) ∧
    (∀ i, i < to_size_t (params'.num_args - 2) →
      outs'.getD (to_size_t (params'.num_args - 2) + i) [] =
          [params'.max_num_vertices, (in_attrs'.getD 0 []).getD 1 0] ∧
        outs'.getD i [] = [params'.max_num_vertices + 1]) := by
  constructor
  · intro i hi
    obtain ⟨h1, h2, -⟩ := uniform_shape_slots params in_attrs out_attrs success outs hu i hi
    exact ⟨h2, h1⟩
  · intro i hi
    obtain ⟨h1, h2, -⟩ := non_uniform_shape_slots params' in_attrs' out_attrs' success' outs' hn
      i hi
    exact ⟨h2, h1⟩

theorem C27_sub_csr_rows_are_max_witness :
    (∀ i, i < to_size_t ((doc_params 2).num_args - 1) →
      [[(6 : Int)], [5, 5], [5]].getD (to_size_t ((doc_params 2).num_args - 1) + i) [] =
          [(doc_params 2).max_num_vertices, ([[(5 : Int), 5], [5]].getD 0 []).getD 1 0] ∧
        [[(6 : Int)], [5, 5], [5]].getD i [] = [(doc_params 2).max_num_vertices + 1]) ∧
    (∀ i, i < to_size_t ((doc_params 3).num_args - 2) →
      [[(6 : Int)], [5, 5], [5], [5]].getD (to_size_t ((doc_params 3).num_args - 2) + i) [] =
          [(doc_params 3).max_num_vertices, ([[(5 : Int), 5], [5], [5]].getD 0 []).getD 1 0] ∧
        [[(6 : Int)], [5, 5], [5], [5]].getD i [] = [(doc_params 3).max_num_vertices + 1]) :=
  C27_sub_csr_rows_are_max (doc_params 2) [[5, 5], [5]] [[], [], []] [[6], [5, 5], [5]] true
    (doc_params 3) [[5, 5], [5], [5]] [[], [], [], []] [[6], [5, 5], [5], [5]] true
    (by decide) (by decide)

/-! ## Edge id lookup -/

theorem find_zip_map {α : Type} (ps : List α) (f g : α → Int) (c : Int) :
    ((ps.map f).zip (ps.map g)).find? (fun q => q.1 = c) =
      (ps.find? (fun p => f p = c)).map (fun p => (f p, g p)) := by
  induction ps with
  | nil => rfl
  | cons p ps ih =>
    simp only [List.map_cons, List.zip_cons_cons, List.find?_cons]
    by_cases h : f p = c
    · simp [h]
    · simp [h, ih]

/-- The write of `Map` is one assignment to slot `i`. -/
theorem Map_set (i : Nat) (out_data in_data in_indices in_indptr u v : List Int) :
    edge_id_csr_forward.Map i out_data in_data in_indices in_indptr u v =
      out_data.set i
        (if std_find in_indices (rd in_indptr (u.getD i 0)).toNat
            (rd in_indptr (u.getD i 0 + 1)).toNat (v.getD i 0) =
            (rd in_indptr (u.getD i 0 + 1)).toNat then -1
          else in_data.getD (std_find in_indices (rd in_indptr (u.getD i 0)).toNat
            (rd in_indptr (u.getD i 0 + 1)).toNat (v.getD i 0)) 0) := by
  unfold edge_id_csr_forward.Map
  simp only
  split <;> rfl

/-- The value written by `Map` is the value of the first entry of row `u[i]` with column
`v[i]`, for a row with `0 ≤ indptr[r] ≤ indptr[r + 1]`. -/
theorem Map_value_eq (g : CSR) (r c : Int) (h0 : 0 ≤ rd g.indptr r)
    (h1 : rd g.indptr r ≤ rd g.indptr (r + 1)) :
    (if std_find g.indices (rd g.indptr r).toNat (rd g.indptr (r + 1)).toNat c =
        (rd g.indptr (r + 1)).toNat then -1
      else g.data.getD (std_find g.indices (rd g.indptr r).toNat
        (rd g.indptr (r + 1)).toNat c) 0) = first_entry_value g r c := by
  have hcnt : (rd g.indptr (r + 1) - rd g.indptr r).toNat =
      (rd g.indptr (r + 1)).toNat - (rd g.indptr r).toNat := by omega
  unfold first_entry_value CSR.row_cols CSR.row_vals CSR.row_range std_find
  rw [find_zip_map, hcnt]
  cases hf : (List.range' (rd g.indptr r).toNat
      ((rd g.indptr (r + 1)).toNat - (rd g.indptr r).toNat)).find?
      (fun p => g.indices.getD p 0 = c) with
  | none => simp
  | some p =>
    have hmem := List.mem_of_find?_eq_some hf
    rw [List.mem_range'_1] at hmem
    have hne : p ≠ (rd g.indptr (r + 1)).toNat := by omega
    simp [hne]

theorem find_zip_none (cs vs : List Int) (c : Int) (h : c ∉ cs) :
    (cs.zip vs).find? (fun q => q.1 = c) = none := by
  rw [List.find?_eq_none]
  intro q hq hqc
  have := (List.of_mem_zip hq).1
  simp only [decide_eq_true_eq] at hqc
  exact h (hqc ▸ this)

theorem find_zip_first (cs vs : List Int) (c : Int) (k : Nat) (hlen : cs.length = vs.length)
    (hk : k < cs.length) (hc : cs.getD k 0 = c) (hfirst : ∀ j, j < k → cs.getD j 0 ≠ c) :
    (cs.zip vs).find? (fun q => q.1 = c) = some (c, vs.getD k 0) := by
  induction cs generalizing vs k with
  | nil => simp at hk
  | cons a cs ih =>
    cases vs with
    | nil => simp at hlen
    | cons b vs =>
      simp only [List.zip_cons_cons, List.find?_cons]
      cases k with
      | zero =>
        simp only [List.getD_cons_zero] at hc
        simp [hc]
      | succ k =>
        have ha : a ≠ c := by
          have := hfirst 0 (by omega)
          simpa using this
        simp only [List.getD_cons_succ] at hc ⊢
        simp only [ha, decide_False]
        exact ih vs k (by simpa using hlen) (by simpa using hk) hc
          (fun j hj => by
            have := hfirst (j + 1) (by omega)
            simpa using this)

/-- C25: on a CSR array with stored entries, for every position `i` whose row `u[i]` is valid
(`0 ≤ indptr[u[i]] ≤ indptr[u[i] + 1]`), `edge_id` writes to `output[i]` the stored value of the
first entry of row `u[i]` whose column is `v[i]`, and `-1` when the row has no entry with that
column; on a CSR array without stored entries (storage not initialized) every output is `-1`;
and for the diagonal matrix with values `1, 2, 3`, `u = [0, 0, 1, 1, 2, 2]` and
`v = [0, 1, 1, 2, 0, 2]` the output is `[1, -1, 2, -1, -1, 3]`. -/
theorem C25_edge_id_lookup (data : CSR) (u v output : List Int)
    (hlen : output.length = u.length) :
    (∃ out, EdgeIDForwardCsrImpl true data u v .kWriteTo output = .ok out ∧
      out.length = u.length ∧
      ∀ i, i < u.length → 0 ≤ rd data.indptr (u.getD i 0) →
        rd data.indptr (u.getD i 0) ≤ rd data.indptr (u.getD i 0 + 1) →
        out.getD i 0 = first_entry_value data (u.getD i 0) (v.getD i 0) ∧
        (v.getD i 0 ∉ data.row_cols (u.getD i 0) → out.getD i 0 = -1) ∧
        (∀ k, k < (data.row_cols (u.getD i 0)).length →
          (data.row_cols (u.getD i 0)).getD k 0 = v.getD i 0 →
          (∀ j, j < k → (data.row_cols (u.getD i 0)).getD j 0 ≠ v.getD i 0) →
          out.getD i 0 = (data.row_vals (u.getD i 0)).getD k 0)) ∧
    (∃ out, EdgeIDForwardCsrImpl false data u v .kWriteTo output = .ok out ∧
      out.length = u.length ∧ ∀ i, i < u.length → out.getD i 0 = -1) ∧
    EdgeIDForwardCsrImpl true diag_graph [0, 0, 1, 1, 2, 2] [0, 1, 1, 2, 0, 2] .kWriteTo
      [0, 0, 0, 0, 0, 0] = .ok [1, -1, 2, -1, -1, 3] := by
  refine ⟨?_, ?_, by decide⟩
  · refine ⟨_, rfl, ?_, ?_⟩
    · simp only [Map_set]
      rw [range_set_length, hlen]
    · intro i hi h0 h1
      have hval : ((List.range u.length).foldl
          (fun out i => edge_id_csr_forward.Map i out data.data data.indices data.indptr u v)
          output).getD i 0 = first_entry_value data (u.getD i 0) (v.getD i 0) := by
        simp only [Map_set]
        rw [range_set_getD, if_pos ⟨hi, by rw [hlen]; exact hi⟩]
        exact Map_value_eq data _ _ h0 h1
      have hrl : (data.row_cols (u.getD i 0)).length = (data.row_vals (u.getD i 0)).length := by
        simp [CSR.row_cols, CSR.row_vals]
      refine ⟨hval, ?_, ?_⟩
      · intro hnot
        rw [hval, first_entry_value, find_zip_none _ _ _ hnot]
      · intro k hk hc hfirst
        rw [hval, first_entry_value, find_zip_first _ _ _ k hrl hk hc hfirst]
  · refine ⟨_, rfl, ?_, ?_⟩
    · rw [range_set_length, hlen]
    · intro i hi
      rw [range_set_getD, if_pos ⟨hi, by rw [hlen]; exact hi⟩]

theorem C25_edge_id_lookup_witness :
    (∃ out, EdgeIDForwardCsrImpl true example_graph [0, 3, 1] [3, 2, 1] .kWriteTo [0, 0, 0] =
        .ok out ∧
      out.length = [(0 : Int), 3, 1].length ∧
      ∀ i, i < [(0 : Int), 3, 1].length →
        0 ≤ rd example_graph.indptr ([(0 : Int), 3, 1].getD i 0) →
        rd example_graph.indptr ([(0 : Int), 3, 1].getD i 0) ≤
          rd example_graph.indptr ([(0 : Int), 3, 1].getD i 0 + 1) →
        out.getD i 0 =
          first_entry_value example_graph ([(0 : Int), 3, 1].getD i 0)
            ([(3 : Int), 2, 1].getD i 0) ∧
        ([(3 : Int), 2, 1].getD i 0 ∉ example_graph.row_cols ([(0 : Int), 3, 1].getD i 0) →
          out.getD i 0 = -1) ∧
        (∀ k, k < (example_graph.row_cols ([(0 : Int), 3, 1].getD i 0)).length →
          (example_graph.row_cols ([(0 : Int), 3, 1].getD i 0)).getD k 0 =
            [(3 : Int), 2, 1].getD i 0 →
          (∀ j, j < k → (example_graph.row_cols ([(0 : Int), 3, 1].getD i 0)).getD j 0 ≠
            [(3 : Int), 2, 1].getD i 0) →
          out.getD i 0 = (example_graph.row_vals ([(0 : Int), 3, 1].getD i 0)).getD k 0)) ∧
    (∃ out, EdgeIDForwardCsrImpl false example_graph [0, 3, 1] [3, 2, 1] .kWriteTo [0, 0, 0] =
        .ok out ∧
      out.length = [(0 : Int), 3, 1].length ∧
      ∀ i, i < [(0 : Int), 3, 1].length → out.getD i 0 = -1) ∧
    EdgeIDForwardCsrImpl true diag_graph [0, 0, 1, 1, 2, 2] [0, 1, 1, 2, 0, 2] .kWriteTo
      [0, 0, 0, 0, 0, 0] = .ok [1, -1, 2, -1, -1, 3] :=
  C25_edge_id_lookup example_graph [0, 3, 1] [3, 2, 1] [0, 0, 0] (by decide)

/-! ## The descent of `Sample` -/

/-- The descent from node `i` with `fuel` levels below it ends in the subtree of `i`. -/
theorem descend_range (heap : List ℚ) (limit : Nat) (fuel : Nat) (xi : ℚ) (i : Nat)
    (hi : (i + 1) * 2 ^ fuel ≤ 2 * limit) :
    i * 2 ^ fuel ≤ ArrayHeap.Sample.descend heap limit fuel xi i ∧
      ArrayHeap.Sample.descend heap limit fuel xi i < (i + 1) * 2 ^ fuel := by
  induction fuel generalizing xi i with
  | zero =>
    simp only [ArrayHeap.Sample.descend, pow_zero, Nat.mul_one]
    omega
  | succ fuel ih =>
    have hp : 2 ^ (fuel + 1) = 2 * 2 ^ fuel := by ring
    have hpos : 1 ≤ 2 ^ fuel := Nat.one_le_two_pow
    rw [hp] at hi ⊢
    have hlt : i < limit := by nlinarith
    unfold ArrayHeap.Sample.descend
    rw [if_pos hlt]
    split
    · have := ih (xi - heap.getD (2 * i) 0) (2 * i + 1) (by nlinarith)
      constructor
      · nlinarith [this.1]
      · nlinarith [this.2]
    · have := ih xi (2 * i) (by nlinarith)
      constructor
      · nlinarith [this.1]
      · nlinarith [this.2]

/-- C29 (counterexample): in the tree of the weights `1, 100` the draw `r = 1` gives
`x = 101 * (1 / 101) = 1`, the weight of the left subtree; `x` is not strictly greater than that
weight, and the walk turns right: `Sample` returns index 1. -/
theorem C29_equal_turns_right :
    (ArrayHeap.mk_from [1, 100]).heap_ = [0, 101, 1, 100] ∧
      (101 : ℚ) * (((1 % 100 : Nat) : ℚ) / 101) = 1 ∧ ¬ ((1 : ℚ) > 1) ∧
      (ArrayHeap.mk_from [1, 100]).Sample [1] = .ok (1, []) := by
  refine ⟨?_, by norm_num, by norm_num, ?_⟩
  · simp [ArrayHeap.mk_from, ceil_log2, ceil_log2.go, ArrayHeap.sum_up, ArrayHeap.sum_level,
      ArrayHeap.fill_leaves, List.range', List.range_succ, List.replicate]
    norm_num
    rfl
  · simp [ArrayHeap.Sample, ArrayHeap.mk_from, ceil_log2, ceil_log2.go, ArrayHeap.sum_up,
      ArrayHeap.sum_level, ArrayHeap.fill_leaves, List.range', List.range_succ, List.replicate,
      ArrayHeap.Sample.descend]
    norm_num [ArrayHeap.Sample.descend]

/-- C29 (amended): at every internal node `i` of the descent (with `fuel + 1` levels below it),
the walk turns right, subtracting the left subtree's weight from `x`, exactly when `x` is
greater than or equal to the left subtree's weight `heap_[2i]`, and then ends in the right
subtree; it turns left, keeping `x` unchanged, exactly when `x` is strictly smaller, and then
ends in the left subtree. -/
theorem C29_turns_right_iff_ge (heap : List ℚ) (limit fuel : Nat) (xi : ℚ) (i : Nat)
    (hi : (i + 1) * 2 ^ (fuel + 1) ≤ 2 * limit) :
    (heap.getD (2 * i) 0 ≤ xi →
      ArrayHeap.Sample.descend heap limit (fuel + 1) xi i =
          ArrayHeap.Sample.descend heap limit fuel (xi - heap.getD (2 * i) 0) (2 * i + 1) ∧
        (2 * i + 1) * 2 ^ fuel ≤ ArrayHeap.Sample.descend heap limit (fuel + 1) xi i ∧
        ArrayHeap.Sample.descend heap limit (fuel + 1) xi i < (2 * i + 2) * 2 ^ fuel) ∧
    (xi < heap.getD (2 * i) 0 →
      ArrayHeap.Sample.descend heap limit (fuel + 1) xi i =
          ArrayHeap.Sample.descend heap limit fuel xi (2 * i) ∧
        2 * i * 2 ^ fuel ≤ ArrayHeap.Sample.descend heap limit (fuel + 1) xi i ∧
        ArrayHeap.Sample.descend heap limit (fuel + 1) xi i < (2 * i + 1) * 2 ^ fuel) := by
  have hp : 2 ^ (fuel + 1) = 2 * 2 ^ fuel := by ring
  have hpos : 1 ≤ 2 ^ fuel := Nat.one_le_two_pow
  rw [hp] at hi
  have hlt : i < limit := by nlinarith
  constructor
  · intro hge
    have e : ArrayHeap.Sample.descend heap limit (fuel + 1) xi i =
        ArrayHeap.Sample.descend heap limit fuel (xi - heap.getD (2 * i) 0) (2 * i + 1) := by
      rw [ArrayHeap.Sample.descend, if_pos hlt, if_pos hge]
    have := descend_range heap limit fuel (xi - heap.getD (2 * i) 0) (2 * i + 1) (by nlinarith)
    rw [e]
    exact ⟨rfl, this.1, by nlinarith [this.2]⟩
  · intro hlt'
    have e : ArrayHeap.Sample.descend heap limit (fuel + 1) xi i =
        ArrayHeap.Sample.descend heap limit fuel xi (2 * i) := by
      rw [ArrayHeap.Sample.descend, if_pos hlt, if_neg (not_le.mpr hlt')]
    have := descend_range heap limit fuel xi (2 * i) (by nlinarith)
    rw [e]
    exact ⟨rfl, this.1, this.2⟩

theorem C29_turns_right_iff_ge_witness :
    (([0, 101, 1, 100] : List ℚ).getD (2 * 1) 0 ≤ 1 →
      ArrayHeap.Sample.descend [0, 101, 1, 100] 2 (0 + 1) 1 1 =
          ArrayHeap.Sample.descend [0, 101, 1, 100] 2 0
            (1 - ([0, 101, 1, 100] : List ℚ).getD (2 * 1) 0) (2 * 1 + 1) ∧
        (2 * 1 + 1) * 2 ^ 0 ≤ ArrayHeap.Sample.descend [0, 101, 1, 100] 2 (0 + 1) 1 1 ∧
        ArrayHeap.Sample.descend [0, 101, 1, 100] 2 (0 + 1) 1 1 < (2 * 1 + 2) * 2 ^ 0) ∧
    ((1 : ℚ) < ([0, 101, 1, 100] : List ℚ).getD (2 * 1) 0 →
      ArrayHeap.Sample.descend [0, 101, 1, 100] 2 (0 + 1) 1 1 =
          ArrayHeap.Sample.descend [0, 101, 1, 100] 2 0 1 (2 * 1) ∧
        2 * 1 * 2 ^ 0 ≤ ArrayHeap.Sample.descend [0, 101, 1, 100] 2 (0 + 1) 1 1 ∧
        ArrayHeap.Sample.descend [0, 101, 1, 100] 2 (0 + 1) 1 1 < (2 * 1 + 1) * 2 ^ 0) :=
  C29_turns_right_iff_ge [0, 101, 1, 100] 2 0 1 1 (by decide)

/-! ## The descent of `Sample` as an inverse cumulative distribution -/

/-- A node holds the sum of the leaves of its subtree. -/
theorem subtree_sum (heap : List ℚ) (bl : Nat)
    (hnode : ∀ j, 1 ≤ j → j < 2 ^ bl →
      heap.getD j 0 = heap.getD (2 * j) 0 + heap.getD (2 * j + 1) 0)
    (fuel t j : Nat) (ht : t + fuel = bl) (hj1 : 2 ^ t ≤ j) (hj2 : j < 2 ^ (t + 1)) :
    heap.getD j 0 = ∑ c ∈ Finset.Ico (j * 2 ^ fuel) ((j + 1) * 2 ^ fuel), heap.getD c 0 := by
  induction fuel generalizing t j with
  | zero => simp
  | succ fuel ih =>
    have hp : 2 ^ (fuel + 1) = 2 * 2 ^ fuel := by ring
    have hpt : 2 ^ (t + 1) = 2 * 2 ^ t := by ring
    have hpt2 : 2 ^ (t + 1 + 1) = 2 * 2 ^ (t + 1) := by ring
    have htpos : 1 ≤ 2 ^ t := Nat.one_le_two_pow
    have hjl : j < 2 ^ bl := by
      have : 2 ^ (t + 1) ≤ 2 ^ bl := Nat.pow_le_pow_right (by norm_num) (by omega)
      omega
    rw [hnode j (by omega) hjl,
      ih (t + 1) (2 * j) (by omega) (by omega) (by omega),
      ih (t + 1) (2 * j + 1) (by omega) (by omega) (by omega)]
    have e1 : j * 2 ^ (fuel + 1) = 2 * j * 2 ^ fuel := by rw [hp]; ring
    have e2 : (j + 1) * 2 ^ (fuel + 1) = (2 * j + 1 + 1) * 2 ^ fuel := by rw [hp]; ring
    rw [e1, e2]
    exact Finset.sum_Ico_consecutive _ (Nat.mul_le_mul_right _ (by omega))
      (Nat.mul_le_mul_right _ (by omega))

/-- The descent from node `i` with remaining value `xi` ends at the leaf `r` of the subtree of
`i` whose cumulative weight interval inside that subtree holds `xi`. -/
theorem descend_cdf (heap : List ℚ) (bl : Nat)
    (hnode : ∀ j, 1 ≤ j → j < 2 ^ bl →
      heap.getD j 0 = heap.getD (2 * j) 0 + heap.getD (2 * j + 1) 0)
    (fuel t i : Nat) (xi : ℚ) (ht : t + fuel = bl) (hi1 : 2 ^ t ≤ i) (hi2 : i < 2 ^ (t + 1))
    (hx0 : 0 ≤ xi) (hx1 : xi < heap.getD i 0) :
    i * 2 ^ fuel ≤ ArrayHeap.Sample.descend heap (2 ^ bl) fuel xi i ∧
      ∑ c ∈ Finset.Ico (i * 2 ^ fuel) (ArrayHeap.Sample.descend heap (2 ^ bl) fuel xi i),
        heap.getD c 0 ≤ xi ∧
      xi < ∑ c ∈ Finset.Ico (i * 2 ^ fuel)
        (ArrayHeap.Sample.descend heap (2 ^ bl) fuel xi i + 1), heap.getD c 0 := by
  induction fuel generalizing t i xi with
  | zero =>
    simp only [ArrayHeap.Sample.descend, pow_zero, Nat.mul_one]
    refine ⟨le_refl _, ?_, ?_⟩
    · simpa using hx0
    · simpa using hx1
  | succ fuel ih =>
    have hp : 2 ^ (fuel + 1) = 2 * 2 ^ fuel := by ring
    have hpt : 2 ^ (t + 1) = 2 * 2 ^ t := by ring
    have hpt2 : 2 ^ (t + 1 + 1) = 2 * 2 ^ (t + 1) := by ring
    have htpos : 1 ≤ 2 ^ t := Nat.one_le_two_pow
    have hil : i < 2 ^ bl := by
      have : 2 ^ (t + 1) ≤ 2 ^ bl := Nat.pow_le_pow_right (by norm_num) (by omega)
      omega
    have hn := hnode i (by omega) hil
    have e1 : i * 2 ^ (fuel + 1) = 2 * i * 2 ^ fuel := by rw [hp]; ring
    rw [e1]
    unfold ArrayHeap.Sample.descend
    rw [if_pos hil]
    split
    · next hge =>
      obtain ⟨h1, h2, h3⟩ := ih (t + 1) (2 * i + 1) (xi - heap.getD (2 * i) 0) (by omega)
        (by omega) (by omega) (by linarith) (by linarith)
      have hleft := subtree_sum heap bl hnode fuel (t + 1) (2 * i) (by omega) (by omega)
        (by omega)
      have hle : 2 * i * 2 ^ fuel ≤ (2 * i + 1) * 2 ^ fuel :=
        Nat.mul_le_mul_right _ (by omega)
      refine ⟨le_trans hle h1, ?_, ?_⟩
      · rw [← Finset.sum_Ico_consecutive _ hle h1, ← hleft]
        linarith
      · rw [← Finset.sum_Ico_consecutive _ hle (le_trans h1 (Nat.le_succ _)), ← hleft]
        linarith
    · next hlt =>
      exact ih (t + 1) (2 * i) xi (by omega) (by omega) (by omega) hx0 (not_le.mp hlt)

theorem cur_weight_nonneg (prob : List ℚ) (D : List Nat) (hnn : ∀ w ∈ prob, (0 : ℚ) ≤ w)
    (p : Nat) : 0 ≤ cur_weight prob D p := by
  unfold cur_weight
  split
  · exact le_refl _
  · by_cases hp : p < prob.length
    · rw [List.getD_eq_getElem _ _ hp]
      exact hnn _ (List.getElem_mem _)
    · rw [List.getD_eq_default _ _ (by omega)]

theorem prefix_weight_mono (prob : List ℚ) (D : List Nat) (hnn : ∀ w ∈ prob, (0 : ℚ) ≤ w)
    (m n : Nat) (h : m ≤ n) :
    ∑ p ∈ Finset.range m, cur_weight prob D p ≤ ∑ p ∈ Finset.range n, cur_weight prob D p :=
  Finset.sum_le_sum_of_subset_of_nonneg (Finset.range_mono h)
    (fun p _ _ => cur_weight_nonneg prob D hnn p)

/-- The sum of the first `j` leaves of a well-formed tree is the sum of the first `j` current
weights. -/
theorem leaves_cumulative (a : ArrayHeap) (prob : List ℚ) (D : List Nat) (hwf : a.WF prob D)
    (j : Nat) (hj : j ≤ a.limit_) :
    ∑ c ∈ Finset.Ico a.limit_ (a.limit_ + j), a.heap_.getD c 0 =
      ∑ p ∈ Finset.range j, cur_weight prob D p := by
  rw [Finset.sum_Ico_eq_sum_range]
  simp only [Nat.add_sub_cancel_left]
  apply Finset.sum_congr rfl
  intro p hp
  rw [hwf.leaf_eq p (by have := Finset.mem_range.mp hp; omega)]
  rfl

/-- C28: for a tree built from non-negative weights (possibly after deletions) and every `x`
with `0 ≤ x < root`, the descent of `Sample` started with `x` ends at the leaf of the unique
index `j` with `w[0] + ... + w[j-1] ≤ x < w[0] + ... + w[j]` over the current weights, and
`j < n`; the value `root * (r mod 100) / 101` that `Sample` starts the descent with lies in
`[0, root)`. -/
theorem C28_sample_is_inverse_cdf (a : ArrayHeap) (prob : List ℚ) (D : List Nat)
    (hwf : a.WF prob D) (hnn : ∀ w ∈ prob, (0 : ℚ) ≤ w) (x : ℚ) (hx0 : 0 ≤ x)
    (hx1 : x < a.heap_.getD 1 0) :
    (∃ j, ArrayHeap.Sample.descend a.heap_ a.limit_ a.bit_len_ x 1 = a.limit_ + j ∧
      j < prob.length ∧
      ∑ p ∈ Finset.range j, cur_weight prob D p ≤ x ∧
      x < ∑ p ∈ Finset.range (j + 1), cur_weight prob D p ∧
      ∀ j', ∑ p ∈ Finset.range j', cur_weight prob D p ≤ x →
        x < ∑ p ∈ Finset.range (j' + 1), cur_weight prob D p → j' = j) ∧
    (∀ r : Nat, 0 ≤ a.heap_.getD 1 0 * (((r % 100 : Nat) : ℚ) / 101) ∧
      a.heap_.getD 1 0 * (((r % 100 : Nat) : ℚ) / 101) < a.heap_.getD 1 0) ∧
    (∀ (r : Nat) (rest : List Nat), a.Sample (r :: rest) =
      .ok (ArrayHeap.Sample.descend a.heap_ a.limit_ a.bit_len_
        (a.heap_.getD 1 0 * (((r % 100 : Nat) : ℚ) / 101)) 1 - a.limit_, rest)) := by
  have hroot : 0 < a.heap_.getD 1 0 := lt_of_le_of_lt hx0 hx1
  refine ⟨?_, ?_, fun r rest => rfl⟩
  · have hnode : ∀ j, 1 ≤ j → j < 2 ^ a.bit_len_ →
        a.heap_.getD j 0 = a.heap_.getD (2 * j) 0 + a.heap_.getD (2 * j + 1) 0 := by
      intro j h1 h2
      exact hwf.node_eq j h1 (by rw [hwf.limit_eq]; exact h2)
    obtain ⟨h1, h2, h3⟩ := descend_cdf a.heap_ a.bit_len_ hnode a.bit_len_ 0 1 x (by omega)
      (by norm_num) (by norm_num) hx0 hx1
    have h4 := (descend_range a.heap_ (2 ^ a.bit_len_) a.bit_len_ x 1 (by omega)).2
    rw [← hwf.limit_eq] at h1 h2 h3 h4
    simp only [Nat.one_mul] at h1 h2 h3
    obtain ⟨j, hj⟩ : ∃ j, ArrayHeap.Sample.descend a.heap_ a.limit_ a.bit_len_ x 1 =
        a.limit_ + j := ⟨_, (Nat.add_sub_cancel' h1).symm⟩
    rw [hj] at h2 h3 h4
    have hjl : j < a.limit_ := by omega
    rw [leaves_cumulative a prob D hwf j (by omega)] at h2
    rw [Nat.add_assoc, leaves_cumulative a prob D hwf (j + 1) (by omega)] at h3
    have hpos : 0 < cur_weight prob D j := by
      rw [Finset.sum_range_succ] at h3
      linarith
    have hjn : j < prob.length := by
      by_contra hge
      unfold cur_weight at hpos
      split at hpos
      · exact lt_irrefl _ hpos
      · rw [List.getD_eq_default _ _ (by omega)] at hpos
        exact lt_irrefl _ hpos
    refine ⟨j, hj, hjn, h2, h3, ?_⟩
    intro j' g1 g2
    by_contra hne
    rcases Nat.lt_or_gt_of_ne hne with hlt | hgt
    · have := prefix_weight_mono prob D hnn (j' + 1) j (by omega)
      linarith
    · have := prefix_weight_mono prob D hnn (j + 1) j' (by omega)
      linarith
  · intro r
    have hk : ((r % 100 : Nat) : ℚ) < 100 := by
      have : r % 100 < 100 := Nat.mod_lt _ (by norm_num)
      exact_mod_cast this
    have hk0 : (0 : ℚ) ≤ ((r % 100 : Nat) : ℚ) := Nat.cast_nonneg _
    constructor
    · apply mul_nonneg (le_of_lt hroot)
      apply div_nonneg hk0 (by norm_num)
    · have : ((r % 100 : Nat) : ℚ) / 101 < 1 := by
        rw [div_lt_one (by norm_num)]
        linarith
      calc a.heap_.getD 1 0 * (((r % 100 : Nat) : ℚ) / 101)
          < a.heap_.getD 1 0 * 1 := by
            apply mul_lt_mul_of_pos_left this hroot
        _ = a.heap_.getD 1 0 := mul_one _

theorem C28_sample_is_inverse_cdf_witness :
    (∃ j, ArrayHeap.Sample.descend (ArrayHeap.mk_from [1, 2, 3]).heap_
        (ArrayHeap.mk_from [1, 2, 3]).limit_ (ArrayHeap.mk_from [1, 2, 3]).bit_len_ 0 1 =
        (ArrayHeap.mk_from [1, 2, 3]).limit_ + j ∧
      j < [(1 : ℚ), 2, 3].length ∧
      ∑ p ∈ Finset.range j, cur_weight [1, 2, 3] [] p ≤ 0 ∧
      0 < ∑ p ∈ Finset.range (j + 1), cur_weight [1, 2, 3] [] p ∧
      ∀ j', ∑ p ∈ Finset.range j', cur_weight [1, 2, 3] [] p ≤ 0 →
        0 < ∑ p ∈ Finset.range (j' + 1), cur_weight [1, 2, 3] [] p → j' = j) ∧
    (∀ r : Nat, 0 ≤ (ArrayHeap.mk_from [1, 2, 3]).heap_.getD 1 0 *
        (((r % 100 : Nat) : ℚ) / 101) ∧
      (ArrayHeap.mk_from [1, 2, 3]).heap_.getD 1 0 * (((r % 100 : Nat) : ℚ) / 101) <
        (ArrayHeap.mk_from [1, 2, 3]).heap_.getD 1 0) ∧
    (∀ (r : Nat) (rest : List Nat), (ArrayHeap.mk_from [1, 2, 3]).Sample (r :: rest) =
      .ok (ArrayHeap.Sample.descend (ArrayHeap.mk_from [1, 2, 3]).heap_
        (ArrayHeap.mk_from [1, 2, 3]).limit_ (ArrayHeap.mk_from [1, 2, 3]).bit_len_
        ((ArrayHeap.mk_from [1, 2, 3]).heap_.getD 1 0 * (((r % 100 : Nat) : ℚ) / 101)) 1 -
          (ArrayHeap.mk_from [1, 2, 3]).limit_, rest)) :=
  C28_sample_is_inverse_cdf (ArrayHeap.mk_from [1, 2, 3]) [1, 2, 3] [] (mk_from_WF [1, 2, 3])
    (by simp) 0 (le_refl 0)
    (root_pos (ArrayHeap.mk_from [1, 2, 3]) [1, 2, 3] [] (mk_from_WF [1, 2, 3]) (by simp) 0
      (by simp) (by simp))

/-! ## Weighted sampling: neighbors and edges are sorted separately -/

/-- On the neighbor list `[1, 2, 3]` with edge ids `[30, 20, 10]` and the vertex weights
`[0, 1, 1, 0]`, every run of `GetNonUniformSample` with two draws selects the entries of the
neighbors 1 and 2 and returns the neighbors `[1, 2]` with the edge ids `[20, 30]`. -/
theorem nonuniform_sorts_separately (draws : List Nat) (hd : 2 ≤ draws.length) :
    GetNonUniformSample [0, 1, 1, 0] [1, 2, 3] [30, 20, 10] 2 draws =
      .ok ([1, 2], [20, 30], draws.drop 2) := by
  have hprob : ([1, 2, 3] : List Int).map (fun v => rdq [0, 1, 1, 0] v) = [1, 1, 0] := by
    simp [rdq]
  obtain ⟨samples, a', rest, hok, hlen, hnd, hrest, -, hall⟩ :=
    SampleWithoutReplacement_spec [1, 1, 0] (by simp) 2 (ArrayHeap.mk_from [1, 1, 0]) [] draws
      (mk_from_WF _) (by simp) hd
  unfold GetNonUniformSample
  simp only [List.length_cons, List.length_nil, ne_eq, not_true_eq_false, if_false]
  rw [if_neg (by omega), hprob, hok]
  simp only [hrest]
  have hs : ∀ s ∈ samples, s = 0 ∨ s = 1 := by
    intro s hs
    obtain ⟨-, h1, h2⟩ := hall s hs
    simp only [List.length_cons, List.length_nil] at h1
    have h3 : s = 0 ∨ s = 1 ∨ s = 2 := by omega
    rcases h3 with h | h | h
    · exact Or.inl h
    · exact Or.inr h
    · subst h
      simp at h2
  match samples, hlen, hnd, hs with
  | [s0, s1], _, hnd, hs =>
    have h0 := hs s0 (by simp)
    have h1 := hs s1 (by simp)
    have hne : s0 ≠ s1 := by
      intro e
      rw [e] at hnd
      simp at hnd
    rcases h0 with rfl | rfl <;> rcases h1 with rfl | rfl
    · exact absurd rfl hne
    · rfl
    · rfl
    · exact absurd rfl hne

/-- C21 (divergence): the neighbor list `[1, 2, 3]` has the edge ids `[30, 20, 10]`; with the
vertex weights `[0, 1, 1, 0]` and fan-out 2 `GetNonUniformSample` returns the neighbors `[1, 2]`
with the edge ids `[20, 30]`: the pair `(1, 20)` at position 0 is no pair of the input list (the
edge to neighbor 1 has id 30). The uniform sampler keeps the pairs of the same entries
together. -/
theorem C21_pairs_are_not_kept :
    GetNonUniformSample [0, 1, 1, 0] [1, 2, 3] [30, 20, 10] 2 [0, 0] =
        .ok ([1, 2], [20, 30], []) ∧
      ((1 : Int), (20 : Int)) ∉ List.zip [(1 : Int), 2, 3] [(30 : Int), 20, 10] ∧
      GetUniformSample [1, 2, 3] [30, 20, 10] 2 [2] = .ok ([1, 2], [30, 20], []) := by
  refine ⟨nonuniform_sorts_separately [0, 0] (by decide), by decide, by decide⟩

/-! ## Degenerate inputs of the traversal -/

theorem row_cols_vals_length (csr : CSR) (v : Int) :
    (csr.row_cols v).length = (csr.row_vals v).length := by
  simp [CSR.row_cols, CSR.row_vals]

/-- With an empty seed list the traversal ends at once, in the initial state. -/
theorem bfs_empty_seeds (csr : CSR) (probability : Option (List ℚ))
    (num_hops num_neighbor max_num_vertices : Int) (draws : List Nat) :
    SampleSubgraph.bfs csr [] probability num_hops num_neighbor max_num_vertices draws =
      .ok (SampleSubgraph.init [] draws) := by
  unfold SampleSubgraph.bfs
  rw [if_neg (by simp)]
  cases SampleSubgraph.fuel [] num_neighbor max_num_vertices with
  | zero => simp [SampleSubgraph.loop, SampleSubgraph.init]
  | succ n => simp [SampleSubgraph.loop, SampleSubgraph.init]

/-- A row of at most `num_neighbor` entries is recorded whole, and no draw is used. -/
theorem step_small_row (csr : CSR) (probability : Option (List ℚ))
    (num_hops num_neighbor : Int) (cur : ver_node) (queue : List ver_node) (st : BfsState)
    (hf : umap_find st.sub_ver_mp cur.vertex_id = none) (hlv : cur.level < num_hops)
    (hdeg : (csr.row_cols cur.vertex_id).length ≤ to_size_t num_neighbor) :
    ∃ st', SampleSubgraph.step csr probability num_hops num_neighbor cur queue st = .ok st' ∧
      st'.neigh_mp = umap_insert st.neigh_mp cur.vertex_id
        { neighs := csr.row_cols cur.vertex_id, edges := csr.row_vals cur.vertex_id } ∧
      st'.draws = st.draws := by
  have hl := row_cols_vals_length csr cur.vertex_id
  unfold SampleSubgraph.step
  simp only [hlv, if_true, hf, GetSrcList]
  cases probability with
  | none =>
    have hs : GetUniformSample (csr.row_cols cur.vertex_id) (csr.row_vals cur.vertex_id)
        (to_size_t num_neighbor) st.draws =
        .ok (csr.row_cols cur.vertex_id, csr.row_vals cur.vertex_id, st.draws) := by
      unfold GetUniformSample
      rw [if_neg (by simp [hl]), if_pos hdeg]
    simp only [hs]
    exact ⟨_, rfl, rfl, rfl⟩
  | some p =>
    have hs : GetNonUniformSample p (csr.row_cols cur.vertex_id) (csr.row_vals cur.vertex_id)
        (to_size_t num_neighbor) st.draws =
        .ok (csr.row_cols cur.vertex_id, csr.row_vals cur.vertex_id, st.draws) := by
      unfold GetNonUniformSample
      rw [if_neg (by simp [hl]), if_pos hdeg]
    simp only [hs]
    exact ⟨_, rfl, rfl, rfl⟩

/-- In the final state of the traversal, a visited vertex without out-edges has an empty record
and a vertex visited below `num_hops` whose degree is at most `num_neighbor` has its whole row
as record, in stored order. -/
theorem bfs_small_rows (csr : CSR) (seed : List Int) (probability : Option (List ℚ))
    (num_hops num_neighbor max_num_vertices : Int) (draws : List Nat) (st : BfsState)
    (hb : SampleSubgraph.bfs csr seed probability num_hops num_neighbor max_num_vertices draws =
      .ok st) :
    ∀ v l, umap_find st.sub_ver_mp v = some l →
      ∃ nl, umap_find st.neigh_mp v = some nl ∧
        (l < num_hops → (csr.row_cols v).length ≤ to_size_t num_neighbor →
          nl = { neighs := csr.row_cols v, edges := csr.row_vals v }) ∧
        (csr.row_cols v = [] → nl = { neighs := [], edges := [] }) := by
  unfold SampleSubgraph.bfs at hb
  split at hb
  · exact absurd hb (by simp)
  · have key := loop_preserves csr probability num_hops num_neighbor max_num_vertices
      (fun s => BfsInv csr num_hops (to_size_t num_neighbor) s ∧
        ∀ v l, umap_find s.sub_ver_mp v = some l →
          ∃ nl, umap_find s.neigh_mp v = some nl ∧
            (l < num_hops → (csr.row_cols v).length ≤ to_size_t num_neighbor →
              nl = { neighs := csr.row_cols v, edges := csr.row_vals v }) ∧
            (csr.row_cols v = [] → nl = { neighs := [], edges := [] }))
      (by
        intro cur queue s s' hP hq _ hs
        obtain ⟨hinv, hQ⟩ := hP
        refine ⟨step_inv csr probability num_hops num_neighbor cur queue s s' hinv hs, ?_⟩
        rcases step_cases csr probability num_hops num_neighbor cur queue s s' hs with
          ⟨-, h1, h2, -⟩ | ⟨hf, h1, rec, h2, -, -, h5, -⟩
        · rw [h1, h2]; exact hQ
        · have hfn : umap_find s.neigh_mp cur.vertex_id = none := by
            rw [umap_find_none_iff, forall₂_keys hinv.records, ← umap_find_none_iff]
            exact hf
          rw [umap_insert_of_none _ _ _ hfn] at h2
          intro v l hv
          rw [h1, umap_find_append_single] at hv
          rw [h2, umap_find_append_single]
          cases hfv : umap_find s.sub_ver_mp v with
          | some y =>
            rw [hfv] at hv
            simp only [Option.some.injEq] at hv
            obtain ⟨nl, hnl, hp⟩ := hQ v y hfv
            rw [hnl]
            exact ⟨nl, rfl, hv ▸ hp⟩
          | none =>
            rw [hfv] at hv
            by_cases hk : cur.vertex_id = v
            · simp only [hk, if_true, Option.some.injEq] at hv
              subst hk
              rw [hfn]
              simp only [if_true]
              have hfull : cur.level < num_hops →
                  (csr.row_cols cur.vertex_id).length ≤ to_size_t num_neighbor →
                  rec = { neighs := csr.row_cols cur.vertex_id,
                          edges := csr.row_vals cur.vertex_id } := by
                intro hlv hdeg
                obtain ⟨s'', hs'', hn'', -⟩ := step_small_row csr probability num_hops
                  num_neighbor cur queue s hf hlv hdeg
                rw [hs] at hs''
                simp only [Res.ok.injEq] at hs''
                rw [← hs'', h2, umap_insert_of_none _ _ _ hfn] at hn''
                have := List.append_cancel_left hn''
                simp only [List.cons.injEq, Prod.mk.injEq, and_true, true_and] at this
                exact this
              refine ⟨rec, rfl, ?_, ?_⟩
              · intro hl hdeg
                exact hfull (hv ▸ hl) hdeg
              · intro hrow
                by_cases hlv : cur.level < num_hops
                · have hr := hfull hlv (by rw [hrow]; exact Nat.zero_le _)
                  have hvl : csr.row_vals cur.vertex_id = [] := by
                    apply List.eq_nil_of_length_eq_zero
                    rw [← row_cols_vals_length, hrow]
                    rfl
                  rw [hr, hrow, hvl]
                · obtain ⟨e1, e2⟩ := h5 hlv
                  cases rec
                  simp only at e1 e2
                  rw [e1, e2]
            · simp [hk] at hv)
      _ (SampleSubgraph.init seed draws) st
      ⟨init_inv csr num_hops _ seed draws, by
        intro v l hv
        simp [SampleSubgraph.init, umap_find] at hv⟩ hb
    exact key.2

theorem getD_replicate_int (n k : Nat) (v : Int) (hk : k < n) :
    (List.replicate n v).getD k 0 = v := by
  rw [List.getD_eq_getElem _ _ (by simpa using hk)]
  simp

/-- The outputs of `SampleSubgraph` for an empty seed list. -/
theorem empty_seeds_outputs (csr : CSR) (sampled_ids : List Int) (sub_prob : Option (List ℚ))
    (sub_layer : List Int) (probability : Option (List ℚ))
    (num_hops num_neighbor max_num_vertices : Int) (draws : List Nat)
    (hmax : 0 ≤ max_num_vertices) (hbuf : sampled_ids.length = max_num_vertices.toNat + 1)
    (hlay : sub_layer.length = max_num_vertices.toNat) :
    ∃ out, SampleSubgraph csr [] sampled_ids sub_prob sub_layer probability num_hops
        num_neighbor max_num_vertices draws = .ok out ∧
      out.sampled_ids = List.replicate max_num_vertices.toNat (-1) ++ [0] ∧
      out.sub_layer = List.replicate max_num_vertices.toNat (-1) ∧
      out.sub_csr.indptr = List.replicate (max_num_vertices.toNat + 1) 0 ∧
      out.sub_csr.data = [] ∧ out.sub_csr.indices = [] := by
  have hb := bfs_empty_seeds csr probability num_hops num_neighbor max_num_vertices draws
  have hlen0 : (SampleSubgraph.init [] draws).sub_ver_mp.length = 0 := rfl
  have hc : ((SampleSubgraph.init [] draws).sub_ver_mp.length : Int) ≤ max_num_vertices := by
    rw [hlen0]; exact_mod_cast hmax
  obtain ⟨out, hok, hids, hcsr⟩ := SampleSubgraph_ok csr [] sampled_ids sub_prob sub_layer
    probability num_hops num_neighbor max_num_vertices draws _ hb hc hbuf
  obtain ⟨out', hok', -, -, hl⟩ := SampleSubgraph_ok_outputs csr [] sampled_ids sub_prob
    sub_layer probability num_hops num_neighbor max_num_vertices draws _ hb hc hbuf
  rw [hok] at hok'
  simp only [Res.ok.injEq] at hok'
  subst hok'
  obtain ⟨c1, c2, c3, c4⟩ := copy_ids_spec max_num_vertices sampled_ids
    (SampleSubgraph.init [] draws) hmax (by rw [hlen0]; exact Nat.zero_le _) hbuf
  rw [← hids] at c1 c2 c3 c4
  rw [hlen0] at c3 c4
  obtain ⟨sub, hsub, d1, d2, d3, d4, d5⟩ := build_csr_spec csr num_hops
    (to_size_t num_neighbor) _ (init_inv csr num_hops _ [] draws) max_num_vertices
    (SampleSubgraph.copy_ids max_num_vertices sampled_ids (SampleSubgraph.init [] draws)) hc
    (by intro j hj; rw [hlen0] at hj; omega)
  rw [hcsr] at hsub
  simp only [Res.ok.injEq] at hsub
  subst hsub
  refine ⟨out, hok, ?_, ?_, ?_, ?_, ?_⟩
  · apply list_ext_getD
    · rw [c1]; simp
    · intro k hk
      rw [c1] at hk
      by_cases hkm : k < max_num_vertices.toNat
      · rw [c3 k (Nat.zero_le _) hkm, List.getD_append _ _ _ _ (by simpa using hkm),
          getD_replicate_int _ _ _ hkm]
      · have hke : k = max_num_vertices.toNat := by omega
        rw [hke, c4, List.getD_append_right _ _ _ _ (by simp)]
        simp
  · apply list_ext_getD
    · rw [hl, SampleSubgraph.copy_layer, range_set_length, hlay]; simp
    · intro k hk
      rw [hl, SampleSubgraph.copy_layer, range_set_length, hlay] at hk
      rw [hl, SampleSubgraph.copy_layer, range_set_getD,
        if_pos ⟨hk, by rw [hlay]; exact hk⟩, ← hids, c3 k (Nat.zero_le _) hk,
        getD_replicate_int _ _ _ hk]
      rfl
  · apply list_ext_getD
    · rw [d3]; simp
    · intro k hk
      rw [d3] at hk
      rw [getD_replicate_int _ _ _ hk]
      by_cases hk0 : k = 0
      · rw [hk0, d4 0 (Nat.zero_le _)]
        simp
      · rw [d5 k (by rw [hlen0]; omega) (by omega)]
        rfl
  · rw [d1]
    simp [visited_records, sorted_visited, sort_ids, SampleSubgraph.init]
  · rw [d2]
    simp [visited_records, sorted_visited, sort_ids, SampleSubgraph.init]

/-- C26: degenerate inputs of `SampleSubgraph` are not errors. With an empty seed list and
`max_num_vertices ≥ 0` the call returns with count 0 (the last slot of the vertex buffer), `-1`
in every other vertex slot and in every level slot, an all-zero row pointer and no entries.
When the loop visits a vertex below `num_hops` whose degree is at most `num_neighbor`, the
record inserted for it is its whole row, in stored order, and the draws are left as they were.
In the final state of every traversal that returns, a visited vertex without out-edges has an
empty record, and a vertex visited below `num_hops` with degree at most `num_neighbor` has its
whole row as record. -/
theorem C26_degenerate_inputs (csr : CSR) (sampled_ids : List Int)
    (sub_prob : Option (List ℚ)) (sub_layer : List Int) (probability : Option (List ℚ))
    (num_hops num_neighbor max_num_vertices : Int) (draws : List Nat)
    (hmax : 0 ≤ max_num_vertices) (hbuf : sampled_ids.length = max_num_vertices.toNat + 1)
    (hlay : sub_layer.length = max_num_vertices.toNat) :
    (∃ out, SampleSubgraph csr [] sampled_ids sub_prob sub_layer probability num_hops
        num_neighbor max_num_vertices draws = .ok out ∧
      out.sampled_ids = List.replicate max_num_vertices.toNat (-1) ++ [0] ∧
      out.sub_layer = List.replicate max_num_vertices.toNat (-1) ∧
      out.sub_csr.indptr = List.replicate (max_num_vertices.toNat + 1) 0 ∧
      out.sub_csr.data = [] ∧ out.sub_csr.indices = []) ∧
    (∀ (cur : ver_node) (queue : List ver_node) (st : BfsState),
      umap_find st.sub_ver_mp cur.vertex_id = none → cur.level < num_hops →
      (csr.row_cols cur.vertex_id).length ≤ to_size_t num_neighbor →
      ∃ st', SampleSubgraph.step csr probability num_hops num_neighbor cur queue st = .ok st' ∧
        st'.neigh_mp = umap_insert st.neigh_mp cur.vertex_id
          { neighs := csr.row_cols cur.vertex_id, edges := csr.row_vals cur.vertex_id } ∧
        st'.draws = st.draws) ∧
    (∀ (seed : List Int) (st : BfsState),
      SampleSubgraph.bfs csr seed probability num_hops num_neighbor max_num_vertices draws =
        .ok st →
      ∀ v l, umap_find st.sub_ver_mp v = some l →
        ∃ nl, umap_find st.neigh_mp v = some nl ∧
          (l < num_hops → (csr.row_cols v).length ≤ to_size_t num_neighbor →
            nl = { neighs := csr.row_cols v, edges := csr.row_vals v }) ∧
          (csr.row_cols v = [] → nl = { neighs := [], edges := [] })) :=
  ⟨empty_seeds_outputs csr sampled_ids sub_prob sub_layer probability num_hops num_neighbor
      max_num_vertices draws hmax hbuf hlay,
    fun cur queue st hf hlv hdeg =>
      step_small_row csr probability num_hops num_neighbor cur queue st hf hlv hdeg,
    fun seed st hb =>
      bfs_small_rows csr seed probability num_hops num_neighbor max_num_vertices draws st hb⟩

theorem C26_degenerate_inputs_witness :
    (∃ out, SampleSubgraph edge_graph [] [0, 0, 0] none [0, 0] none 2 1 2 [] = .ok out ∧
      out.sampled_ids = List.replicate (2 : Int).toNat (-1) ++ [0] ∧
      out.sub_layer = List.replicate (2 : Int).toNat (-1) ∧
      out.sub_csr.indptr = List.replicate ((2 : Int).toNat + 1) 0 ∧
      out.sub_csr.data = [] ∧ out.sub_csr.indices = []) ∧
    (∀ (cur : ver_node) (queue : List ver_node) (st : BfsState),
      umap_find st.sub_ver_mp cur.vertex_id = none → cur.level < 2 →
      (edge_graph.row_cols cur.vertex_id).length ≤ to_size_t 1 →
      ∃ st', SampleSubgraph.step edge_graph none 2 1 cur queue st = .ok st' ∧
        st'.neigh_mp = umap_insert st.neigh_mp cur.vertex_id
          { neighs := edge_graph.row_cols cur.vertex_id,
            edges := edge_graph.row_vals cur.vertex_id } ∧
        st'.draws = st.draws) ∧
    (∀ (seed : List Int) (st : BfsState),
      SampleSubgraph.bfs edge_graph seed none 2 1 2 [] = .ok st →
      ∀ v l, umap_find st.sub_ver_mp v = some l →
        ∃ nl, umap_find st.neigh_mp v = some nl ∧
          (l < 2 → (edge_graph.row_cols v).length ≤ to_size_t 1 →
            nl = { neighs := edge_graph.row_cols v, edges := edge_graph.row_vals v }) ∧
          (edge_graph.row_cols v = [] → nl = { neighs := [], edges := [] })) :=
  C26_degenerate_inputs edge_graph [0, 0, 0] none [0, 0] none 2 1 2 [] (by decide) (by decide)
    (by decide)

/-! ## The documented example of uniform sampling -/

/-- Every visited id satisfies a property that holds of the seeds, of the column ids and
of `0`. -/
theorem bfs_keys_pred (A : Int → Prop) (csr : CSR) (seed : List Int)
    (probability : Option (List ℚ)) (num_hops num_neighbor max_num_vertices : Int)
    (draws : List Nat) (st : BfsState)
    (hseed : ∀ s ∈ seed, A s) (hcols : ∀ c ∈ csr.indices, A c) (h0 : A 0)
    (h : SampleSubgraph.bfs csr seed probability num_hops num_neighbor max_num_vertices draws =
      .ok st) : ∀ v ∈ st.sub_ver_mp.map Prod.fst, A v := by
  unfold SampleSubgraph.bfs at h
  split at h
  · exact absurd h (by simp)
  · have key := loop_preserves csr probability num_hops num_neighbor max_num_vertices
      (fun s => (∀ nd ∈ s.node_queue, A nd.vertex_id) ∧
        (∀ v ∈ s.sub_ver_mp.map Prod.fst, A v))
      (by
        intro cur queue s s' hP hq _ hs
        obtain ⟨hP1, hP2⟩ := hP
        have hcur : A cur.vertex_id := hP1 cur (by rw [hq]; exact List.mem_cons_self _ _)
        constructor
        · intro nd hnd
          rcases step_queue_ids csr probability num_hops num_neighbor cur queue s s' hs nd hnd
            with h1 | h2 | h3
          · exact hP1 nd (by rw [hq]; exact List.mem_cons_of_mem _ h1)
          · exact hcols _ h2
          · rw [h3]; exact h0
        · rcases step_cases csr probability num_hops num_neighbor cur queue s s' hs with
            ⟨-, h1, -⟩ | ⟨-, h1, -⟩
          · rw [h1]; exact hP2
          · rw [h1]
            intro v hv
            simp only [List.map_append, List.map_cons, List.map_nil, List.mem_append,
              List.mem_singleton] at hv
            rcases hv with hv | hv
            · exact hP2 v hv
            · rw [hv]; exact hcur)
      _ (SampleSubgraph.init seed draws) st
      (by
        constructor
        · intro nd hnd
          simp only [SampleSubgraph.init, List.mem_map] at hnd
          obtain ⟨s, hs, rfl⟩ := hnd
          exact hseed s hs
        · intro v hv
          simp [SampleSubgraph.init] at hv) h
    exact key.2

/-- A successful call of `SampleSubgraph` is a successful traversal followed by the output
blocks. -/
theorem SampleSubgraph_ok_inv (csr : CSR) (seed_arr sampled_ids : List Int)
    (sub_prob : Option (List ℚ)) (sub_layer : List Int) (probability : Option (List ℚ))
    (num_hops num_neighbor max_num_vertices : Int) (draws : List Nat) (out : SampleOut)
    (h : SampleSubgraph csr seed_arr sampled_ids sub_prob sub_layer probability num_hops
      num_neighbor max_num_vertices draws = .ok out) :
    ∃ st, SampleSubgraph.bfs csr seed_arr probability num_hops num_neighbor max_num_vertices
      draws = .ok st := by
  unfold SampleSubgraph at h
  split at h
  · exact absurd h (by simp)
  · next st hst => exact ⟨st, hst⟩

/-- Records of two entries each: the row pointer counts in twos. -/
theorem flatMap_take_const (recs : List neigh_list) (c : Nat)
    (h : ∀ r ∈ recs, r.edges.length = c) (t : Nat) (ht : t ≤ recs.length) :
    ((recs.take t).flatMap (fun r => r.edges)).length = c * t := by
  induction recs generalizing t with
  | nil =>
    simp only [List.length_nil, Nat.le_zero] at ht
    subst ht
    simp
  | cons r recs ih =>
    cases t with
    | zero => simp
    | succ t =>
      simp only [List.take_succ_cons, List.flatMap_cons, List.length_append]
      rw [h r (List.mem_cons_self _ _),
        ih (fun r' hr' => h r' (List.mem_cons_of_mem _ hr')) t (by simpa using ht)]
      ring

/-- On the documented example every traversal that returns has visited exactly the five seeds,
all at level 0. -/
theorem k5_visited (probability : Option (List ℚ)) (draws : List Nat) (st : BfsState)
    (hb : SampleSubgraph.bfs k5_graph [0, 1, 2, 3, 4] probability 1 2 5 draws = .ok st) :
    sorted_visited st = [0, 1, 2, 3, 4] ∧ st.sub_ver_mp.length = 5 ∧
      ∀ v ∈ [(0 : Int), 1, 2, 3, 4], umap_find st.sub_ver_mp v = some 0 := by
  have hinv := bfs_inv k5_graph [0, 1, 2, 3, 4] probability 1 2 5 draws st hb
  have hsub := bfs_keys_pred (fun v => v ∈ [(0 : Int), 1, 2, 3, 4]) k5_graph [0, 1, 2, 3, 4]
    probability 1 2 5 draws st (fun s hs => hs) (by decide) (by decide) hb
  have hloop : SampleSubgraph.loop k5_graph probability 1 2 5
      (SampleSubgraph.fuel [0, 1, 2, 3, 4] 2 5) (SampleSubgraph.init [0, 1, 2, 3, 4] draws) =
      .ok st := by
    unfold SampleSubgraph.bfs at hb
    split at hb
    · exact absurd hb (by simp)
    · exact hb
  have hseeds := seeds_visited k5_graph probability 1 2 5 [0, 1, 2, 3, 4] _
    (SampleSubgraph.init [0, 1, 2, 3, 4] draws) st [] (by simp [SampleSubgraph.init])
    (by simp [SampleSubgraph.init])
    (by intro k l hk; simp [SampleSubgraph.init, umap_find] at hk) hloop
  have hperm : (st.sub_ver_mp.map Prod.fst).Perm [0, 1, 2, 3, 4] := by
    rw [List.perm_ext_iff_of_nodup hinv.keys_nodup (by decide)]
    intro a
    constructor
    · exact hsub a
    · intro ha
      have := umap_find_some_mem _ _ _ (hseeds a ha)
      exact List.mem_map.mpr ⟨(a, 0), this, rfl⟩
  obtain ⟨hs, hp⟩ := sort_ids_spec _ hinv.keys_nodup
  refine ⟨?_, ?_, hseeds⟩
  · exact List.eq_of_perm_of_sorted (hp.trans hperm) hs (by decide)
  · have := hperm.length_eq
    simpa using this

/-- C22: for the 5-vertex complete graph without self-loops (edge ids `1..20` row-major), seeds
`[0, 1, 2, 3, 4]`, `num_hops = 1`, `num_neighbor = 2`, `max_num_vertices = 5` and every sequence
of draws on which the call returns, uniform `SampleSubgraph` returns the vertex buffer
`[0, 1, 2, 3, 4, 5]`, a sub-CSR with row pointer `[0, 2, 4, 6, 8, 10]`, so that each of the 5
rows has exactly 2 entries, and the hop-level buffer `[0, 0, 0, 0, 0]`. -/
theorem C22_documented_uniform_example (draws : List Nat) (sampled_ids sub_layer : List Int)
    (out : SampleOut) (hbuf : sampled_ids.length = 6) (hlay : sub_layer.length = 5)
    (h : SampleSubgraph k5_graph [0, 1, 2, 3, 4] sampled_ids none sub_layer none 1 2 5 draws =
      .ok out) :
    out.sampled_ids = [0, 1, 2, 3, 4, 5] ∧ out.sub_csr.indptr = [0, 2, 4, 6, 8, 10] ∧
      (∀ i : Nat, i < 5 → (out.sub_csr.row_cols (i : Int)).length = 2 ∧
        (out.sub_csr.row_vals (i : Int)).length = 2) ∧
      out.sub_csr.indices.length = 10 ∧ out.sub_csr.data.length = 10 ∧
      out.sub_layer = [0, 0, 0, 0, 0] := by
  obtain ⟨st, hb⟩ := SampleSubgraph_ok_inv _ _ _ _ _ _ _ _ _ _ _ h
  obtain ⟨hsv, hlen, hlev⟩ := k5_visited none draws st hb
  have hinv := bfs_inv k5_graph [0, 1, 2, 3, 4] none 1 2 5 draws st hb
  have hc : (st.sub_ver_mp.length : Int) ≤ 5 := by rw [hlen]; norm_num
  have hbuf' : sampled_ids.length = (5 : Int).toNat + 1 := hbuf
  obtain ⟨o1, hok1, hids, hcsr⟩ := SampleSubgraph_ok k5_graph [0, 1, 2, 3, 4] sampled_ids none
    sub_layer none 1 2 5 draws st hb hc hbuf'
  obtain ⟨o2, hok2, -, -, hl⟩ := SampleSubgraph_ok_outputs k5_graph [0, 1, 2, 3, 4] sampled_ids
    none sub_layer none 1 2 5 draws st hb hc hbuf'
  rw [h] at hok1 hok2
  simp only [Res.ok.injEq] at hok1 hok2
  subst hok1
  subst hok2
  obtain ⟨c1, c2, -, c4⟩ := copy_ids_spec 5 sampled_ids st (by norm_num)
    (by rw [hlen]; decide) hbuf'
  rw [← hids] at c1 c2 c4
  have hsv' : sort_ids (st.sub_ver_mp.map Prod.fst) = [0, 1, 2, 3, 4] := hsv
  rw [hlen] at c2 c4
  rw [hsv'] at c2
  have hout : out.sampled_ids = [0, 1, 2, 3, 4, 5] := by
    apply list_ext_getD
    · rw [c1]; rfl
    · intro k hk
      rw [c1] at hk
      have hk6 : k < 6 := hk
      by_cases hk5 : k < 5
      · rw [c2 k hk5]
        interval_cases k <;> rfl
      · have hke : k = 5 := by omega
        subst hke
        exact c4
  have hrecs : ∀ r ∈ visited_records st, r.edges.length = 2 := by
    intro r hr
    obtain ⟨t, ht, rfl⟩ := List.getElem_of_mem hr
    obtain ⟨hfind, hel⟩ := visited_records_find k5_graph 1 (to_size_t 2) st hinv t ht
    have ht5 : t < 5 := by rw [visited_records_length, hlen] at ht; exact ht
    have hv : (sorted_visited st).getD t 0 ∈ [(0 : Int), 1, 2, 3, 4] := by
      rw [hsv]
      interval_cases t <;> decide
    obtain ⟨nl, hnl, hrec⟩ := record_of_visited k5_graph 1 (to_size_t 2) st hinv _ 0
      (hlev _ hv)
    rw [hfind] at hnl
    simp only [Option.some.injEq] at hnl
    have hdeg : ∀ v ∈ [(0 : Int), 1, 2, 3, 4], (k5_graph.row_cols v).length = 4 := by decide
    have h3 := hrec.2.2.1 (by norm_num)
    simp only at h3
    rw [hdeg _ hv] at h3
    rw [hel, hnl, h3]
    decide
  obtain ⟨sub, hsub, d1, d2, d3, d4, -⟩ := build_csr_spec k5_graph 1 (to_size_t 2) st hinv 5
    (SampleSubgraph.copy_ids 5 sampled_ids st) hc
    (by
      intro j hj
      rw [hlen] at hj
      rw [← hids, c2 j hj, hsv])
  rw [hcsr] at hsub
  simp only [Res.ok.injEq] at hsub
  subst hsub
  have hrl : (visited_records st).length = 5 := by rw [visited_records_length, hlen]
  have hptr : out.sub_csr.indptr = [0, 2, 4, 6, 8, 10] := by
    apply list_ext_getD
    · rw [d3]; rfl
    · intro k hk
      rw [d3] at hk
      have hk6 : k < 6 := hk
      rw [d4 k (by rw [hlen]; omega), flatMap_take_const _ 2 hrecs k (by rw [hrl]; omega)]
      interval_cases k <;> rfl
  have hdata : out.sub_csr.data.length = 10 := by
    rw [d1]
    have := flatMap_take_const _ 2 hrecs (visited_records st).length (le_refl _)
    rw [List.take_length, hrl] at this
    exact this
  have hind : out.sub_csr.indices.length = 10 := by
    rw [d2]
    have e : ((visited_records st).flatMap (fun r => r.neighs)).length =
        ((visited_records st).flatMap (fun r => r.edges)).length := by
      apply flatMap_length_congr
      intro r hr
      obtain ⟨t, ht, rfl⟩ := List.getElem_of_mem hr
      exact (visited_records_find k5_graph 1 (to_size_t 2) st hinv t ht).2.symm
    rw [e, ← d1]
    exact hdata
  refine ⟨hout, hptr, ?_, hind, hdata, ?_⟩
  · intro i hi
    simp only [CSR.row_cols, CSR.row_vals, CSR.row_range, List.length_map, List.length_range',
      hptr]
    interval_cases i <;> decide
  · apply list_ext_getD
    · rw [hl, SampleSubgraph.copy_layer, range_set_length, hlay]; rfl
    · intro k hk
      rw [hl, SampleSubgraph.copy_layer, range_set_length, hlay] at hk
      have hk5 : k < 5 := hk
      rw [hl, SampleSubgraph.copy_layer, range_set_getD,
        if_pos ⟨hk5, by rw [hlay]; exact hk5⟩, ← hids, hout]
      interval_cases k
      · rw [show ([0, 1, 2, 3, 4, 5] : List Int).getD 0 0 = 0 from rfl, hlev 0 (by decide)]; rfl
      · rw [show ([0, 1, 2, 3, 4, 5] : List Int).getD 1 0 = 1 from rfl, hlev 1 (by decide)]; rfl
      · rw [show ([0, 1, 2, 3, 4, 5] : List Int).getD 2 0 = 2 from rfl, hlev 2 (by decide)]; rfl
      · rw [show ([0, 1, 2, 3, 4, 5] : List Int).getD 3 0 = 3 from rfl, hlev 3 (by decide)]; rfl
      · rw [show ([0, 1, 2, 3, 4, 5] : List Int).getD 4 0 = 4 from rfl, hlev 4 (by decide)]; rfl

theorem C22_documented_uniform_example_witness :
    k5_uniform_out.sampled_ids = [0, 1, 2, 3, 4, 5] ∧
      k5_uniform_out.sub_csr.indptr = [0, 2, 4, 6, 8, 10] ∧
      (∀ i : Nat, i < 5 → (k5_uniform_out.sub_csr.row_cols (i : Int)).length = 2 ∧
        (k5_uniform_out.sub_csr.row_vals (i : Int)).length = 2) ∧
      k5_uniform_out.sub_csr.indices.length = 10 ∧ k5_uniform_out.sub_csr.data.length = 10 ∧
      k5_uniform_out.sub_layer = [0, 0, 0, 0, 0] :=
  C22_documented_uniform_example [0, 1, 0, 1, 0, 1, 0, 1, 0, 1] [0, 0, 0, 0, 0, 0]
    [0, 0, 0, 0, 0] k5_uniform_out (by decide) (by decide) (by decide)

/-! ## Induced subgraph: errors and the shape of the output -/

theorem GetSubgraph_loop_fail (g : CSR) (c : HashTableChecker) (rest : List Int) (i : Nat)
    (acc : SubgraphAcc) (e : Failure) (h : GetSubgraph.loop g c rest i acc = .fail e) :
    e = .check_failed := by
  induction rest generalizing i acc with
  | nil => simp [GetSubgraph.loop] at h
  | cons v rest ih =>
    unfold GetSubgraph.loop at h
    split at h
    · simp only [Res.fail.injEq] at h
      exact h.symm
    · exact ih _ _ h

theorem GetSubgraph_fail_kind (g : CSR) (V : List Int) (rm : Bool) (e : Failure)
    (h : GetSubgraph g V rm = .fail e) : e = .check_failed := by
  unfold GetSubgraph at h
  simp only at h
  split at h
  · simp only [Res.fail.injEq] at h
    exact h.symm
  · split at h
    · next e' he =>
      simp only [Res.fail.injEq] at h
      subst h
      exact GetSubgraph_loop_fail _ _ _ _ _ _ he
    · exact absurd h (by simp)

/-- C37: `GetSubgraph` ends with an error exactly when the vertex array is not non-decreasing
or holds an id that is not below the number of vertices of the graph; the error is a failed
check, raised before the outputs are allocated (a failed call has no outputs), and every other
input is accepted. -/
theorem C37_error_iff_unsorted_or_out_of_range (g : CSR) (V : List Int) (rm : Bool) :
    ((∃ e, GetSubgraph g V rm = .fail e) ↔
      (¬ V.Sorted (· ≤ ·) ∨ ∃ v ∈ V, g.shape0 ≤ v)) ∧
    (∀ e, GetSubgraph g V rm = .fail e → e = .check_failed) ∧
    ((V.Sorted (· ≤ ·) ∧ ∀ v ∈ V, v < g.shape0) ↔ ∃ r, GetSubgraph g V rm = .ok r) := by
  have hiff := GetSubgraph_fail_iff g V rm
  refine ⟨?_, fun e he => GetSubgraph_fail_kind g V rm e he, ?_⟩
  · rw [hiff]
    constructor
    · rintro (h | ⟨v, hv, hlt⟩)
      · exact Or.inl h
      · exact Or.inr ⟨v, hv, not_lt.mp hlt⟩
    · rintro (h | ⟨v, hv, hle⟩)
      · exact Or.inl h
      · exact Or.inr ⟨v, hv, not_lt.mpr hle⟩
  · constructor
    · rintro ⟨hs, hlt⟩
      obtain ⟨sub, old, hok, -⟩ := GetSubgraph_spec g V rm ((is_sorted_iff V).mpr hs) hlt
      exact ⟨_, hok⟩
    · rintro ⟨r, hr⟩
      obtain ⟨h1, h2⟩ := GetSubgraph_ok_inv g V rm r hr
      exact ⟨(is_sorted_iff V).mp h1, h2⟩

/-- The ids stored by the constructor of the checker are positions of the vertex array. -/
theorem fill_find_range (vs : List Int) (i : Nat) (m : List (Int × Int)) (x c : Int)
    (h : umap_find (HashTableChecker.fill vs i m) x = some c) :
    umap_find m x = some c ∨ ((i : Int) ≤ c ∧ c < ((i + vs.length : Nat) : Int)) := by
  induction vs generalizing i m with
  | nil => exact Or.inl h
  | cons v vs ih =>
    rcases ih (i + 1) _ h with h1 | h1
    · rw [umap_find_assign] at h1
      by_cases hx : x = v
      · simp only [hx, if_true, Option.some.injEq] at h1
        right
        simp only [List.length_cons]
        constructor <;> omega
      · simp only [hx, if_false] at h1
        exact Or.inl h1
    · right
      simp only [List.length_cons]
      constructor <;> omega

theorem row_new_ids_range (V cols es : List Int) :
    ∀ c ∈ row_new_ids V cols es, 0 ≤ c ∧ c < (V.length : Int) := by
  intro c hc
  unfold row_new_ids at hc
  obtain ⟨p, -, hp⟩ := List.mem_filterMap.mp hc
  rcases fill_find_range V 0 [] p.1 c hp with h | h
  · simp [umap_find] at h
  · constructor
    · have := h.1
      omega
    · have := h.2
      simpa using this

/-- C38: for every accepted input of `GetSubgraph` with a vertex array of length `L`, the output
is a well-formed CSR: the row pointer has length `L + 1`, starts at 0, is non-decreasing and
ends at the number `E` of column entries, every column index lies in `[0, L)`, and there are `E`
edge ids; the mapping output, when requested, has the same row pointer and columns and `E`
edge ids. -/
theorem C38_output_is_well_formed (g : CSR) (V : List Int) (rm : Bool) (sub : CSR)
    (old : Option CSR) (h : GetSubgraph g V rm = .ok (sub, old)) :
    sub.indptr.length = V.length + 1 ∧ sub.indptr.getD 0 0 = 0 ∧
      (∀ j k, j ≤ k → k ≤ V.length → sub.indptr.getD j 0 ≤ sub.indptr.getD k 0) ∧
      sub.indptr.getD V.length 0 = (sub.indices.length : Int) ∧
      (∀ c ∈ sub.indices, 0 ≤ c ∧ c < (V.length : Int)) ∧
      sub.data.length = sub.indices.length ∧ sub.shape0 = V.length ∧
      (∀ o, old = some o → o.indptr = sub.indptr ∧ o.indices = sub.indices ∧
        o.data.length = sub.indices.length) := by
  obtain ⟨hs, hlt⟩ := GetSubgraph_ok_inv g V rm _ h
  obtain ⟨sub', old', hok, h0, h1, h2, h3, h4, h5⟩ := GetSubgraph_spec g V rm hs hlt
  rw [h] at hok
  simp only [Res.ok.injEq, Prod.mk.injEq] at hok
  obtain ⟨rfl, rfl⟩ := hok
  refine ⟨h3, ?_, ?_, ?_, ?_, ?_, h0, ?_⟩
  · rw [h4 0 (Nat.zero_le _)]
    simp
  · intro j k hjk hk
    rw [h4 j (by omega), h4 k hk]
    have : ((V.take j).flatMap
        (fun v => row_new_ids V (g.row_cols v) (g.row_vals v))).length ≤
        ((V.take k).flatMap (fun v => row_new_ids V (g.row_cols v) (g.row_vals v))).length := by
      have e : V.take j = (V.take k).take j := by
        rw [List.take_take, Nat.min_eq_left hjk]
      rw [e]
      exact flatMap_take_length_le _ _ _
    exact_mod_cast this
  · rw [h4 V.length (le_refl _), List.take_length, h1]
  · intro c hc
    rw [h1] at hc
    obtain ⟨v, -, hcv⟩ := List.mem_flatMap.mp hc
    exact row_new_ids_range V _ _ c hcv
  · rw [h2]
    simp
  · intro o ho
    rw [h5] at ho
    cases rm with
    | false => simp at ho
    | true =>
      simp only [if_true, Option.some.injEq] at ho
      subst ho
      refine ⟨rfl, rfl, ?_⟩
      simp only
      rw [h1]
      apply flatMap_length_congr
      intro r _
      exact row_ids_length V _ _

theorem C38_output_is_well_formed_witness :
    example_sub.indptr.length = [(0 : Int), 1, 2].length + 1 ∧ example_sub.indptr.getD 0 0 = 0 ∧
      (∀ j k, j ≤ k → k ≤ [(0 : Int), 1, 2].length →
        example_sub.indptr.getD j 0 ≤ example_sub.indptr.getD k 0) ∧
      example_sub.indptr.getD [(0 : Int), 1, 2].length 0 = (example_sub.indices.length : Int) ∧
      (∀ c ∈ example_sub.indices, 0 ≤ c ∧ c < ([(0 : Int), 1, 2].length : Int)) ∧
      example_sub.data.length = example_sub.indices.length ∧
      example_sub.shape0 = [(0 : Int), 1, 2].length ∧
      (∀ o, some example_old = some o → o.indptr = example_sub.indptr ∧
        o.indices = example_sub.indices ∧ o.data.length = example_sub.indices.length) :=
  C38_output_is_well_formed example_graph [0, 1, 2] true example_sub (some example_old)
    (by decide)

/-- In a strictly increasing array the position of a member grows with the member. -/
theorem indexOf_strict_mono (V : List Int) (hV : V.Sorted (· < ·)) (a b : Int)
    (ha : a ∈ V) (hb : b ∈ V) (hab : a < b) : V.indexOf a < V.indexOf b := by
  have hia := List.indexOf_lt_length.mpr ha
  have hib := List.indexOf_lt_length.mpr hb
  by_contra hge
  have hle : V.indexOf b ≤ V.indexOf a := Nat.le_of_not_lt hge
  rcases Nat.lt_or_eq_of_le hle with hlt | heq
  · have := hV.rel_get_of_lt (a := ⟨V.indexOf b, hib⟩) (b := ⟨V.indexOf a, hia⟩) hlt
    simp only [List.get_eq_getElem, List.getElem_indexOf] at this
    omega
  · have e1 : V[V.indexOf a] = a := List.getElem_indexOf hia
    have e2 : V[V.indexOf b] = b := List.getElem_indexOf hib
    simp only [heq] at e2
    rw [e1] at e2
    omega

/-- The local ids of a row with strictly increasing columns are strictly increasing. -/
theorem row_new_ids_sorted (V : List Int) (hV : V.Sorted (· < ·)) (cols es : List Int)
    (hlen : cols.length = es.length) (hc : cols.Sorted (· < ·)) :
    (row_new_ids V cols es).Sorted (· < ·) := by
  rw [row_new_ids_nodup V hV.nodup cols es hlen]
  unfold List.Sorted
  rw [List.pairwise_map]
  have hf : (cols.filter (fun c => decide (c ∈ V))).Pairwise (· < ·) :=
    List.Pairwise.sublist (List.filter_sublist _) hc
  refine List.Pairwise.imp_of_mem ?_ hf
  intro a b ha hb hab
  have ha' : a ∈ V := by simpa using (List.mem_filter.mp ha).2
  have hb' : b ∈ V := by simpa using (List.mem_filter.mp hb).2
  exact_mod_cast indexOf_strict_mono V hV a b ha' hb' hab

/-- C39: for a strictly increasing vertex array `V`, whenever `GetSubgraph` returns, every
output row whose source row has strictly increasing column indices has strictly increasing
local column indices; the local indices of a row are the ranks in `V` of its columns that are in
`V`, in source order, as `CollectOnRow` appends them. -/
theorem C39_sorted_rows_stay_sorted (g : CSR) (V : List Int) (rm : Bool) (sub : CSR)
    (old : Option CSR) (hV : V.Sorted (· < ·)) (h : GetSubgraph g V rm = .ok (sub, old))
    (i : Nat) (hi : i < V.length) (hrow : (g.row_cols V[i]).Sorted (· < ·)) :
    (sub.row_cols (i : Int)).Sorted (· < ·) ∧
      sub.row_cols (i : Int) =
        ((HashTableChecker.mk_from V).CollectOnRow (g.row_cols V[i]) (g.row_vals V[i]) []
          none).1 ∧
      sub.row_cols (i : Int) = ((g.row_cols V[i]).filter (fun c => decide (c ∈ V))).map
        (fun c => ((V.indexOf c : Nat) : Int)) := by
  obtain ⟨hs, hlt⟩ := GetSubgraph_ok_inv g V rm _ h
  obtain ⟨sub', old', hok, -, h1, -, -, h4, -⟩ := GetSubgraph_spec g V rm hs hlt
  rw [h] at hok
  simp only [Res.ok.injEq, Prod.mk.injEq] at hok
  obtain ⟨rfl, rfl⟩ := hok
  have hr := sub_row_cols_eq g V sub h1 h4 i hi
  refine ⟨?_, ?_, ?_⟩
  · rw [hr]
    exact row_new_ids_sorted V hV _ _ (row_lengths g _) hrow
  · rw [hr, CollectOnRow_eq]
    simp
  · rw [hr]
    exact row_new_ids_nodup V hV.nodup _ _ (row_lengths g _)

theorem C39_sorted_rows_stay_sorted_witness :
    (example_sub.row_cols ((1 : Nat) : Int)).Sorted (· < ·) ∧
      example_sub.row_cols ((1 : Nat) : Int) =
        ((HashTableChecker.mk_from [0, 1, 2]).CollectOnRow
          (example_graph.row_cols ([(0 : Int), 1, 2].get ⟨1, by decide⟩))
          (example_graph.row_vals ([(0 : Int), 1, 2].get ⟨1, by decide⟩)) [] none).1 ∧
      example_sub.row_cols ((1 : Nat) : Int) =
        ((example_graph.row_cols ([(0 : Int), 1, 2].get ⟨1, by decide⟩)).filter
          (fun c => decide (c ∈ [(0 : Int), 1, 2]))).map
          (fun c => (([(0 : Int), 1, 2].indexOf c : Nat) : Int)) :=
  C39_sorted_rows_stay_sorted example_graph [0, 1, 2] true example_sub (some example_old)
    (by decide) (by decide) 1 (by decide) (by decide)

/-! ## Uniform sampling: the output is a subsequence of the input pairs -/

/-- Reading a list at strictly increasing positions gives a subsequence of it. -/
theorem map_getD_sublist {α : Type} (d : α) (l : List α) (idxs : List Nat)
    (hs : idxs.Sorted (· < ·)) (hb : ∀ i ∈ idxs, i < l.length) :
    (idxs.map (fun i => l.getD i d)).Sublist l := by
  induction l generalizing idxs with
  | nil =>
    cases idxs with
    | nil => exact List.Sublist.slnil
    | cons i is =>
      have := hb i (List.mem_cons_self _ _)
      simp at this
  | cons a l ih =>
    have shift : ∀ js : List Nat, js.Sorted (· < ·) → (∀ j ∈ js, 1 ≤ j) →
        (∀ j ∈ js, j < (a :: l).length) →
        (js.map (fun j => (a :: l).getD j d)).Sublist l := by
      intro js hjs hpos hjb
      have e : js.map (fun j => (a :: l).getD j d) =
          (js.map (fun j => j - 1)).map (fun j => l.getD j d) := by
        rw [List.map_map]
        apply List.map_congr_left
        intro j hj
        have := hpos j hj
        obtain ⟨j', rfl⟩ : ∃ j', j = j' + 1 := ⟨j - 1, by omega⟩
        simp
      rw [e]
      apply ih
      · unfold List.Sorted
        rw [List.pairwise_map]
        refine List.Pairwise.imp_of_mem ?_ hjs
        intro x y hx hy hxy
        have := hpos x hx
        have := hpos y hy
        omega
      · intro j hj
        obtain ⟨x, hx, rfl⟩ := List.mem_map.mp hj
        have := hjb x hx
        have := hpos x hx
        simp only [List.length_cons] at *
        omega
    cases idxs with
    | nil => exact List.nil_sublist _
    | cons i is =>
      have hs' := List.pairwise_cons.mp hs
      by_cases hi : i = 0
      · subst hi
        simp only [List.map_cons, List.getD_cons_zero]
        apply List.Sublist.cons₂
        exact shift is hs'.2 (fun j hj => by have := hs'.1 j hj; omega)
          (fun j hj => hb j (List.mem_cons_of_mem _ hj))
      · apply List.Sublist.cons
        apply shift (i :: is) hs
        · intro j hj
          rcases List.mem_cons.mp hj with rfl | hj
          · omega
          · have := hs'.1 j hj
            omega
        · exact hb

theorem zip_getD_pair (vl el : List Int) (hlen : vl.length = el.length) (i : Nat)
    (hi : i < vl.length) :
    (vl.zip el).getD i (0, 0) = (vl.getD i 0, el.getD i 0) := by
  rw [List.getD_eq_getElem _ _ (by simp [← hlen, hi]), List.getD_eq_getElem _ _ hi,
    List.getD_eq_getElem _ _ (by omega)]
  simp

/-- The pairs read at strictly increasing positions are a subsequence of the input pairs. -/
theorem pairs_sublist (vl el : List Int) (hlen : vl.length = el.length) (idxs : List Nat)
    (hs : idxs.Sorted (· < ·)) (hb : ∀ i ∈ idxs, i < vl.length) :
    ((idxs.map (fun i => vl.getD i 0)).zip (idxs.map (fun i => el.getD i 0))).Sublist
      (vl.zip el) := by
  have e : (idxs.map (fun i => vl.getD i 0)).zip (idxs.map (fun i => el.getD i 0)) =
      idxs.map (fun i => (vl.zip el).getD i (0, 0)) := by
    rw [List.zip_map']
    apply List.map_congr_left
    intro i hi
    exact (zip_getD_pair vl el hlen i (hb i hi)).symm
  rw [e]
  apply map_getD_sublist _ _ _ hs
  intro i hi
  have := hb i hi
  simp [← hlen, this]

/-- C36: for equally long lists `ver_list` and `edge_list` of length `n`, every fan-out and every
draw sequence, `GetUniformSample` fails only when the draws run out (none of its checks fails,
and `NegateSet` is never called on an empty list or with a last element `≥ n`); when it returns,
`out_ver[i]` and `out_edge[i]` are read at the same position of the input, these positions are
strictly increasing and below `n`, there are `min(n, num_neighbor)` of them, and the output
pairs are a subsequence of the input pairs. -/
theorem C36_uniform_output_is_subsequence (vl el : List Int) (k : Nat) (draws : List Nat)
    (hlen : vl.length = el.length) :
    (∀ e, GetUniformSample vl el k draws = .fail e → e = .draws_exhausted) ∧
    (∀ ov oe rest, GetUniformSample vl el k draws = .ok (ov, oe, rest) →
      ∃ idxs : List Nat, idxs.Sorted (· < ·) ∧ (∀ i ∈ idxs, i < vl.length) ∧
        idxs.length = min vl.length k ∧
        ov = idxs.map (fun i => vl.getD i 0) ∧ oe = idxs.map (fun i => el.getD i 0) ∧
        (ov.zip oe).Sublist (vl.zip el)) := by
  refine ⟨fun e he => GetUniformSample_fail vl el k draws e hlen he, ?_⟩
  intro ov oe rest h
  by_cases hle : vl.length ≤ k
  · have h' := h
    unfold GetUniformSample at h'
    rw [if_neg (by simp [hlen]), if_pos hle] at h'
    simp only [Res.ok.injEq, Prod.mk.injEq] at h'
    obtain ⟨rfl, rfl, -⟩ := h'
    have hs : (List.range vl.length).Sorted (· < ·) := List.pairwise_lt_range _
    have hb : ∀ i ∈ List.range vl.length, i < vl.length := fun i hi => List.mem_range.mp hi
    have e1 : (List.range vl.length).map (fun i => vl.getD i 0) = vl := map_getD_range vl
    have e2 : (List.range vl.length).map (fun i => el.getD i 0) = el := by
      rw [hlen]; exact map_getD_range el
    refine ⟨List.range vl.length, hs, hb, by simp [Nat.min_eq_left hle], e1.symm, e2.symm, ?_⟩
    exact List.Sublist.refl _
  · have hk : k < vl.length := by omega
    obtain ⟨idxs, hsi, h1, h2⟩ := GetUniformSample_ok_inv vl el k draws ov oe rest hk h
    rcases sorted_idxs_spec vl.length k hk draws with hf | ⟨idxs', rest', hok, hs, hl, hb⟩
    · rw [hf] at hsi
      exact absurd hsi (by simp)
    · rw [hok] at hsi
      simp only [Res.ok.injEq, Prod.mk.injEq] at hsi
      obtain ⟨rfl, -⟩ := hsi
      refine ⟨idxs', hs, hb, by rw [hl, Nat.min_eq_right (by omega)], h1, h2, ?_⟩
      rw [h1, h2]
      exact pairs_sublist vl el hlen idxs' hs hb

theorem C36_uniform_output_is_subsequence_witness :
    (∀ e, GetUniformSample [10, 11, 12, 13, 14] [1, 2, 3, 4, 5] 2 [7, 7, 3, 9] = .fail e →
      e = .draws_exhausted) ∧
    (∀ ov oe rest, GetUniformSample [10, 11, 12, 13, 14] [1, 2, 3, 4, 5] 2 [7, 7, 3, 9] =
        .ok (ov, oe, rest) →
      ∃ idxs : List Nat, idxs.Sorted (· < ·) ∧
        (∀ i ∈ idxs, i < [(10 : Int), 11, 12, 13, 14].length) ∧
        idxs.length = min [(10 : Int), 11, 12, 13, 14].length 2 ∧
        ov = idxs.map (fun i => [(10 : Int), 11, 12, 13, 14].getD i 0) ∧
        oe = idxs.map (fun i => [(1 : Int), 2, 3, 4, 5].getD i 0) ∧
        (ov.zip oe).Sublist
          (List.zip [(10 : Int), 11, 12, 13, 14] [(1 : Int), 2, 3, 4, 5])) :=
  C36_uniform_output_is_subsequence [10, 11, 12, 13, 14] [1, 2, 3, 4, 5] 2 [7, 7, 3, 9]
    (by decide)

/-! ## Weighted sampling with total weight zero -/

theorem zero_heap_sample (r : Nat) (rest : List Nat) :
    (ArrayHeap.mk_from [0, 0, 0]).Sample (r :: rest) = .ok (3, rest) := by
  simp [ArrayHeap.Sample, ArrayHeap.mk_from, ceil_log2, ceil_log2.go, ArrayHeap.sum_up,
    ArrayHeap.sum_level, ArrayHeap.fill_leaves, List.range', List.range_succ, List.replicate,
    ArrayHeap.Sample.descend]

theorem zero_heap_delete : (ArrayHeap.mk_from [0, 0, 0]).Delete 3 = ArrayHeap.mk_from [0, 0, 0] := by
  simp [ArrayHeap.Delete, ArrayHeap.Delete.loop, ArrayHeap.mk_from, ceil_log2, ceil_log2.go,
    ArrayHeap.sum_up, ArrayHeap.sum_level, ArrayHeap.fill_leaves, List.range', List.range_succ,
    List.replicate]
  rfl

/-- C35: the weight vector `[0, 0, 0]` is non-negative with total weight zero; on its tree
(`limit_ = 2 ^ ceil(log2 3) = 4`) `Sample` returns, for every draw, the index
`3 = limit_ - 1`, which is not below `n = 3`. So on a neighbor list of three neighbors of weight
zero and fan-out 2, the positions that `GetNonUniformSample` selects are `3` and `3`, outside
the neighbor list; in the model the reads past the end give `0`. -/
theorem C35_zero_weights_sample_out_of_range :
    (∀ w ∈ [(0 : ℚ), 0, 0], 0 ≤ w) ∧ [(0 : ℚ), 0, 0].sum = 0 ∧
    (ArrayHeap.mk_from [0, 0, 0]).limit_ = 2 ^ ceil_log2 3 ∧
    (ArrayHeap.mk_from [0, 0, 0]).limit_ - 1 = 3 ∧ [(0 : ℚ), 0, 0].length ≤ 3 ∧
    (∀ (r : Nat) (rest : List Nat),
      (ArrayHeap.mk_from [0, 0, 0]).Sample (r :: rest) = .ok (3, rest)) ∧
    ([1, 2, 3] : List Int).map (fun v => rdq [0, 0, 0, 0] v) = [0, 0, 0] ∧
    (∀ (r1 r2 : Nat) (rest : List Nat),
      (ArrayHeap.mk_from [0, 0, 0]).SampleWithoutReplacement 2 (r1 :: r2 :: rest) =
        .ok ([3, 3], ArrayHeap.mk_from [0, 0, 0], rest)) ∧
    (∀ (r1 r2 : Nat) (rest : List Nat),
      GetNonUniformSample [0, 0, 0, 0] [1, 2, 3] [10, 20, 30] 2 (r1 :: r2 :: rest) =
        .ok ([0, 0], [0, 0], rest)) := by
  have hswr : ∀ (r1 r2 : Nat) (rest : List Nat),
      (ArrayHeap.mk_from [0, 0, 0]).SampleWithoutReplacement 2 (r1 :: r2 :: rest) =
        .ok ([3, 3], ArrayHeap.mk_from [0, 0, 0], rest) := by
    intro r1 r2 rest
    simp only [ArrayHeap.SampleWithoutReplacement, zero_heap_sample, zero_heap_delete]
  have hprob : ([1, 2, 3] : List Int).map (fun v => rdq [0, 0, 0, 0] v) = [0, 0, 0] := by
    simp [rdq]
  refine ⟨by simp, by simp, ?_, ?_, by simp, zero_heap_sample, hprob, hswr, ?_⟩
  · simp [ArrayHeap.mk_from]
  · simp [ArrayHeap.mk_from, ceil_log2, ceil_log2.go]
  · intro r1 r2 rest
    unfold GetNonUniformSample
    simp only [List.length_cons, List.length_nil, ne_eq, not_true_eq_false, if_false]
    rw [if_neg (by omega), hprob, hswr]
    have e1 : sort_ids (List.map (fun idx => ([1, 2, 3] : List Int).getD idx 0) [3, 3]) =
        [0, 0] := by decide
    have e2 : sort_ids (List.map (fun idx => ([10, 20, 30] : List Int).getD idx 0) [3, 3]) =
        [0, 0] := by decide
    simp only [e1, e2]

/-! ## The counter of the traversal and its termination -/

/-- A property kept by every iteration holds in every state the loop passes through. -/
theorem trace_preserves (csr : CSR) (probability : Option (List ℚ))
    (num_hops num_neighbor max_num_vertices : Int) (P : BfsState → Prop)
    (hstep : ∀ cur queue st st', P st → st.node_queue = cur :: queue →
      st.sub_vertices_count ≤ max_num_vertices →
      SampleSubgraph.step csr probability num_hops num_neighbor cur queue st = .ok st' → P st')
    (fuel : Nat) (st : BfsState) (hP : P st) :
    ∀ s ∈ SampleSubgraph.trace csr probability num_hops num_neighbor max_num_vertices fuel st,
      P s := by
  induction fuel generalizing st with
  | zero =>
    intro s hs
    simp only [SampleSubgraph.trace, List.mem_singleton] at hs
    exact hs ▸ hP
  | succ fuel ih =>
    have ht : SampleSubgraph.trace csr probability num_hops num_neighbor max_num_vertices
        (fuel + 1) st =
        match st.node_queue with
        | [] => [st]
        | cur_node :: queue =>
          if ¬ (st.sub_vertices_count ≤ max_num_vertices) then [st]
          else
            match SampleSubgraph.step csr probability num_hops num_neighbor cur_node queue
                st with
            | .fail _ => [st]
            | .ok st' =>
              st :: SampleSubgraph.trace csr probability num_hops num_neighbor
                max_num_vertices fuel st' := rfl
    rw [ht]
    intro s hs
    cases hq : st.node_queue with
    | nil =>
      simp only [hq, List.mem_singleton] at hs
      exact hs ▸ hP
    | cons cur queue =>
      simp only [hq] at hs
      by_cases hc : st.sub_vertices_count ≤ max_num_vertices
      · simp only [hc, not_true_eq_false, if_false] at hs
        cases hst : SampleSubgraph.step csr probability num_hops num_neighbor cur queue st with
        | fail e =>
          simp only [hst, List.mem_singleton] at hs
          exact hs ▸ hP
        | ok st' =>
          simp only [hst, List.mem_cons] at hs
          rcases hs with rfl | hs
          · exact hP
          · exact ih st' (hstep cur queue st st' hP hq hc hst) s hs
      · simp only [hc, not_false_eq_true, if_true, List.mem_singleton] at hs
        exact hs ▸ hP

/-- C31: for `max_num_vertices ≥ 0`, in every state at the head of the loop of `SampleSubgraph`
(whatever the graph, the seeds and the draws) the counter `sub_vertices_count` is the number
of keys of the visited map, the keys are pairwise distinct, and the counter is at most
`max_num_vertices + 1`; the same holds in the state in which the traversal ends. -/
theorem C31_counter_is_map_size (csr : CSR) (seed_arr : List Int)
    (probability : Option (List ℚ)) (num_hops num_neighbor max_num_vertices : Int)
    (draws : List Nat) (hmax : 0 ≤ max_num_vertices) :
    (∀ s ∈ SampleSubgraph.states csr seed_arr probability num_hops num_neighbor
        max_num_vertices draws,
      s.sub_vertices_count = (s.sub_ver_mp.length : Int) ∧
        (s.sub_ver_mp.map Prod.fst).Nodup ∧
        s.sub_vertices_count ≤ max_num_vertices + 1) ∧
    (∀ st, SampleSubgraph.bfs csr seed_arr probability num_hops num_neighbor max_num_vertices
        draws = .ok st →
      st.sub_vertices_count = (st.sub_ver_mp.length : Int) ∧
        (st.sub_ver_mp.map Prod.fst).Nodup ∧
        st.sub_vertices_count ≤ max_num_vertices + 1) := by
  have hstep : ∀ cur queue st st',
      (BfsInv csr num_hops (to_size_t num_neighbor) st ∧
        st.sub_vertices_count ≤ max_num_vertices + 1) →
      st.node_queue = cur :: queue → st.sub_vertices_count ≤ max_num_vertices →
      SampleSubgraph.step csr probability num_hops num_neighbor cur queue st = .ok st' →
      (BfsInv csr num_hops (to_size_t num_neighbor) st' ∧
        st'.sub_vertices_count ≤ max_num_vertices + 1) := by
    intro cur queue st st' hP _ hc hs
    refine ⟨step_inv csr probability num_hops num_neighbor cur queue st st' hP.1 hs, ?_⟩
    rcases step_cases csr probability num_hops num_neighbor cur queue st st' hs with
      ⟨-, -, -, h3, -⟩ | ⟨-, -, rec, -, -, -, -, h3, -⟩
    · rw [h3]; exact hP.2
    · rw [h3]; omega
  have hinit : BfsInv csr num_hops (to_size_t num_neighbor)
      (SampleSubgraph.init seed_arr draws) ∧
      (SampleSubgraph.init seed_arr draws).sub_vertices_count ≤ max_num_vertices + 1 :=
    ⟨init_inv csr num_hops _ seed_arr draws, by
      show (0 : Int) ≤ max_num_vertices + 1
      omega⟩
  constructor
  · intro s hs
    have := trace_preserves csr probability num_hops num_neighbor max_num_vertices _ hstep
      _ _ hinit s hs
    exact ⟨this.1.count_eq, this.1.keys_nodup, this.2⟩
  · intro st hb
    unfold SampleSubgraph.bfs at hb
    split at hb
    · exact absurd hb (by simp)
    · have := loop_preserves csr probability num_hops num_neighbor max_num_vertices _ hstep
        _ _ st hinit hb
      exact ⟨this.1.count_eq, this.1.keys_nodup, this.2⟩

theorem C31_counter_is_map_size_witness :
    (∀ s ∈ SampleSubgraph.states chain_graph [0] none 3 1 1 [],
      s.sub_vertices_count = (s.sub_ver_mp.length : Int) ∧
        (s.sub_ver_mp.map Prod.fst).Nodup ∧ s.sub_vertices_count ≤ 1 + 1) ∧
    (∀ st, SampleSubgraph.bfs chain_graph [0] none 3 1 1 [] = .ok st →
      st.sub_vertices_count = (st.sub_ver_mp.length : Int) ∧
        (st.sub_ver_mp.map Prod.fst).Nodup ∧ st.sub_vertices_count ≤ 1 + 1) :=
  C31_counter_is_map_size chain_graph [0] none 3 1 1 [] (by decide)

/-- One iteration pops the front node; it pushes nodes, at most `num_neighbor` of them, only
when it adds a vertex to the visited map and increments the counter. -/
theorem step_potential (csr : CSR) (probability : Option (List ℚ))
    (num_hops num_neighbor : Int) (cur : ver_node) (queue : List ver_node) (st st' : BfsState)
    (h : SampleSubgraph.step csr probability num_hops num_neighbor cur queue st = .ok st') :
    (st'.sub_vertices_count = st.sub_vertices_count ∧ st'.node_queue = queue ∧
      st'.sub_ver_mp = st.sub_ver_mp) ∨
    (st'.sub_vertices_count = st.sub_vertices_count + 1 ∧
      st'.node_queue.length ≤ queue.length + to_size_t num_neighbor ∧
      (∃ pushed, st'.node_queue = queue ++ pushed) ∧
      st'.sub_ver_mp = st.sub_ver_mp ++ [(cur.vertex_id, cur.level)]) := by
  rcases step_cases csr probability num_hops num_neighbor cur queue st st' h with
    ⟨-, h1, -, h3, -, h5⟩ | ⟨-, h1, rec, -, -, h4, h4', h3, -, h5⟩
  · exact Or.inl ⟨h3, h5, h1⟩
  · right
    refine ⟨h3, ?_, ⟨_, h5⟩, h1⟩
    rw [h5, List.length_append, List.length_map]
    have hf := List.length_filter_le (fun v => (umap_find st'.sub_ver_mp v).isNone) rec.neighs
    have hr : rec.neighs.length ≤ to_size_t num_neighbor := by
      by_cases hlv : cur.level < num_hops
      · rw [h4 hlv]
        exact Nat.min_le_right _ _
      · rw [(h4' hlv).1]
        exact Nat.zero_le _
    omega

/-- Fuel that covers the nodes in the queue and `num_neighbor` nodes for every vertex that can
still be added is enough: the loop does not run out of fuel, and more fuel changes nothing. -/
theorem loop_fuel_enough (csr : CSR) (probability : Option (List ℚ))
    (num_hops num_neighbor max_num_vertices : Int) (fuel : Nat) (st : BfsState)
    (hpot : st.node_queue.length +
      (max_num_vertices + 1 - st.sub_vertices_count).toNat * to_size_t num_neighbor ≤ fuel)
    (n : Nat) :
    SampleSubgraph.loop csr probability num_hops num_neighbor max_num_vertices (fuel + n) st =
        SampleSubgraph.loop csr probability num_hops num_neighbor max_num_vertices fuel st ∧
      SampleSubgraph.loop csr probability num_hops num_neighbor max_num_vertices fuel st ≠
        .fail .out_of_fuel := by
  induction fuel generalizing st with
  | zero =>
    have hq : st.node_queue = [] := by
      apply List.eq_nil_of_length_eq_zero
      omega
    have h0 : SampleSubgraph.loop csr probability num_hops num_neighbor max_num_vertices 0 st =
        .ok st := by
      simp [SampleSubgraph.loop, hq]
    rw [h0]
    refine ⟨?_, by simp⟩
    rw [Nat.zero_add]
    cases n with
    | zero => exact h0
    | succ n => simp [SampleSubgraph.loop, hq]
  | succ fuel ih =>
    have hn : fuel + 1 + n = (fuel + n) + 1 := by omega
    rw [hn]
    cases hq : st.node_queue with
    | nil => simp [SampleSubgraph.loop, hq]
    | cons cur queue =>
      by_cases hc : st.sub_vertices_count ≤ max_num_vertices
      · cases hs : SampleSubgraph.step csr probability num_hops num_neighbor cur queue st with
        | fail e =>
          have he := step_fail csr probability num_hops num_neighbor cur queue st e hs
          subst he
          simp [SampleSubgraph.loop, hq, hc, hs]
        | ok st' =>
          have hpot' : st'.node_queue.length +
              (max_num_vertices + 1 - st'.sub_vertices_count).toNat * to_size_t num_neighbor ≤
              fuel := by
            rw [hq] at hpot
            simp only [List.length_cons] at hpot
            rcases step_potential csr probability num_hops num_neighbor cur queue st st' hs
              with ⟨h1, h2, -⟩ | ⟨h1, h2, -, -⟩
            · rw [h1, h2]
              omega
            · rw [h1]
              obtain ⟨m, hm⟩ : ∃ m, (max_num_vertices + 1 - st.sub_vertices_count).toNat =
                  m + 1 := ⟨(max_num_vertices + 1 - st.sub_vertices_count).toNat - 1, by omega⟩
              have hm' : (max_num_vertices + 1 - (st.sub_vertices_count + 1)).toNat = m := by
                omega
              rw [hm] at hpot
              rw [hm']
              have : (m + 1) * to_size_t num_neighbor =
                  m * to_size_t num_neighbor + to_size_t num_neighbor := Nat.succ_mul _ _
              rw [this] at hpot
              omega
          obtain ⟨i1, i2⟩ := ih st' hpot'
          simp only [SampleSubgraph.loop, hq, hc, hs, not_true_eq_false, if_false]
          exact ⟨i1, i2⟩
      · simp [SampleSubgraph.loop, hq, hc]

/-- C32: the loop of `SampleSubgraph` terminates, for every graph, seed list, parameters and
draw sequence. Every iteration pops the front node, and it pushes nodes, at most `num_neighbor`
of them, only when it adds a new vertex to the visited map and increments the counter, which
happens at most `max_num_vertices + 1` times; so `seeds + (max_num_vertices + 1) * num_neighbor`
iterations are enough: the traversal never runs out of this fuel, more fuel gives the same
result, and when the seed check passes and no sampling call runs out of draws, the traversal
returns a state. -/
theorem C32_loop_terminates (csr : CSR) (seed_arr : List Int) (probability : Option (List ℚ))
    (num_hops num_neighbor max_num_vertices : Int) (draws : List Nat) :
    SampleSubgraph.bfs csr seed_arr probability num_hops num_neighbor max_num_vertices draws ≠
      .fail .out_of_fuel ∧
    (∀ n, SampleSubgraph.loop csr probability num_hops num_neighbor max_num_vertices
        (SampleSubgraph.fuel seed_arr num_neighbor max_num_vertices + n)
        (SampleSubgraph.init seed_arr draws) =
      SampleSubgraph.loop csr probability num_hops num_neighbor max_num_vertices
        (SampleSubgraph.fuel seed_arr num_neighbor max_num_vertices)
        (SampleSubgraph.init seed_arr draws)) ∧
    (to_size_t max_num_vertices ≥ seed_arr.length →
      SampleSubgraph.bfs csr seed_arr probability num_hops num_neighbor max_num_vertices
        draws ≠ .fail .draws_exhausted →
      ∃ st, SampleSubgraph.bfs csr seed_arr probability num_hops num_neighbor max_num_vertices
        draws = .ok st) ∧
    (∀ (cur : ver_node) (queue : List ver_node) (st st' : BfsState),
      SampleSubgraph.step csr probability num_hops num_neighbor cur queue st = .ok st' →
      (st'.sub_vertices_count = st.sub_vertices_count ∧ st'.node_queue = queue ∧
        st'.sub_ver_mp = st.sub_ver_mp) ∨
      (st'.sub_vertices_count = st.sub_vertices_count + 1 ∧
        st'.node_queue.length ≤ queue.length + to_size_t num_neighbor ∧
        (∃ pushed, st'.node_queue = queue ++ pushed) ∧
        st'.sub_ver_mp = st.sub_ver_mp ++ [(cur.vertex_id, cur.level)])) := by
  have hpot : (SampleSubgraph.init seed_arr draws).node_queue.length +
      (max_num_vertices + 1 - (SampleSubgraph.init seed_arr draws).sub_vertices_count).toNat *
        to_size_t num_neighbor ≤ SampleSubgraph.fuel seed_arr num_neighbor max_num_vertices := by
    simp [SampleSubgraph.init, SampleSubgraph.fuel]
  have hne : SampleSubgraph.bfs csr seed_arr probability num_hops num_neighbor
      max_num_vertices draws ≠ .fail .out_of_fuel := by
    unfold SampleSubgraph.bfs
    split
    · simp
    · exact (loop_fuel_enough csr probability num_hops num_neighbor max_num_vertices _ _ hpot
        0).2
  refine ⟨hne, fun n => (loop_fuel_enough csr probability num_hops num_neighbor
    max_num_vertices _ _ hpot n).1, ?_, fun cur queue st st' h =>
      step_potential csr probability num_hops num_neighbor cur queue st st' h⟩
  intro hcheck hdraws
  cases hb : SampleSubgraph.bfs csr seed_arr probability num_hops num_neighbor
      max_num_vertices draws with
  | ok st => exact ⟨st, rfl⟩
  | fail e =>
    exfalso
    have hb' := hb
    unfold SampleSubgraph.bfs at hb'
    rw [if_neg (by simpa using hcheck)] at hb'
    rcases loop_fail _ _ _ _ _ _ _ e hb' with he | he
    · exact hdraws (by rw [hb, he])
    · exact hne (by rw [hb, he])

/-! ## Levels and parents -/

theorem umap_find_append_some {β : Type} (m : List (Int × β)) (k x : Int) (v y : β)
    (h : umap_find m x = some y) : umap_find (m ++ [(k, v)]) x = some y := by
  rw [umap_find_append_single, h]

theorem umap_find_append_new {β : Type} (m : List (Int × β)) (k : Int) (v : β)
    (h : umap_find m k = none) : umap_find (m ++ [(k, v)]) k = some v := by
  rw [umap_find_append_single, h]
  simp

theorem step_level_inv (csr : CSR) (probability : Option (List ℚ))
    (num_hops num_neighbor : Int) (cur : ver_node) (queue : List ver_node) (st st' : BfsState)
    (hinv : BfsInv csr num_hops (to_size_t num_neighbor) st) (hl : LevelInv num_hops st)
    (hq : st.node_queue = cur :: queue)
    (h : SampleSubgraph.step csr probability num_hops num_neighbor cur queue st = .ok st') :
    LevelInv num_hops st' := by
  obtain ⟨hqo, hmo⟩ := hl
  have hcur := hqo cur (by rw [hq]; exact List.mem_cons_self _ _)
  rcases step_cases csr probability num_hops num_neighbor cur queue st st' h with
    ⟨-, h1, h2, -, -, h5⟩ | ⟨hf, h1, rec, h2, -, -, h4', -, -, h5⟩
  · have hpar : ∀ v l, has_parent st v l → has_parent st' v l := by
      rintro v l ⟨u, r, a, b, c⟩
      exact ⟨u, r, by rw [h1]; exact a, by rw [h2]; exact b, c⟩
    constructor
    · intro nd hnd
      rw [h5] at hnd
      obtain ⟨a, b, c⟩ := hqo nd (by rw [hq]; exact List.mem_cons_of_mem _ hnd)
      exact ⟨a, b, c.imp id (hpar _ _)⟩
    · intro v l hv
      rw [h1] at hv
      obtain ⟨a, b, c⟩ := hmo v l hv
      exact ⟨a, b, c.imp id (hpar _ _)⟩
  · have hfn : umap_find st.neigh_mp cur.vertex_id = none := by
      rw [umap_find_none_iff, forall₂_keys hinv.records, ← umap_find_none_iff]
      exact hf
    rw [umap_insert_of_none _ _ _ hfn] at h2
    have hpar : ∀ v l, has_parent st v l → has_parent st' v l := by
      rintro v l ⟨u, r, a, b, c⟩
      exact ⟨u, r, by rw [h1]; exact umap_find_append_some _ _ _ _ _ a,
        by rw [h2]; exact umap_find_append_some _ _ _ _ _ b, c⟩
    constructor
    · intro nd hnd
      rw [h5] at hnd
      rcases List.mem_append.mp hnd with hnd | hnd
      · obtain ⟨a, b, c⟩ := hqo nd (by rw [hq]; exact List.mem_cons_of_mem _ hnd)
        exact ⟨a, b, c.imp id (hpar _ _)⟩
      · obtain ⟨x, hx, rfl⟩ := List.mem_map.mp hnd
        have hxr : x ∈ rec.neighs := (List.mem_filter.mp hx).1
        have hlv : cur.level < num_hops := by
          by_contra hn
          rw [(h4' hn).1] at hxr
          exact absurd hxr (List.not_mem_nil _)
        refine ⟨by have := hcur.1; simp only; omega, by simp only; omega, Or.inr ?_⟩
        refine ⟨cur.vertex_id, rec, ?_, ?_, hxr⟩
        · rw [h1]
          simp only [add_sub_cancel_right]
          exact umap_find_append_new _ _ _ hf
        · rw [h2]
          exact umap_find_append_new _ _ _ hfn
    · intro v l hv
      rw [h1, umap_find_append_single] at hv
      cases hfv : umap_find st.sub_ver_mp v with
      | some y =>
        rw [hfv] at hv
        simp only [Option.some.injEq] at hv
        subst hv
        obtain ⟨a, b, c⟩ := hmo v y hfv
        exact ⟨a, b, c.imp id (hpar _ _)⟩
      | none =>
        rw [hfv] at hv
        by_cases hk : cur.vertex_id = v
        · simp only [hk, if_true, Option.some.injEq] at hv
          subst hv
          subst hk
          exact ⟨hcur.1, hcur.2.1, hcur.2.2.imp id (hpar _ _)⟩
        · simp [hk] at hv

theorem init_level_inv (num_hops : Int) (hnh : 0 ≤ num_hops) (seed : List Int)
    (draws : List Nat) : LevelInv num_hops (SampleSubgraph.init seed draws) := by
  constructor
  · intro nd hnd
    simp only [SampleSubgraph.init, List.mem_map] at hnd
    obtain ⟨x, -, rfl⟩ := hnd
    exact ⟨le_refl _, hnh, Or.inl rfl⟩
  · intro v l hv
    simp [SampleSubgraph.init, umap_find] at hv

/-- C33: for every run of the traversal of `SampleSubgraph` with `num_hops ≥ 0` that returns,
every recorded level lies in `[0, num_hops]`; a visited vertex recorded at level `num_hops` has
an empty neighbor record; and a visited vertex recorded at a level `l > 0` is in the neighbor
record of a visited vertex recorded at level `l - 1`. -/
theorem C33_levels_and_parents (csr : CSR) (seed_arr : List Int)
    (probability : Option (List ℚ)) (num_hops num_neighbor max_num_vertices : Int)
    (draws : List Nat) (st : BfsState) (hnh : 0 ≤ num_hops)
    (hb : SampleSubgraph.bfs csr seed_arr probability num_hops num_neighbor max_num_vertices
      draws = .ok st) (v l : Int) (hv : umap_find st.sub_ver_mp v = some l) :
    0 ≤ l ∧ l ≤ num_hops ∧
      (l = num_hops → umap_find st.neigh_mp v = some { neighs := [], edges := [] }) ∧
      (0 < l → ∃ u rec, umap_find st.sub_ver_mp u = some (l - 1) ∧
        umap_find st.neigh_mp u = some rec ∧ v ∈ rec.neighs) := by
  have hloop := hb
  unfold SampleSubgraph.bfs at hloop
  split at hloop
  · exact absurd hloop (by simp)
  · have key := loop_preserves csr probability num_hops num_neighbor max_num_vertices
      (fun s => BfsInv csr num_hops (to_size_t num_neighbor) s ∧ LevelInv num_hops s)
      (fun cur queue s s' hP hq _ hs =>
        ⟨step_inv csr probability num_hops num_neighbor cur queue s s' hP.1 hs,
          step_level_inv csr probability num_hops num_neighbor cur queue s s' hP.1 hP.2 hq hs⟩)
      _ _ st ⟨init_inv csr num_hops _ seed_arr draws,
        init_level_inv num_hops hnh seed_arr draws⟩ hloop
    obtain ⟨a, b, c⟩ := key.2.map_ok v l hv
    refine ⟨a, b, ?_, ?_⟩
    · intro hl
      obtain ⟨nl, hnl, hrec⟩ := record_of_visited csr num_hops _ st key.1 v l hv
      have := hrec.2.2.2 (by simp only; omega)
      simp only at this
      rw [hnl]
      cases nl
      simp only at this
      rw [this.1, this.2]
    · intro hpos
      rcases c with c | c
      · omega
      · exact c

theorem C33_levels_and_parents_witness :
    (0 : Int) ≤ 2 ∧ (2 : Int) ≤ 2 ∧
      ((2 : Int) = 2 → umap_find chain_full.neigh_mp 3 = some { neighs := [], edges := [] }) ∧
      ((0 : Int) < 2 → ∃ u rec, umap_find chain_full.sub_ver_mp u = some (2 - 1) ∧
        umap_find chain_full.neigh_mp u = some rec ∧ (3 : Int) ∈ rec.neighs) :=
  C33_levels_and_parents chain_graph [0] none 2 1 4 [] chain_full (by decide) (by decide) 3 2
    (by decide)

/-! ## Neighbor records are closed when the queue runs empty -/

theorem fill_csr_not_check_failed (out : List Int) (nm : List (Int × neigh_list))
    (hrec : ∀ k r, umap_find nm k = some r → r.edges.length = r.neighs.length)
    (is : List Nat) (acc : SubCsrAcc) :
    SampleSubgraph.fill_csr out nm is acc ≠ .fail .check_failed := by
  induction is generalizing acc with
  | nil => simp [SampleSubgraph.fill_csr]
  | cons i is ih =>
    unfold SampleSubgraph.fill_csr
    simp only
    cases hf : umap_find nm (out.getD i 0) with
    | none => simp
    | some it =>
      have hlen := hrec _ _ hf
      simp only [hlen, ne_eq, not_true_eq_false, if_false]
      split
      · simp
      · exact ih _

theorem emit_not_check_failed (csr : CSR) (num_hops : Int) (k : Nat)
    (probability : Option (List ℚ)) (max_num_vertices : Int) (sampled_ids : List Int)
    (sub_prob : Option (List ℚ)) (sub_layer : List Int) (st : BfsState)
    (hinv : BfsInv csr num_hops k st) :
    SampleSubgraph.emit probability max_num_vertices sampled_ids sub_prob sub_layer st ≠
      .fail .check_failed := by
  have hrec : ∀ v r, umap_find st.neigh_mp v = some r → r.edges.length = r.neighs.length := by
    intro v r hf
    obtain ⟨e, -, hR⟩ := forall₂_mem_right hinv.records (v, r) (umap_find_some_mem _ _ _ hf)
    exact hR.2.1.symm
  unfold SampleSubgraph.emit SampleSubgraph.build_csr
  simp only
  cases hfill : SampleSubgraph.fill_csr (SampleSubgraph.copy_ids max_num_vertices sampled_ids st)
      st.neigh_mp (List.range st.sub_ver_mp.length)
      { val_list_out := List.replicate st.num_edges 0,
        col_list_out := List.replicate st.num_edges 0,
        indptr_out := (List.replicate (max_num_vertices + 1).toNat 0).set 0 0,
        collected_nedges := 0 } with
  | ok acc => simp
  | fail e =>
    simp only [ne_eq, Res.fail.injEq]
    intro he
    exact fill_csr_not_check_failed _ _ hrec _ _ (by rw [hfill, he])

/-- C14 (counterexample): on `chain_graph` from seed `0` with three hops the traversal reaches
three distinct vertices; with `max_num_vertices = 1` no check rejects the call: the traversal
ends without an error while vertex 3 is still queued, and the call goes on to write the
outputs, where it runs into the write past the row-pointer buffer that belongs to the defect
of C1, not into a failed check. -/
theorem C14_cap_is_not_rejected :
    SampleSubgraph.bfs chain_graph [0] none 3 1 3 [] = .ok chain_full ∧
      chain_full.sub_ver_mp.length = 3 ∧
      SampleSubgraph.bfs chain_graph [0] none 3 1 1 [] = .ok chain_capped ∧
      chain_capped.node_queue = [{ vertex_id := 3, level := 2 }] ∧
      SampleSubgraph chain_graph [0] [0, 0] none [0] none 3 1 1 [] = .fail .undefined := by
  decide

/-- C14 (amended): with at most `max_num_vertices` seeds no check rejects a call of
`SampleSubgraph`, whether or not the traversal would reach more vertices than
`max_num_vertices`: the call never ends in a failed check, the traversal itself can only stop
short of a state for lack of draws, and the state it returns has an empty queue or a visited
count of at least `max_num_vertices`, whatever is still queued. -/
theorem C14_no_check_rejects_over_capacity (csr : CSR) (seed_arr sampled_ids : List Int)
    (sub_prob : Option (List ℚ)) (sub_layer : List Int) (probability : Option (List ℚ))
    (num_hops num_neighbor max_num_vertices : Int) (draws : List Nat)
    (hseeds : (seed_arr.length : Int) ≤ max_num_vertices)
    (hmax : max_num_vertices < 2 ^ 63) :
    SampleSubgraph csr seed_arr sampled_ids sub_prob sub_layer probability num_hops
        num_neighbor max_num_vertices draws ≠ .fail .check_failed ∧
    (∀ e, SampleSubgraph.bfs csr seed_arr probability num_hops num_neighbor max_num_vertices
        draws = .fail e → e = .draws_exhausted) ∧
    (∀ st, SampleSubgraph.bfs csr seed_arr probability num_hops num_neighbor max_num_vertices
        draws = .ok st → st.node_queue = [] ∨ max_num_vertices ≤ st.sub_vertices_count) := by
  have hsz := to_size_t_of_nonneg max_num_vertices (by omega) hmax
  have hb : SampleSubgraph.bfs csr seed_arr probability num_hops num_neighbor max_num_vertices
      draws = SampleSubgraph.loop csr probability num_hops num_neighbor max_num_vertices
        (SampleSubgraph.fuel seed_arr num_neighbor max_num_vertices)
        (SampleSubgraph.init seed_arr draws) := by
    unfold SampleSubgraph.bfs
    rw [if_neg (by rw [hsz]; omega)]
  have hpot : (SampleSubgraph.init seed_arr draws).node_queue.length +
      (max_num_vertices + 1 - (SampleSubgraph.init seed_arr draws).sub_vertices_count).toNat *
        to_size_t num_neighbor ≤ SampleSubgraph.fuel seed_arr num_neighbor max_num_vertices := by
    simp [SampleSubgraph.init, SampleSubgraph.fuel]
  have hfuel := (loop_fuel_enough csr probability num_hops num_neighbor max_num_vertices _ _
    hpot 0).2
  have hfail : ∀ e, SampleSubgraph.bfs csr seed_arr probability num_hops num_neighbor
      max_num_vertices draws = .fail e → e = .draws_exhausted := by
    intro e he
    rw [hb] at he
    rcases loop_fail _ _ _ _ _ _ _ e he with h | h
    · exact h
    · exact absurd (by rw [he, h]) hfuel
  refine ⟨?_, hfail, ?_⟩
  · unfold SampleSubgraph
    cases hr : SampleSubgraph.bfs csr seed_arr probability num_hops num_neighbor
        max_num_vertices draws with
    | fail e =>
      simp only [ne_eq, Res.fail.injEq]
      intro h
      have := hfail e hr
      rw [h] at this
      exact absurd this (by decide)
    | ok st =>
      exact emit_not_check_failed csr num_hops _ probability max_num_vertices sampled_ids
        sub_prob sub_layer st (bfs_inv _ _ _ _ _ _ _ st hr)
  · intro st hst
    rw [hb] at hst
    rcases loop_exit _ _ _ _ _ _ _ st hst with h | h
    · exact Or.inl h
    · exact Or.inr (by omega)

/-- Witness of C14 (amended): `chain_graph` from seed `0` with `max_num_vertices = 1`. -/
theorem C14_no_check_rejects_over_capacity_witness :
    SampleSubgraph chain_graph [0] [0, 0] none [0] none 3 1 1 [] ≠ .fail .check_failed ∧
    (∀ e, SampleSubgraph.bfs chain_graph [0] none 3 1 1 [] = .fail e → e = .draws_exhausted) ∧
    (∀ st, SampleSubgraph.bfs chain_graph [0] none 3 1 1 [] = .ok st →
        st.node_queue = [] ∨ (1 : Int) ≤ st.sub_vertices_count) :=
  C14_no_check_rejects_over_capacity chain_graph [0] [0, 0] none [0] none 3 1 1 []
    (by decide) (by decide)

/-! ## Weighted sampling: `Delete` in the arithmetic of `float` and over exact numbers -/

theorem F32_Delete_loop_length (w : Fp) (steps : Nat) (heap : List Fp) (i : Nat) :
    (F32.ArrayHeap.Delete.loop w steps heap i).length = heap.length := by
  induction steps generalizing heap i with
  | zero => rfl
  | succ s ih => simp [F32.ArrayHeap.Delete.loop, ih]

/-- `Delete` keeps the shape of the tree. -/
theorem F32_Delete_shape (f : F32.ArrayHeap) (hf : f.Shape) (i : Nat) : (f.Delete i).Shape := by
  refine ⟨hf.limit_eq, hf.size_le, ?_⟩
  show (F32.ArrayHeap.Delete.loop _ _ f.heap_ _).length = _
  rw [F32_Delete_loop_length]
  exact hf.length_eq

end DGL
